import Mathlib

/-!
# Fibonacci heap (soniakeys/fib): embedding of `fib.go`

The Go program manipulates a cyclic pointer graph.  The embedding keeps one
memory for all nodes, split by field (one map from addresses to field contents
per field of `Node`), and a heap is the pointer it holds (`Heap` is
`struct{ *Node }`).  A nil pointer is `none`; dereferencing it makes the
operation return `none` (the Go panic).  Loops and the recursion of the
cascading cut take an explicit iteration bound, and return `none` when the
bound is exhausted.  The iteration order of Go's `range` over the map of roots
is a parameter `enum` of `DeleteMin`.
-/

namespace Fib

/-- A `*Node`: `none` is nil, `some a` is the node at address `a`. -/
abbrev Ptr := Option Nat

/-- The memory holding every `Node`, one map per field of the Go struct;
`top` is the next address handed out by an allocation. -/
structure Mem (α : Type) where
  value : Nat → α
  parent : Nat → Ptr
  child : Nat → Ptr
  prev : Nat → Ptr
  next : Nat → Ptr
  rank : Nat → Int
  mark : Nat → Bool
  top : Nat

variable {α : Type}

/-- The read `p.f` of a field through a pointer; nil panics. -/
def ld {β : Type} (f : Nat → β) (p : Ptr) : Option β := p.map f

/-- The write `p.value = v`. -/
def stValue (m : Mem α) (p : Ptr) (v : α) : Option (Mem α) :=
  p.map fun x => { m with value := Function.update m.value x v }

/-- The write `p.parent = q`. -/
def stParent (m : Mem α) (p : Ptr) (q : Ptr) : Option (Mem α) :=
  p.map fun x => { m with parent := Function.update m.parent x q }

/-- The write `p.child = q`. -/
def stChild (m : Mem α) (p : Ptr) (q : Ptr) : Option (Mem α) :=
  p.map fun x => { m with child := Function.update m.child x q }

/-- The write `p.prev = q`. -/
def stPrev (m : Mem α) (p : Ptr) (q : Ptr) : Option (Mem α) :=
  p.map fun x => { m with prev := Function.update m.prev x q }

/-- The write `p.next = q`. -/
def stNext (m : Mem α) (p : Ptr) (q : Ptr) : Option (Mem α) :=
  p.map fun x => { m with next := Function.update m.next x q }

/-- The write `p.rank = k`. -/
def stRank (m : Mem α) (p : Ptr) (k : Int) : Option (Mem α) :=
  p.map fun x => { m with rank := Function.update m.rank x k }

/-- The write `p.mark = b`. -/
def stMark (m : Mem α) (p : Ptr) (b : Bool) : Option (Mem α) :=
  p.map fun x => { m with mark := Function.update m.mark x b }

/-- The allocation `&Node{value: v}`: a fresh address whose other fields hold
their zero values. -/
def alloc (m : Mem α) (v : α) : Mem α × Ptr :=
  ({ value := Function.update m.value m.top v
     parent := Function.update m.parent m.top none
     child := Function.update m.child m.top none
     prev := Function.update m.prev m.top none
     next := Function.update m.next m.top none
     rank := Function.update m.rank m.top 0
     mark := Function.update m.mark m.top false
     top := m.top + 1 }, some m.top)

/-- Go `meld1(list, single)`: add a single node to a non-empty list. -/
def meld1 (m : Mem α) (list single : Ptr) : Option (Mem α) := do
  let lp ← ld m.prev list
  let m ← stNext m lp single
  let lp ← ld m.prev list
  let m ← stPrev m single lp
  let m ← stNext m single list
  stPrev m list single

/-- Go `meld2(a, b)`: meld two non-empty node lists. -/
def meld2 (m : Mem α) (a b : Ptr) : Option (Mem α) := do
  let ap ← ld m.prev a
  let m ← stNext m ap b
  let bp ← ld m.prev b
  let m ← stNext m bp a
  let bp ← ld m.prev b
  let ap ← ld m.prev a
  let m ← stPrev m a bp
  stPrev m b ap

section Ops

-- The values are those of the Go interface `Value`: `LT` is any decidable relation.
variable [LT α] [DecidableRel (LT.lt : α → α → Prop)]

/-- Go `Heap.Insert`: returns the memory, the receiver heap and the new node. -/
def Insert (m : Mem α) (h : Ptr) (v : α) : Option (Mem α × Ptr × Ptr) :=
  let (m, x) := alloc m v
  match h with
  | none => do
    let m ← stNext m x x
    let m ← stPrev m x x
    pure (m, x, x)
  | some _ => do
    let m ← meld1 m h x
    let xv ← ld m.value x
    let hv ← ld m.value h
    if xv < hv then pure (m, x, x) else pure (m, h, x)

/-- Go `Heap.Meld`: returns the memory, the receiver heap `h` and the argument
heap `h2` (always left nil). -/
def Meld (m : Mem α) (h h2 : Ptr) : Option (Mem α × Ptr × Ptr) :=
  match h with
  | none => pure (m, h2, none)
  | some _ =>
    match h2 with
    | none => pure (m, h, none)
    | some _ => do
      let m ← meld2 m h h2
      let v2 ← ld m.value h2
      let v ← ld m.value h
      if v2 < v then pure (m, h2, none) else pure (m, h, none)

/-- Go `Heap.Min`: `none` stands for `(nil, false)`, `some v` for `(v, true)`. -/
def Min (m : Mem α) (h : Ptr) : Option α :=
  match h with
  | none => none
  | some a => some (m.value a)

/-- The Go map `roots` of `DeleteMin`, from rank to node. -/
abbrev RootMap := List (Int × Ptr)

/-- The lookup `roots[k]` with its presence flag. -/
def mapGet (t : RootMap) (k : Int) : Option Ptr :=
  (t.find? fun e => decide (e.1 = k)).map fun e => e.2

/-- The statement `delete(roots, k)`. -/
def mapDel (t : RootMap) (k : Int) : RootMap :=
  t.filter fun e => decide (e.1 ≠ k)

/-- The assignment `roots[k] = p`. -/
def mapSet (t : RootMap) (k : Int) (p : Ptr) : RootMap :=
  (k, p) :: mapDel t k

/-- The `for` loop of the closure `add` in `DeleteMin`. -/
def addLoop : Nat → Mem α → RootMap → Ptr → Option (Mem α × RootMap)
  | 0, _, _, _ => none
  | fuel + 1, m, roots, r => do
    let rk ← ld m.rank r
    match mapGet roots rk with
    | none => pure (m, mapSet roots rk r)
    | some x =>
      let roots := mapDel roots rk
      let xv ← ld m.value x
      let rv ← ld m.value r
      let (r, x) := if xv < rv then (x, r) else (r, x)
      let m ← stParent m x r
      let m ← stMark m x false
      let rc ← ld m.child r
      let m ← (match rc with
        | none => do
          let m ← stNext m x x
          let m ← stPrev m x x
          stChild m r x
        | some _ => meld1 m rc x)
      let rk ← ld m.rank r
      let m ← stRank m r (rk + 1)
      addLoop fuel m roots r

/-- The closure `add` of `DeleteMin`. -/
def add (fuel : Nat) (m : Mem α) (roots : RootMap) (r : Ptr) :
    Option (Mem α × RootMap) := do
  let m ← stPrev m r r
  let m ← stNext m r r
  addLoop fuel m roots r

/-- The loop `for r := h.next; r != h.Node; { n := r.next; add(r); r = n }`. -/
def rootLoop (fuel : Nat) (h : Ptr) :
    Nat → Mem α → RootMap → Ptr → Option (Mem α × RootMap)
  | 0, _, _, _ => none
  | k + 1, m, roots, r =>
    if r = h then pure (m, roots) else do
      let n ← ld m.next r
      let (m, roots) ← add fuel m roots r
      rootLoop fuel h k m roots n

/-- The loop `for r != c { n := r.next; r.parent = nil; add(r); r = n }`. -/
def childLoop (fuel : Nat) (c : Ptr) :
    Nat → Mem α → RootMap → Ptr → Option (Mem α × RootMap)
  | 0, _, _, _ => none
  | k + 1, m, roots, r =>
    if r = c then pure (m, roots) else do
      let n ← ld m.next r
      let m ← stParent m r none
      let (m, roots) ← add fuel m roots r
      childLoop fuel c k m roots n

/-- The loop `for _, r := range roots { ... }` that rebuilds the root ring,
over the entries in the order the range produced them. -/
def relink : Mem α → Ptr → List (Int × Ptr) → Option (Mem α × Ptr)
  | m, mv, [] => pure (m, mv)
  | m, mv, (_, r) :: rest => do
    let m ← stPrev m r mv
    let mn ← ld m.next mv
    let m ← stNext m r mn
    let mn ← ld m.next mv
    let m ← stPrev m mn r
    let m ← stNext m mv r
    let rv ← ld m.value r
    let mvv ← ld m.value mv
    relink m (if rv < mvv then r else mv) rest

/-- Go `Heap.DeleteMin`: returns the memory, the receiver heap and the result
(`none` for `(nil, false)`, `some v` for `(v, true)`).  `enum` is the order in
which `range` enumerates a map. -/
def DeleteMin (fuel : Nat) (enum : RootMap → RootMap) (m : Mem α) (h : Ptr) :
    Option (Mem α × Ptr × Option α) :=
  match h with
  | none => pure (m, h, none)
  | some _ => do
    let min ← ld m.value h
    let roots : RootMap := []
    let hn ← ld m.next h
    let (m, roots) ← rootLoop fuel h fuel m roots hn
    let c ← ld m.child h
    let (m, roots) ← (match c with
      | none => pure (m, roots)
      | some _ => do
        let m ← stParent m c none
        let r ← ld m.next c
        let (m, roots) ← add fuel m roots c
        childLoop fuel c fuel m roots r)
    if roots.length = 0 then pure (m, none, some min) else
    match enum roots with
    | [] => none
    | (d, mv) :: _ =>
      let roots := mapDel roots d
      do
        let m ← stNext m mv mv
        let m ← stPrev m mv mv
        let (m, mv) ← relink m mv (enum roots)
        pure (m, mv, some min)

/-- Go `Heap.cut` and `Heap.cutAndMeld` (mutually recursive); `h` is the value
receiver. -/
def cutAux : Nat → Bool → Mem α → Ptr → Ptr → Option (Mem α)
  | 0, _, _, _, _ => none
  | fuel + 1, false, m, h, x => do
    -- cut
    let p ← ld m.parent x
    let pr ← ld m.rank p
    let m ← stRank m p (pr - 1)
    let pr ← ld m.rank p
    let m ← (if pr = 0 then stChild m p none else do
      let xn ← ld m.next x
      let m ← stChild m p xn
      let xp ← ld m.prev x
      let xn ← ld m.next x
      let m ← stNext m xp xn
      let xn ← ld m.next x
      let xp ← ld m.prev x
      stPrev m xn xp)
    let pp ← ld m.parent p
    if pp = none then pure m else do
      let pm ← ld m.mark p
      if !pm then stMark m p true else
        cutAux fuel true m h p
  | fuel + 1, true, m, h, x => do
    -- cutAndMeld
    let m ← cutAux fuel false m h x
    let m ← stParent m x none
    meld1 m h x

/-- Go `Heap.cut`. -/
def cut (fuel : Nat) (m : Mem α) (h x : Ptr) : Option (Mem α) :=
  cutAux fuel false m h x

/-- Go `Heap.cutAndMeld`. -/
def cutAndMeld (fuel : Nat) (m : Mem α) (h x : Ptr) : Option (Mem α) :=
  cutAux fuel true m h x

/-- The Go `error` results of the package. -/
inductive Err where
  | orderViolation : Err
  deriving DecidableEq, Repr

/-- Go `Heap.DecreaseKey`: returns the memory, the receiver heap and the
error (`none` for nil). -/
def DecreaseKey (fuel : Nat) (m : Mem α) (h : Ptr) (n : Ptr) (v : α) :
    Option (Mem α × Ptr × Option Err) := do
  let nv ← ld m.value n
  if nv < v then pure (m, h, some Err.orderViolation) else do
    let m ← stValue m n v
    if n = h then pure (m, h, none) else do
      let p ← ld m.parent n
      if p = none then do
        let hv ← ld m.value h
        if v < hv then pure (m, n, none) else pure (m, h, none)
      else do
        let m ← cutAndMeld fuel m h n
        pure (m, h, none)

/-- The loop of `Delete` clearing the parent of each child:
`for { c.parent = nil; c = c.next; if c == n.child { break } }`. -/
def orphanLoop (n : Ptr) : Nat → Mem α → Ptr → Option (Mem α × Ptr)
  | 0, _, _ => none
  | k + 1, m, c => do
    let m ← stParent m c none
    let c ← ld m.next c
    let nc ← ld m.child n
    if c = nc then pure (m, c) else orphanLoop n k m c

/-- Go `Heap.Delete`: returns the memory and the receiver heap. -/
def Delete (fuel : Nat) (enum : RootMap → RootMap) (m : Mem α) (h : Ptr) (n : Ptr) :
    Option (Mem α × Ptr) := do
  let p ← ld m.parent n
  let r ← (if p = none then
      if n = h then do
        let (m, h, _) ← DeleteMin fuel enum m h
        pure (Sum.inl (m, h))
      else do
        let np ← ld m.prev n
        let nn ← ld m.next n
        let m ← stNext m np nn
        let nn ← ld m.next n
        let np ← ld m.prev n
        let m ← stPrev m nn np
        pure (Sum.inr m)
    else do
      let m ← cut fuel m h n
      pure (Sum.inr m))
  match r with
  | Sum.inl res => pure res
  | Sum.inr m =>
    let c ← ld m.child n
    if c = none then pure (m, h) else do
      let (m, c) ← orphanLoop n fuel m c
      let m ← meld2 m h c
      pure (m, h)

end Ops

/-- Two consecutive members of a sibling ring: `x.next == y` and `y.prev == x`. -/
def Link (m : Mem α) (x y : Nat) : Prop := m.next x = some y ∧ m.prev y = some x

instance (m : Mem α) (x y : Nat) : Decidable (Link m x y) :=
  inferInstanceAs (Decidable (m.next x = some y ∧ m.prev y = some x))

/-- A doubly linked path from `a` through the nodes of `l` to `b`. -/
def Seg (m : Mem α) : Nat → List Nat → Nat → Prop
  | a, [], b => Link m a b
  | a, c :: l, b => Link m a c ∧ Seg m c l b

/-- Deciding a path, link by link. -/
def Seg.decide (m : Mem α) : (a : Nat) → (l : List Nat) → (b : Nat) → Decidable (Seg m a l b)
  | a, [], b => inferInstanceAs (Decidable (Link m a b))
  | a, c :: l, b =>
    match inferInstanceAs (Decidable (Link m a c)), Seg.decide m c l b with
    | isTrue h₁, isTrue h₂ => isTrue ⟨h₁, h₂⟩
    | isFalse h₁, _ => isFalse fun h => h₁ h.1
    | _, isFalse h₂ => isFalse fun h => h₂ h.2

instance (m : Mem α) (a : Nat) (l : List Nat) (b : Nat) : Decidable (Seg m a l b) :=
  Seg.decide m a l b

/-- The nodes of `l`, in this order, form a circular doubly linked ring. -/
def Ring (m : Mem α) : List Nat → Prop
  | [] => True
  | a :: l => Seg m a l a

instance (m : Mem α) (l : List Nat) : Decidable (Ring m l) :=
  match l with
  | [] => isTrue trivial
  | a :: l => inferInstanceAs (Decidable (Seg m a l a))

/-- The last node of the non-empty list `a :: l`. -/
def lastOf (a : Nat) : List Nat → Nat
  | [] => a
  | b :: l => lastOf b l

/-- The forest a heap represents, as seen from outside the memory: the nodes
it holds, its roots in ring order, the children of each node in ring order,
and a height that bounds every node above its children. -/
structure Ghost where
  nodes : List Nat
  roots : List Nat
  kids : Nat → List Nat
  height : Nat → Nat

/-- A pointer into a ring: nil exactly when the ring is empty, and otherwise
a member of the ring. -/
def HeadIn (p : Ptr) (l : List Nat) : Prop :=
  match p with
  | none => l = []
  | some a => a ∈ l

instance (p : Ptr) (l : List Nat) : Decidable (HeadIn p l) :=
  match p with
  | none => inferInstanceAs (Decidable (l = []))
  | some a => inferInstanceAs (Decidable (a ∈ l))

/-- The child structure of the nodes of a forest: each node's `child` points
into the ring of its children, `rank` counts them, and each child's `parent`
points back. -/
structure Trees (m : Mem α) (g : Ghost) : Prop where
  nodup : g.nodes.Nodup
  alloc : ∀ a ∈ g.nodes, a < m.top
  kids_nodup : ∀ a ∈ g.nodes, (g.kids a).Nodup
  kids_ring : ∀ a ∈ g.nodes, Ring m (g.kids a)
  child : ∀ a ∈ g.nodes, HeadIn (m.child a) (g.kids a)
  rank : ∀ a ∈ g.nodes, m.rank a = ((g.kids a).length : Int)
  kids_sub : ∀ a ∈ g.nodes, ∀ c ∈ g.kids a,
    c ∈ g.nodes ∧ m.parent c = some a ∧ g.height c < g.height a

/-- A forest over the nodes of `g` whose tree roots are the nodes of `R`:
roots are nodes that are nobody's child, and every node is a root or a child. -/
structure Forest (m : Mem α) (g : Ghost) (R : List Nat) extends Trees m g : Prop where
  roots_nodup : R.Nodup
  roots_sub : ∀ r ∈ R, r ∈ g.nodes ∧ ∀ q ∈ g.nodes, r ∉ g.kids q
  cover : ∀ x ∈ g.nodes, x ∈ R ∨ ∃ p ∈ g.nodes, x ∈ g.kids p

/-- The shape of a heap `h` while the tree roots in `F` are detached from the
root ring: `g.roots` is the root ring, `h.Node` points into it, and every
member of the ring has a nil parent. -/
structure ShapeF (m : Mem α) (h : Ptr) (g : Ghost) (F : List Nat)
    extends Forest m g (g.roots ++ F) : Prop where
  ring : Ring m g.roots
  head : HeadIn h g.roots
  root_parent : ∀ r ∈ g.roots, m.parent r = none

/-- The shape invariants of a heap: rank is the number of children, sibling
rings are circular and consistent, parent pointers agree with the rings. -/
def Shape (m : Mem α) (h : Ptr) (g : Ghost) : Prop := ShapeF m h g []

/-- Heap order: no child's value is less than its parent's. -/
def Ordered [LT α] (m : Mem α) (g : Ghost) : Prop :=
  ∀ a ∈ g.nodes, ∀ c ∈ g.kids a, ¬ m.value c < m.value a

/-- The tracked node holds a least value among the roots. -/
def MinRoot [LT α] (m : Mem α) (h : Ptr) (g : Ghost) : Prop :=
  ∀ a, h = some a → ∀ r ∈ g.roots, ¬ m.value r < m.value a

/-- A well-formed heap: shape, heap order and the tracked minimum. -/
def WF [LT α] (m : Mem α) (h : Ptr) (g : Ghost) : Prop :=
  Shape m h g ∧ Ordered m g ∧ MinRoot m h g

/-- A bound on the heights of the nodes of a forest. -/
def Ghost.bound (g : Ghost) : Nat := (g.nodes.map g.height).foldr max 0

/-- Node `y` holds the same seven fields in `m'` as in `m`. -/
def Same (m m' : Mem α) (y : Nat) : Prop :=
  m'.value y = m.value y ∧ m'.parent y = m.parent y ∧ m'.child y = m.child y ∧
  m'.prev y = m.prev y ∧ m'.next y = m.next y ∧ m'.rank y = m.rank y ∧
  m'.mark y = m.mark y

/-- The linking of `x` below `r` that `add` performs on two trees of equal
rank (the statements from `x.parent = r` to `r.rank++`). -/
def linkStep (m : Mem α) (r x : Ptr) : Option (Mem α) := do
  let m ← stParent m x r
  let m ← stMark m x false
  let rc ← ld m.child r
  let m ← (match rc with
    | none => do
      let m ← stNext m x x
      let m ← stPrev m x x
      stChild m r x
    | some _ => meld1 m rc x)
  let rk ← ld m.rank r
  stRank m r (rk + 1)

/-- The nodes held in the table of roots. -/
def tnodes (t : List (Int × Ptr)) : List Nat := t.filterMap Prod.snd

/-- The table of roots of `DeleteMin`: every entry is a node filed under its
rank, and no rank occurs twice. -/
structure TableOK (m : Mem α) (t : List (Int × Ptr)) : Prop where
  keys : ∀ e ∈ t, ∃ x, e.2 = some x ∧ m.rank x = e.1
  keys_nodup : (t.map Prod.fst).Nodup

/-- Following `next` from `cur` visits the nodes of the list in order and
then reaches `z`. -/
def NextPath (m : Mem α) : Nat → List Nat → Nat → Prop
  | cur, [], z => cur = z
  | cur, r :: P, z => cur = r ∧ ∃ n, m.next r = some n ∧ NextPath m n P z

/-- The state of the linking step of `DeleteMin`: a forest whose tree roots
are the table's nodes and the nodes `F` still to be added, with the table
consistent and its nodes parentless. -/
structure Cons (m : Mem α) (g : Ghost) (t : List (Int × Ptr)) (F : List Nat) : Prop where
  forest : Forest m g (tnodes t ++ F)
  table : TableOK m t
  parent : ∀ y ∈ tnodes t, m.parent y = none

/-- What the linking phase does to the children of the nodes: ranks only
grow, children are only gained, the children a node had keep their rank and
mark, and every child gained since is unmarked, holds a value not less than
its parent's, and was linked when the parent had the rank of the child: the
ranks of the children gained by a node are pairwise distinct, at least the
former rank of the node and less than its present rank. -/
structure Lnk [LT α] (m : Mem α) (g : Ghost) (m' : Mem α) (g' : Ghost) : Prop where
  rank_le : ∀ p, m.rank p ≤ m'.rank p
  kids_mono : ∀ p, ∀ y ∈ g.kids p, y ∈ g'.kids p
  old : ∀ p ∈ g.nodes, ∀ y ∈ g.kids p, m'.rank y = m.rank y ∧ m'.mark y = m.mark y
  gained : ∀ p ∈ g.nodes, ∀ y ∈ g'.kids p, y ∉ g.kids p →
    m'.mark y = false ∧ ¬ m'.value y < m'.value p ∧ m.rank p ≤ m'.rank y ∧
      m'.rank y < m'.rank p
  inj : ∀ p ∈ g.nodes, ∀ y ∈ g'.kids p, ∀ z ∈ g'.kids p, y ∉ g.kids p → z ∉ g.kids p →
    m'.rank y = m'.rank z → y = z

/-- What a step of the linking phase preserves: the nodes, their values, heap
order, and every field of the nodes outside the forest and of the nodes `F`
still to be added. -/
structure Ext [LT α] (m : Mem α) (g : Ghost) (F : List Nat) (m' : Mem α) (g' : Ghost) :
    Prop where
  nodes : g'.nodes = g.nodes
  value : m'.value = m.value
  top : m'.top = m.top
  ordered : Ordered m g → Ordered m' g'
  same : ∀ y, (y ∉ g.nodes ∨ y ∈ F) → Same m m' y
  lnk : Lnk m g m' g'

/-- The pointer `cp` is the `child` pointer into the ring of children `K`:
nil when there are none, and otherwise the first one, from which `next` runs
through the others and back. -/
def KidsAt (m : Mem α) (cp : Ptr) : List Nat → Prop
  | [] => cp = none
  | c :: cl => cp = some c ∧ ∃ n, m.next c = some n ∧ NextPath m n cl c

section Phases

variable [LT α] [DecidableRel (LT.lt : α → α → Prop)]

/-- The node a heap tracks after `Insert` of `v`: the new node (at address
`m.top`) if the heap was empty or `v` is less than the tracked value. -/
def insertHead (m : Mem α) (h : Ptr) (v : α) : Ptr :=
  match h with
  | none => some m.top
  | some a => if v < m.value a then some m.top else some a

/-- The node the receiver tracks after `Meld`: the tracked node of the other
heap if the receiver was empty or the other tracked value is less. -/
def meldHead (m : Mem α) (h₁ h₂ : Ptr) : Ptr :=
  match h₁, h₂ with
  | none, _ => h₂
  | some a, none => some a
  | some a, some b => if m.value b < m.value a then some b else some a

/-- The part of `DeleteMin` that adds the children of the minimum, `c` being
`h.child`. -/
def childPhase (fuel : Nat) (m : Mem α) (roots : RootMap) (c : Ptr) :
    Option (Mem α × RootMap) :=
  match c with
  | none => pure (m, roots)
  | some _ => do
    let m ← stParent m c none
    let r ← ld m.next c
    let (m, roots) ← add fuel m roots c
    childLoop fuel c fuel m roots r

/-- The part of `DeleteMin` after the linking step: the root ring is rebuilt
from the table and the new minimum is selected. -/
def rebuildPhase (enum : RootMap → RootMap) (m : Mem α) (roots : RootMap) (min : α) :
    Option (Mem α × Ptr × Option α) :=
  if roots.length = 0 then pure (m, none, some min) else
  match enum roots with
  | [] => none
  | (d, mv) :: _ =>
    let roots := mapDel roots d
    do
      let m ← stNext m mv mv
      let m ← stPrev m mv mv
      let (m, mv) ← relink m mv (enum roots)
      pure (m, mv, some min)

end Phases

/-- The first part of `cut`: `x` is taken out of the child ring of its parent
`p` (from `p.rank--` to the repair of the ring). -/
def detach (m : Mem α) (x p : Ptr) : Option (Mem α) := do
  let pr ← ld m.rank p
  let m ← stRank m p (pr - 1)
  let pr ← ld m.rank p
  if pr = 0 then stChild m p none else do
    let xn ← ld m.next x
    let m ← stChild m p xn
    let xp ← ld m.prev x
    let xn ← ld m.next x
    let m ← stNext m xp xn
    let xn ← ld m.next x
    let xp ← ld m.prev x
    stPrev m xn xp

/-- The last part of `cutAndMeld`: `x` becomes a member of the root ring
(`x.parent = nil; meld1(h.Node, x)`). -/
def adopt (m : Mem α) (h x : Ptr) : Option (Mem α) := do
  let m ← stParent m x none
  meld1 m h x

/-- What a cut of `x` (with its cascade) preserves: the nodes, their values,
the children of every node no higher than `x`, the members of the root ring,
and every field of the nodes outside the heap; children are only removed. -/
structure CutRel (m : Mem α) (g : Ghost) (x : Nat) (m' : Mem α) (g' : Ghost) : Prop where
  nodes : g'.nodes = g.nodes
  height : g'.height = g.height
  value : m'.value = m.value
  top : m'.top = m.top
  kids_sub : ∀ q, ∀ c ∈ g'.kids q, c ∈ g.kids q
  kids_low : ∀ y, g.height y ≤ g.height x → g'.kids y = g.kids y
  roots : ∀ r ∈ g.roots, r ∈ g'.roots
  same : ∀ y, y ∉ g.nodes → Same m m' y

/-- The last part of `Delete`: the children of the removed node `n` become
roots (from `c := n.child` to `meld2(h.Node, c)`). -/
def promoteKids (fuel : Nat) (m : Mem α) (h n : Ptr) : Option (Mem α × Ptr) := do
  let c ← ld m.child n
  if c = none then pure (m, h) else do
    let (m, c) ← orphanLoop n fuel m c
    let m ← meld2 m h c
    pure (m, h)

/-- The forest of two disjoint heaps taken together, with root ring `roots`. -/
def Ghost.union (g₁ g₂ : Ghost) (roots : List Nat) : Ghost where
  nodes := g₁.nodes ++ g₂.nodes
  roots := roots
  kids := fun x => if x ∈ g₂.nodes then g₂.kids x else g₁.kids x
  height := fun x => if x ∈ g₂.nodes then g₂.height x else g₁.height x

/-! ## Definitions used to state the claims -/

/-- The values stored in a heap, one for each of its nodes. -/
def Ghost.values (m : Mem α) (g : Ghost) : Multiset α :=
  Multiset.ofList (g.nodes.map m.value)

/-- The forest of an empty heap. -/
def Ghost.empty : Ghost where
  nodes := []
  roots := []
  kids := fun _ => []
  height := fun _ => 0

section ClaimDefs

variable [LT α] [DecidableRel (LT.lt : α → α → Prop)]

/-- Inserting the values of a list one by one, first to last. -/
def insertAll : Mem α → Ptr → List α → Option (Mem α × Ptr)
  | m, h, [] => some (m, h)
  | m, h, v :: vs => (Insert m h v).bind fun r => insertAll r.1 r.2.1 vs

/-- Calling `DeleteMin` `k` times and collecting the results in order; the
call with `j` calls still to come enumerates the table of roots by `enum j`. -/
def drain (fuel : Nat) (enum : Nat → RootMap → RootMap) :
    Nat → Mem α → Ptr → Option (Mem α × Ptr × List (Option α))
  | 0, m, h => some (m, h, [])
  | k + 1, m, h =>
    (DeleteMin fuel (enum k) m h).bind fun r =>
      (drain fuel enum k r.1 r.2.1).bind fun s => some (s.1, s.2.1, r.2.2 :: s.2.2)

end ClaimDefs

/-! ### A concrete memory with two heaps

Heap A tracks node 1 (value 2), whose only child is node 2 (value 3): the
state after inserting 1, 2, 3 and deleting the minimum.  Heap B is the single
node 3 (value 5).  Node 0 is the removed node. -/

/-- The memory of the example. -/
def exMem : Mem Nat where
  value := fun a => if a = 0 then 1 else if a = 1 then 2 else if a = 2 then 3 else 5
  parent := fun a => if a = 2 then some 1 else none
  child := fun a => if a = 1 then some 2 else none
  prev := fun a => some a
  next := fun a => some a
  rank := fun a => if a = 1 then 1 else 0
  mark := fun _ => false
  top := 4

/-- The forest of heap A of the example. -/
def exGhostA : Ghost where
  nodes := [1, 2]
  roots := [1]
  kids := fun a => if a = 1 then [2] else []
  height := fun a => if a = 1 then 1 else 0

/-- The forest of heap B of the example. -/
def exGhostB : Ghost where
  nodes := [3]
  roots := [3]
  kids := fun _ => []
  height := fun _ => 0

/-- A memory in which nothing has been allocated. -/
def emptyMem : Mem Nat where
  value := fun _ => 0
  parent := fun _ => none
  child := fun _ => none
  prev := fun _ => none
  next := fun _ => none
  rank := fun _ => 0
  mark := fun _ => false
  top := 0

/-- Running a heap operation on the state reached so far. -/
def thenDo {β : Type} (s : Option (Mem Nat × Ptr))
    (f : Mem Nat → Ptr → Option (Mem Nat × Ptr × β)) : Option (Mem Nat × Ptr) :=
  s.bind fun p => (f p.1 p.2).map fun r => (r.1, r.2.1)

/-- The heap after `Insert(1)`, `Insert(2)`, `Insert(3)`, `DeleteMin()` on an
empty heap: node 1 (value 2) is the only root and node 2 (value 3) its child. -/
def afterDeleteMin : Option (Mem Nat × Ptr) :=
  thenDo (thenDo (thenDo (thenDo (some (emptyMem, none)) (fun m h => Insert m h 1))
    (fun m h => Insert m h 2)) (fun m h => Insert m h 3)) (fun m h => DeleteMin 5 id m h)

/-- The heap of `afterDeleteMin` after `DecreaseKey(x, 0)` on the node `x`
returned by `Insert(3)` (address 2). -/
def afterDecreaseKey : Option (Mem Nat × Ptr) :=
  thenDo afterDeleteMin (fun m h => DecreaseKey 5 m h (some 2) 0)

/-- The state held by a run that returned. -/
def stateOf (s : Option (Mem Nat × Ptr)) : Mem Nat × Ptr := s.getD (emptyMem, none)

/-- The heap after `Insert(1)` on an empty heap. -/
def afterInsert1 : Option (Mem Nat × Ptr) :=
  thenDo (some (emptyMem, none)) (fun m h => Insert m h 1)

/-- The heap after `Insert(1)`, `Insert(2)`. -/
def afterInsert2 : Option (Mem Nat × Ptr) := thenDo afterInsert1 (fun m h => Insert m h 2)

/-- The heap after `Insert(1)`, `Insert(2)`, `Insert(3)`. -/
def afterInsert3 : Option (Mem Nat × Ptr) := thenDo afterInsert2 (fun m h => Insert m h 3)

/-- The heap variables of the run of `afterDeleteMin`: variable 0 holds the
heap, all others are nil. -/
def reachHeaps : Nat → Ptr :=
  Function.update (Function.update (Function.update (Function.update (fun _ => none) 0
    (stateOf afterInsert1).2) 0 (stateOf afterInsert2).2) 0 (stateOf afterInsert3).2) 0
    (stateOf afterDeleteMin).2

/-- Node `x` belongs to heap `h`: it is reached from `h.Node` by following
`next` and `child` pointers. -/
inductive Member (m : Mem α) : Ptr → Nat → Prop
  | head (a : Nat) : Member m (some a) a
  | next {h : Ptr} {x y : Nat} : Member m h x → m.next x = some y → Member m h y
  | child {h : Ptr} {x c : Nat} : Member m h x → m.child x = some c → Member m h c

/-- The shape invariants at node `x`, field by field: (a) `rank` is the
number of nodes of the child ring, into which `child` points; (b) `x` is
linked consistently with its two ring neighbours; (c) the parent of every
child of `x` is `x`, and the parent of `x` is nil if `x` is a root. -/
def NodeOK (m : Mem α) (g : Ghost) (x : Nat) : Prop :=
  (m.rank x = ((g.kids x).length : Int) ∧ Ring m (g.kids x) ∧ HeadIn (m.child x) (g.kids x)) ∧
  (∃ y z, m.next x = some y ∧ m.prev y = some x ∧ m.prev x = some z ∧ m.next z = some x) ∧
  ((∀ c ∈ g.kids x, m.parent c = some x) ∧ (x ∈ g.roots → m.parent x = none))

section WorldDefs

variable [LT α] [DecidableRel (LT.lt : α → α → Prop)]

/-- The public operations of a heap with their arguments; `meld` names the
pointer held by the heap that is melded into the receiver. -/
inductive Op (α : Type) where
  | insert (v : α) : Op α
  | meld (h₂ : Ptr) : Op α
  | decreaseKey (n : Nat) (v : α) : Op α
  | deleteMin : Op α
  | delete (n : Nat) : Op α

/-- Running a public operation on the heap `h`: the memory and the receiver
afterwards. -/
def runOp (fuel : Nat) (enum : RootMap → RootMap) (m : Mem α) (h : Ptr) :
    Op α → Option (Mem α × Ptr)
  | Op.insert v => (Insert m h v).map fun r => (r.1, r.2.1)
  | Op.meld h₂ => (Meld m h h₂).map fun r => (r.1, r.2.1)
  | Op.decreaseKey n v => (DecreaseKey fuel m h (some n) v).map fun r => (r.1, r.2.1)
  | Op.deleteMin => (DeleteMin fuel enum m h).map fun r => (r.1, r.2.1)
  | Op.delete n => Delete fuel enum m h (some n)

/-- The precondition of a public operation on a heap with forest `g`: a node
argument belongs to the heap, and a melded heap is in shape over other
nodes. -/
def Op.Pre (m : Mem α) (g : Ghost) : Op α → Prop
  | Op.insert _ => True
  | Op.meld h₂ => ∃ g₂, Shape m h₂ g₂ ∧ ∀ x ∈ g.nodes, x ∉ g₂.nodes
  | Op.decreaseKey n _ => n ∈ g.nodes
  | Op.deleteMin => True
  | Op.delete n => n ∈ g.nodes

/-- The states reached from empty heaps by public operations whose
preconditions are met: a memory and the pointers held by the heaps (heap
variables are numbered; all start nil).  A step is a call that returns, that
is, that has a result for some iteration bound. -/
inductive Reach : Mem α → (Nat → Ptr) → Prop
  | init (m : Mem α) : Reach m (fun _ => none)
  | insert {m : Mem α} {hs : Nat → Ptr} (i : Nat) (v : α) {m' : Mem α} {h' x : Ptr} :
      Reach m hs → Insert m (hs i) v = some (m', h', x) →
      Reach m' (Function.update hs i h')
  | meld {m : Mem α} {hs : Nat → Ptr} (i j : Nat) {m' : Mem α} {h' h₂' : Ptr} :
      Reach m hs → i ≠ j → Meld m (hs i) (hs j) = some (m', h', h₂') →
      Reach m' (Function.update (Function.update hs i h') j h₂')
  | decreaseKey {m : Mem α} {hs : Nat → Ptr} (fuel i n : Nat) (v : α) {m' : Mem α}
      {h' : Ptr} {e : Option Err} :
      Reach m hs → Member m (hs i) n →
      DecreaseKey fuel m (hs i) (some n) v = some (m', h', e) →
      Reach m' (Function.update hs i h')
  | deleteMin {m : Mem α} {hs : Nat → Ptr} (fuel i : Nat) (enum : RootMap → RootMap)
      {m' : Mem α} {h' : Ptr} {r : Option α} :
      Reach m hs → (∀ t, (enum t).Perm t) →
      DeleteMin fuel enum m (hs i) = some (m', h', r) →
      Reach m' (Function.update hs i h')
  | delete {m : Mem α} {hs : Nat → Ptr} (fuel i n : Nat) (enum : RootMap → RootMap)
      {m' : Mem α} {h' : Ptr} :
      Reach m hs → Member m (hs i) n → (∀ t, (enum t).Perm t) →
      Delete fuel enum m (hs i) (some n) = some (m', h') →
      Reach m' (Function.update hs i h')

/-- The invariant of the reachable states: the heaps are in shape and in heap
order, over pairwise disjoint sets of nodes. -/
def WorldInv (m : Mem α) (hs : Nat → Ptr) : Prop :=
  ∃ gs : Nat → Ghost, (∀ i, Shape m (hs i) (gs i) ∧ Ordered m (gs i)) ∧
    ∀ i j, i ≠ j → ∀ x ∈ (gs i).nodes, x ∉ (gs j).nodes

end WorldDefs

/-! ### A run that leaves a marked root -/

/-- The heap after `Insert(1)`, ..., `Insert(4)`. -/
def afterInsert4 : Option (Mem Nat × Ptr) := thenDo afterInsert3 (fun m h => Insert m h 4)

/-- The heap after `Insert(1)`, ..., `Insert(5)`. -/
def afterInsert5 : Option (Mem Nat × Ptr) := thenDo afterInsert4 (fun m h => Insert m h 5)

/-- The heap of `afterInsert5` after `DeleteMin()`: node 1 (value 2) is the
only root, its children are node 2 (value 3) and node 3 (value 4), and node 4
(value 5) is the child of node 3. -/
def afterDeleteMin5 : Option (Mem Nat × Ptr) :=
  thenDo afterInsert5 (fun m h => DeleteMin 5 id m h)

/-- The heap of `afterDeleteMin5` after `DecreaseKey(x, 2)` on the node `x` of
`Insert(5)` (address 4): its parent, node 3, is marked. -/
def afterCut1 : Option (Mem Nat × Ptr) :=
  thenDo afterDeleteMin5 (fun m h => DecreaseKey 5 m h (some 4) 2)

/-- The heap of `afterCut1` after `DecreaseKey(y, 2)` on the node `y` of
`Insert(4)` (address 3). -/
def afterCut2 : Option (Mem Nat × Ptr) :=
  thenDo afterCut1 (fun m h => DecreaseKey 5 m h (some 3) 2)

/-- Heap variables of which only variable 0 is in use. -/
def oneHeap (h : Ptr) : Nat → Ptr := fun i => if i = 0 then h else none

/-- Node `x` is in the root ring of heap `h`: it is reached from `h.Node` by
following `next` pointers. -/
inductive InRing (m : Mem α) : Ptr → Nat → Prop
  | head (a : Nat) : InRing m (some a) a
  | next {h : Ptr} {x y : Nat} : InRing m h x → m.next x = some y → InRing m h y

/-- The forest of the heap of `afterInsert5`: five roots without children. -/
def exGhost5 : Ghost where
  nodes := [0, 1, 2, 3, 4]
  roots := [0, 1, 2, 3, 4]
  kids := fun _ => []
  height := fun _ => 0

/-- The cascade above node `x`: `C` is the maximal chain of consecutive
ancestors of `x` (its parent, the parent of its parent, ...) that have a
parent and are marked, and `s` is the first ancestor above the chain, a root
or an unmarked node. -/
inductive Cascade (m : Mem α) : Nat → List Nat → Nat → Prop
  | stop {x p : Nat} : m.parent x = some p → (m.parent p = none ∨ m.mark p = false) →
      Cascade m x [] p
  | step {x p : Nat} {C : List Nat} {s : Nat} : m.parent x = some p → m.parent p ≠ none →
      m.mark p = true → Cascade m p C s → Cascade m x (p :: C) s

/-- The forest of the heap of `afterDeleteMin5`: the root 1 with the children
2 and 3, and 4 the child of 3. -/
def exGhostTree : Ghost where
  nodes := [1, 2, 3, 4]
  roots := [1]
  kids := fun a => if a = 1 then [2, 3] else if a = 3 then [4] else []
  height := fun a => if a = 1 then 2 else if a = 3 then 1 else 0

/-! ### The Fibonacci invariant -/

/-- The nodes of the tree below `x` in a forest, down to depth `f`. -/
def sub (g : Ghost) : Nat → Nat → List Nat
  | 0, x => [x]
  | f + 1, x => x :: (g.kids x).flatMap (sub g f)

/-- The invariant behind the Fibonacci bound, for a ghost number `d y` of every
node (the rank its parent had when `y` was linked below it): of the children
of a node at most `j` have a number below `j`, and a child has lost at most one
child since it was linked, and none if it is unmarked. -/
structure FibInv (m : Mem α) (g : Ghost) (d : Nat → Nat) : Prop where
  count : ∀ x ∈ g.nodes, ∀ j,
    (g.nodes.filter fun y => decide (m.parent y = some x) && decide (d y < j)).length ≤ j
  low : ∀ y ∈ g.nodes, m.parent y ≠ none →
    (d y : Int) ≤ m.rank y + (if m.mark y = true then 1 else 0)

/-- The invariant of the reachable states with the numbers `d`: every heap
is in shape and has the invariant behind the Fibonacci bound, over pairwise
disjoint sets of nodes. -/
def FibWorld (m : Mem α) (hs : Nat → Ptr) (gs : Nat → Ghost) (d : Nat → Nat) : Prop :=
  (∀ i, Shape m (hs i) (gs i) ∧ FibInv m (gs i) d) ∧
    ∀ i j, i ≠ j → ∀ x ∈ (gs i).nodes, x ∉ (gs j).nodes

/-! ### Values that are compared by a key -/

/-- An item with a key and a payload: a Go `Value` whose `LT` compares the
keys, so that two distinct items with the same key are tied. -/
structure Item where
  key : Nat
  tag : Nat
  deriving DecidableEq, Repr

instance : LT Item := ⟨fun a b => a.key < b.key⟩

instance : DecidableRel (LT.lt : Item → Item → Prop) := fun a b => Nat.decLt a.key b.key

/-- A memory of items in which nothing has been allocated. -/
def emptyItems : Mem Item where
  value := fun _ => ⟨0, 0⟩
  parent := fun _ => none
  child := fun _ => none
  prev := fun _ => none
  next := fun _ => none
  rank := fun _ => 0
  mark := fun _ => false
  top := 0

/-- The heap after `Insert` of the items (0, 0), (7, 1), (7, 2), (7, 3), in
this order, on an empty heap: four roots, the first of which is tracked. -/
def itemHeap : Mem Item × Ptr :=
  (insertAll emptyItems none [⟨0, 0⟩, ⟨7, 1⟩, ⟨7, 2⟩, ⟨7, 3⟩]).getD (emptyItems, none)

/-- The heap after `Insert(0)`, `Insert(7)`, `Insert(7)`, `Insert(7)` on an
empty heap. -/
def afterInsert0777 : Option (Mem Nat × Ptr) := insertAll emptyMem none [0, 7, 7, 7]

/-- The forest of a heap of four roots without children. -/
def exGhost4 : Ghost where
  nodes := [0, 1, 2, 3]
  roots := [0, 1, 2, 3]
  kids := fun _ => []
  height := fun _ => 0
/-! ## The cost of the operations

The cost of a call is the number of loop iterations and of calls of `cut` and
`cutAndMeld` it makes, plus one for the call itself.  Each cost function
follows the recursion of the function it measures. -/

section Cost

variable [LT α] [DecidableRel (LT.lt : α → α → Prop)]

/-- The iterations of the `for` loop of `add` (the body of an iteration that
links is `linkStep`). -/
def addLoopT : Nat → Mem α → RootMap → Ptr → Option Nat
  | 0, _, _, _ => none
  | fuel + 1, m, roots, r => do
    let rk ← ld m.rank r
    match mapGet roots rk with
    | none => pure 1
    | some x =>
      let xv ← ld m.value x
      let rv ← ld m.value r
      let m ← linkStep m (if xv < rv then x else r) (if xv < rv then r else x)
      let c ← addLoopT fuel m (mapDel roots rk) (if xv < rv then x else r)
      pure (c + 1)

/-- The cost of a call of the closure `add`. -/
def addT (fuel : Nat) (m : Mem α) (roots : RootMap) (r : Ptr) : Option Nat := do
  let m ← stPrev m r r
  let m ← stNext m r r
  addLoopT fuel m roots r

/-- The cost of the loop over the roots: one for each iteration and the cost
of its `add`. -/
def rootLoopT (fuel : Nat) (h : Ptr) : Nat → Mem α → RootMap → Ptr → Option Nat
  | 0, _, _, _ => none
  | k + 1, m, roots, r =>
    if r = h then pure 0 else do
      let n ← ld m.next r
      let c ← addT fuel m roots r
      let (m, roots) ← add fuel m roots r
      let c' ← rootLoopT fuel h k m roots n
      pure (c + c' + 1)

/-- The cost of the loop over the children of the minimum. -/
def childLoopT (fuel : Nat) (c : Ptr) : Nat → Mem α → RootMap → Ptr → Option Nat
  | 0, _, _, _ => none
  | k + 1, m, roots, r =>
    if r = c then pure 0 else do
      let n ← ld m.next r
      let m ← stParent m r none
      let a ← addT fuel m roots r
      let (m, roots) ← add fuel m roots r
      let a' ← childLoopT fuel c k m roots n
      pure (a + a' + 1)

/-- The cost of adding the children of the minimum. -/
def childPhaseT (fuel : Nat) (m : Mem α) (roots : RootMap) (c : Ptr) : Option Nat :=
  match c with
  | none => pure 0
  | some _ => do
    let m ← stParent m c none
    let r ← ld m.next c
    let a ← addT fuel m roots c
    let (m, roots) ← add fuel m roots c
    let a' ← childLoopT fuel c fuel m roots r
    pure (a + a' + 1)

/-- The cost of `DeleteMin`: the two loops of the linking step and one step
for each entry of the table the root ring is rebuilt from. -/
def DeleteMinT (fuel : Nat) (m : Mem α) (h : Ptr) : Option Nat :=
  match h with
  | none => pure 1
  | some _ => do
    let hn ← ld m.next h
    let c₁ ← rootLoopT fuel h fuel m [] hn
    let (m, roots) ← rootLoop fuel h fuel m [] hn
    let c ← ld m.child h
    let c₂ ← childPhaseT fuel m roots c
    let (_, roots) ← childPhase fuel m roots c
    pure (1 + c₁ + c₂ + roots.length)

/-- The number of calls of `cut` and `cutAndMeld` (`detach` is the part of
`cut` before the test of the parent). -/
def cutAuxT : Nat → Bool → Mem α → Ptr → Ptr → Option Nat
  | 0, _, _, _, _ => none
  | fuel + 1, false, m, h, x => do
    let p ← ld m.parent x
    let m ← detach m x p
    let pp ← ld m.parent p
    if pp = none then pure 1 else do
      let pm ← ld m.mark p
      if !pm then pure 1 else do
        let c ← cutAuxT fuel true m h p
        pure (c + 1)
  | fuel + 1, true, m, h, x => do
    let c ← cutAuxT fuel false m h x
    pure (c + 1)

/-- The cost of `DecreaseKey`. -/
def DecreaseKeyT (fuel : Nat) (m : Mem α) (h : Ptr) (n : Ptr) (v : α) : Option Nat := do
  let nv ← ld m.value n
  if nv < v then pure 1 else do
    let m ← stValue m n v
    if n = h then pure 1 else do
      let p ← ld m.parent n
      if p = none then pure 1 else do
        let c ← cutAuxT fuel true m h n
        pure (c + 1)

/-- The iterations of the loop of `Delete` over the children. -/
def orphanLoopT (n : Ptr) : Nat → Mem α → Ptr → Option Nat
  | 0, _, _ => none
  | k + 1, m, c => do
    let m ← stParent m c none
    let c ← ld m.next c
    let nc ← ld m.child n
    if c = nc then pure 1 else do
      let a ← orphanLoopT n k m c
      pure (a + 1)

/-- The cost of the last part of `Delete`. -/
def promoteKidsT (fuel : Nat) (m : Mem α) (n : Ptr) : Option Nat := do
  let c ← ld m.child n
  if c = none then pure 0 else orphanLoopT n fuel m c

/-- The cost of `Delete`. -/
def DeleteT (fuel : Nat) (m : Mem α) (h : Ptr) (n : Ptr) : Option Nat := do
  let p ← ld m.parent n
  if p = none then
    if n = h then do
      let c ← DeleteMinT fuel m h
      pure (c + 1)
    else do
      let np ← ld m.prev n
      let nn ← ld m.next n
      let m ← stNext m np nn
      let nn ← ld m.next n
      let np ← ld m.prev n
      let m ← stPrev m nn np
      let c ← promoteKidsT fuel m n
      pure (c + 1)
  else do
    let a ← cutAuxT fuel false m h n
    let m ← cut fuel m h n
    let c ← promoteKidsT fuel m n
    pure (a + c + 1)

/-- The cost of a public operation (`Insert` and `Meld` make no loop). -/
def costOp (fuel : Nat) (m : Mem α) (h : Ptr) : Op α → Option Nat
  | Op.insert _ => some 1
  | Op.meld _ => some 1
  | Op.decreaseKey n v => DecreaseKeyT fuel m h (some n) v
  | Op.deleteMin => DeleteMinT fuel m h
  | Op.delete n => DeleteT fuel m h (some n)

end Cost

/-- The weight of a node in the potential: three for a root, five for a
marked node with a parent. -/
def weight (m : Mem α) (y : Nat) : Nat :=
  if m.parent y = none then 3 else if m.mark y = true then 5 else 0

/-- The potential of a heap: three for each root and five for each marked
node with a parent. -/
def potential (m : Mem α) (g : Ghost) : Nat := (g.nodes.map (weight m)).sum

section RunDefs

variable [LT α] [DecidableRel (LT.lt : α → α → Prop)]

/-- The runs of public operations from empty heaps with their cost: in
`Run m hs c b` the state `(m, hs)` is reached as in `Reach` (and by calls of
`Min`, which change nothing), `c` is the sum of the costs of the calls, and
`b` is the sum of the bounds for the calls: 4 for `Insert`, 1 for `Min` and
`Meld`, 11 for `DecreaseKey`, and `12 * log₂ n + 7` for `DeleteMin` and
`12 * log₂ n + 11` for `Delete` on a heap that stores `n` nodes (the nodes of
the list `L`). -/
inductive Run : Mem α → (Nat → Ptr) → Nat → Nat → Prop
  | init (m : Mem α) : Run m (fun _ => none) 0 0
  | insert {m : Mem α} {hs : Nat → Ptr} {c b : Nat} (i : Nat) (v : α) {m' : Mem α}
      {h' x : Ptr} :
      Run m hs c b → Insert m (hs i) v = some (m', h', x) →
      Run m' (Function.update hs i h') (c + 1) (b + 4)
  | min {m : Mem α} {hs : Nat → Ptr} {c b : Nat} :
      Run m hs c b → Run m hs (c + 1) (b + 1)
  | meld {m : Mem α} {hs : Nat → Ptr} {c b : Nat} (i j : Nat) {m' : Mem α} {h' h₂' : Ptr} :
      Run m hs c b → i ≠ j → Meld m (hs i) (hs j) = some (m', h', h₂') →
      Run m' (Function.update (Function.update hs i h') j h₂') (c + 1) (b + 1)
  | decreaseKey {m : Mem α} {hs : Nat → Ptr} {c b : Nat} (fuel i n : Nat) (v : α)
      {m' : Mem α} {h' : Ptr} {e : Option Err} {k : Nat} :
      Run m hs c b → Member m (hs i) n →
      DecreaseKey fuel m (hs i) (some n) v = some (m', h', e) →
      DecreaseKeyT fuel m (hs i) (some n) v = some k →
      Run m' (Function.update hs i h') (c + k) (b + 11)
  | deleteMin {m : Mem α} {hs : Nat → Ptr} {c b : Nat} (fuel i : Nat)
      (enum : RootMap → RootMap) (L : List Nat) {m' : Mem α} {h' : Ptr} {r : Option α}
      {k : Nat} :
      Run m hs c b → (∀ t, (enum t).Perm t) →
      DeleteMin fuel enum m (hs i) = some (m', h', r) →
      DeleteMinT fuel m (hs i) = some k →
      L.Nodup → (∀ y, y ∈ L ↔ Member m (hs i) y) →
      Run m' (Function.update hs i h') (c + k) (b + (12 * Nat.log 2 L.length + 7))
  | delete {m : Mem α} {hs : Nat → Ptr} {c b : Nat} (fuel i n : Nat)
      (enum : RootMap → RootMap) (L : List Nat) {m' : Mem α} {h' : Ptr} {k : Nat} :
      Run m hs c b → Member m (hs i) n → (∀ t, (enum t).Perm t) →
      Delete fuel enum m (hs i) (some n) = some (m', h') →
      DeleteT fuel m (hs i) (some n) = some k →
      L.Nodup → (∀ y, y ∈ L ↔ Member m (hs i) y) →
      Run m' (Function.update hs i h') (c + k) (b + (12 * Nat.log 2 L.length + 11))

end RunDefs

/-- The weights over a list of nodes. -/
def weights (m : Mem α) (L : List Nat) : Nat := (L.map (weight m)).sum

/-! ## Sibling rings -/

theorem lastOf_mem (a : Nat) (l : List Nat) : lastOf a l ∈ a :: l := by
  induction l generalizing a with
  | nil => simp [lastOf]
  | cons b l ih =>
    have := ih b
    simp only [lastOf]
    exact List.mem_cons_of_mem _ this

theorem lastOf_concat (a : Nat) (l : List Nat) (t : Nat) : lastOf a (l ++ [t]) = t := by
  induction l generalizing a with
  | nil => simp [lastOf]
  | cons b l ih => simpa [lastOf] using ih b

theorem seg_nil {m : Mem α} {a b : Nat} : Seg m a [] b ↔ Link m a b := Iff.rfl

theorem seg_cons {m : Mem α} {a c b : Nat} {l : List Nat} :
    Seg m a (c :: l) b ↔ Link m a c ∧ Seg m c l b := Iff.rfl

theorem seg_append {m : Mem α} {a c b : Nat} {l₁ l₂ : List Nat} :
    Seg m a (l₁ ++ c :: l₂) b ↔ Seg m a l₁ c ∧ Seg m c l₂ b := by
  induction l₁ generalizing a with
  | nil => exact seg_cons
  | cons d l₁ ih =>
    rw [List.cons_append, seg_cons, seg_cons, ih, and_assoc]

theorem seg_concat {m : Mem α} {a c b : Nat} {l : List Nat} :
    Seg m a (l ++ [c]) b ↔ Seg m a l c ∧ Link m c b := by
  rw [seg_append, seg_nil]

theorem seg_last {m : Mem α} {a b : Nat} {l : List Nat} (h : Seg m a l b) :
    Link m (lastOf a l) b := by
  induction l generalizing a with
  | nil => simpa [lastOf, seg_nil] using h
  | cons c l ih => exact ih (seg_cons.1 h).2

theorem seg_congr {m m' : Mem α} {a b : Nat} {l : List Nat}
    (hn : ∀ x ∈ a :: l, m'.next x = m.next x) (hp : ∀ y ∈ l ++ [b], m'.prev y = m.prev y)
    (h : Seg m a l b) : Seg m' a l b := by
  induction l generalizing a with
  | nil =>
    rw [seg_nil] at h ⊢
    exact ⟨by rw [hn a (by simp)]; exact h.1, by rw [hp b (by simp)]; exact h.2⟩
  | cons c l ih =>
    rw [seg_cons] at h ⊢
    refine ⟨⟨by rw [hn a (by simp)]; exact h.1.1, by rw [hp c (by simp)]; exact h.1.2⟩, ?_⟩
    exact ih (fun x hx => hn x (List.mem_cons_of_mem _ hx))
      (fun y hy => hp y (by simp at hy ⊢; tauto)) h.2

/-- Redirecting the end of a path: the last node of `a :: l` gets `c` as its
successor. -/
theorem seg_retarget {m m' : Mem α} {a b c : Nat} {l : List Nat}
    (hnd : (a :: l).Nodup) (h : Seg m a l b)
    (hn : ∀ x ∈ a :: l, x ≠ lastOf a l → m'.next x = m.next x)
    (hp : ∀ y ∈ l, m'.prev y = m.prev y)
    (h1 : m'.next (lastOf a l) = some c) (h2 : m'.prev c = some (lastOf a l)) :
    Seg m' a l c := by
  induction l generalizing a with
  | nil => exact seg_nil.2 ⟨h1, h2⟩
  | cons d l ih =>
    rw [seg_cons] at h ⊢
    have hnd' : (d :: l).Nodup := (List.nodup_cons.1 hnd).2
    have hal : a ≠ lastOf d l := by
      intro e
      exact (List.nodup_cons.1 hnd).1 (e ▸ lastOf_mem d l)
    refine ⟨⟨?_, ?_⟩, ?_⟩
    · rw [hn a (by simp) hal]; exact h.1.1
    · rw [hp d (by simp)]; exact h.1.2
    · exact ih hnd' h.2 (fun x hx hne => hn x (List.mem_cons_of_mem _ hx) hne)
        (fun y hy => hp y (List.mem_cons_of_mem _ hy)) h1 h2

theorem ring_single {m : Mem α} {a : Nat} : Ring m [a] ↔ Link m a a := by
  simp [Ring, seg_nil]

theorem ring_rotate1 {m : Mem α} {a : Nat} {l : List Nat} (h : Ring m (a :: l)) :
    Ring m (l ++ [a]) := by
  cases l with
  | nil => exact h
  | cons b l =>
    have h' := seg_cons.1 h
    show Seg m b (l ++ [a]) b
    exact seg_concat.2 ⟨h'.2, h'.1⟩

theorem ring_rotate {m : Mem α} (l₁ l₂ : List Nat) (h : Ring m (l₁ ++ l₂)) :
    Ring m (l₂ ++ l₁) := by
  induction l₁ generalizing l₂ with
  | nil => simpa using h
  | cons a l ih =>
    have := ih (l₂ ++ [a]) (by simpa using ring_rotate1 h)
    simpa using this

theorem ring_congr {m m' : Mem α} {l : List Nat}
    (hn : ∀ x ∈ l, m'.next x = m.next x) (hp : ∀ x ∈ l, m'.prev x = m.prev x)
    (h : Ring m l) : Ring m' l := by
  cases l with
  | nil => trivial
  | cons a l =>
    exact seg_congr hn (fun y hy => hp y (by simp at hy ⊢; tauto)) h

/-- A ring only reads the `next` and `prev` fields. -/
theorem Ring.same {m m' : Mem α} {l : List Nat} (h : Ring m l)
    (hn : m'.next = m.next) (hp : m'.prev = m.prev) : Ring m' l :=
  ring_congr (fun x _ => by rw [hn]) (fun x _ => by rw [hp]) h

/-- Bringing a member of a ring to the front of the list describing it. -/
theorem ring_front {m : Mem α} {l : List Nat} {x : Nat} (h : Ring m l) (hx : x ∈ l) :
    ∃ l', (x :: l').Perm l ∧ Ring m (x :: l') := by
  obtain ⟨s, t, rfl⟩ := List.append_of_mem hx
  refine ⟨t ++ s, ?_, ?_⟩
  · have : (x :: t ++ s).Perm (s ++ x :: t) := List.perm_append_comm
    simpa using this
  · have := ring_rotate s (x :: t) h
    simpa using this

theorem ring_head {m : Mem α} {a : Nat} {l : List Nat} (h : Ring m (a :: l)) :
    m.next (lastOf a l) = some a ∧ m.prev a = some (lastOf a l) :=
  seg_last h

theorem meld1_eq {m : Mem α} {l s t : Nat} (h : m.prev l = some t) :
    meld1 m (some l) (some s) = some { m with
      next := Function.update (Function.update m.next t (some s)) s (some l)
      prev := Function.update (Function.update m.prev s (some t)) l (some s) } := by
  simp [meld1, ld, stNext, stPrev, h, bind, Option.bind]

theorem ring_meld1 {m : Mem α} {a s : Nat} {l : List Nat} (h : Ring m (a :: l))
    (hnd : (a :: l).Nodup) (hs : s ∉ a :: l) :
    Ring ({ m with
      next := Function.update (Function.update m.next (lastOf a l) (some s)) s (some a)
      prev := Function.update (Function.update m.prev s (some (lastOf a l))) a (some s) } : Mem α)
      (a :: (l ++ [s])) := by
  have hl := lastOf_mem a l
  have hsa : s ≠ a := fun e => hs (e ▸ List.mem_cons_self _ _)
  have hst : s ≠ lastOf a l := fun e => hs (e ▸ hl)
  show Seg _ a (l ++ [s]) a
  rw [seg_concat]
  refine ⟨seg_retarget hnd h ?_ ?_ ?_ ?_, ?_, ?_⟩
  · intro x hx hne
    have : x ≠ s := fun e => hs (e ▸ hx)
    simp [Function.update_apply, this, hne]
  · intro y hy
    have h1 : y ≠ s := fun e => hs (e ▸ List.mem_cons_of_mem _ hy)
    have h2 : y ≠ a := fun e => (List.nodup_cons.1 hnd).1 (e ▸ hy)
    simp [Function.update_apply, h1, h2]
  · simp [Function.update_apply, Ne.symm hst]
  · simp [Function.update_apply, hsa]
  · simp [Function.update_apply]
  · simp [Function.update_apply]

/-! ## Forests: frame and basic facts -/

theorem headIn_none {l : List Nat} : HeadIn none l ↔ l = [] := Iff.rfl

theorem headIn_some {a : Nat} {l : List Nat} : HeadIn (some a) l ↔ a ∈ l := Iff.rfl

/-- The child structure only reads `child` and `rank` of the nodes and
`parent`, `next`, `prev` of the children. -/
theorem Trees.frame {m m' : Mem α} {g : Ghost} (h : Trees m g)
    (htop : m.top ≤ m'.top)
    (hchild : ∀ a ∈ g.nodes, m'.child a = m.child a)
    (hrank : ∀ a ∈ g.nodes, m'.rank a = m.rank a)
    (hkid : ∀ a ∈ g.nodes, ∀ c ∈ g.kids a,
      m'.parent c = m.parent c ∧ m'.next c = m.next c ∧ m'.prev c = m.prev c) :
    Trees m' g where
  nodup := h.nodup
  alloc := fun a ha => lt_of_lt_of_le (h.alloc a ha) htop
  kids_nodup := h.kids_nodup
  kids_ring := fun a ha =>
    ring_congr (fun x hx => (hkid a ha x hx).2.1) (fun x hx => (hkid a ha x hx).2.2)
      (h.kids_ring a ha)
  child := fun a ha => by rw [hchild a ha]; exact h.child a ha
  rank := fun a ha => by rw [hrank a ha]; exact h.rank a ha
  kids_sub := fun a ha c hc => by
    obtain ⟨h1, h2, h3⟩ := h.kids_sub a ha c hc
    exact ⟨h1, by rw [(hkid a ha c hc).1]; exact h2, h3⟩

/-- A node is a child of at most one node. -/
theorem Trees.kids_unique {m : Mem α} {g : Ghost} (h : Trees m g) {a b c : Nat}
    (ha : a ∈ g.nodes) (hb : b ∈ g.nodes) (hca : c ∈ g.kids a) (hcb : c ∈ g.kids b) :
    a = b := by
  have h1 := (h.kids_sub a ha c hca).2.1
  have h2 := (h.kids_sub b hb c hcb).2.1
  rw [h1] at h2
  exact Option.some.inj h2

theorem foldr_max_le (f : Nat → Nat) (l : List Nat) (x : Nat) (hx : x ∈ l) :
    f x ≤ (l.map f).foldr max 0 := by
  induction l with
  | nil => simp at hx
  | cons a l ih =>
    simp only [List.map_cons, List.foldr_cons]
    rcases List.mem_cons.1 hx with rfl | h
    · exact le_max_left _ _
    · exact le_trans (ih h) (le_max_right _ _)

theorem Ghost.height_le_bound (g : Ghost) {x : Nat} (hx : x ∈ g.nodes) :
    g.height x ≤ g.bound :=
  foldr_max_le g.height g.nodes x hx

/-- Every node lies below a tree root. -/
theorem Forest.exists_root {m : Mem α} {g : Ghost} {R : List Nat} (h : Forest m g R)
    (P : Nat → Prop) (hP : ∀ a ∈ g.nodes, ∀ c ∈ g.kids a, P a → P c)
    (hr : ∀ r ∈ R, P r) : ∀ x ∈ g.nodes, P x := by
  have key : ∀ n x, x ∈ g.nodes → g.bound - g.height x ≤ n → P x := by
    intro n
    induction n with
    | zero =>
      intro x hx hb
      rcases h.cover x hx with hroot | ⟨p, hp, hxp⟩
      · exact hr x hroot
      · have h1 := (h.kids_sub p hp x hxp).2.2
        have h2 := g.height_le_bound hp
        have h3 := g.height_le_bound hx
        omega
    | succ n ih =>
      intro x hx hb
      rcases h.cover x hx with hroot | ⟨p, hp, hxp⟩
      · exact hr x hroot
      · have h1 := (h.kids_sub p hp x hxp).2.2
        have h2 := g.height_le_bound hp
        exact hP p hp x hxp (ih p hp (by omega))
  exact fun x hx => key _ x hx le_rfl

/-- A forest without tree roots has no nodes. -/
theorem Forest.nodes_nil {m : Mem α} {g : Ghost} {R : List Nat} (h : Forest m g R)
    (hr : R = []) : g.nodes = [] := by
  have := h.exists_root (fun _ => False) (fun _ _ _ _ hf => hf) (by simp [hr])
  exact List.eq_nil_iff_forall_not_mem.2 this

theorem Shape.nodes_nil_shape {m : Mem α} {g : Ghost} (h : Shape m none g) : g.nodes = [] := by
  have hr : g.roots = [] := h.head
  exact h.toForest.nodes_nil (by simp [hr])

section Order

variable [LinearOrder α]

/-- With heap order, a lower bound of the roots' values bounds every value. -/
theorem Forest.min_all {m : Mem α} {g : Ghost} {R : List Nat} (h : Forest m g R)
    (ho : Ordered m g) (v : α) (hv : ∀ r ∈ R, ¬ m.value r < v) :
    ∀ x ∈ g.nodes, ¬ m.value x < v := by
  refine h.exists_root (fun x => ¬ m.value x < v) ?_ hv
  intro a ha c hc hPa hlt
  have := ho a ha c hc
  exact hPa (lt_of_le_of_lt (not_lt.1 this) hlt)

/-- In a well-formed heap the tracked node holds a least value of the whole
heap. -/
theorem WF.min_all_wf {m : Mem α} {g : Ghost} {a : Nat} (h : WF m (some a) g) :
    ∀ x ∈ g.nodes, ¬ m.value x < m.value a := by
  obtain ⟨hs, ho, hm⟩ := h
  exact hs.toForest.min_all ho _ (by simpa using hm a rfl)

end Order

/-! ## Insert -/

theorem Same.rfl' (m : Mem α) (y : Nat) : Same m m y := ⟨rfl, rfl, rfl, rfl, rfl, rfl, rfl⟩

/-- Adding a fresh childless node to the nodes of a forest. -/
theorem Trees.cons_leaf {m : Mem α} {g : Ghost} (h : Trees m g) {x : Nat}
    (hx : x ∉ g.nodes) (htop : x < m.top) (hc : m.child x = none) (hr : m.rank x = 0) :
    Trees m { g with nodes := x :: g.nodes, kids := Function.update g.kids x [] } := by
  have hk : ∀ a ∈ g.nodes, Function.update g.kids x [] a = g.kids a := by
    intro a ha
    have : a ≠ x := fun e => hx (e ▸ ha)
    simp [Function.update_apply, this]
  refine ⟨List.nodup_cons.2 ⟨hx, h.nodup⟩, ?_, ?_, ?_, ?_, ?_, ?_⟩
  all_goals
    intro a ha
    rcases List.mem_cons.1 ha with rfl | ha'
  · exact htop
  · exact h.alloc a ha'
  · simp
  · simp only [hk a ha']; exact h.kids_nodup a ha'
  · simp [Ring]
  · simp only [hk a ha']; exact h.kids_ring a ha'
  · simp [hc, HeadIn]
  · simp only [hk a ha']; exact h.child a ha'
  · simp [hr]
  · simp only [hk a ha']; exact h.rank a ha'
  · simp
  · simp only [hk a ha']
    intro c hc'
    obtain ⟨h1, h2, h3⟩ := h.kids_sub a ha' c hc'
    exact ⟨List.mem_cons_of_mem _ h1, h2, h3⟩

/-- The child structure does not depend on the list of roots. -/
theorem Trees.roots_irrel {m : Mem α} {g : Ghost} (h : Trees m g) (r : List Nat) :
    Trees m { g with roots := r } :=
  ⟨h.nodup, h.alloc, h.kids_nodup, h.kids_ring, h.child, h.rank, h.kids_sub⟩

theorem Shape.fresh {m : Mem α} {h : Ptr} {g : Ghost} (hs : Shape m h g) :
    m.top ∉ g.nodes := fun hx => lt_irrefl _ (hs.alloc _ hx)

theorem Forest.kid_ne_root {m : Mem α} {g : Ghost} {R : List Nat} (hf : Forest m g R)
    {a c r : Nat} (ha : a ∈ g.nodes) (hc : c ∈ g.kids a) (hr : r ∈ R) : c ≠ r := by
  rintro rfl
  exact (hf.roots_sub c hr).2 a ha hc

section InsertSpec

variable [LinearOrder α]

theorem insert_spec (m : Mem α) (h : Ptr) (g : Ghost) (v : α) (hs : Shape m h g) :
    ∃ m' h' g', Insert m h v = some (m', h', some m.top) ∧ Shape m' h' g' ∧
      g'.nodes = m.top :: g.nodes ∧ g'.roots.Perm (m.top :: g.roots) ∧
      g'.kids = Function.update g.kids m.top [] ∧ g'.height = g.height ∧
      m'.top = m.top + 1 ∧
      m'.value = Function.update m.value m.top v ∧
      m'.parent = Function.update m.parent m.top none ∧
      m'.child = Function.update m.child m.top none ∧
      m'.rank = Function.update m.rank m.top 0 ∧
      m'.mark = Function.update m.mark m.top false ∧
      (∀ y, y ∉ g.roots → y ≠ m.top → m'.prev y = m.prev y ∧ m'.next y = m.next y) ∧
      h' = insertHead m h v := by
  have hfresh := hs.fresh
  have hkfresh : ∀ a ∈ g.nodes, ∀ c ∈ g.kids a, c ≠ m.top := by
    intro a ha c hc e
    exact hfresh (e ▸ (hs.kids_sub a ha c hc).1)
  cases h with
  | none =>
    have hr : g.roots = [] := hs.head
    let m' : Mem α :=
      { value := Function.update m.value m.top v
        parent := Function.update m.parent m.top none
        child := Function.update m.child m.top none
        prev := Function.update m.prev m.top (some m.top)
        next := Function.update m.next m.top (some m.top)
        rank := Function.update m.rank m.top 0
        mark := Function.update m.mark m.top false
        top := m.top + 1 }
    have he : Insert m none v = some (m', some m.top, some m.top) := by
      simp [Insert, alloc, stNext, stPrev, bind, Option.bind, m']
    have ht : Trees m' g := by
      refine hs.toTrees.frame (Nat.le_succ _) ?_ ?_ ?_
      · intro a ha
        have : a ≠ m.top := fun e => hfresh (e ▸ ha)
        simp [m', Function.update_apply, this]
      · intro a ha
        have : a ≠ m.top := fun e => hfresh (e ▸ ha)
        simp [m', Function.update_apply, this]
      · intro a ha c hc
        have := hkfresh a ha c hc
        simp [m', Function.update_apply, this]
    have ht' := (ht.cons_leaf hfresh (by simp [m']) (by simp [m']) (by simp [m'])).roots_irrel
      [m.top]
    refine ⟨m', some m.top,
      { nodes := m.top :: g.nodes, roots := [m.top],
        kids := Function.update g.kids m.top [], height := g.height }, he, ?_, rfl, by simp [hr],
      rfl, rfl, rfl, rfl, rfl, rfl, rfl, rfl, ?_, rfl⟩
    · refine ⟨⟨ht', by simp, ?_, ?_⟩, ?_, ?_, ?_⟩
      · intro r hr'
        simp at hr'
        subst hr'
        refine ⟨by simp, ?_⟩
        intro q hq
        simp only [List.mem_cons] at hq
        rcases hq with rfl | hq
        · simp
        · have : q ≠ m.top := fun e => hfresh (e ▸ hq)
          simp only [Function.update_apply, this, if_false]
          intro hc
          exact hkfresh q hq _ hc rfl
      · intro x hx
        simp only [List.mem_cons] at hx
        rcases hx with rfl | hx
        · left; simp
        · rcases hs.cover x hx with h1 | ⟨p, hp, hxp⟩
          · simp [hr] at h1
          · right
            refine ⟨p, List.mem_cons_of_mem _ hp, ?_⟩
            have : p ≠ m.top := fun e => hfresh (e ▸ hp)
            simpa [Function.update_apply, this] using hxp
      · simp [ring_single, Link, m']
      · simp [HeadIn]
      · intro r hr'
        simp at hr'
        subst hr'
        simp [m']
    · intro y _ hy
      simp [m', Function.update_apply, hy]
  | some a =>
    have ha : a ∈ g.roots := hs.head
    obtain ⟨l, hperm, hring⟩ := ring_front hs.ring ha
    have hnd : (a :: l).Nodup := by
      have := hs.roots_nodup
      simp only [List.append_nil] at this
      exact hperm.nodup_iff.2 this
    have hmem : ∀ y, y ∈ a :: l ↔ y ∈ g.roots := fun y => hperm.mem_iff
    have hsub : ∀ y ∈ a :: l, y ∈ g.nodes := fun y hy =>
      (hs.roots_sub y (by simpa using (hmem y).1 hy)).1
    have hxl : m.top ∉ a :: l := fun hx => hfresh (hsub _ hx)
    have hat : a ≠ m.top := fun e => hxl (e ▸ List.mem_cons_self _ _)
    have hlm := lastOf_mem a l
    have htt : lastOf a l ≠ m.top := fun e => hxl (e ▸ hlm)
    obtain ⟨hnext, hprev⟩ := ring_head hring
    let m1 : Mem α := (alloc m v).1
    have hring1 : Ring m1 (a :: l) := by
      refine ring_congr ?_ ?_ hring
      · intro y hy
        have : y ≠ m.top := fun e => hxl (e ▸ hy)
        simp [m1, alloc, Function.update_apply, this]
      · intro y hy
        have : y ≠ m.top := fun e => hxl (e ▸ hy)
        simp [m1, alloc, Function.update_apply, this]
    have hprev1 : m1.prev a = some (lastOf a l) := by
      simp [m1, alloc, Function.update_apply, hat, hprev]
    let m' : Mem α := { m1 with
      next := Function.update (Function.update m1.next (lastOf a l) (some m.top)) m.top (some a)
      prev := Function.update (Function.update m1.prev m.top (some (lastOf a l))) a (some m.top) }
    have hring' : Ring m' (a :: (l ++ [m.top])) := ring_meld1 hring1 hnd hxl
    have he : Insert m (some a) v =
        some (m', (if v < m.value a then some m.top else some a), some m.top) := by
      have h1 : Insert m (some a) v = (meld1 m1 (some a) (some m.top)).bind fun m2 =>
          if m2.value m.top < m2.value a then some (m2, some m.top, some m.top)
          else some (m2, some a, some m.top) := by
        simp [Insert, alloc, ld, bind, Option.bind, m1]
      rw [h1, meld1_eq hprev1]
      simp only [Option.bind]
      have hv1 : m1.value m.top = v := by simp [m1, alloc]
      have hv2 : m1.value a = m.value a := by simp [m1, alloc, Function.update_apply, hat]
      simp only [hv1, hv2]
      split <;> rfl
    have hroot_not_kid : ∀ q ∈ g.nodes, ∀ c ∈ g.kids q, c ∉ a :: l := by
      intro q hq c hc hcl
      exact (hs.roots_sub c (by simpa using (hmem c).1 hcl)).2 q hq hc
    have ht : Trees m' g := by
      refine hs.toTrees.frame (Nat.le_succ _) ?_ ?_ ?_
      · intro x hx
        have : x ≠ m.top := fun e => hfresh (e ▸ hx)
        simp [m', m1, alloc, Function.update_apply, this]
      · intro x hx
        have : x ≠ m.top := fun e => hfresh (e ▸ hx)
        simp [m', m1, alloc, Function.update_apply, this]
      · intro q hq c hc
        have h1 := hkfresh q hq c hc
        have h2 := hroot_not_kid q hq c hc
        have h3 : c ≠ a := fun e => h2 (e ▸ List.mem_cons_self _ _)
        have h4 : c ≠ lastOf a l := fun e => h2 (e ▸ hlm)
        simp [m', m1, alloc, Function.update_apply, h1, h3, h4]
    have ht' := (ht.cons_leaf hfresh (by simp [m', m1, alloc]) (by simp [m', m1, alloc])
      (by simp [m', m1, alloc])).roots_irrel (a :: (l ++ [m.top]))
    refine ⟨m', _,
      { nodes := m.top :: g.nodes, roots := a :: (l ++ [m.top]),
        kids := Function.update g.kids m.top [], height := g.height }, he, ?_, rfl, ?_,
      rfl, rfl, rfl, by simp [m', m1, alloc], by simp [m', m1, alloc], by simp [m', m1, alloc],
      by simp [m', m1, alloc], by simp [m', m1, alloc], ?_, rfl⟩
    · refine ⟨⟨ht', ?_, ?_, ?_⟩, hring', ?_, ?_⟩
      · simp only [List.append_nil]
        have : (a :: (l ++ [m.top])).Perm (m.top :: a :: l) := by
          have := (List.perm_append_comm : ((a :: l) ++ [m.top]).Perm ([m.top] ++ (a :: l)))
          simpa using this
        exact this.nodup_iff.2 (List.nodup_cons.2 ⟨hxl, hnd⟩)
      · intro r hr'
        simp only [List.append_nil, List.mem_cons, List.mem_append, List.mem_singleton] at hr'
        have hr'' : r = m.top ∨ r ∈ a :: l := by
          simp only [List.mem_cons, List.not_mem_nil, or_false] at hr' ⊢
          tauto
        constructor
        · rcases hr'' with rfl | h1
          · simp
          · exact List.mem_cons_of_mem _ (hsub r h1)
        · intro q hq
          simp only [List.mem_cons] at hq
          rcases hq with rfl | hq
          · simp
          · have hqt : q ≠ m.top := fun e => hfresh (e ▸ hq)
            simp only [Function.update_apply, hqt, if_false]
            intro hc
            rcases hr'' with rfl | h1
            · exact hkfresh q hq _ hc rfl
            · exact hroot_not_kid q hq r hc h1
      · intro x hx
        simp only [List.mem_cons] at hx
        rcases hx with rfl | hx
        · left; simp
        · rcases hs.cover x hx with h1 | ⟨p, hp, hxp⟩
          · left
            simp only [List.append_nil] at h1
            have := (hmem x).2 h1
            simp only [List.mem_cons] at this
            simp only [List.append_nil, List.mem_cons, List.mem_append, List.mem_singleton]
            tauto
          · right
            refine ⟨p, List.mem_cons_of_mem _ hp, ?_⟩
            have : p ≠ m.top := fun e => hfresh (e ▸ hp)
            simpa [Function.update_apply, this] using hxp
      · split <;> simp [HeadIn]
      · intro r hr'
        simp only [List.mem_cons, List.mem_append, List.mem_singleton] at hr'
        by_cases hrt : r = m.top
        · subst hrt; simp [m', m1, alloc]
        · have : r ∈ g.roots := (hmem r).1 (by simp only [List.mem_cons]; tauto)
          simp [m', m1, alloc, Function.update_apply, hrt, hs.root_parent r this]
    · have : (a :: (l ++ [m.top])).Perm (m.top :: a :: l) := by
        have := (List.perm_append_comm : ((a :: l) ++ [m.top]).Perm ([m.top] ++ (a :: l)))
        simpa using this
      exact this.trans (hperm.cons _)
    · intro y hy hyt
      have h3 : y ≠ a := fun e => hy (e ▸ ha)
      have h4 : y ≠ lastOf a l := fun e => hy (e ▸ (hmem _).1 hlm)
      simp [m', m1, alloc, Function.update_apply, hyt, h3, h4]

end InsertSpec

/-! ## Linking two trees -/

theorem linkStep_none {m : Mem α} {r x : Nat} (hc : m.child r = none) :
    linkStep m (some r) (some x) = some { m with
      parent := Function.update m.parent x (some r)
      mark := Function.update m.mark x false
      next := Function.update m.next x (some x)
      prev := Function.update m.prev x (some x)
      child := Function.update m.child r (some x)
      rank := Function.update m.rank r (m.rank r + 1) } := by
  simp [linkStep, ld, stParent, stMark, stNext, stPrev, stChild, stRank, hc, bind, Option.bind]

theorem linkStep_some {m : Mem α} {r x c t : Nat} (hc : m.child r = some c)
    (hp : m.prev c = some t) :
    linkStep m (some r) (some x) = some { m with
      parent := Function.update m.parent x (some r)
      mark := Function.update m.mark x false
      next := Function.update (Function.update m.next t (some x)) x (some c)
      prev := Function.update (Function.update m.prev x (some t)) c (some x)
      rank := Function.update m.rank r (m.rank r + 1) } := by
  have hm := meld1_eq (m := ({ m with
      parent := Function.update m.parent x (some r)
      mark := Function.update m.mark x false } : Mem α)) (l := c) (s := x) (t := t) hp
  simp only [linkStep, ld, stParent, stMark, stRank, hc, bind, Option.bind, Option.map, hm]

/-- The child structure after `x` has been linked below `r`. -/
theorem Trees.link {m m' : Mem α} {g : Ghost} (ht : Trees m g) {r x : Nat} {K : List Nat}
    (hr : r ∈ g.nodes) (hx : x ∈ g.nodes) (hne : x ≠ r)
    (hxk : ∀ q ∈ g.nodes, x ∉ g.kids q) (hrk : ∀ q ∈ g.nodes, r ∉ g.kids q)
    (hK : K.Perm (g.kids r)) (htop : m.top ≤ m'.top)
    (hring : Ring m' (K ++ [x])) (hhead : HeadIn (m'.child r) (K ++ [x]))
    (hrank : m'.rank r = m.rank r + 1) (hrank' : ∀ y, y ≠ r → m'.rank y = m.rank y)
    (hchild : ∀ y, y ≠ r → m'.child y = m.child y)
    (hpar : m'.parent x = some r) (hpar' : ∀ y, y ≠ x → m'.parent y = m.parent y)
    (hnp : ∀ y, y ≠ x → y ∉ g.kids r → m'.next y = m.next y ∧ m'.prev y = m.prev y) :
    Trees m' { g with
      kids := Function.update g.kids r (K ++ [x])
      height := Function.update g.height r (max (g.height r) (g.height x + 1)) } := by
  have hkne : ∀ a ∈ g.nodes, a ≠ r → Function.update g.kids r (K ++ [x]) a = g.kids a := by
    intro a _ har
    simp [Function.update_apply, har]
  have hheight : ∀ c, c ≠ r →
      Function.update g.height r (max (g.height r) (g.height x + 1)) c = g.height c := by
    intro c hc
    simp [Function.update_apply, hc]
  refine ⟨ht.nodup, fun a ha => lt_of_lt_of_le (ht.alloc a ha) htop, ?_, ?_, ?_, ?_, ?_⟩
  all_goals
    intro a ha
    by_cases har : a = r
  · subst har
    simp only [Function.update_same]
    refine List.Nodup.append (hK.nodup_iff.2 (ht.kids_nodup a ha)) (List.nodup_singleton x) ?_
    simp only [List.disjoint_singleton]
    exact fun hxK => hxk a ha (hK.mem_iff.1 hxK)
  · simp only [hkne a ha har]; exact ht.kids_nodup a ha
  · subst har
    simpa only [Function.update_same] using hring
  · simp only [hkne a ha har]
    refine ring_congr ?_ ?_ (ht.kids_ring a ha)
    all_goals
      intro y hy
      have h1 : y ≠ x := fun e => hxk a ha (e ▸ hy)
      have h2 : y ∉ g.kids r := fun hyr => har (ht.kids_unique ha hr hy hyr)
      first
        | exact (hnp y h1 h2).1
        | exact (hnp y h1 h2).2
  · subst har
    simpa only [Function.update_same] using hhead
  · simp only [hkne a ha har, hchild a har]; exact ht.child a ha
  · subst har
    simp only [Function.update_same, hrank, ht.rank a ha, List.length_append,
      List.length_singleton, hK.length_eq]
    push_cast
    ring
  · simp only [hkne a ha har, hrank' a har]; exact ht.rank a ha
  · subst har
    simp only [Function.update_same]
    intro c hc
    rcases List.mem_append.1 hc with hcK | hcx
    · have hck := hK.mem_iff.1 hcK
      obtain ⟨h1, h2, h3⟩ := ht.kids_sub a ha c hck
      have hca : c ≠ a := fun e => hrk a ha (e ▸ hck)
      have hcx : c ≠ x := fun e => hxk a ha (e ▸ hck)
      refine ⟨h1, by rw [hpar' c hcx]; exact h2, ?_⟩
      rw [hheight c hca]
      exact lt_of_lt_of_le h3 (le_max_left _ _)
    · simp only [List.mem_singleton] at hcx
      subst hcx
      refine ⟨hx, hpar, ?_⟩
      rw [hheight c hne]
      exact lt_of_lt_of_le (Nat.lt_succ_self _) (le_max_right _ _)
  · simp only [hkne a ha har]
    intro c hc
    obtain ⟨h1, h2, h3⟩ := ht.kids_sub a ha c hc
    have hcx : c ≠ x := fun e => hxk a ha (e ▸ hc)
    have hcr : c ≠ r := fun e => hrk a ha (e ▸ hc)
    refine ⟨h1, by rw [hpar' c hcx]; exact h2, ?_⟩
    rw [hheight c hcr, hheight a har]
    exact h3


/-- Linking `x` below `r` succeeds on two distinct tree roots and yields the
child structure in which `x` is the last child of `r`. -/
theorem link_spec {m : Mem α} {g : Ghost} (ht : Trees m g) {r x : Nat}
    (hr : r ∈ g.nodes) (hx : x ∈ g.nodes) (hne : x ≠ r)
    (hxk : ∀ q ∈ g.nodes, x ∉ g.kids q) (hrk : ∀ q ∈ g.nodes, r ∉ g.kids q) :
    ∃ m' K, linkStep m (some r) (some x) = some m' ∧ K.Perm (g.kids r) ∧
      Trees m' { g with
        kids := Function.update g.kids r (K ++ [x])
        height := Function.update g.height r (max (g.height r) (g.height x + 1)) } ∧
      m'.value = m.value ∧ m'.top = m.top ∧
      m'.parent = Function.update m.parent x (some r) ∧
      m'.mark = Function.update m.mark x false ∧
      m'.rank = Function.update m.rank r (m.rank r + 1) ∧
      (∀ y, y ≠ r → m'.child y = m.child y) ∧
      (∀ y, y ≠ x → y ∉ g.kids r → m'.next y = m.next y ∧ m'.prev y = m.prev y) := by
  have hrx : r ≠ x := fun e => hne e.symm
  cases hc : m.child r with
  | none =>
    have hk : g.kids r = [] := by
      have := ht.child r hr
      rwa [hc] at this
    refine ⟨_, [], linkStep_none hc, by rw [hk], ?_, rfl, rfl, rfl, rfl, rfl, ?_, ?_⟩
    · refine ht.link hr hx hne hxk hrk (by rw [hk]) le_rfl ?_ ?_ ?_ ?_ ?_ ?_ ?_ ?_
      · simp [ring_single, Link]
      · simp [HeadIn]
      · simp
      · intro y hy; simp [Function.update_apply, hy]
      · intro y hy; simp [Function.update_apply, hy]
      · simp
      · intro y hy; simp [Function.update_apply, hy]
      · intro y hy _; simp [Function.update_apply, hy]
    · intro y hy; simp [Function.update_apply, hy]
    · intro y hy _; simp [Function.update_apply, hy]
  | some c =>
    have hck : c ∈ g.kids r := by
      have := ht.child r hr
      rwa [hc] at this
    obtain ⟨l, hperm, hring⟩ := ring_front (ht.kids_ring r hr) hck
    have hnd : (c :: l).Nodup := hperm.nodup_iff.2 (ht.kids_nodup r hr)
    have hxl : x ∉ c :: l := fun h => hxk r hr (hperm.mem_iff.1 h)
    obtain ⟨-, hprev⟩ := ring_head hring
    have hlm : lastOf c l ∈ g.kids r := hperm.mem_iff.1 (lastOf_mem c l)
    refine ⟨_, c :: l, linkStep_some hc hprev, hperm, ?_, rfl, rfl, rfl, rfl, rfl, ?_, ?_⟩
    · refine ht.link hr hx hne hxk hrk hperm le_rfl ?_ ?_ ?_ ?_ ?_ ?_ ?_ ?_
      · exact (ring_meld1 hring hnd hxl).same rfl rfl
      · simp [hc, HeadIn]
      · simp
      · intro y hy; simp [Function.update_apply, hy]
      · intro y _; rfl
      · simp
      · intro y hy; simp [Function.update_apply, hy]
      · intro y hy hyk
        have h1 : y ≠ c := fun e => hyk (e ▸ hck)
        have h2 : y ≠ lastOf c l := fun e => hyk (e ▸ hlm)
        simp [Function.update_apply, hy, h1, h2]
    · intro y _; rfl
    · intro y hy hyk
      have h1 : y ≠ c := fun e => hyk (e ▸ hck)
      have h2 : y ≠ lastOf c l := fun e => hyk (e ▸ hlm)
      simp [Function.update_apply, hy, h1, h2]

/-! ## The table of roots -/

theorem mapGet_some {t : RootMap} {k : Int} {p : Ptr} (h : mapGet t k = some p) :
    (k, p) ∈ t := by
  unfold mapGet at h
  rcases hf : t.find? (fun e => decide (e.1 = k)) with _ | e
  · simp [hf] at h
  · simp [hf] at h
    have h1 := List.find?_some hf
    have h2 := List.mem_of_find?_eq_some hf
    simp at h1
    rcases e with ⟨k', p'⟩
    simp at h h1
    subst h h1
    exact h2

theorem mapGet_none {t : RootMap} {k : Int} (h : mapGet t k = none) :
    ∀ e ∈ t, e.1 ≠ k := by
  unfold mapGet at h
  simp at h
  intro e he
  exact h e.1 e.2 he

theorem mem_mapDel {t : RootMap} {k : Int} {e : Int × Ptr} :
    e ∈ mapDel t k ↔ e ∈ t ∧ e.1 ≠ k := by
  simp [mapDel]

theorem mapDel_of_none {t : RootMap} {k : Int} (h : ∀ e ∈ t, e.1 ≠ k) : mapDel t k = t := by
  unfold mapDel
  rw [List.filter_eq_self]
  intro e he
  simpa using h e he

theorem perm_mapDel {t : RootMap} {k : Int} {p : Ptr} (hnd : (t.map Prod.fst).Nodup)
    (h : (k, p) ∈ t) : t.Perm ((k, p) :: mapDel t k) := by
  induction t with
  | nil => simp at h
  | cons e t ih =>
    simp only [List.map_cons, List.nodup_cons] at hnd
    rcases List.mem_cons.1 h with rfl | h'
    · have : mapDel ((k, p) :: t) k = t := by
        have h0 : mapDel ((k, p) :: t) k = mapDel t k := by
          simp [mapDel, List.filter_cons]
        rw [h0]
        apply mapDel_of_none
        intro e he hek
        exact hnd.1 (List.mem_map.2 ⟨e, he, hek⟩)
      rw [this]
    · have hne : e.1 ≠ k := by
        intro hek
        exact hnd.1 (List.mem_map.2 ⟨(k, p), h', hek.symm⟩)
      have : mapDel (e :: t) k = e :: mapDel t k := by
        simp [mapDel, List.filter_cons, hne]
      rw [this]
      exact ((ih hnd.2 h').cons e).trans (List.Perm.swap _ _ _)

theorem tnodes_cons_some (k : Int) (x : Nat) (t : List (Int × Ptr)) :
    tnodes ((k, some x) :: t) = x :: tnodes t := by
  simp [tnodes]

theorem mem_tnodes {t : List (Int × Ptr)} {x : Nat} :
    x ∈ tnodes t ↔ ∃ k, (k, some x) ∈ t := by
  simp [tnodes]

theorem tnodes_perm {t t' : List (Int × Ptr)} (h : t.Perm t') : (tnodes t).Perm (tnodes t') :=
  h.filterMap _

theorem TableOK.length_tnodes {m : Mem α} {t : List (Int × Ptr)} (h : TableOK m t) :
    (tnodes t).length = t.length := by
  have hk := h.keys
  clear h
  induction t with
  | nil => rfl
  | cons e t ih =>
    obtain ⟨x, hx, -⟩ := hk e (List.mem_cons_self _ _)
    rcases e with ⟨k, p⟩
    simp only at hx
    subst hx
    rw [tnodes_cons_some, List.length_cons, List.length_cons,
      ih (fun e he => hk e (List.mem_cons_of_mem _ he))]

theorem TableOK.nil (m : Mem α) : TableOK m [] := ⟨by simp, by simp⟩

theorem TableOK.mapDel {m : Mem α} {t : RootMap} (h : TableOK m t) (k : Int) :
    TableOK m (mapDel t k) :=
  ⟨fun e he => h.keys e (mem_mapDel.1 he).1,
    (List.filter_sublist _).map Prod.fst |>.nodup h.keys_nodup⟩

theorem TableOK.frame_table {m m' : Mem α} {t : List (Int × Ptr)} (h : TableOK m t)
    (hr : ∀ y ∈ tnodes t, m'.rank y = m.rank y) : TableOK m' t := by
  refine ⟨fun e he => ?_, h.keys_nodup⟩
  obtain ⟨x, hx, hk⟩ := h.keys e he
  refine ⟨x, hx, ?_⟩
  rw [hr x (mem_tnodes.2 ⟨e.1, by rw [← hx]; exact he⟩)]
  exact hk

theorem TableOK.perm_table {m : Mem α} {t t' : List (Int × Ptr)} (h : TableOK m t)
    (hp : t'.Perm t) : TableOK m t' :=
  ⟨fun e he => h.keys e (hp.mem_iff.1 he), (hp.map Prod.fst).nodup_iff.2 h.keys_nodup⟩

/-- The nodes of a table of roots have pairwise distinct ranks. -/
theorem TableOK.rank_inj {m : Mem α} {t : List (Int × Ptr)} (h : TableOK m t) :
    ∀ x ∈ tnodes t, ∀ y ∈ tnodes t, m.rank x = m.rank y → x = y := by
  intro x hx y hy hxy
  obtain ⟨k, hk⟩ := mem_tnodes.1 hx
  obtain ⟨l, hl⟩ := mem_tnodes.1 hy
  obtain ⟨x', hx', hkx⟩ := h.keys _ hk
  obtain ⟨y', hy', hly⟩ := h.keys _ hl
  simp only [Option.some.injEq] at hx' hy'
  subst hx' hy'
  simp only at hkx hly
  have hkl : k = l := by rw [← hkx, ← hly, hxy]
  subst hkl
  have := List.inj_on_of_nodup_map h.keys_nodup hk hl rfl
  simpa using this


/-! ## The closure `add` -/

theorem Same.trans {m m₁ m₂ : Mem α} {y : Nat} (h₁ : Same m m₁ y) (h₂ : Same m₁ m₂ y) :
    Same m m₂ y := by
  obtain ⟨a1, a2, a3, a4, a5, a6, a7⟩ := h₁
  obtain ⟨b1, b2, b3, b4, b5, b6, b7⟩ := h₂
  exact ⟨b1.trans a1, b2.trans a2, b3.trans a3, b4.trans a4, b5.trans a5, b6.trans a6,
    b7.trans a7⟩

theorem Forest.perm {m : Mem α} {g : Ghost} {R R' : List Nat} (h : Forest m g R)
    (hp : R'.Perm R) : Forest m g R' :=
  ⟨h.toTrees, hp.nodup_iff.2 h.roots_nodup, fun r hr => h.roots_sub r (hp.mem_iff.1 hr),
    fun x hx => (h.cover x hx).imp (fun h1 => hp.mem_iff.2 h1) id⟩

/-- The forest after the tree root `x` has been linked below the tree root
`r`: `x` is no longer a root. -/
theorem Forest.link_forest {m m' : Mem α} {g : Ghost} {R R₁ K : List Nat} {r x : Nat}
    (h : Forest m g R) (hp : R.Perm (x :: R₁)) (hr : r ∈ R₁) (hK : K.Perm (g.kids r))
    (ht : Trees m' { g with
      kids := Function.update g.kids r (K ++ [x])
      height := Function.update g.height r (max (g.height r) (g.height x + 1)) }) :
    Forest m' { g with
      kids := Function.update g.kids r (K ++ [x])
      height := Function.update g.height r (max (g.height r) (g.height x + 1)) } R₁ := by
  have hnd : (x :: R₁).Nodup := hp.nodup_iff.1 h.roots_nodup
  have hxR : x ∈ R := hp.mem_iff.2 (List.mem_cons_self _ _)
  have hsub : ∀ y ∈ R₁, y ∈ R := fun y hy => hp.mem_iff.2 (List.mem_cons_of_mem _ hy)
  have hrn : r ∈ g.nodes := (h.roots_sub r (hsub r hr)).1
  refine ⟨ht, (List.nodup_cons.1 hnd).2, ?_, ?_⟩
  · intro y hy
    refine ⟨(h.roots_sub y (hsub y hy)).1, ?_⟩
    intro q hq
    show y ∉ Function.update g.kids r (K ++ [x]) q
    by_cases hqr : q = r
    · subst hqr
      simp only [Function.update_same, List.mem_append, List.mem_singleton, not_or]
      refine ⟨fun hyK => (h.roots_sub y (hsub y hy)).2 q hq (hK.mem_iff.1 hyK), ?_⟩
      rintro rfl
      exact (List.nodup_cons.1 hnd).1 hy
    · simp only [Function.update_apply, hqr, if_false]
      exact (h.roots_sub y (hsub y hy)).2 q hq
  · intro z hz
    have hz' : z ∈ g.nodes := hz
    rcases h.cover z hz' with h1 | ⟨p, hp1, hzp⟩
    · rcases List.mem_cons.1 (hp.mem_iff.1 h1) with rfl | h2
      · right
        refine ⟨r, hrn, ?_⟩
        show z ∈ Function.update g.kids r (K ++ [z]) r
        simp
      · left; exact h2
    · right
      refine ⟨p, hp1, ?_⟩
      show z ∈ Function.update g.kids r (K ++ [x]) p
      by_cases hpr : p = r
      · subst hpr
        simp only [Function.update_same, List.mem_append]
        left; exact hK.mem_iff.2 hzp
      · simpa only [Function.update_apply, hpr, if_false] using hzp

section AddSpec

variable [LinearOrder α]

/-- A step that writes no rank and no mark and links nothing. -/
theorem Lnk.of_frame {m m' : Mem α} {g : Ghost} (hr : m'.rank = m.rank)
    (hm : m'.mark = m.mark) : Lnk m g m' g :=
  ⟨fun p => by rw [hr], fun _ _ h => h, fun _ _ y _ => by rw [hr, hm]; exact ⟨rfl, rfl⟩,
    fun _ _ _ h hn => absurd h hn, fun _ _ _ h _ _ hn => absurd h hn⟩

theorem Lnk.trans_lnk {m m₁ m₂ : Mem α} {g g₁ g₂ : Ghost} (h₁ : Lnk m g m₁ g₁)
    (h₂ : Lnk m₁ g₁ m₂ g₂) (hn : g₁.nodes = g.nodes) (hv : m₂.value = m₁.value) :
    Lnk m g m₂ g₂ := by
  refine ⟨fun p => le_trans (h₁.rank_le p) (h₂.rank_le p),
    fun p y hy => h₂.kids_mono p y (h₁.kids_mono p y hy), ?_, ?_, ?_⟩
  · intro p hp y hy
    obtain ⟨e1, e2⟩ := h₁.old p hp y hy
    obtain ⟨f1, f2⟩ := h₂.old p (hn ▸ hp) y (h₁.kids_mono p y hy)
    exact ⟨f1.trans e1, f2.trans e2⟩
  · intro p hp y hy hyg
    by_cases hy₁ : y ∈ g₁.kids p
    · obtain ⟨a1, a2, a3, a4⟩ := h₁.gained p hp y hy₁ hyg
      obtain ⟨f1, f2⟩ := h₂.old p (hn ▸ hp) y hy₁
      refine ⟨f2.trans a1, by rw [hv]; exact a2, by rw [f1]; exact a3, ?_⟩
      rw [f1]
      exact lt_of_lt_of_le a4 (h₂.rank_le p)
    · obtain ⟨a1, a2, a3, a4⟩ := h₂.gained p (hn ▸ hp) y hy hy₁
      exact ⟨a1, a2, le_trans (h₁.rank_le p) a3, a4⟩
  · intro p hp y hy z hz hyg hzg hyz
    by_cases hy₁ : y ∈ g₁.kids p
    · obtain ⟨-, -, -, a4⟩ := h₁.gained p hp y hy₁ hyg
      obtain ⟨f1, -⟩ := h₂.old p (hn ▸ hp) y hy₁
      by_cases hz₁ : z ∈ g₁.kids p
      · obtain ⟨k1, -⟩ := h₂.old p (hn ▸ hp) z hz₁
        exact h₁.inj p hp y hy₁ z hz₁ hyg hzg (by rw [← f1, ← k1]; exact hyz)
      · obtain ⟨-, -, b3, -⟩ := h₂.gained p (hn ▸ hp) z hz hz₁
        rw [f1] at hyz
        rw [hyz] at a4
        exact absurd (lt_of_lt_of_le a4 b3) (lt_irrefl _)
    · obtain ⟨-, -, b3, -⟩ := h₂.gained p (hn ▸ hp) y hy hy₁
      by_cases hz₁ : z ∈ g₁.kids p
      · obtain ⟨-, -, -, a4⟩ := h₁.gained p hp z hz₁ hzg
        obtain ⟨k1, -⟩ := h₂.old p (hn ▸ hp) z hz₁
        rw [k1] at hyz
        rw [← hyz] at a4
        exact absurd (lt_of_lt_of_le a4 b3) (lt_irrefl _)
      · exact h₂.inj p (hn ▸ hp) y hy z hz hy₁ hz₁ hyz

theorem Ext.refl (m : Mem α) (g : Ghost) (F : List Nat) : Ext m g F m g :=
  ⟨rfl, rfl, rfl, id, fun _ _ => ⟨rfl, rfl, rfl, rfl, rfl, rfl, rfl⟩, Lnk.of_frame rfl rfl⟩

theorem Ext.trans_ext {m m₁ m₂ : Mem α} {g g₁ g₂ : Ghost} {F F₁ : List Nat}
    (h₁ : Ext m g F m₁ g₁) (h₂ : Ext m₁ g₁ F₁ m₂ g₂) (hF : ∀ y ∈ F₁, y ∈ F) :
    Ext m g F₁ m₂ g₂ := by
  refine ⟨h₂.nodes.trans h₁.nodes, h₂.value.trans h₁.value, h₂.top.trans h₁.top,
    fun ho => h₂.ordered (h₁.ordered ho), ?_, h₁.lnk.trans_lnk h₂.lnk h₁.nodes h₂.value⟩
  intro y hy
  refine (h₁.same y (hy.imp id (hF y))).trans (h₂.same y ?_)
  rw [h₁.nodes]
  exact hy

theorem addLoop_none {m : Mem α} {t : RootMap} {r : Nat} (fuel : Nat)
    (h : mapGet t (m.rank r) = none) :
    addLoop (fuel + 1) m t (some r) = some (m, mapSet t (m.rank r) (some r)) := by
  simp [addLoop, ld, h, bind, Option.bind]

theorem addLoop_some {m : Mem α} {t : RootMap} {r x : Nat} (fuel : Nat)
    (h : mapGet t (m.rank r) = some (some x)) :
    addLoop (fuel + 1) m t (some r) =
      (linkStep m (some (if m.value x < m.value r then x else r))
        (some (if m.value x < m.value r then r else x))).bind fun m' =>
        addLoop fuel m' (mapDel t (m.rank r)) (some (if m.value x < m.value r then x else r)) := by
  by_cases hlt : m.value x < m.value r
  · simp [addLoop, ld, h, hlt, linkStep, stParent, stMark, stRank, Option.bind_assoc]
  · simp [addLoop, ld, h, hlt, linkStep, stParent, stMark, stRank, Option.bind_assoc]


/-- One linking step of `add`: the tree root `x` goes below the tree root `r`,
whose value is not greater. -/
theorem add_link_step {m : Mem α} {g : Ghost} {t₁ : List (Int × Ptr)} {F : List Nat}
    {r x : Nat} (hf : Forest m g (x :: (tnodes t₁ ++ r :: F))) (htab : TableOK m t₁)
    (hpar : ∀ y ∈ tnodes t₁, m.parent y = none) (hpr : m.parent r = none)
    (hord : ¬ m.value x < m.value r) (hrx : m.rank x = m.rank r) :
    ∃ m₁ g₁, linkStep m (some r) (some x) = some m₁ ∧ Cons m₁ g₁ t₁ (r :: F) ∧
      m₁.parent r = none ∧ Ext m g F m₁ g₁ := by
  have hnd := hf.roots_nodup
  have hxR : x ∉ tnodes t₁ ++ r :: F := (List.nodup_cons.1 hnd).1
  have hnd₁ : (tnodes t₁ ++ r :: F).Nodup := (List.nodup_cons.1 hnd).2
  have hrR : r ∈ tnodes t₁ ++ r :: F := by simp
  have hne : x ≠ r := fun e => hxR (e ▸ hrR)
  obtain ⟨hxn, hxk⟩ := hf.roots_sub x (List.mem_cons_self _ _)
  obtain ⟨hrn, hrk⟩ := hf.roots_sub r (List.mem_cons_of_mem _ hrR)
  obtain ⟨m₁, K, hlink, hK, ht₁, hval, htop, hparent, hmark, hrank, hchild, hnp⟩ :=
    link_spec hf.toTrees hrn hxn hne hxk hrk
  have hrt : ∀ y ∈ tnodes t₁, y ≠ r := by
    intro y hy e
    have := (List.nodup_append.1 hnd₁).2.2
    exact this hy (List.mem_cons.2 (Or.inl e))
  have hxt : ∀ y ∈ tnodes t₁, y ≠ x := by
    intro y hy e
    exact hxR (e ▸ List.mem_append_left _ hy)
  refine ⟨m₁, _, hlink, ⟨Forest.link_forest hf (List.Perm.refl _) hrR hK ht₁, ?_, ?_⟩, ?_, ?_⟩
  · refine htab.frame_table ?_
    intro y hy
    rw [hrank]
    simp [Function.update_apply, hrt y hy]
  · intro y hy
    rw [hparent]
    simp [Function.update_apply, hxt y hy, hpar y hy]
  · rw [hparent]
    simp [Function.update_apply, Ne.symm hne, hpr]
  · refine ⟨rfl, hval, htop, ?_, ?_, ?_⟩
    rotate_left 2
    · have hkid : ∀ p, ∀ y ∈ Function.update g.kids r (K ++ [x]) p, y ∉ g.kids p →
          p = r ∧ y = x := by
        intro p y hy hyg
        by_cases hp : p = r
        · subst hp
          simp only [Function.update_same, List.mem_append, List.mem_singleton] at hy
          rcases hy with h1 | h1
          · exact absurd (hK.mem_iff.1 h1) hyg
          · exact ⟨rfl, h1⟩
        · simp only [Function.update_apply, hp, if_false] at hy
          exact absurd hy hyg
      have hxr' : m₁.rank x = m.rank r := by
        rw [hrank]
        simp [Function.update_apply, hne, hrx]
      refine ⟨?_, ?_, ?_, ?_, ?_⟩
      · intro p
        rw [hrank]
        by_cases hp : p = r
        · subst hp; simp
        · simp [Function.update_apply, hp]
      · intro p y hy
        show y ∈ Function.update g.kids r (K ++ [x]) p
        by_cases hp : p = r
        · subst hp
          simp only [Function.update_same, List.mem_append]
          exact Or.inl (hK.mem_iff.2 hy)
        · simpa [Function.update_apply, hp] using hy
      · intro p hp y hy
        have hyr : y ≠ r := fun e => hrk p hp (e ▸ hy)
        have hyx : y ≠ x := fun e => hxk p hp (e ▸ hy)
        rw [hrank, hmark]
        simp [Function.update_apply, hyr, hyx]
      · intro p _ y hy hyg
        obtain ⟨rfl, rfl⟩ := hkid p y hy hyg
        refine ⟨by rw [hmark]; simp, by rw [hval]; exact hord, by rw [hxr'], ?_⟩
        rw [hxr', hrank]
        simp
      · intro p _ y hy z hz hyg hzg _
        rw [(hkid p y hy hyg).2, (hkid p z hz hzg).2]
    · intro ho a ha c hc
      rw [hval]
      have hc' : c ∈ Function.update g.kids r (K ++ [x]) a := hc
      by_cases har : a = r
      · subst har
        simp only [Function.update_same, List.mem_append, List.mem_singleton] at hc'
        rcases hc' with h1 | rfl
        · exact ho a ha c (hK.mem_iff.1 h1)
        · exact hord
      · simp only [Function.update_apply, har, if_false] at hc'
        exact ho a ha c hc'
    · intro y hy
      have h1 : y ≠ x := by
        rintro rfl
        rcases hy with h | h
        · exact h hxn
        · exact hxR (by simp [h])
      have h2 : y ≠ r := by
        rintro rfl
        rcases hy with h | h
        · exact h hrn
        · have := (List.nodup_append.1 hnd₁).2.1
          simp only [List.nodup_cons] at this
          exact this.1 h
      have h3 : y ∉ g.kids r := by
        intro hyk
        rcases hy with h | h
        · exact h (hf.kids_sub r hrn y hyk).1
        · exact (hf.roots_sub y (by simp [h])).2 r hrn hyk
      refine ⟨by rw [hval], ?_, hchild y h2, (hnp y h1 h3).2, (hnp y h1 h3).1, ?_, ?_⟩
      · rw [hparent]; simp [Function.update_apply, h1]
      · rw [hrank]; simp [Function.update_apply, h2]
      · rw [hmark]; simp [Function.update_apply, h1]

/-- The loop of `add` terminates and files the tree root `r`, after linking
it with the table entries of equal rank. -/
theorem addLoop_spec (fuel : Nat) : ∀ (m : Mem α) (t : RootMap) (g : Ghost) (r : Nat)
    (F : List Nat), Cons m g t (r :: F) → m.parent r = none → t.length < fuel →
    ∃ m' t' g', addLoop fuel m t (some r) = some (m', t') ∧ Cons m' g' t' F ∧
      Ext m g F m' g' := by
  induction fuel with
  | zero => intro m t g r F _ _ h; omega
  | succ fuel ih =>
    intro m t g r F hc hpr hfuel
    cases hg : mapGet t (m.rank r) with
    | none =>
      rw [addLoop_none fuel hg]
      have hdel : mapDel t (m.rank r) = t := mapDel_of_none (mapGet_none hg)
      refine ⟨m, _, g, rfl, ?_, Ext.refl m g F⟩
      unfold mapSet
      rw [hdel]
      refine ⟨?_, ⟨?_, ?_⟩, ?_⟩
      · rw [tnodes_cons_some]
        refine hc.forest.perm ?_
        have : (r :: (tnodes t ++ F)).Perm (tnodes t ++ r :: F) := List.perm_middle.symm
        simpa using this
      · intro e he
        rcases List.mem_cons.1 he with rfl | he'
        · exact ⟨r, rfl, rfl⟩
        · exact hc.table.keys e he'
      · simp only [List.map_cons, List.nodup_cons]
        refine ⟨?_, hc.table.keys_nodup⟩
        intro hmem
        obtain ⟨e, he, hek⟩ := List.mem_map.1 hmem
        exact mapGet_none hg e he hek
      · intro y hy
        rw [tnodes_cons_some] at hy
        rcases List.mem_cons.1 hy with rfl | hy'
        · exact hpr
        · exact hc.parent y hy'
    | some p =>
      have hmem := mapGet_some hg
      obtain ⟨x, hx, hrk⟩ := hc.table.keys _ hmem
      simp only at hx hrk
      subst hx
      rw [addLoop_some fuel hg]
      have hperm := perm_mapDel hc.table.keys_nodup hmem
      have htn : (tnodes t).Perm (x :: tnodes (mapDel t (m.rank r))) := by
        simpa [tnodes_cons_some] using tnodes_perm hperm
      have hlen : (mapDel t (m.rank r)).length < fuel := by
        have := hperm.length_eq
        simp only [List.length_cons] at this
        omega
      have htab₁ := hc.table.mapDel (m.rank r)
      have hxt : x ∈ tnodes t := htn.mem_iff.2 (List.mem_cons_self _ _)
      have hpar₁ : ∀ y ∈ tnodes (mapDel t (m.rank r)), m.parent y = none := fun y hy =>
        hc.parent y (htn.mem_iff.2 (List.mem_cons_of_mem _ hy))
      have hstep : ∃ r' x', (if m.value x < m.value r then x else r) = r' ∧
          (if m.value x < m.value r then r else x) = x' ∧
          Forest m g (x' :: (tnodes (mapDel t (m.rank r)) ++ r' :: F)) ∧
          m.parent r' = none ∧ ¬ m.value x' < m.value r' ∧ m.rank x' = m.rank r' := by
        by_cases hlt : m.value x < m.value r
        · refine ⟨x, r, by simp [hlt], by simp [hlt], hc.forest.perm ?_, hc.parent x hxt,
            not_lt.2 (le_of_lt hlt), hrk.symm⟩
          have h1 : (tnodes t ++ r :: F).Perm ((x :: tnodes (mapDel t (m.rank r))) ++ r :: F) :=
            htn.append_right _
          refine List.Perm.trans ?_ h1.symm
          have h2 : (r :: (tnodes (mapDel t (m.rank r)) ++ x :: F)).Perm
              (tnodes (mapDel t (m.rank r)) ++ r :: x :: F) := List.perm_middle.symm
          have h3 : (x :: (tnodes (mapDel t (m.rank r)) ++ r :: F)).Perm
              (tnodes (mapDel t (m.rank r)) ++ x :: r :: F) := List.perm_middle.symm
          exact h2.trans (((List.Perm.swap x r F).append_left _).trans h3.symm)
        · refine ⟨r, x, by simp [hlt], by simp [hlt], hc.forest.perm ?_, hpr, hlt, hrk⟩
          have h1 : (tnodes t ++ r :: F).Perm ((x :: tnodes (mapDel t (m.rank r))) ++ r :: F) :=
            htn.append_right _
          exact h1.symm
      obtain ⟨r', x', hr', hx', hf', hpr', hord, hrx'⟩ := hstep
      rw [hr', hx']
      obtain ⟨m₁, g₁, hlink, hc₁, hp₁, hext₁⟩ :=
        add_link_step hf' htab₁ hpar₁ hpr' hord hrx'
      rw [hlink]
      obtain ⟨m', t', g', hres, hc', hext'⟩ := ih m₁ _ g₁ r' F hc₁ hp₁ hlen
      exact ⟨m', t', g', hres, hc', hext₁.trans_ext hext' (fun _ h => h)⟩

/-- The closure `add` of `DeleteMin` terminates on a parentless tree root. -/
theorem add_spec (fuel : Nat) {m : Mem α} {t : RootMap} {g : Ghost} {r : Nat} {F : List Nat}
    (hc : Cons m g t (r :: F)) (hpr : m.parent r = none) (hfuel : t.length < fuel) :
    ∃ m' t' g', add fuel m t (some r) = some (m', t') ∧ Cons m' g' t' F ∧
      Ext m g F m' g' := by
  let m₀ : Mem α := { m with
    prev := Function.update m.prev r (some r)
    next := Function.update m.next r (some r) }
  have he : add fuel m t (some r) = addLoop fuel m₀ t (some r) := by
    simp [add, stPrev, stNext, bind, Option.bind, m₀]
  have hnd := hc.forest.roots_nodup
  have hrR : r ∈ tnodes t ++ r :: F := by simp
  obtain ⟨hrn, hrk⟩ := hc.forest.roots_sub r hrR
  have hc₀ : Cons m₀ g t (r :: F) := by
    refine ⟨⟨hc.forest.toTrees.frame le_rfl (fun _ _ => rfl) (fun _ _ => rfl) ?_,
      hc.forest.roots_nodup, hc.forest.roots_sub, hc.forest.cover⟩,
      hc.table.frame_table (fun _ _ => rfl), hc.parent⟩
    intro a ha c hca
    have : c ≠ r := fun e => hrk a ha (e ▸ hca)
    simp [m₀, Function.update_apply, this]
  obtain ⟨m', t', g', hres, hc', hext'⟩ := addLoop_spec fuel m₀ t g r F hc₀ hpr hfuel
  refine ⟨m', t', g', he.trans hres, hc', ?_⟩
  have hext₀ : Ext m g F m₀ g := by
    refine ⟨rfl, rfl, rfl, id, ?_, Lnk.of_frame rfl rfl⟩
    intro y hy
    have : y ≠ r := by
      rintro rfl
      rcases hy with h | h
      · exact h hrn
      · have := (List.nodup_append.1 hnd).2.1
        simp only [List.nodup_cons] at this
        exact this.1 h
    refine ⟨rfl, rfl, rfl, ?_, ?_, rfl, rfl⟩ <;> simp [m₀, Function.update_apply, this]
  exact hext₀.trans_ext hext' (fun _ h => h)

theorem length_mapDel_lt {t : RootMap} {k : Int} {p : Ptr} (h : (k, p) ∈ t) :
    (mapDel t k).length < t.length := by
  unfold mapDel
  refine List.length_filter_lt_length_iff_exists.2 ⟨(k, p), h, ?_⟩
  simp

theorem addLoopT_none {m : Mem α} {t : RootMap} {r : Nat} (fuel : Nat)
    (h : mapGet t (m.rank r) = none) : addLoopT (fuel + 1) m t (some r) = some 1 := by
  simp [addLoopT, ld, h, bind, Option.bind]

theorem addLoopT_some {m : Mem α} {t : RootMap} {r x : Nat} (fuel : Nat)
    (h : mapGet t (m.rank r) = some (some x)) :
    addLoopT (fuel + 1) m t (some r) =
      (linkStep m (some (if m.value x < m.value r then x else r))
        (some (if m.value x < m.value r then r else x))).bind fun m' =>
        (addLoopT fuel m' (mapDel t (m.rank r))
          (some (if m.value x < m.value r then x else r))).bind fun c => some (c + 1) := by
  by_cases hlt : m.value x < m.value r
  · simp [addLoopT, ld, h, hlt, bind, Option.bind]
  · simp [addLoopT, ld, h, hlt, bind, Option.bind]

/-- The loop of `add` makes at most two iterations more than the table
shrinks by. -/
theorem addLoopT_le (fuel : Nat) : ∀ (m : Mem α) (t : RootMap) (r : Nat) (m' : Mem α)
    (t' : RootMap), addLoop fuel m t (some r) = some (m', t') →
    ∃ c, addLoopT fuel m t (some r) = some c ∧ c + t'.length ≤ t.length + 2 := by
  induction fuel with
  | zero => intro m t r m' t' h; simp [addLoop] at h
  | succ fuel ih =>
    intro m t r m' t' h
    rcases hg : mapGet t (m.rank r) with _ | p
    · rw [addLoop_none fuel hg] at h
      obtain ⟨-, rfl⟩ : m = m' ∧ mapSet t (m.rank r) (some r) = t' := by
        simpa [Prod.ext_iff] using h
      refine ⟨1, addLoopT_none fuel hg, ?_⟩
      have : (mapDel t (m.rank r)).length ≤ t.length := List.length_filter_le _ _
      simp only [mapSet, List.length_cons]
      omega
    · cases p with
      | none => simp [addLoop, ld, hg] at h
      | some x =>
        rw [addLoop_some fuel hg] at h
        rw [addLoopT_some fuel hg]
        rcases hl : linkStep m (some (if m.value x < m.value r then x else r))
          (some (if m.value x < m.value r then r else x)) with _ | m₁
        · rw [hl] at h; simp at h
        · rw [hl] at h
          simp only [Option.bind] at h ⊢
          obtain ⟨c, hc, hle⟩ := ih m₁ _ _ m' t' h
          rw [hc]
          refine ⟨c + 1, rfl, ?_⟩
          have := length_mapDel_lt (mapGet_some hg)
          omega

theorem addT_le {fuel : Nat} {m : Mem α} {t : RootMap} {r : Nat} {m' : Mem α} {t' : RootMap}
    (h : add fuel m t (some r) = some (m', t')) :
    ∃ c, addT fuel m t (some r) = some c ∧ c + t'.length ≤ t.length + 2 := by
  simp only [add, stPrev, stNext, Option.map, bind, Option.bind] at h
  simp only [addT, stPrev, stNext, Option.map, bind, Option.bind]
  exact addLoopT_le fuel _ t r m' t' h

end AddSpec

/-! ## The loops of `DeleteMin` -/

theorem NextPath.congr {m m' : Mem α} {cur z : Nat} {P : List Nat}
    (h : NextPath m cur P z) (hn : ∀ y ∈ P, m'.next y = m.next y) : NextPath m' cur P z := by
  induction P generalizing cur with
  | nil => exact h
  | cons r P ih =>
    obtain ⟨h1, n, h2, h3⟩ := h
    refine ⟨h1, n, ?_, ih h3 (fun y hy => hn y (List.mem_cons_of_mem _ hy))⟩
    rw [hn r (List.mem_cons_self _ _)]
    exact h2

theorem nextPath_of_seg {m : Mem α} {a b : Nat} {l : List Nat} (h : Seg m a l b) :
    ∃ n, m.next a = some n ∧ NextPath m n l b := by
  induction l generalizing a with
  | nil => exact ⟨b, (seg_nil.1 h).1, rfl⟩
  | cons c l ih =>
    obtain ⟨h1, h2⟩ := seg_cons.1 h
    exact ⟨c, h1.1, rfl, ih h2⟩

theorem Cons.length_le {m : Mem α} {g : Ghost} {t : List (Int × Ptr)} {F : List Nat}
    (h : Cons m g t F) : t.length + F.length ≤ g.nodes.length := by
  have h1 : (tnodes t ++ F).length ≤ g.nodes.length :=
    (h.forest.roots_nodup.subperm (fun y hy => (h.forest.roots_sub y hy).1)).length_le
  rw [List.length_append, h.table.length_tnodes] at h1
  exact h1

/-- Clearing the parent of a tree root that is not in the table. -/
theorem Cons.clear_parent {m : Mem α} {g : Ghost} {t : List (Int × Ptr)} {F : List Nat}
    {r : Nat} (h : Cons m g t (r :: F)) :
    Cons ({ m with parent := Function.update m.parent r none } : Mem α) g t (r :: F) := by
  have hnd := h.forest.roots_nodup
  have hrR : r ∈ tnodes t ++ r :: F := by simp
  obtain ⟨-, hrk⟩ := h.forest.roots_sub r hrR
  refine ⟨⟨h.forest.toTrees.frame le_rfl (fun _ _ => rfl) (fun _ _ => rfl) ?_,
    h.forest.roots_nodup, h.forest.roots_sub, h.forest.cover⟩,
    h.table.frame_table (fun _ _ => rfl), ?_⟩
  · intro a ha c hca
    have : c ≠ r := fun e => hrk a ha (e ▸ hca)
    simp [Function.update_apply, this]
  · intro y hy
    have : y ≠ r := by
      rintro rfl
      exact (List.nodup_append.1 hnd).2.2 hy (List.mem_cons_self _ _)
    simp [Function.update_apply, this, h.parent y hy]

section Loops

variable [LinearOrder α]

theorem Ext.parent_eq {m m' : Mem α} {g g' : Ghost} {F : List Nat} (h : Ext m g F m' g')
    {y : Nat} (hy : y ∈ F) : m'.parent y = m.parent y := (h.same y (Or.inr hy)).2.1

theorem Ext.next_eq {m m' : Mem α} {g g' : Ghost} {F : List Nat} (h : Ext m g F m' g')
    {y : Nat} (hy : y ∈ F) : m'.next y = m.next y := (h.same y (Or.inr hy)).2.2.2.2.1

/-- The loop over the roots other than the minimum adds each of them. -/
theorem rootLoop_spec (fuel a : Nat) : ∀ (P : List Nat) (k : Nat) (m : Mem α) (t : RootMap)
    (g : Ghost) (cur : Nat) (F : List Nat), Cons m g t (P ++ F) → NextPath m cur P a →
    a ∉ P → (∀ y ∈ P, m.parent y = none) → P.length < k → g.nodes.length < fuel →
    ∃ m' t' g', rootLoop fuel (some a) k m t (some cur) = some (m', t') ∧ Cons m' g' t' F ∧
      Ext m g F m' g' ∧
      ∃ c, rootLoopT fuel (some a) k m t (some cur) = some c ∧
        c + t'.length ≤ t.length + 3 * P.length := by
  intro P
  induction P with
  | nil =>
    intro k m t g cur F hc hp _ _ hk _
    obtain ⟨k, rfl⟩ : ∃ k', k = k' + 1 := ⟨k - 1, by omega⟩
    have : cur = a := hp
    subst this
    exact ⟨m, t, g, by simp [rootLoop], by simpa using hc, Ext.refl m g F, 0,
      by simp [rootLoopT], by simp⟩
  | cons r P ih =>
    intro k m t g cur F hc hp ha hpar hk hfuel
    obtain ⟨k, rfl⟩ : ∃ k', k = k' + 1 := ⟨k - 1, by omega⟩
    obtain ⟨rfl, n, hn, hp'⟩ := hp
    have hne : cur ≠ a := fun e => ha (e ▸ List.mem_cons_self _ _)
    have hc' : Cons m g t (cur :: (P ++ F)) := by simpa using hc
    have hlen := hc'.length_le
    simp only [List.length_cons] at hlen
    obtain ⟨m₁, t₁, g₁, hadd, hc₁, hext₁⟩ :=
      add_spec fuel hc' (hpar cur (List.mem_cons_self _ _)) (by omega)
    have hp₁ : NextPath m₁ n P a :=
      hp'.congr (fun y hy => hext₁.next_eq (List.mem_append_left _ hy))
    have hpar₁ : ∀ y ∈ P, m₁.parent y = none := fun y hy => by
      rw [hext₁.parent_eq (List.mem_append_left _ hy)]
      exact hpar y (List.mem_cons_of_mem _ hy)
    obtain ⟨m', t', g', hres, hc₂, hext₂, c', hT', hle'⟩ := ih k m₁ t₁ g₁ n F hc₁ hp₁
      (fun h => ha (List.mem_cons_of_mem _ h)) hpar₁
      (by simp only [List.length_cons] at hk; omega) (by rw [hext₁.nodes]; exact hfuel)
    obtain ⟨c₀, hT₀, hle₀⟩ := addT_le hadd
    have hne' : ¬ (some cur : Ptr) = some a := fun e => hne (Option.some.inj e)
    refine ⟨m', t', g', ?_, hc₂, hext₁.trans_ext hext₂ (fun y hy => List.mem_append_right _ hy),
      c₀ + c' + 1, ?_, ?_⟩
    · simp only [rootLoop, hne', if_false, ld, Option.map, hn, bind, Option.bind, hadd]
      exact hres
    · simp only [rootLoopT, hne', if_false, ld, Option.map, hn, bind, Option.bind, hadd, hT₀,
        hT', pure]
    · simp only [List.length_cons]
      omega

/-- The loop over the children of the minimum clears the parent of each and
adds it. -/
theorem childLoop_spec (fuel c : Nat) : ∀ (P : List Nat) (k : Nat) (m : Mem α) (t : RootMap)
    (g : Ghost) (cur : Nat) (F : List Nat), Cons m g t (P ++ F) → NextPath m cur P c →
    c ∉ P → P.length < k → g.nodes.length < fuel →
    ∃ m' t' g', childLoop fuel (some c) k m t (some cur) = some (m', t') ∧ Cons m' g' t' F ∧
      Ext m g F m' g' ∧
      ∃ a, childLoopT fuel (some c) k m t (some cur) = some a ∧
        a + t'.length ≤ t.length + 3 * P.length := by
  intro P
  induction P with
  | nil =>
    intro k m t g cur F hc hp _ hk _
    obtain ⟨k, rfl⟩ : ∃ k', k = k' + 1 := ⟨k - 1, by omega⟩
    have : cur = c := hp
    subst this
    exact ⟨m, t, g, by simp [childLoop], by simpa using hc, Ext.refl m g F, 0,
      by simp [childLoopT], by simp⟩
  | cons r P ih =>
    intro k m t g cur F hc hp ha hk hfuel
    obtain ⟨k, rfl⟩ : ∃ k', k = k' + 1 := ⟨k - 1, by omega⟩
    obtain ⟨rfl, n, hn, hp'⟩ := hp
    have hne : cur ≠ c := fun e => ha (e ▸ List.mem_cons_self _ _)
    have hc' : Cons m g t (cur :: (P ++ F)) := by simpa using hc
    have hnd := hc'.forest.roots_nodup
    have hcurn : cur ∈ g.nodes := (hc'.forest.roots_sub cur (by simp)).1
    have hcurF : cur ∉ P ++ F := by
      have := (List.nodup_append.1 hnd).2.1
      simp only [List.nodup_cons] at this
      exact this.1
    have hc₀ := hc'.clear_parent
    have hext₀ : Ext m g (P ++ F)
        ({ m with parent := Function.update m.parent cur none } : Mem α) g := by
      refine ⟨rfl, rfl, rfl, id, ?_, Lnk.of_frame rfl rfl⟩
      intro y hy
      have : y ≠ cur := by
        rintro rfl
        rcases hy with h | h
        · exact h hcurn
        · exact hcurF h
      refine ⟨rfl, ?_, rfl, rfl, rfl, rfl, rfl⟩
      simp [Function.update_apply, this]
    have hlen := hc₀.length_le
    simp only [List.length_cons] at hlen
    obtain ⟨m₁, t₁, g₁, hadd, hc₁, hext₁⟩ :=
      add_spec fuel hc₀ (by simp) (by omega)
    have hext₀₁ := hext₀.trans_ext hext₁ (fun _ h => h)
    have hp₁ : NextPath m₁ n P c :=
      hp'.congr (fun y hy => hext₀₁.next_eq (List.mem_append_left _ hy))
    obtain ⟨m', t', g', hres, hc₂, hext₂, c', hT', hle'⟩ := ih k m₁ t₁ g₁ n F hc₁ hp₁
      (fun h => ha (List.mem_cons_of_mem _ h))
      (by simp only [List.length_cons] at hk; omega) (by rw [hext₀₁.nodes]; exact hfuel)
    obtain ⟨c₀, hT₀, hle₀⟩ := addT_le hadd
    have hne' : ¬ (some cur : Ptr) = some c := fun e => hne (Option.some.inj e)
    refine ⟨m', t', g', ?_, hc₂, hext₀₁.trans_ext hext₂ (fun y hy => List.mem_append_right _ hy),
      c₀ + c' + 1, ?_, ?_⟩
    · simp only [childLoop, hne', if_false, ld, Option.map, hn, bind, Option.bind, stParent,
        hadd]
      exact hres
    · simp only [childLoopT, hne', if_false, ld, Option.map, hn, bind, Option.bind, stParent,
        hadd, hT₀, hT', pure]
    · simp only [List.length_cons]
      omega

end Loops

/-! ## Rebuilding the root ring -/

theorem ring_insert_after {m : Mem α} {mv r n : Nat} {l : List Nat} (h : Ring m (mv :: l))
    (hnd : (mv :: l).Nodup) (hr : r ∉ mv :: l) (hn : m.next mv = some n) :
    Ring ({ m with
      prev := Function.update (Function.update m.prev r (some mv)) n (some r)
      next := Function.update (Function.update m.next r (some n)) mv (some r) } : Mem α)
      (mv :: r :: l) := by
  have hrm : r ≠ mv := fun e => hr (e ▸ List.mem_cons_self _ _)
  cases l with
  | nil =>
    have hl : Link m mv mv := seg_nil.1 h
    have : n = mv := by
      have := hl.1
      rw [hn] at this
      exact Option.some.inj this
    subst this
    show Seg _ n [r] n
    rw [seg_cons, seg_nil]
    refine ⟨⟨?_, ?_⟩, ?_, ?_⟩ <;> simp [Function.update_apply, hrm, Ne.symm hrm]
  | cons c l =>
    obtain ⟨h1, h2⟩ := seg_cons.1 h
    have : n = c := by
      have := h1.1
      rw [hn] at this
      exact Option.some.inj this
    subst this
    have hrn : r ≠ n := fun e => hr (by simp [e])
    have hnm : n ≠ mv := fun e => (List.nodup_cons.1 hnd).1 (by simp [e])
    show Seg _ mv (r :: n :: l) mv
    rw [seg_cons, seg_cons]
    refine ⟨⟨?_, ?_⟩, ⟨?_, ?_⟩, seg_congr ?_ ?_ h2⟩
    · simp [Function.update_apply]
    · simp [Function.update_apply, hrn]
    · simp [Function.update_apply, hrm]
    · simp [Function.update_apply]
    · intro y hy
      have h3 : y ≠ r := fun e => hr (e ▸ List.mem_cons_of_mem _ hy)
      have h4 : y ≠ mv := fun e => (List.nodup_cons.1 hnd).1 (e ▸ hy)
      simp [Function.update_apply, h3, h4]
    · intro y hy
      have h3 : y ≠ r := by
        rintro rfl
        apply hr
        simp only [List.mem_append, List.mem_singleton] at hy
        rcases hy with hy | hy
        · exact List.mem_cons_of_mem _ (List.mem_cons_of_mem _ hy)
        · simp [hy]
      have h4 : y ≠ n := by
        rintro rfl
        simp only [List.mem_append, List.mem_singleton] at hy
        rcases hy with hy | hy
        · exact (List.nodup_cons.1 (List.nodup_cons.1 hnd).2).1 hy
        · exact hnm hy
      simp [Function.update_apply, h3, h4]

section Relink

variable [LinearOrder α]

theorem relink_cons {m : Mem α} {mv r n : Nat} (k : Int) (rest : List (Int × Ptr))
    (hn : m.next mv = some n) (hne : r ≠ mv) :
    relink m (some mv) ((k, some r) :: rest) =
      relink ({ m with
        prev := Function.update (Function.update m.prev r (some mv)) n (some r)
        next := Function.update (Function.update m.next r (some n)) mv (some r) } : Mem α)
        (if m.value r < m.value mv then some r else some mv) rest := by
  simp [relink, ld, stPrev, stNext, hn, Function.update_apply, Ne.symm hne, bind, Option.bind]

/-- The loop that rebuilds the root ring links every entry into the ring and
tracks a node of least value. -/
theorem relink_spec : ∀ (es : List (Int × Ptr)) (m : Mem α) (mv : Nat) (R : List Nat),
    Ring m R → mv ∈ R → (R ++ tnodes es).Nodup → (∀ e ∈ es, ∃ x, e.2 = some x) →
    (∀ y ∈ R, ¬ m.value y < m.value mv) →
    ∃ m' mv' R', relink m (some mv) es = some (m', some mv') ∧ Ring m' R' ∧
      R'.Perm (R ++ tnodes es) ∧ mv' ∈ R' ∧ (∀ y ∈ R', ¬ m'.value y < m'.value mv') ∧
      m'.value = m.value ∧ m'.parent = m.parent ∧ m'.child = m.child ∧ m'.rank = m.rank ∧
      m'.mark = m.mark ∧ m'.top = m.top ∧
      ∀ y, y ∉ R ++ tnodes es → m'.next y = m.next y ∧ m'.prev y = m.prev y := by
  intro es
  induction es with
  | nil =>
    intro m mv R hring hmv _ _ hmin
    exact ⟨m, mv, R, rfl, hring, by simp [tnodes], hmv, hmin, rfl, rfl, rfl, rfl, rfl, rfl,
      fun _ _ => ⟨rfl, rfl⟩⟩
  | cons e es ih =>
    intro m mv R hring hmv hnd hsome hmin
    obtain ⟨r, hr⟩ := hsome e (List.mem_cons_self _ _)
    rcases e with ⟨k, p⟩
    simp only at hr
    subst hr
    rw [tnodes_cons_some] at hnd
    obtain ⟨l, hperm, hring'⟩ := ring_front hring hmv
    have hndR : R.Nodup := (List.nodup_append.1 hnd).1
    have hndl : (mv :: l).Nodup := hperm.nodup_iff.2 hndR
    have hrR : r ∉ R := fun h => (List.nodup_append.1 hnd).2.2 h (List.mem_cons_self _ _)
    have hrl : r ∉ mv :: l := fun h => hrR (hperm.mem_iff.1 h)
    have hrm : r ≠ mv := fun e => hrl (e ▸ List.mem_cons_self _ _)
    obtain ⟨n, hn, -⟩ := nextPath_of_seg (show Seg m mv l mv from hring')
    have hnl : n ∈ mv :: l := by
      cases l with
      | nil =>
        have := (seg_nil.1 (show Seg m mv [] mv from hring')).1
        rw [hn] at this
        simp [Option.some.inj this]
      | cons c l =>
        have := (seg_cons.1 (show Seg m mv (c :: l) mv from hring')).1.1
        rw [hn] at this
        simp [Option.some.inj this]
    rw [relink_cons k es hn hrm]
    have hring₁ := ring_insert_after hring' hndl hrl hn
    have hp₁ : (mv :: r :: l).Perm (r :: R) := (List.Perm.swap r mv l).trans (hperm.cons r)
    have hnd₁ : (mv :: r :: l ++ tnodes es).Nodup := by
      have h1 : (mv :: r :: l ++ tnodes es).Perm (r :: R ++ tnodes es) := hp₁.append_right _
      refine h1.nodup_iff.2 ?_
      have h2 : (R ++ r :: tnodes es).Perm (r :: R ++ tnodes es) := by
        simp
      exact h2.nodup_iff.1 hnd
    have hsome₁ : ∀ e ∈ es, ∃ x, e.2 = some x := fun e he =>
      hsome e (List.mem_cons_of_mem _ he)
    have hfin : ∀ mv₁, mv₁ ∈ mv :: r :: l →
        (∀ y ∈ mv :: r :: l, ¬ m.value y < m.value mv₁) →
        ∃ m' mv' R', relink ({ m with
          prev := Function.update (Function.update m.prev r (some mv)) n (some r)
          next := Function.update (Function.update m.next r (some n)) mv (some r) } : Mem α)
          (some mv₁) es = some (m', some mv') ∧ Ring m' R' ∧
        R'.Perm (R ++ r :: tnodes es) ∧ mv' ∈ R' ∧ (∀ y ∈ R', ¬ m'.value y < m'.value mv') ∧
        m'.value = m.value ∧ m'.parent = m.parent ∧ m'.child = m.child ∧ m'.rank = m.rank ∧
        m'.mark = m.mark ∧ m'.top = m.top ∧
        ∀ y, y ∉ R ++ r :: tnodes es → m'.next y = m.next y ∧ m'.prev y = m.prev y := by
      intro mv₁ hmv₁ hmin₁
      obtain ⟨m', mv', R', hres, hR', hperm', hmv', hmin', h1, h2, h3, h4, h5, h6, h7⟩ :=
        ih _ mv₁ (mv :: r :: l) hring₁ hmv₁ hnd₁ hsome₁ hmin₁
      refine ⟨m', mv', R', hres, hR', ?_, hmv', hmin', h1, h2, h3, h4, h5, h6, ?_⟩
      · refine hperm'.trans ((hp₁.append_right _).trans ?_)
        simpa using (List.perm_middle : (R ++ r :: tnodes es).Perm (r :: (R ++ tnodes es))).symm
      · intro y hy
        have hy' : y ∉ mv :: r :: l ++ tnodes es := by
          intro h
          apply hy
          have := (hp₁.append_right (tnodes es)).mem_iff.1 h
          simp only [List.cons_append, List.mem_cons, List.mem_append] at this ⊢
          tauto
        obtain ⟨e1, e2⟩ := h7 y hy'
        have hyr : y ≠ r := fun e => hy (by simp [e])
        have hym : y ≠ mv := fun e => hy (by simp [e, hmv])
        have hyn : y ≠ n := fun e => hy (by
          have := hperm.mem_iff.1 hnl
          simp [e, this])
        rw [e1, e2]
        simp [Function.update_apply, hyr, hym, hyn]
    by_cases hlt : m.value r < m.value mv
    · simp only [hlt, if_true]
      refine hfin r (by simp) ?_
      intro y hy
      simp only [List.mem_cons] at hy
      rcases hy with rfl | rfl | hy
      · exact not_lt.2 (le_of_lt hlt)
      · exact lt_irrefl _
      · have := hmin y (hperm.mem_iff.1 (List.mem_cons_of_mem _ hy))
        exact not_lt.2 (le_trans (le_of_lt hlt) (not_lt.1 this))
    · simp only [hlt, if_false]
      refine hfin mv (by simp) ?_
      intro y hy
      simp only [List.mem_cons] at hy
      rcases hy with rfl | rfl | hy
      · exact lt_irrefl _
      · exact hlt
      · exact hmin y (hperm.mem_iff.1 (List.mem_cons_of_mem _ hy))

end Relink

/-! ## DeleteMin -/

theorem Forest.frame_forest {m m' : Mem α} {g : Ghost} {R : List Nat} (h : Forest m g R)
    (htop : m.top ≤ m'.top)
    (hchild : ∀ a ∈ g.nodes, m'.child a = m.child a)
    (hrank : ∀ a ∈ g.nodes, m'.rank a = m.rank a)
    (hkid : ∀ a ∈ g.nodes, ∀ c ∈ g.kids a,
      m'.parent c = m.parent c ∧ m'.next c = m.next c ∧ m'.prev c = m.prev c) :
    Forest m' g R :=
  ⟨h.toTrees.frame htop hchild hrank hkid, h.roots_nodup, h.roots_sub, h.cover⟩

theorem Forest.roots_irrel_forest {m : Mem α} {g : Ghost} {R : List Nat} (h : Forest m g R)
    (r : List Nat) : Forest m { g with roots := r } R :=
  ⟨h.toTrees.roots_irrel r, h.roots_nodup, h.roots_sub, h.cover⟩

/-- The state in which the linking step starts: the minimum is dropped from
the nodes, and the other roots and the children of the minimum wait to be
added. -/
theorem Shape.cons_init {m : Mem α} {a : Nat} {g : Ghost} {rest K : List Nat}
    (hs : Shape m (some a) g) (hperm : (a :: rest).Perm g.roots) (hK : K.Perm (g.kids a)) :
    Cons m { g with nodes := g.nodes.erase a } [] (rest ++ K) := by
  have hnd : (a :: rest).Nodup := by
    have := hs.roots_nodup
    simp only [List.append_nil] at this
    exact hperm.nodup_iff.2 this
  have hroot : ∀ y ∈ a :: rest, y ∈ g.nodes ∧ ∀ q ∈ g.nodes, y ∉ g.kids q := fun y hy =>
    hs.roots_sub y (by simpa using hperm.mem_iff.1 hy)
  obtain ⟨han, hak⟩ := hroot a (List.mem_cons_self _ _)
  have hmem : ∀ y, y ∈ g.nodes.erase a ↔ y ≠ a ∧ y ∈ g.nodes := fun y =>
    hs.nodup.mem_erase_iff
  have hKn : ∀ c ∈ K, c ∈ g.nodes ∧ c ≠ a := by
    intro c hc
    have hck := hK.mem_iff.1 hc
    exact ⟨(hs.kids_sub a han c hck).1, fun e => hak a han (e ▸ hck)⟩
  refine ⟨⟨⟨hs.nodup.erase a, ?_, ?_, ?_, ?_, ?_, ?_⟩, ?_, ?_, ?_⟩, TableOK.nil m, ?_⟩
  · intro y hy; exact hs.alloc y ((hmem y).1 hy).2
  · intro y hy; exact hs.kids_nodup y ((hmem y).1 hy).2
  · intro y hy; exact hs.kids_ring y ((hmem y).1 hy).2
  · intro y hy; exact hs.child y ((hmem y).1 hy).2
  · intro y hy; exact hs.rank y ((hmem y).1 hy).2
  · intro y hy c hc
    have hyn := ((hmem y).1 hy).2
    obtain ⟨h1, h2, h3⟩ := hs.kids_sub y hyn c hc
    exact ⟨(hmem c).2 ⟨fun e => hak y hyn (e ▸ hc), h1⟩, h2, h3⟩
  · show (tnodes [] ++ (rest ++ K)).Nodup
    simp only [tnodes, List.filterMap_nil, List.nil_append]
    refine List.Nodup.append (List.nodup_cons.1 hnd).2 (hK.nodup_iff.2 (hs.kids_nodup a han)) ?_
    intro y hy hyK
    exact (hroot y (List.mem_cons_of_mem _ hy)).2 a han (hK.mem_iff.1 hyK)
  · intro y hy
    simp only [tnodes, List.filterMap_nil, List.nil_append, List.mem_append] at hy
    rcases hy with hy | hy
    · have hya : y ≠ a := fun e => (List.nodup_cons.1 hnd).1 (e ▸ hy)
      obtain ⟨h1, h2⟩ := hroot y (List.mem_cons_of_mem _ hy)
      exact ⟨(hmem y).2 ⟨hya, h1⟩, fun q hq => h2 q ((hmem q).1 hq).2⟩
    · obtain ⟨h1, h2⟩ := hKn y hy
      refine ⟨(hmem y).2 ⟨h2, h1⟩, fun q hq hyq => ?_⟩
      have hq' := (hmem q).1 hq
      exact hq'.1 (hs.kids_unique hq'.2 han hyq (hK.mem_iff.1 hy))
  · intro y hy
    obtain ⟨hya, hyn⟩ := (hmem y).1 hy
    simp only [tnodes, List.filterMap_nil, List.nil_append, List.mem_append]
    rcases hs.cover y hyn with h1 | ⟨p, hp, hyp⟩
    · simp only [List.append_nil] at h1
      have := hperm.mem_iff.2 h1
      simp only [List.mem_cons] at this
      rcases this with h2 | h2
      · exact absurd h2 hya
      · left; left; exact h2
    · by_cases hpa : p = a
      · subst hpa
        left; right; exact hK.mem_iff.2 hyp
      · right
        exact ⟨p, (hmem p).2 ⟨hpa, hp⟩, hyp⟩
  · intro y hy
    simp [tnodes] at hy

section DeleteMinSpec

variable [LinearOrder α]

theorem deleteMin_eq (fuel : Nat) (enum : RootMap → RootMap) (m : Mem α) (a : Nat) :
    DeleteMin fuel enum m (some a) =
      (rootLoop fuel (some a) fuel m [] (m.next a)).bind fun p =>
        (childPhase fuel p.1 p.2 (p.1.child a)).bind fun q =>
          rebuildPhase enum q.1 q.2 (m.value a) := by
  simp only [DeleteMin, ld, Option.map, bind, Option.bind, childPhase, rebuildPhase, pure]


/-- The children of the minimum are all added. -/
theorem childPhase_spec (fuel : Nat) {m : Mem α} {t : RootMap} {g : Ghost} {K : List Nat}
    {cp : Ptr} (hc : Cons m g t K) (hfuel : g.nodes.length < fuel)
    (hK : KidsAt m cp K) :
    ∃ m' t' g', childPhase fuel m t cp = some (m', t') ∧ Cons m' g' t' [] ∧
      Ext m g [] m' g' ∧
      ∃ a, childPhaseT fuel m t cp = some a ∧ a + t'.length ≤ t.length + 3 * K.length := by
  cases K with
  | nil =>
    have hK' : cp = none := hK
    subst hK'
    exact ⟨m, t, g, rfl, hc, Ext.refl m g [], 0, rfl, by simp⟩
  | cons c cl =>
    obtain ⟨rfl, n, hn, hp⟩ := hK
    have hnd := hc.forest.roots_nodup
    have hcn : c ∈ g.nodes := (hc.forest.roots_sub c (by simp)).1
    have hccl : c ∉ cl := by
      have := (List.nodup_append.1 hnd).2.1
      exact (List.nodup_cons.1 this).1
    have hlen := hc.length_le
    simp only [List.length_cons] at hlen
    have hc₀ := hc.clear_parent
    have hext₀ : Ext m g cl
        ({ m with parent := Function.update m.parent c none } : Mem α) g := by
      refine ⟨rfl, rfl, rfl, id, ?_, Lnk.of_frame rfl rfl⟩
      intro y hy
      have : y ≠ c := by
        rintro rfl
        rcases hy with h | h
        · exact h hcn
        · exact hccl h
      refine ⟨rfl, ?_, rfl, rfl, rfl, rfl, rfl⟩
      simp [Function.update_apply, this]
    obtain ⟨m₁, t₁, g₁, hadd, hc₁, hext₁⟩ :=
      add_spec fuel hc₀ (by simp) (by omega)
    have hext₀₁ := hext₀.trans_ext hext₁ (fun _ h => h)
    have hp₁ : NextPath m₁ n cl c := hp.congr (fun y hy => hext₀₁.next_eq hy)
    obtain ⟨m', t', g', hres, hc₂, hext₂, c', hT', hle'⟩ :=
      childLoop_spec fuel c cl fuel m₁ t₁ g₁ n []
        (by simpa using hc₁) hp₁ hccl (by omega) (by rw [hext₀₁.nodes]; exact hfuel)
    obtain ⟨c₀, hT₀, hle₀⟩ := addT_le hadd
    refine ⟨m', t', g', ?_, hc₂, hext₀₁.trans_ext hext₂ (fun _ h => by simp at h),
      c₀ + c' + 1, ?_, ?_⟩
    · simp only [childPhase, stParent, ld, Option.map, hn, bind, Option.bind, hadd]
      exact hres
    · simp only [childPhaseT, stParent, ld, Option.map, hn, bind, Option.bind, hadd, hT₀, hT',
        pure]
    · simp only [List.length_cons]
      omega

/-- The root ring is rebuilt from the table and the tracked node is a root of
least value. -/
theorem rebuildPhase_spec {enum : RootMap → RootMap} {m : Mem α} {t : RootMap} {g : Ghost}
    (v : α) (hc : Cons m g t []) (henum : ∀ t, (enum t).Perm t) :
    ∃ m' h' R', rebuildPhase enum m t v = some (m', h', some v) ∧
      Shape m' h' { g with roots := R' } ∧ MinRoot m' h' { g with roots := R' } ∧
      R'.Perm (tnodes t) ∧
      m'.value = m.value ∧ m'.parent = m.parent ∧ m'.child = m.child ∧ m'.rank = m.rank ∧
      m'.mark = m.mark ∧ m'.top = m.top ∧
      (∀ y, y ∉ tnodes t → m'.next y = m.next y ∧ m'.prev y = m.prev y) := by
  have hf : Forest m g (tnodes t) := by simpa using hc.forest
  by_cases ht : t.length = 0
  · have ht' : t = [] := List.length_eq_zero.1 ht
    subst ht'
    refine ⟨m, none, [], by simp [rebuildPhase], ?_, ?_, by simp [tnodes], rfl, rfl, rfl, rfl,
      rfl, rfl, fun _ _ => ⟨rfl, rfl⟩⟩
    · refine ⟨?_, trivial, rfl, fun r hr => by simp at hr⟩
      have : Forest m g [] := by simpa [tnodes] using hf
      simpa using this.roots_irrel_forest []
    · intro a ha; simp at ha
  · have hperm := henum t
    rcases he : enum t with _ | ⟨⟨d, mv⟩, rest⟩
    · rw [he] at hperm
      have := hperm.length_eq
      simp at this
      exact absurd this.symm ht
    · have hmem : (d, mv) ∈ t := hperm.mem_iff.1 (by rw [he]; exact List.mem_cons_self _ _)
      obtain ⟨x, hx, -⟩ := hc.table.keys _ hmem
      simp only at hx
      subst hx
      have hperm₅ := perm_mapDel hc.table.keys_nodup hmem
      have htn : (tnodes t).Perm (x :: tnodes (mapDel t d)) := by
        simpa [tnodes_cons_some] using tnodes_perm hperm₅
      have htn' : (tnodes (enum (mapDel t d))).Perm (tnodes (mapDel t d)) :=
        tnodes_perm (henum _)
      have hall : ([x] ++ tnodes (enum (mapDel t d))).Perm (tnodes t) := by
        refine List.Perm.trans ?_ htn.symm
        simpa using htn'
      have hxn : x ∈ g.nodes := (hf.roots_sub x (htn.mem_iff.2 (List.mem_cons_self _ _))).1
      obtain ⟨m', mv', R', hres, hring, hperm', hmv', hmin', h1, h2, h3, h4, h5, h6, h7⟩ :=
        relink_spec (enum (mapDel t d)) ({ m with
          next := Function.update m.next x (some x)
          prev := Function.update m.prev x (some x) } : Mem α) x [x]
          (by simp [ring_single, Link]) (by simp) (hall.nodup_iff.2 hf.roots_nodup)
          (fun e he => by
            have he' := (henum _).mem_iff.1 he
            obtain ⟨y, hy, -⟩ := hc.table.keys e (mem_mapDel.1 he').1
            exact ⟨y, hy⟩)
          (fun y hy => by
            simp only [List.mem_singleton] at hy
            subst hy
            exact lt_irrefl _)
      have hR : R'.Perm (tnodes t) := hperm'.trans hall
      have hroot : ∀ y ∈ R', y ∈ g.nodes ∧ ∀ q ∈ g.nodes, y ∉ g.kids q := fun y hy =>
        hf.roots_sub y (hR.mem_iff.1 hy)
      have hkid : ∀ q ∈ g.nodes, ∀ c ∈ g.kids q, c ∉ [x] ++ tnodes (enum (mapDel t d)) := by
        intro q hq c hcq hcR
        exact (hf.roots_sub c (hall.mem_iff.1 hcR)).2 q hq hcq
      refine ⟨m', some mv', R', ?_, ?_, ?_, hR, h1, h2, h3, h4, h5, h6, ?_⟩
      · simp only [rebuildPhase, ht, if_false, he, stNext, stPrev, Option.map, bind,
          Option.bind, hres, pure]
      · refine ⟨?_, hring, hmv', ?_⟩
        · have hf₁ : Forest m g (R' ++ []) := hf.perm (by simpa using hR)
          refine (hf₁.roots_irrel_forest R').frame_forest (le_of_eq h6.symm) (fun a _ => by rw [h3])
            (fun a _ => by rw [h4]) ?_
          intro q hq c hcq
          have hcx : c ≠ x := fun e => hkid q hq c hcq (by simp [e])
          obtain ⟨e1, e2⟩ := h7 c (hkid q hq c hcq)
          refine ⟨by rw [h2], ?_, ?_⟩
          · rw [e1]; simp [Function.update_apply, hcx]
          · rw [e2]; simp [Function.update_apply, hcx]
        · intro r hr
          rw [h2]
          exact hc.parent r (hR.mem_iff.1 hr)
      · intro b hb r hr
        have : mv' = b := Option.some.inj hb
        subst this
        exact hmin' r hr
      · intro y hy
        have hyR : y ∉ [x] ++ tnodes (enum (mapDel t d)) := fun h => hy (hall.mem_iff.1 h)
        have hyx : y ≠ x := fun e => hy (e ▸ htn.mem_iff.2 (List.mem_cons_self _ _))
        obtain ⟨e1, e2⟩ := h7 y hyR
        rw [e1, e2]
        simp [Function.update_apply, hyx]


/-- The linking step of `DeleteMin` on a non-empty heap with the shape
invariants: it terminates in a table of tree roots that does not depend on the
order in which the map of roots is enumerated afterwards. -/
theorem deleteMin_link (fuel : Nat) (m : Mem α) (a : Nat) (g : Ghost)
    (hs : Shape m (some a) g) (hfuel : g.nodes.length ≤ fuel) :
    ∃ m₄ t₄ g₄, Cons m₄ g₄ t₄ [] ∧ Ext m { g with nodes := g.nodes.erase a } [] m₄ g₄ ∧
      (∀ enum : RootMap → RootMap,
        DeleteMin fuel enum m (some a) = rebuildPhase enum m₄ t₄ (m.value a)) ∧
      ∃ c, DeleteMinT fuel m (some a) = some c ∧
        c + 2 ≤ 3 * (g.roots.length + (g.kids a).length) := by
  have ha : a ∈ g.roots := hs.head
  obtain ⟨rest, hperm, hring⟩ := ring_front hs.ring ha
  have hnd : (a :: rest).Nodup := by
    have := hs.roots_nodup
    simp only [List.append_nil] at this
    exact hperm.nodup_iff.2 this
  have han : a ∈ g.nodes := (hs.roots_sub a (by simpa using ha)).1
  obtain ⟨n, hn, hpath⟩ := nextPath_of_seg (show Seg m a rest a from hring)
  have hlen0 : (g.nodes.erase a).length + 1 = g.nodes.length := by
    rw [List.length_erase_of_mem han]
    have := List.length_pos_of_mem han
    omega
  obtain ⟨K, hKperm, hKm⟩ : ∃ K : List Nat, K.Perm (g.kids a) ∧ KidsAt m (m.child a) K := by
    rcases hch : m.child a with _ | c
    · have hk : g.kids a = [] := by
        have := hs.child a han
        rwa [hch] at this
      exact ⟨[], by rw [hk], rfl⟩
    · have hck : c ∈ g.kids a := by
        have := hs.child a han
        rwa [hch] at this
      obtain ⟨cl, hp, hr⟩ := ring_front (hs.kids_ring a han) hck
      exact ⟨c :: cl, hp, rfl, nextPath_of_seg (show Seg m c cl c from hr)⟩
  have hc₀ := hs.cons_init hperm hKperm
  have hlen := hc₀.length_le
  simp only [List.length_nil, zero_add, List.length_append] at hlen
  obtain ⟨m₁, t₁, g₁, hroot, hc₁, hext₁, cr, hTr, hler⟩ := rootLoop_spec fuel a rest fuel m []
    { g with nodes := g.nodes.erase a } n K hc₀ hpath (List.nodup_cons.1 hnd).1
    (fun y hy => hs.root_parent y (hperm.mem_iff.1 (List.mem_cons_of_mem _ hy)))
    (by omega) (by show (g.nodes.erase a).length < fuel; omega)
  have hane : a ∉ g.nodes.erase a := fun h => (hs.nodup.mem_erase_iff.1 h).1 rfl
  have hsa : Same m m₁ a := hext₁.same a (Or.inl hane)
  have hK₁ : KidsAt m₁ (m₁.child a) K := by
    cases K with
    | nil => show m₁.child a = none; rw [hsa.2.2.1]; exact hKm
    | cons c cl =>
      obtain ⟨h1, n', h2, h3⟩ := hKm
      refine ⟨by rw [hsa.2.2.1]; exact h1, n', ?_, ?_⟩
      · rw [hext₁.next_eq (List.mem_cons_self _ _)]; exact h2
      · exact h3.congr (fun y hy => hext₁.next_eq (List.mem_cons_of_mem _ hy))
  obtain ⟨m₄, t₄, g₄, hchild, hc₄, hext₄, cc, hTc, hlec⟩ := childPhase_spec fuel hc₁
    (by rw [hext₁.nodes]; show (g.nodes.erase a).length < fuel; omega) hK₁
  refine ⟨m₄, t₄, g₄, hc₄, hext₁.trans_ext hext₄ (fun _ h => by simp at h), fun enum => ?_,
    1 + cr + cc + t₄.length, ?_, ?_⟩
  · rw [deleteMin_eq, hn, hroot]
    simp only [Option.bind]
    rw [hchild]
  · simp only [DeleteMinT, ld, Option.map, hn, bind, Option.bind, hTr, hroot, hTc, hchild, pure]
  · have h1 := hperm.length_eq
    have h2 := hKperm.length_eq
    simp only [List.length_cons, List.length_nil] at h1 hler
    omega

/-- `DeleteMin` on a non-empty heap with the shape invariants returns the
value of the tracked node, removes exactly that node, and leaves a heap with
the shape invariants whose tracked node is a root of least value. -/
theorem deleteMin_spec (fuel : Nat) (enum : RootMap → RootMap) (m : Mem α) (a : Nat)
    (g : Ghost) (hs : Shape m (some a) g) (henum : ∀ t, (enum t).Perm t)
    (hfuel : g.nodes.length ≤ fuel) :
    ∃ m' h' g', DeleteMin fuel enum m (some a) = some (m', h', some (m.value a)) ∧
      Shape m' h' g' ∧ MinRoot m' h' g' ∧ g'.nodes = g.nodes.erase a ∧
      m'.value = m.value ∧ m'.top = m.top ∧
      (Ordered m g → Ordered m' g') ∧ (∀ y, y ∉ g.nodes.erase a → Same m m' y) := by
  obtain ⟨m₄, t₄, g₄, hc₄, hext, hrun, -⟩ := deleteMin_link fuel m a g hs hfuel
  obtain ⟨m', h', R', hreb, hshape, hmin, -, h1, h2, h3, h4, h5, h6, h7⟩ :=
    rebuildPhase_spec (m.value a) hc₄ henum
  refine ⟨m', h', { g₄ with roots := R' }, (hrun enum).trans hreb, hshape, hmin, hext.nodes,
    h1.trans hext.value, h6.trans hext.top, ?_, ?_⟩
  · intro ho
    have ho₀ : Ordered m { g with nodes := g.nodes.erase a } := fun x hx c hc =>
      ho x (List.mem_of_mem_erase hx) c hc
    have := hext.ordered ho₀
    intro x hx c hc
    rw [h1]
    exact this x hx c hc
  · intro y hy
    obtain ⟨e1, e2, e3, e4, e5, e6, e7⟩ := hext.same y (Or.inl hy)
    have hy₄ : y ∉ tnodes t₄ := by
      intro hy'
      have := (hc₄.forest.roots_sub y (List.mem_append_left _ hy')).1
      rw [hext.nodes] at this
      exact hy this
    obtain ⟨f1, f2⟩ := h7 y hy₄
    exact ⟨by rw [h1]; exact e1, by rw [h2]; exact e2, by rw [h3]; exact e3,
      by rw [f2]; exact e4, by rw [f1]; exact e5, by rw [h4]; exact e6,
      by rw [h5]; exact e7⟩

/-- `DeleteMin` on a non-empty heap with the shape invariants, in full: the
linking step does not depend on the enumeration order, the roots that remain
have pairwise distinct ranks, and the children gained in the call are
described by `Lnk`. -/
theorem deleteMin_full (fuel : Nat) (m : Mem α) (a : Nat) (g : Ghost)
    (hs : Shape m (some a) g) (hfuel : g.nodes.length ≤ fuel) :
    ∃ m₄ t₄ g₄, Cons m₄ g₄ t₄ [] ∧ Ext m { g with nodes := g.nodes.erase a } [] m₄ g₄ ∧
      (∀ enum : RootMap → RootMap, (∀ t, (enum t).Perm t) →
        ∃ m' h' R', DeleteMin fuel enum m (some a) = some (m', h', some (m.value a)) ∧
          Shape m' h' { g₄ with roots := R' } ∧ MinRoot m' h' { g₄ with roots := R' } ∧
          R'.Perm (tnodes t₄) ∧
          m'.value = m₄.value ∧ m'.parent = m₄.parent ∧ m'.child = m₄.child ∧
          m'.rank = m₄.rank ∧ m'.mark = m₄.mark ∧ m'.top = m₄.top ∧
          (∀ y, y ∉ tnodes t₄ → m'.next y = m₄.next y ∧ m'.prev y = m₄.prev y)) ∧
      ∃ c, DeleteMinT fuel m (some a) = some c ∧
        c + 2 ≤ 3 * (g.roots.length + (g.kids a).length) := by
  obtain ⟨m₄, t₄, g₄, hc₄, hext, hrun, hcost⟩ := deleteMin_link fuel m a g hs hfuel
  refine ⟨m₄, t₄, g₄, hc₄, hext, fun enum henum => ?_, hcost⟩
  obtain ⟨m', h', R', hreb, hrest⟩ := rebuildPhase_spec (m.value a) hc₄ henum
  exact ⟨m', h', R', (hrun enum).trans hreb, hrest⟩

end DeleteMinSpec

/-! ## Cutting a node from its parent -/

theorem ring_unlink {m : Mem α} {x b : Nat} {l : List Nat} (h : Ring m (x :: b :: l))
    (hnd : (x :: b :: l).Nodup) :
    Ring ({ m with
      next := Function.update m.next (lastOf b l) (some b)
      prev := Function.update m.prev b (some (lastOf b l)) } : Mem α) (b :: l) := by
  obtain ⟨-, h2⟩ := seg_cons.1 h
  have hnd' : (b :: l).Nodup := (List.nodup_cons.1 hnd).2
  refine seg_retarget hnd' h2 ?_ ?_ ?_ ?_
  · intro y _ hy
    simp [Function.update_apply, hy]
  · intro y hy
    have : y ≠ b := fun e => (List.nodup_cons.1 hnd').1 (e ▸ hy)
    simp [Function.update_apply, this]
  · simp
  · simp

theorem detach_single {m : Mem α} {x p : Nat} (hr : m.rank p = 1) :
    detach m (some x) (some p) = some { m with
      rank := Function.update m.rank p (m.rank p - 1)
      child := Function.update m.child p none } := by
  simp [detach, ld, stRank, stChild, hr, bind, Option.bind]

theorem detach_many {m : Mem α} {x p b t : Nat} (hr : m.rank p - 1 ≠ 0)
    (hn : m.next x = some b) (hp : m.prev x = some t) (htx : t ≠ x) :
    detach m (some x) (some p) = some { m with
      rank := Function.update m.rank p (m.rank p - 1)
      child := Function.update m.child p (some b)
      next := Function.update m.next t (some b)
      prev := Function.update m.prev b (some t) } := by
  simp [detach, ld, stRank, stChild, stNext, stPrev, hr, hn, hp, bind, Option.bind,
    Function.update_apply, Ne.symm htx]

/-- The child structure after `x` has been taken out of the children of `p`. -/
theorem Trees.detach {m m' : Mem α} {g : Ghost} (ht : Trees m g) {p x : Nat} {l : List Nat}
    (hp : p ∈ g.nodes) (hl : (x :: l).Perm (g.kids p)) (htop : m.top ≤ m'.top)
    (hring : Ring m' l) (hhead : HeadIn (m'.child p) l)
    (hrank : m'.rank p = m.rank p - 1) (hrank' : ∀ y, y ≠ p → m'.rank y = m.rank y)
    (hchild : ∀ y, y ≠ p → m'.child y = m.child y)
    (hpar : ∀ y, m'.parent y = m.parent y)
    (hnp : ∀ y, y ∉ l → m'.next y = m.next y ∧ m'.prev y = m.prev y) :
    Trees m' { g with kids := Function.update g.kids p l } := by
  have hkne : ∀ a, a ≠ p → Function.update g.kids p l a = g.kids a := by
    intro a har
    simp [Function.update_apply, har]
  have hlk : ∀ c ∈ l, c ∈ g.kids p := fun c hc => hl.mem_iff.1 (List.mem_cons_of_mem _ hc)
  have hndl : (x :: l).Nodup := hl.nodup_iff.2 (ht.kids_nodup p hp)
  refine ⟨ht.nodup, fun a ha => lt_of_lt_of_le (ht.alloc a ha) htop, ?_, ?_, ?_, ?_, ?_⟩
  all_goals
    intro a ha
    by_cases har : a = p
  · subst har
    simp only [Function.update_same]
    exact (List.nodup_cons.1 hndl).2
  · simp only [hkne a har]; exact ht.kids_nodup a ha
  · subst har
    simpa only [Function.update_same] using hring
  · simp only [hkne a har]
    refine ring_congr ?_ ?_ (ht.kids_ring a ha)
    all_goals
      intro y hy
      have h2 : y ∉ l := fun hyl => har (ht.kids_unique ha hp hy (hlk y hyl))
      first
        | exact (hnp y h2).1
        | exact (hnp y h2).2
  · subst har
    simpa only [Function.update_same] using hhead
  · simp only [hkne a har, hchild a har]; exact ht.child a ha
  · subst har
    have h1 := ht.rank a ha
    have h2 := hl.length_eq
    simp only [List.length_cons] at h2
    simp only [Function.update_same, hrank, h1, ← h2]
    push_cast
    ring
  · simp only [hkne a har, hrank' a har]; exact ht.rank a ha
  · subst har
    simp only [Function.update_same]
    intro c hc
    obtain ⟨h1, h2, h3⟩ := ht.kids_sub a ha c (hlk c hc)
    exact ⟨h1, by rw [hpar c]; exact h2, h3⟩
  · simp only [hkne a har]
    intro c hc
    obtain ⟨h1, h2, h3⟩ := ht.kids_sub a ha c hc
    exact ⟨h1, by rw [hpar c]; exact h2, h3⟩


/-- Taking `x` out of the children of `p` leaves the heap in shape, with `x`
a detached tree root. -/
theorem detach_spec {m : Mem α} {h : Ptr} {g : Ghost} {F : List Nat} {p x : Nat}
    (hs : ShapeF m h g F) (hp : p ∈ g.nodes) (hx : x ∈ g.kids p) :
    ∃ m' l, detach m (some x) (some p) = some m' ∧ (x :: l).Perm (g.kids p) ∧
      ShapeF m' h { g with kids := Function.update g.kids p l } (x :: F) ∧
      m'.value = m.value ∧ m'.top = m.top ∧ m'.parent = m.parent ∧ m'.mark = m.mark ∧
      (∀ y, y ≠ p → m'.rank y = m.rank y ∧ m'.child y = m.child y) ∧
      (∀ y, y ∉ l → m'.next y = m.next y ∧ m'.prev y = m.prev y) := by
  obtain ⟨l, hperm, hring⟩ := ring_front (hs.kids_ring p hp) hx
  have hnd : (x :: l).Nodup := hperm.nodup_iff.2 (hs.kids_nodup p hp)
  have hlk : ∀ c ∈ l, c ∈ g.kids p := fun c hc => hperm.mem_iff.1 (List.mem_cons_of_mem _ hc)
  have hrank : m.rank p = (l.length : Int) + 1 := by
    rw [hs.rank p hp, ← hperm.length_eq]
    simp
  obtain ⟨hxn, -, -⟩ := hs.kids_sub p hp x hx
  have hxR : x ∉ g.roots ++ F := fun h => (hs.roots_sub x h).2 p hp hx
  -- the memory after the detachment
  have key : ∃ m', detach m (some x) (some p) = some m' ∧ Ring m' l ∧
      HeadIn (m'.child p) l ∧ m'.value = m.value ∧ m'.top = m.top ∧
      m'.parent = m.parent ∧ m'.mark = m.mark ∧ m'.rank p = m.rank p - 1 ∧
      (∀ y, y ≠ p → m'.rank y = m.rank y ∧ m'.child y = m.child y) ∧
      (∀ y, y ∉ l → m'.next y = m.next y ∧ m'.prev y = m.prev y) := by
    cases l with
    | nil =>
      refine ⟨_, detach_single (by simpa using hrank), trivial, ?_, rfl, rfl, rfl, rfl, ?_, ?_,
        fun _ _ => ⟨rfl, rfl⟩⟩
      · simp [HeadIn]
      · simp
      · intro y hy; simp [Function.update_apply, hy]
    | cons b l =>
      obtain ⟨hl, -⟩ := seg_cons.1 (show Seg m x (b :: l) x from hring)
      obtain ⟨-, hprev⟩ := ring_head hring
      have hlast : lastOf x (b :: l) = lastOf b l := rfl
      rw [hlast] at hprev
      have htx : lastOf b l ≠ x := fun e =>
        (List.nodup_cons.1 hnd).1 (e ▸ lastOf_mem b l)
      have hr0 : m.rank p - 1 ≠ 0 := by
        rw [hrank]
        simp only [List.length_cons]
        push_cast
        omega
      refine ⟨_, detach_many hr0 hl.1 hprev htx,
        (ring_unlink hring hnd).same rfl rfl, ?_, rfl, rfl,
        rfl, rfl, ?_, ?_, ?_⟩
      · simp [HeadIn]
      · simp
      · intro y hy; simp [Function.update_apply, hy]
      · intro y hy
        have h1 : y ≠ b := fun e => hy (by simp [e])
        have h2 : y ≠ lastOf b l := fun e => hy (e ▸ lastOf_mem b l)
        simp [Function.update_apply, h1, h2]
  obtain ⟨m', hdet, hring', hhead, hval, htop, hpar, hmark, hrk, hrc, hnp⟩ := key
  have hkids : ∀ q, ∀ c ∈ Function.update g.kids p l q, c ∈ g.kids q := by
    intro q c hc
    by_cases hq : q = p
    · subst hq
      simp only [Function.update_same] at hc
      exact hlk c hc
    · simpa only [Function.update_apply, hq, if_false] using hc
  refine ⟨m', l, hdet, hperm, ⟨⟨?_, ?_, ?_, ?_⟩, ?_, hs.head, ?_⟩, hval, htop, hpar, hmark,
    hrc, hnp⟩
  · exact hs.toTrees.detach hp hperm (le_of_eq htop.symm) hring' hhead hrk
      (fun y hy => (hrc y hy).1) (fun y hy => (hrc y hy).2) (fun y => by rw [hpar]) hnp
  · have : (g.roots ++ x :: F).Perm (x :: (g.roots ++ F)) := List.perm_middle
    exact this.nodup_iff.2 (List.nodup_cons.2 ⟨hxR, hs.roots_nodup⟩)
  · intro r hr
    have hr' : r = x ∨ r ∈ g.roots ++ F := by
      simp only [List.mem_append, List.mem_cons] at hr ⊢
      tauto
    rcases hr' with rfl | hr'
    · refine ⟨hxn, fun q hq hrq => ?_⟩
      by_cases hqp : q = p
      · subst hqp
        have : r ∈ l := by simpa only [Function.update_same] using hrq
        exact (List.nodup_cons.1 hnd).1 this
      · have : r ∈ g.kids q := hkids q r hrq
        exact hqp (hs.kids_unique hq hp this hx)
    · exact ⟨(hs.roots_sub r hr').1, fun q hq hrq => (hs.roots_sub r hr').2 q hq (hkids q r hrq)⟩
  · intro z hz
    rcases hs.cover z hz with h1 | ⟨q, hq, hzq⟩
    · left
      simp only [List.mem_append, List.mem_cons] at h1 ⊢
      tauto
    · by_cases hqp : q = p
      · subst hqp
        rcases List.mem_cons.1 (hperm.mem_iff.2 hzq) with rfl | h2
        · left; simp
        · right
          exact ⟨q, hq, by simpa only [Function.update_same] using h2⟩
      · right
        exact ⟨q, hq, by simpa only [Function.update_apply, hqp, if_false] using hzq⟩
  · refine ring_congr ?_ ?_ hs.ring
    all_goals
      intro y hy
      have : y ∉ l := fun hyl => (hs.roots_sub y (List.mem_append_left _ hy)).2 p hp (hlk y hyl)
      first
        | exact (hnp y this).1
        | exact (hnp y this).2
  · intro r hr
    rw [hpar]
    exact hs.root_parent r hr

theorem adopt_eq {m : Mem α} {a x t : Nat} (hp : m.prev a = some t) :
    adopt m (some a) (some x) = some { m with
      parent := Function.update m.parent x none
      next := Function.update (Function.update m.next t (some x)) x (some a)
      prev := Function.update (Function.update m.prev x (some t)) a (some x) } := by
  have hm := meld1_eq (m := ({ m with parent := Function.update m.parent x none } : Mem α))
    (l := a) (s := x) (t := t) hp
  simp only [adopt, stParent, Option.map, bind, Option.bind, hm]

/-- A detached tree root joins the root ring. -/
theorem adopt_spec {m : Mem α} {a : Nat} {g : Ghost} {F : List Nat} {x : Nat}
    (hs : ShapeF m (some a) g (x :: F)) :
    ∃ m' l, adopt m (some a) (some x) = some m' ∧ (a :: l).Perm g.roots ∧
      ShapeF m' (some a) { g with roots := a :: (l ++ [x]) } F ∧
      m'.value = m.value ∧ m'.top = m.top ∧ m'.child = m.child ∧ m'.rank = m.rank ∧
      m'.mark = m.mark ∧ m'.parent = Function.update m.parent x none ∧
      (∀ y, y ∉ g.roots → y ≠ x → m'.next y = m.next y ∧ m'.prev y = m.prev y) := by
  have ha : a ∈ g.roots := hs.head
  obtain ⟨l, hperm, hring⟩ := ring_front hs.ring ha
  have hndR := hs.roots_nodup
  have hnd : (a :: l).Nodup := hperm.nodup_iff.2 (List.nodup_append.1 hndR).1
  have hxr : x ∉ g.roots := fun h =>
    (List.nodup_append.1 hndR).2.2 h (List.mem_cons_self _ _)
  have hxl : x ∉ a :: l := fun h => hxr (hperm.mem_iff.1 h)
  obtain ⟨hxn, hxk⟩ := hs.roots_sub x (by simp)
  obtain ⟨-, hprev⟩ := ring_head hring
  have hlm : lastOf a l ∈ g.roots := hperm.mem_iff.1 (lastOf_mem a l)
  have hrk : ∀ r ∈ g.roots, ∀ q ∈ g.nodes, r ∉ g.kids q := fun r hr =>
    (hs.roots_sub r (List.mem_append_left _ hr)).2
  have hpR : ((a :: (l ++ [x])) ++ F).Perm (g.roots ++ x :: F) := by
    have h1 : ((a :: l) ++ x :: F).Perm (g.roots ++ x :: F) := hperm.append_right _
    simpa using h1
  refine ⟨_, l, adopt_eq hprev, hperm, ⟨?_, ?_, ?_, ?_⟩, rfl, rfl, rfl, rfl, rfl, rfl, ?_⟩
  · refine ((hs.toForest.perm hpR).roots_irrel_forest (a :: (l ++ [x]))).frame_forest le_rfl
      (fun _ _ => rfl) (fun _ _ => rfl) ?_
    intro q hq c hc
    have h1 : c ≠ x := fun e => hxk q hq (e ▸ hc)
    have h2 : c ≠ a := fun e => hrk a ha q hq (e ▸ hc)
    have h3 : c ≠ lastOf a l := fun e => hrk _ hlm q hq (e ▸ hc)
    simp [Function.update_apply, h1, h2, h3]
  · exact (ring_meld1 hring hnd hxl).same rfl rfl
  · show a ∈ a :: (l ++ [x])
    simp
  · intro r hr
    have hr' : r = x ∨ r ∈ a :: l := by
      have : r ∈ a :: (l ++ [x]) := hr
      simp only [List.mem_cons, List.mem_append, List.mem_singleton] at this ⊢
      tauto
    rcases hr' with rfl | hr'
    · simp
    · have hrx : r ≠ x := fun e => hxl (e ▸ hr')
      simp [Function.update_apply, hrx, hs.root_parent r (hperm.mem_iff.1 hr')]
  · intro y hy hyx
    have h2 : y ≠ a := fun e => hy (e ▸ ha)
    have h3 : y ≠ lastOf a l := fun e => hy (e ▸ hlm)
    simp [Function.update_apply, hyx, h2, h3]

theorem CutRel.trans_cut {m m₁ m₂ : Mem α} {g g₁ g₂ : Ghost} {x x' : Nat}
    (h₁ : CutRel m g x m₁ g₁) (h₂ : CutRel m₁ g₁ x' m₂ g₂) (hx : g.height x ≤ g.height x') :
    CutRel m g x m₂ g₂ := by
  refine ⟨h₂.nodes.trans h₁.nodes, h₂.height.trans h₁.height, h₂.value.trans h₁.value,
    h₂.top.trans h₁.top, fun q c hc => h₁.kids_sub q c (h₂.kids_sub q c hc), ?_,
    fun r hr => h₂.roots r (h₁.roots r hr), ?_⟩
  · intro y hy
    rw [h₂.kids_low y (by rw [h₁.height]; exact le_trans hy hx), h₁.kids_low y hy]
  · intro y hy
    exact (h₁.same y hy).trans (h₂.same y (by rw [h₁.nodes]; exact hy))

theorem CutRel.trans_same {m m₁ m₂ : Mem α} {g g₁ g₂ : Ghost} {x : Nat}
    (h₁ : CutRel m g x m₁ g₁) (h₂ : CutRel m₁ g₁ x m₂ g₂) : CutRel m g x m₂ g₂ :=
  h₁.trans_cut h₂ le_rfl

theorem cutAux_cut_eq {m : Mem α} {h : Ptr} {x p : Nat} (fuel : Nat)
    (hp : m.parent x = some p) :
    cutAux (fuel + 1) false m h (some x) =
      (detach m (some x) (some p)).bind fun m' =>
        if m'.parent p = none then some m'
        else if (!(m'.mark p)) = true then stMark m' (some p) true
        else cutAux fuel true m' h (some p) := by
  simp only [cutAux, detach, ld, Option.map, hp, bind, Option.bind, stRank, pure]

theorem cutAux_meld_eq {m : Mem α} {h : Ptr} {x : Nat} (fuel : Nat) :
    cutAux (fuel + 1) true m h (some x) =
      (cutAux fuel false m h (some x)).bind fun m' => adopt m' h (some x) := by
  simp only [cutAux, adopt, bind, Option.bind]


theorem Ghost.bound_kids (g : Ghost) (k : Nat → List Nat) :
    ({ g with kids := k } : Ghost).bound = g.bound := rfl

/-- The shape of a heap does not read the marks. -/
theorem ShapeF.set_mark {m : Mem α} {h : Ptr} {g : Ghost} {F : List Nat}
    (hs : ShapeF m h g F) (mk : Nat → Bool) : ShapeF ({ m with mark := mk } : Mem α) h g F :=
  ⟨hs.toForest.frame_forest le_rfl (fun _ _ => rfl) (fun _ _ => rfl) (fun _ _ _ _ => ⟨rfl, rfl, rfl⟩),
    hs.ring.same rfl rfl, hs.head, hs.root_parent⟩

/-- `cut` (flag `false`) detaches `x` and promotes the marked ancestors above
it; `cutAndMeld` (flag `true`) moreover makes `x` a root.  Both terminate. -/
theorem cutAux_spec (fuel : Nat) : ∀ (b : Bool) (m : Mem α) (g : Ghost) (F : List Nat)
    (x p a : Nat), ShapeF m (some a) g F → p ∈ g.nodes → x ∈ g.kids p →
    (∀ f ∈ F, g.height f < g.height x) →
    2 * (g.bound - g.height x) + (if b = true then 2 else 1) ≤ fuel →
    ∃ m' g', cutAux fuel b m (some a) (some x) = some m' ∧
      ShapeF m' (some a) g' (if b = true then F else x :: F) ∧
      (b = true → x ∈ g'.roots) ∧ CutRel m g x m' g' := by
  induction fuel with
  | zero =>
    intro b m g F x p a _ _ _ _ hfuel
    cases b <;> simp at hfuel
  | succ fuel ih =>
    intro b m g F x p a hs hp hx hF hfuel
    obtain ⟨hxn, hxp, hxh⟩ := hs.kids_sub p hp x hx
    have hpb := g.height_le_bound hp
    cases b with
    | false =>
      simp only [Bool.false_eq_true, if_false] at hfuel ⊢
      rw [cutAux_cut_eq fuel hxp]
      obtain ⟨m₁, l, hdet, hperm, hs₁, hval, htop, hpar, hmark, hrc, hnp⟩ :=
        detach_spec hs hp hx
      have hlk : ∀ c ∈ l, c ∈ g.kids p := fun c hc =>
        hperm.mem_iff.1 (List.mem_cons_of_mem _ hc)
      have hrel₁ : CutRel m g x m₁ { g with kids := Function.update g.kids p l } := by
        refine ⟨rfl, rfl, hval, htop, ?_, ?_, fun _ h => h, ?_⟩
        · intro q c hc
          have hc' : c ∈ Function.update g.kids p l q := hc
          by_cases hq : q = p
          · subst hq
            simp only [Function.update_same] at hc'
            exact hlk c hc'
          · simpa only [Function.update_apply, hq, if_false] using hc'
        · intro y hy
          have : y ≠ p := fun e => by
            subst e
            omega
          show Function.update g.kids p l y = g.kids y
          simp [Function.update_apply, this]
        · intro y hy
          have h1 : y ≠ p := fun e => hy (e ▸ hp)
          have h2 : y ∉ l := fun h => hy (hs.kids_sub p hp y (hlk y h)).1
          exact ⟨by rw [hval], by rw [hpar], (hrc y h1).2, (hnp y h2).2, (hnp y h2).1,
            (hrc y h1).1, by rw [hmark]⟩
      rw [hdet]
      simp only [Option.bind]
      by_cases hpp : m₁.parent p = none
      · simp only [hpp, if_true]
        exact ⟨m₁, _, rfl, hs₁, by simp, hrel₁⟩
      · simp only [hpp, if_false]
        by_cases hpm : (!(m₁.mark p)) = true
        · simp only [hpm, if_true, stMark, Option.map]
          refine ⟨_, _, rfl, hs₁.set_mark _, by simp, ?_⟩
          refine hrel₁.trans_same ⟨rfl, rfl, rfl, rfl, fun _ _ h => h, fun _ _ => rfl,
            fun _ h => h, ?_⟩
          intro y hy
          have h1 : y ≠ p := fun e => hy (e ▸ hp)
          refine ⟨rfl, rfl, rfl, rfl, rfl, rfl, ?_⟩
          simp [Function.update_apply, h1]
        · simp only [hpm, if_false]
          -- the cascade: `p` is itself a child
          have hpq : ∃ q ∈ g.nodes, p ∈ Function.update g.kids p l q := by
            rcases hs₁.cover p hp with h1 | h1
            · exfalso
              have h1' : p ∈ g.roots ++ x :: F := h1
              simp only [List.mem_append, List.mem_cons] at h1'
              rcases h1' with h2 | h2 | h2
              · exact hpp (hs₁.root_parent p h2)
              · rw [h2] at hxh
                exact lt_irrefl _ hxh
              · have := hF p h2
                omega
            · exact h1
          obtain ⟨q, hq, hpq⟩ := hpq
          obtain ⟨m', g', hres, hs', hroot, hrel'⟩ := ih true m₁
            { g with kids := Function.update g.kids p l } (x :: F) p q a hs₁ hq hpq
            (by
              intro f hf
              show g.height f < g.height p
              rcases List.mem_cons.1 hf with rfl | hf'
              · exact hxh
              · exact lt_trans (hF f hf') hxh)
            (by
              show 2 * (g.bound - g.height p) + (if true = true then 2 else 1) ≤ fuel
              simp only [if_true]
              omega)
          simp only [if_true] at hs'
          exact ⟨m', g', hres, hs', by simp, hrel₁.trans_cut hrel' (le_of_lt hxh)⟩
    | true =>
      simp only [if_true] at hfuel ⊢
      rw [cutAux_meld_eq fuel]
      obtain ⟨m₁, g₁, hres₁, hs₁, -, hrel₁⟩ := ih false m g F x p a hs hp hx hF
        (by simp only [Bool.false_eq_true, if_false]; omega)
      simp only [Bool.false_eq_true, if_false] at hs₁
      obtain ⟨m₂, l, hadopt, hperm, hs₂, hval, htop, hchild, hrank, hmark, hpar, hnp⟩ :=
        adopt_spec hs₁
      rw [hres₁]
      simp only [Option.bind]
      refine ⟨m₂, _, hadopt, hs₂, fun _ => ?_, hrel₁.trans_same ⟨rfl, rfl, hval, htop,
        fun _ _ h => h, fun _ _ => rfl, ?_, ?_⟩⟩
      · show x ∈ a :: (l ++ [x])
        simp
      · intro r hr
        have := hperm.mem_iff.2 hr
        show r ∈ a :: (l ++ [x])
        simp only [List.mem_cons, List.mem_append] at this ⊢
        tauto
      · intro y hy
        have hxn₁ : x ∈ g₁.nodes := (hs₁.roots_sub x (by simp)).1
        have h1 : y ≠ x := fun e => hy (e ▸ hxn₁)
        have h2 : y ∉ g₁.roots := fun h => hy (hs₁.roots_sub y (List.mem_append_left _ h)).1
        refine ⟨by rw [hval], ?_, by rw [hchild], (hnp y h2 h1).2, (hnp y h2 h1).1,
          by rw [hrank], by rw [hmark]⟩
        rw [hpar]
        simp [Function.update_apply, h1]
/-! ## The cascade of cuts -/

theorem Cascade.congr_fields {m m' : Mem α} {x : Nat} {C : List Nat} {s : Nat}
    (h : Cascade m x C s) (hp : m'.parent = m.parent) (hm : m'.mark = m.mark) :
    Cascade m' x C s := by
  induction h with
  | stop h1 h2 => exact Cascade.stop (by rw [hp]; exact h1) (by rw [hp, hm]; exact h2)
  | step h1 h2 h3 _ ih =>
    exact Cascade.step (by rw [hp]; exact h1) (by rw [hp]; exact h2) (by rw [hm]; exact h3) ih

theorem cutAuxT_cut_eq {m : Mem α} {h : Ptr} {x p : Nat} (fuel : Nat)
    (hp : m.parent x = some p) :
    cutAuxT (fuel + 1) false m h (some x) =
      (detach m (some x) (some p)).bind fun m' =>
        if m'.parent p = none then some 1
        else if (!(m'.mark p)) = true then some 1
        else (cutAuxT fuel true m' h (some p)).bind fun c => some (c + 1) := by
  simp only [cutAuxT, ld, Option.map, hp, bind, Option.bind, pure]

theorem cutAuxT_meld_eq {m : Mem α} {h : Ptr} {x : Nat} (fuel : Nat) :
    cutAuxT (fuel + 1) true m h (some x) =
      (cutAuxT fuel false m h (some x)).bind fun c => some (c + 1) := by
  simp only [cutAuxT, bind, Option.bind, pure]

/-- The fields that `cut` and `cutAndMeld` write besides the ring links: the
marked ancestors `C` above `x` (and `x` itself, for `cutAndMeld`) get a nil
parent; the nodes of `C` and the first ancestor `s` above them lose one from
their rank; and `s` is marked if it has a parent.  The calls made are two
for each node of `C`, and one or two for `x`. -/
theorem cutAux_cascade (fuel : Nat) : ∀ (b : Bool) (m : Mem α) (g : Ghost) (F : List Nat)
    (x p a : Nat), ShapeF m (some a) g F → p ∈ g.nodes → x ∈ g.kids p →
    (∀ f ∈ F, g.height f < g.height x) →
    2 * (g.bound - g.height x) + (if b = true then 2 else 1) ≤ fuel →
    ∃ m' C s, cutAux fuel b m (some a) (some x) = some m' ∧ Cascade m x C s ∧
      (∀ y ∈ s :: C, g.height x < g.height y) ∧
      m'.parent = (fun y => if y ∈ C ∨ (b = true ∧ y = x) then none else m.parent y) ∧
      m'.rank = (fun y => if y ∈ s :: C then m.rank y - 1 else m.rank y) ∧
      m'.mark = (fun y => if y = s ∧ m.parent s ≠ none then true else m.mark y) ∧
      cutAuxT fuel b m (some a) (some x) = some (2 * C.length + (if b = true then 2 else 1)) := by
  induction fuel with
  | zero =>
    intro b m g F x p a _ _ _ _ hfuel
    cases b <;> simp at hfuel
  | succ fuel ih =>
    intro b m g F x p a hs hp hx hF hfuel
    obtain ⟨hxn, hxp, hxh⟩ := hs.kids_sub p hp x hx
    have hpb := g.height_le_bound hp
    cases b with
    | false =>
      simp only [Bool.false_eq_true, if_false] at hfuel ⊢
      rw [cutAux_cut_eq fuel hxp, cutAuxT_cut_eq fuel hxp]
      obtain ⟨m₁, l, hdet, hperm, hs₁, -, -, hpar, hmark, hrc, -⟩ := detach_spec hs hp hx
      have hrp : m₁.rank p = m.rank p - 1 := by
        have h1 := hs.rank p hp
        have h2 : m₁.rank p = ((Function.update g.kids p l p).length : Int) := hs₁.rank p hp
        rw [Function.update_same] at h2
        have h3 := hperm.length_eq
        simp only [List.length_cons] at h3
        rw [h1, h2, ← h3]
        simp
      have hrank₁ : m₁.rank = fun y => if y ∈ [p] then m.rank y - 1 else m.rank y := by
        funext y
        by_cases hy : y = p
        · subst hy; simp [hrp]
        · simp [hy, (hrc y hy).1]
      rw [hdet]
      simp only [Option.bind]
      by_cases hpp : m₁.parent p = none
      · simp only [hpp, if_true]
        have hpp' : m.parent p = none := by rw [← hpar]; exact hpp
        refine ⟨m₁, [], p, rfl, Cascade.stop hxp (Or.inl hpp'), ?_, ?_, hrank₁, ?_, rfl⟩
        · intro y hy
          simp only [List.mem_singleton] at hy
          subst hy
          exact hxh
        · funext y; simp [hpar]
        · funext y
          by_cases hy : y = p
          · subst hy; simp [hpp', hmark]
          · simp [hy, hmark]
      · simp only [hpp, if_false]
        have hpp' : m.parent p ≠ none := by rw [← hpar]; exact hpp
        by_cases hpm : (!(m₁.mark p)) = true
        · simp only [hpm, if_true, stMark, Option.map]
          have hpm' : m.mark p = false := by
            rw [← hmark]
            simpa using hpm
          refine ⟨_, [], p, rfl, Cascade.stop hxp (Or.inr hpm'), ?_, ?_, hrank₁, ?_, rfl⟩
          · intro y hy
            simp only [List.mem_singleton] at hy
            subst hy
            exact hxh
          · funext y; simp [hpar]
          · funext y
            by_cases hy : y = p
            · subst hy; simp [hpp']
            · simp [hy, hmark, Function.update_apply]
        · simp only [hpm, if_false]
          have hpm' : m.mark p = true := by
            rw [← hmark]
            simpa using hpm
          have hpq : ∃ q ∈ g.nodes, p ∈ Function.update g.kids p l q := by
            rcases hs₁.cover p hp with h1 | h1
            · exfalso
              have h1' : p ∈ g.roots ++ x :: F := h1
              simp only [List.mem_append, List.mem_cons] at h1'
              rcases h1' with h2 | h2 | h2
              · exact hpp (hs₁.root_parent p h2)
              · rw [h2] at hxh
                exact lt_irrefl _ hxh
              · have := hF p h2
                omega
            · exact h1
          obtain ⟨q, hq, hpq⟩ := hpq
          obtain ⟨m', C, s, hres, hcas, hht, e1, e2, e3, hT⟩ := ih true m₁
            { g with kids := Function.update g.kids p l } (x :: F) p q a hs₁ hq hpq
            (by
              intro f hf
              show g.height f < g.height p
              rcases List.mem_cons.1 hf with rfl | hf'
              · exact hxh
              · exact lt_trans (hF f hf') hxh)
            (by
              show 2 * (g.bound - g.height p) + (if true = true then 2 else 1) ≤ fuel
              simp only [if_true]
              omega)
          have hht' : ∀ y ∈ s :: C, g.height p < g.height y := hht
          have hpsC : p ∉ s :: C := fun h => lt_irrefl _ (hht' p h)
          refine ⟨m', p :: C, s, hres, Cascade.step hxp hpp' hpm' (hcas.congr_fields hpar.symm
            hmark.symm), ?_, ?_, ?_, ?_, ?_⟩
          · intro y hy
            rcases List.mem_cons.1 hy with rfl | hy'
            · exact lt_trans hxh (hht' y (List.mem_cons_self _ _))
            · rcases List.mem_cons.1 hy' with rfl | hy''
              · exact hxh
              · exact lt_trans hxh (hht' y (List.mem_cons_of_mem _ hy''))
          · rw [e1, hpar]
            funext y
            by_cases h1 : y ∈ C
            · simp [h1]
            · by_cases h2 : y = p
              · simp [h2]
              · simp [h1, h2]
          · rw [e2, hrank₁]
            funext y
            by_cases h1 : y ∈ s :: C
            · have h2 : y ≠ p := fun e => hpsC (e ▸ h1)
              have h3 : y ∈ s :: p :: C := by
                simp only [List.mem_cons] at h1 ⊢
                tauto
              simp [h1, h2, h3]
            · by_cases h2 : y = p
              · subst h2
                simp [h1]
              · have h3 : y ∉ s :: p :: C := by
                  simp only [List.mem_cons] at h1 ⊢
                  tauto
                simp [h1, h2, h3]
          · rw [e3, hpar, hmark]
          · simp only [if_true] at hT
            rw [hT]
            simp only [Bool.false_eq_true, if_false, Option.some_bind, List.length_cons,
              Option.some.injEq]
            omega
    | true =>
      simp only [if_true] at hfuel ⊢
      rw [cutAux_meld_eq fuel, cutAuxT_meld_eq fuel]
      obtain ⟨m₁, C, s, hres₁, hcas, hht, e1, e2, e3, hT⟩ := ih false m g F x p a hs hp hx hF
        (by simp only [Bool.false_eq_true, if_false]; omega)
      obtain ⟨m₁', g₁, hres₁', hs₁, -, -⟩ := cutAux_spec fuel false m g F x p a hs hp hx hF
        (by simp only [Bool.false_eq_true, if_false]; omega)
      rw [hres₁] at hres₁'
      obtain rfl := Option.some.inj hres₁'
      simp only [Bool.false_eq_true, if_false] at hs₁
      obtain ⟨m₂, l, hadopt, -, -, -, -, -, hrank, hmark, hpar, -⟩ := adopt_spec hs₁
      rw [hres₁]
      simp only [Option.bind]
      simp only [Bool.false_eq_true, if_false] at hT
      refine ⟨m₂, C, s, hadopt, hcas, hht, ?_, by rw [hrank, e2], by rw [hmark, e3], ?_⟩
      rotate_left
      · rw [hT]
      rw [hpar, e1]
      funext y
      by_cases h1 : y = x
      · subst h1; simp
      · simp [h1, Function.update_apply]


/-! ## Melding two rings, removing a root -/

theorem meld2_eq {m : Mem α} {a b ta tb : Nat} (ha : m.prev a = some ta)
    (hb : m.prev b = some tb) :
    meld2 m (some a) (some b) = some { m with
      next := Function.update (Function.update m.next ta (some b)) tb (some a)
      prev := Function.update (Function.update m.prev a (some tb)) b (some ta) } := by
  simp [meld2, ld, stNext, stPrev, ha, hb, bind, Option.bind]

theorem ring_meld2 {m : Mem α} {a b : Nat} {la lb : List Nat} (hra : Ring m (a :: la))
    (hrb : Ring m (b :: lb)) (hnd : ((a :: la) ++ (b :: lb)).Nodup) :
    Ring ({ m with
      next := Function.update (Function.update m.next (lastOf a la) (some b))
        (lastOf b lb) (some a)
      prev := Function.update (Function.update m.prev a (some (lastOf b lb))) b
        (some (lastOf a la)) } : Mem α) (a :: (la ++ b :: lb)) := by
  obtain ⟨hnda, hndb, hdis⟩ := List.nodup_append.1 hnd
  have hta := lastOf_mem a la
  have htb := lastOf_mem b lb
  have hab : ∀ x ∈ a :: la, ∀ y ∈ b :: lb, x ≠ y := fun x hx y hy e => hdis hx (e ▸ hy)
  show Seg _ a (la ++ b :: lb) a
  rw [seg_append]
  constructor
  · refine seg_retarget hnda hra ?_ ?_ ?_ ?_
    · intro x hx hne
      have := hab x hx _ htb
      simp [Function.update_apply, this, hne]
    · intro y hy
      have h1 : y ≠ a := fun e => (List.nodup_cons.1 hnda).1 (e ▸ hy)
      have h2 := hab y (List.mem_cons_of_mem _ hy) b (List.mem_cons_self _ _)
      simp [Function.update_apply, h1, h2]
    · have := hab _ hta _ htb
      simp [Function.update_apply, this]
    · simp
  · refine seg_retarget hndb hrb ?_ ?_ ?_ ?_
    · intro x hx hne
      have := hab _ hta x hx
      simp [Function.update_apply, Ne.symm this, hne]
    · intro y hy
      have h1 : y ≠ b := fun e => (List.nodup_cons.1 hndb).1 (e ▸ hy)
      have h2 := hab a (List.mem_cons_self _ _) y (List.mem_cons_of_mem _ hy)
      simp [Function.update_apply, h1, Ne.symm h2]
    · simp
    · have := hab a (List.mem_cons_self _ _) b (List.mem_cons_self _ _)
      simp [Function.update_apply, this]

/-- Removing a tree root from a forest: its children become tree roots. -/
theorem Forest.remove_root {m : Mem α} {g : Ghost} {n : Nat} {R K : List Nat}
    (hf : Forest m g (n :: R)) (hK : K.Perm (g.kids n)) :
    Forest m { g with nodes := g.nodes.erase n } (R ++ K) := by
  have hnd := hf.roots_nodup
  obtain ⟨hnn, hnk⟩ := hf.roots_sub n (List.mem_cons_self _ _)
  have hmem : ∀ y, y ∈ g.nodes.erase n ↔ y ≠ n ∧ y ∈ g.nodes := fun y =>
    hf.nodup.mem_erase_iff
  have hKn : ∀ c ∈ K, c ∈ g.nodes ∧ c ≠ n := by
    intro c hc
    have hck := hK.mem_iff.1 hc
    exact ⟨(hf.kids_sub n hnn c hck).1, fun e => hnk n hnn (e ▸ hck)⟩
  refine ⟨⟨hf.nodup.erase n, ?_, ?_, ?_, ?_, ?_, ?_⟩, ?_, ?_, ?_⟩
  · intro y hy; exact hf.alloc y ((hmem y).1 hy).2
  · intro y hy; exact hf.kids_nodup y ((hmem y).1 hy).2
  · intro y hy; exact hf.kids_ring y ((hmem y).1 hy).2
  · intro y hy; exact hf.child y ((hmem y).1 hy).2
  · intro y hy; exact hf.rank y ((hmem y).1 hy).2
  · intro y hy c hc
    have hyn := ((hmem y).1 hy).2
    obtain ⟨h1, h2, h3⟩ := hf.kids_sub y hyn c hc
    exact ⟨(hmem c).2 ⟨fun e => hnk y hyn (e ▸ hc), h1⟩, h2, h3⟩
  · refine List.Nodup.append (List.nodup_cons.1 hnd).2 (hK.nodup_iff.2 (hf.kids_nodup n hnn)) ?_
    intro y hy hyK
    exact (hf.roots_sub y (List.mem_cons_of_mem _ hy)).2 n hnn (hK.mem_iff.1 hyK)
  · intro y hy
    rcases List.mem_append.1 hy with hy | hy
    · have hya : y ≠ n := fun e => (List.nodup_cons.1 hnd).1 (e ▸ hy)
      obtain ⟨h1, h2⟩ := hf.roots_sub y (List.mem_cons_of_mem _ hy)
      exact ⟨(hmem y).2 ⟨hya, h1⟩, fun q hq => h2 q ((hmem q).1 hq).2⟩
    · obtain ⟨h1, h2⟩ := hKn y hy
      refine ⟨(hmem y).2 ⟨h2, h1⟩, fun q hq hyq => ?_⟩
      have hq' := (hmem q).1 hq
      exact hq'.1 (hf.kids_unique hq'.2 hnn hyq (hK.mem_iff.1 hy))
  · intro y hy
    obtain ⟨hya, hyn⟩ := (hmem y).1 hy
    rcases hf.cover y hyn with h1 | ⟨p, hp, hyp⟩
    · rcases List.mem_cons.1 h1 with h2 | h2
      · exact absurd h2 hya
      · left; exact List.mem_append_left _ h2
    · by_cases hpa : p = n
      · subst hpa
        left; exact List.mem_append_right _ (hK.mem_iff.2 hyp)
      · right
        exact ⟨p, (hmem p).2 ⟨hpa, hp⟩, hyp⟩

/-- The loop of `Delete` over the children of `n` clears the parent of each
and comes back to the first. -/
theorem orphanLoop_spec (n c₀ : Nat) : ∀ (P : List Nat) (k cur nx : Nat) (m : Mem α),
    m.next cur = some nx → NextPath m nx P c₀ → c₀ ∉ P → m.child n = some c₀ → P.length < k →
    orphanLoop (some n) k m (some cur) = some ({ m with
      parent := fun y => if y ∈ cur :: P then none else m.parent y }, some c₀) := by
  intro P
  induction P with
  | nil =>
    intro k cur nx m hn hp _ hc hk
    obtain ⟨k, rfl⟩ : ∃ k', k = k' + 1 := ⟨k - 1, by omega⟩
    have : nx = c₀ := hp
    subst this
    have hpar : Function.update m.parent cur none =
        fun y => if y ∈ [cur] then none else m.parent y := by
      funext y
      simp [Function.update_apply]
    simp [orphanLoop, stParent, ld, hn, hc, bind, Option.bind, hpar]
  | cons r P ih =>
    intro k cur nx m hn hp hc₀ hc hk
    obtain ⟨k, rfl⟩ : ∃ k', k = k' + 1 := ⟨k - 1, by omega⟩
    obtain ⟨rfl, n', hn', hp'⟩ := hp
    have hne : nx ≠ c₀ := fun e => hc₀ (e ▸ List.mem_cons_self _ _)
    have := ih k nx n' ({ m with parent := Function.update m.parent cur none } : Mem α) hn'
      (hp'.congr (fun _ _ => rfl)) (fun h => hc₀ (List.mem_cons_of_mem _ h)) hc
      (by simp only [List.length_cons] at hk; omega)
    have hpar : (fun y => if y ∈ nx :: P then none else Function.update m.parent cur none y) =
        fun y => if y ∈ cur :: nx :: P then none else m.parent y := by
      funext y
      by_cases h1 : y = cur
      · subst h1; simp
      · simp [Function.update_apply, h1]
    simp only [hpar] at this
    simp only [orphanLoop, stParent, ld, Option.map, hn, hc, bind, Option.bind]
    rw [if_neg (by simpa using hne)]
    exact this

/-- The loop of `Delete` over the children of `n` makes one iteration for
each child. -/
theorem orphanLoopT_spec (n c₀ : Nat) : ∀ (P : List Nat) (k cur nx : Nat) (m : Mem α),
    m.next cur = some nx → NextPath m nx P c₀ → c₀ ∉ P → m.child n = some c₀ → P.length < k →
    orphanLoopT (some n) k m (some cur) = some (P.length + 1) := by
  intro P
  induction P with
  | nil =>
    intro k cur nx m hn hp _ hc hk
    obtain ⟨k, rfl⟩ : ∃ k', k = k' + 1 := ⟨k - 1, by omega⟩
    have : nx = c₀ := hp
    subst this
    simp [orphanLoopT, stParent, ld, hn, hc, bind, Option.bind]
  | cons r P ih =>
    intro k cur nx m hn hp hc₀ hc hk
    obtain ⟨k, rfl⟩ : ∃ k', k = k' + 1 := ⟨k - 1, by omega⟩
    obtain ⟨rfl, n', hn', hp'⟩ := hp
    have hne : nx ≠ c₀ := fun e => hc₀ (e ▸ List.mem_cons_self _ _)
    have := ih k nx n' ({ m with parent := Function.update m.parent cur none } : Mem α) hn'
      (hp'.congr (fun _ _ => rfl)) (fun h => hc₀ (List.mem_cons_of_mem _ h)) hc
      (by simp only [List.length_cons] at hk; omega)
    simp only [orphanLoopT, stParent, ld, Option.map, hn, hc, bind, Option.bind]
    rw [if_neg (by simpa using hne)]
    simp only [this, Option.some_bind, pure, List.length_cons]

/-! ## DecreaseKey -/

/-- The shape of a heap does not read the values. -/
theorem ShapeF.set_value {m : Mem α} {h : Ptr} {g : Ghost} {F : List Nat}
    (hs : ShapeF m h g F) (vl : Nat → α) : ShapeF ({ m with value := vl } : Mem α) h g F :=
  ⟨hs.toForest.frame_forest le_rfl (fun _ _ => rfl) (fun _ _ => rfl) (fun _ _ _ _ => ⟨rfl, rfl, rfl⟩),
    hs.ring.same rfl rfl, hs.head, hs.root_parent⟩

/-- A node of a heap in shape is a root exactly when its parent is nil. -/
theorem ShapeF.root_or_kid {m : Mem α} {h : Ptr} {g : Ghost} (hs : ShapeF m h g []) {n : Nat}
    (hn : n ∈ g.nodes) :
    (n ∈ g.roots ∧ m.parent n = none) ∨ ∃ p ∈ g.nodes, n ∈ g.kids p ∧ m.parent n = some p := by
  rcases hs.cover n hn with h1 | ⟨p, hp, hnp⟩
  · left
    simp only [List.append_nil] at h1
    exact ⟨h1, hs.root_parent n h1⟩
  · right
    exact ⟨p, hp, hnp, (hs.kids_sub p hp n hnp).2.1⟩

section DecreaseKeySpec

variable [LinearOrder α]

theorem decreaseKey_root_eq (fuel : Nat) (m : Mem α) (a n : Nat) (v : α)
    (hp : m.parent n = none) (hv : ¬ m.value n < v) :
    DecreaseKey fuel m (some a) (some n) v =
      some ({ m with value := Function.update m.value n v },
        (if n = a then some a else if v < m.value a then some n else some a), none) := by
  by_cases hna : n = a
  · subst hna
    simp [DecreaseKey, ld, stValue, hv, bind, Option.bind]
  · have hne : a ≠ n := fun e => hna e.symm
    by_cases hlt : v < m.value a <;>
    simp [DecreaseKey, ld, stValue, hv, hp, hna, hne, hlt, bind, Option.bind, Function.update_apply]

theorem decreaseKey_error (fuel : Nat) (m : Mem α) (h : Ptr) (n : Nat) (v : α)
    (hv : m.value n < v) :
    DecreaseKey fuel m h (some n) v = some (m, h, some Err.orderViolation) := by
  simp [DecreaseKey, ld, hv, bind, Option.bind]

theorem decreaseKey_cut_eq (fuel : Nat) (m : Mem α) (a n p : Nat) (v : α)
    (hv : ¬ m.value n < v) (hna : n ≠ a) (hp : m.parent n = some p) :
    DecreaseKey fuel m (some a) (some n) v =
      (cutAux fuel true ({ m with value := Function.update m.value n v } : Mem α) (some a)
        (some n)).bind fun m' => some (m', some a, none) := by
  simp [DecreaseKey, ld, stValue, hv, hna, hp, cutAndMeld, bind, Option.bind]

/-- A `DecreaseKey` that respects the order stores the value, keeps the nodes
and the shape of the heap, and keeps heap order. -/
theorem decreaseKey_spec (fuel : Nat) (m : Mem α) (a : Nat) (g : Ghost) (n : Nat) (v : α)
    (hs : Shape m (some a) g) (hn : n ∈ g.nodes) (hv : ¬ m.value n < v)
    (hfuel : 2 * g.bound + 2 ≤ fuel) :
    ∃ m' h' g', DecreaseKey fuel m (some a) (some n) v = some (m', h', none) ∧
      Shape m' h' g' ∧ g'.nodes = g.nodes ∧ m'.value = Function.update m.value n v ∧
      m'.top = m.top ∧ (Ordered m g → Ordered m' g') ∧ (∀ y, y ∉ g.nodes → Same m m' y) ∧
      (m.parent n ≠ none → h' = some a ∧ n ∈ g'.roots) := by
  have hle : ∀ c, ¬ m.value c < m.value n → ¬ m.value c < v := fun c hc hlt =>
    hc (lt_of_lt_of_le hlt (not_lt.1 hv))
  rcases hs.root_or_kid hn with ⟨hroot, hpar⟩ | ⟨p, hp, hnp, hpar⟩
  · -- a root: only the value changes
    have ha : a ∈ g.roots := hs.head
    refine ⟨_, _, g, decreaseKey_root_eq fuel m a n v hpar hv, ?_, rfl, rfl, rfl, ?_, ?_, ?_⟩
    · refine ⟨(hs.set_value _).toForest, (hs.set_value (h := some a) _).ring, ?_,
        (hs.set_value (h := some a) _).root_parent⟩
      split
      · exact ha
      · split
        · exact hroot
        · exact ha
    · intro ho q hq c hc
      have hcn : c ≠ n := fun e => (hs.roots_sub n (by simpa using hroot)).2 q hq (e ▸ hc)
      show ¬ Function.update m.value n v c < Function.update m.value n v q
      by_cases hqn : q = n
      · subst hqn
        simp only [Function.update_apply, hcn, if_false, if_true]
        exact hle c (ho q hq c hc)
      · simp only [Function.update_apply, hcn, hqn, if_false]
        exact ho q hq c hc
    · intro y hy
      have : y ≠ n := fun e => hy (e ▸ hn)
      refine ⟨?_, rfl, rfl, rfl, rfl, rfl, rfl⟩
      simp [Function.update_apply, this]
    · intro h; exact absurd hpar h
  · -- a child: cut and meld
    have ha : a ∈ g.roots := hs.head
    have hna : n ≠ a := by
      rintro rfl
      exact (hs.roots_sub n (by simpa using ha)).2 p hp hnp
    rw [decreaseKey_cut_eq fuel m a n p v hv hna hpar]
    have hs₀ : ShapeF ({ m with value := Function.update m.value n v } : Mem α) (some a) g [] :=
      hs.set_value _
    obtain ⟨m', g', hres, hs', hroot, hrel⟩ := cutAux_spec fuel true _ g [] n p a hs₀ hp hnp
      (by simp) (by simp only [if_true]; omega)
    simp only [if_true] at hs'
    have hnr := hroot rfl
    rw [hres]
    refine ⟨m', some a, g', rfl, hs', hrel.nodes, hrel.value, hrel.top, ?_, ?_,
      fun _ => ⟨rfl, hnr⟩⟩
    · intro ho q hq c hc
      have hq' : q ∈ g.nodes := by rw [← hrel.nodes]; exact hq
      have hck := hrel.kids_sub q c hc
      have hcn : c ≠ n := by
        rintro rfl
        exact (hs'.roots_sub c (by simpa using hnr)).2 q hq hc
      rw [hrel.value]
      show ¬ Function.update m.value n v c < Function.update m.value n v q
      by_cases hqn : q = n
      · subst hqn
        simp only [Function.update_apply, hcn, if_false, if_true]
        exact hle c (ho q hq' c hck)
      · simp only [Function.update_apply, hcn, hqn, if_false]
        exact ho q hq' c hck
    · intro y hy
      have hyn : y ≠ n := fun e => hy (e ▸ hn)
      have h0 : Same m ({ m with value := Function.update m.value n v } : Mem α) y := by
        refine ⟨?_, rfl, rfl, rfl, rfl, rfl, rfl⟩
        simp [Function.update_apply, hyn]
      exact h0.trans (hrel.same y hy)

end DecreaseKeySpec

/-! ## Delete -/

/-- The children of a detached node become roots and the node leaves the
heap. -/
theorem promoteKids_spec (fuel : Nat) {m : Mem α} {a n : Nat} {g : Ghost}
    (hs : ShapeF m (some a) g [n]) (hfuel : g.nodes.length ≤ fuel) :
    ∃ m' g', promoteKids fuel m (some a) (some n) = some (m', some a) ∧
      Shape m' (some a) g' ∧ g'.nodes = g.nodes.erase n ∧ g'.kids = g.kids ∧
      g'.height = g.height ∧ m'.value = m.value ∧ m'.top = m.top ∧
      (∀ r ∈ g.roots, r ∈ g'.roots) ∧ (∀ y, y ∉ g.nodes → Same m m' y) ∧
      m'.rank = m.rank ∧ m'.mark = m.mark ∧
      m'.parent = (fun y => if y ∈ g.kids n then none else m.parent y) ∧
      promoteKidsT fuel m (some n) = some (g.kids n).length := by
  have ha : a ∈ g.roots := hs.head
  obtain ⟨hnn, hnk⟩ := hs.roots_sub n (by simp)
  have hf : Forest m g (n :: g.roots) :=
    hs.toForest.perm (by simpa using (List.perm_append_comm : ([n] ++ g.roots).Perm _))
  have hrk : ∀ r ∈ g.roots, ∀ q ∈ g.nodes, r ∉ g.kids q := fun r hr =>
    (hs.roots_sub r (List.mem_append_left _ hr)).2
  rcases hch : m.child n with _ | c
  · have hk : g.kids n = [] := by
      have := hs.child n hnn
      rwa [hch] at this
    have hf' := hf.remove_root (K := []) (by rw [hk])
    refine ⟨m, { g with nodes := g.nodes.erase n }, ?_, ?_, rfl, rfl, rfl, rfl, rfl,
      fun _ h => h, fun y _ => ⟨rfl, rfl, rfl, rfl, rfl, rfl, rfl⟩, rfl, rfl, ?_, ?_⟩
    · simp [promoteKids, ld, hch, bind, Option.bind]
    · exact ⟨by simpa using hf', hs.ring, hs.head, hs.root_parent⟩
    · funext y
      simp [hk]
    · simp [promoteKidsT, ld, hch, bind, Option.bind, hk]
  · have hck : c ∈ g.kids n := by
      have := hs.child n hnn
      rwa [hch] at this
    obtain ⟨cl, hpc, hrc⟩ := ring_front (hs.kids_ring n hnn) hck
    obtain ⟨l, hpa, hra⟩ := ring_front hs.ring ha
    have hndc : (c :: cl).Nodup := hpc.nodup_iff.2 (hs.kids_nodup n hnn)
    have hnda : (a :: l).Nodup := hpa.nodup_iff.2 (List.nodup_append.1 hs.roots_nodup).1
    have hdis : ∀ x ∈ a :: l, ∀ y ∈ c :: cl, x ≠ y := by
      intro x hx y hy e
      exact hrk x (hpa.mem_iff.1 hx) n hnn (e ▸ hpc.mem_iff.1 hy)
    have hnd : ((a :: l) ++ (c :: cl)).Nodup :=
      List.Nodup.append hnda hndc (fun x hx hy => hdis x hx x hy rfl)
    obtain ⟨nx, hnx, hpath⟩ := nextPath_of_seg (show Seg m c cl c from hrc)
    have hlen : cl.length < fuel := by
      have h1 : (c :: cl).length ≤ g.nodes.length :=
        (hndc.subperm (fun y hy => (hs.kids_sub n hnn y (hpc.mem_iff.1 hy)).1)).length_le
      simp only [List.length_cons] at h1
      omega
    have horph := orphanLoop_spec n c cl fuel c nx m hnx hpath (List.nodup_cons.1 hndc).1 hch
      hlen
    obtain ⟨-, hpreva⟩ := ring_head hra
    obtain ⟨-, hprevc⟩ := ring_head hrc
    let m' : Mem α := { m with
      parent := fun y => if y ∈ c :: cl then none else m.parent y
      next := Function.update (Function.update m.next (lastOf a l) (some c))
        (lastOf c cl) (some a)
      prev := Function.update (Function.update m.prev a (some (lastOf c cl))) c
        (some (lastOf a l)) }
    have hmeld : meld2 ({ m with
        parent := fun y => if y ∈ c :: cl then none else m.parent y } : Mem α) (some a)
        (some c) = some m' :=
      meld2_eq (m := ({ m with
        parent := fun y => if y ∈ c :: cl then none else m.parent y } : Mem α)) hpreva hprevc
    have hring : Ring m' (a :: (l ++ c :: cl)) :=
      (ring_meld2 hra hrc hnd).same rfl rfl
    have hta : lastOf a l ∈ g.roots := hpa.mem_iff.1 (lastOf_mem a l)
    have htc : lastOf c cl ∈ g.kids n := hpc.mem_iff.1 (lastOf_mem c cl)
    have hf' := hf.remove_root hpc.symm.symm
    have hT := orphanLoopT_spec n c cl fuel c nx m hnx hpath (List.nodup_cons.1 hndc).1 hch
      hlen
    refine ⟨m', { g with nodes := g.nodes.erase n, roots := a :: (l ++ c :: cl) }, ?_, ?_, rfl,
      rfl, rfl, rfl, rfl, ?_, ?_, rfl, rfl, ?_, ?_⟩
    · simp only [promoteKids, ld, Option.map, hch, bind, Option.bind, horph, hmeld]
      rfl
    · refine ⟨?_, hring, ?_, ?_⟩
      · have hp : ((a :: (l ++ c :: cl)) ++ []).Perm (g.roots ++ (c :: cl)) := by
          have : ((a :: l) ++ (c :: cl)).Perm (g.roots ++ (c :: cl)) := hpa.append_right _
          simpa using this
        refine ((hf'.perm hp).roots_irrel_forest (a :: (l ++ c :: cl))).frame_forest le_rfl
          (fun _ _ => rfl) (fun _ _ => rfl) ?_
        intro q hq x hx
        have hq' : q ≠ n ∧ q ∈ g.nodes := hs.nodup.mem_erase_iff.1 hq
        have hxk : x ∉ g.kids n := fun h => hq'.1 (hs.kids_unique hq'.2 hnn hx h)
        have hxc : x ∉ c :: cl := fun h => hxk (hpc.mem_iff.1 h)
        have h1 : x ≠ a := fun e => hrk a ha q hq'.2 (e ▸ hx)
        have h2 : x ≠ lastOf a l := fun e => hrk _ hta q hq'.2 (e ▸ hx)
        have h3 : x ≠ c := fun e => hxk (e ▸ hck)
        have h4 : x ≠ lastOf c cl := fun e => hxk (e ▸ htc)
        refine ⟨?_, ?_, ?_⟩
        · show (if x ∈ c :: cl then none else m.parent x) = m.parent x
          rw [if_neg hxc]
        · simp [m', Function.update_apply, h2, h4]
        · simp [m', Function.update_apply, h1, h3]
      · show a ∈ a :: (l ++ c :: cl)
        simp
      · intro r hr
        show (if r ∈ c :: cl then none else m.parent r) = none
        split
        · rfl
        · rename_i hrc'
          have hr' : r ∈ a :: (l ++ c :: cl) := hr
          have : r ∈ a :: l := by
            simp only [List.mem_cons, List.mem_append] at hr' hrc' ⊢
            tauto
          exact hs.root_parent r (hpa.mem_iff.1 this)
    · intro r hr
      have := hpa.mem_iff.2 hr
      show r ∈ a :: (l ++ c :: cl)
      simp only [List.mem_cons, List.mem_append] at this ⊢
      tauto
    · intro y hy
      have hyk : y ∉ g.kids n := fun h => hy (hs.kids_sub n hnn y h).1
      have hyc : y ∉ c :: cl := fun h => hyk (hpc.mem_iff.1 h)
      have hyr : y ∉ g.roots := fun h => hy (hs.roots_sub y (List.mem_append_left _ h)).1
      have h1 : y ≠ a := fun e => hyr (e ▸ ha)
      have h2 : y ≠ lastOf a l := fun e => hyr (e ▸ hta)
      have h3 : y ≠ c := fun e => hyk (e ▸ hck)
      have h4 : y ≠ lastOf c cl := fun e => hyk (e ▸ htc)
      refine ⟨rfl, ?_, rfl, ?_, ?_, rfl, rfl⟩
      · show (if y ∈ c :: cl then none else m.parent y) = m.parent y
        rw [if_neg hyc]
      · simp [m', Function.update_apply, h1, h3]
      · simp [m', Function.update_apply, h2, h4]
    · funext y
      show (if y ∈ c :: cl then none else m.parent y) = _
      by_cases hy : y ∈ c :: cl
      · rw [if_pos hy, if_pos (hpc.mem_iff.1 hy)]
      · rw [if_neg hy, if_neg (fun h => hy (hpc.mem_iff.2 h))]
    · have hl : (g.kids n).length = cl.length + 1 := by
        rw [← hpc.length_eq]
        rfl
      simp only [promoteKidsT, ld, Option.map, hch, bind, Option.bind, hT, hl]
      rfl


section DeleteSpec

variable [LinearOrder α]

theorem delete_root_eq (fuel : Nat) (enum : RootMap → RootMap) {m : Mem α} {a n t b : Nat}
    (hp : m.parent n = none) (hna : n ≠ a) (hprev : m.prev n = some t)
    (hnext : m.next n = some b) (htn : t ≠ n) :
    Delete fuel enum m (some a) (some n) =
      promoteKids fuel ({ m with
        next := Function.update m.next t (some b)
        prev := Function.update m.prev b (some t) } : Mem α) (some a) (some n) := by
  simp only [Delete, ld, Option.map, hp, bind, Option.bind, if_true, hprev, hnext, stNext,
    stPrev, promoteKids, pure]
  rw [if_neg (by simpa using hna)]
  simp [Function.update_apply, Ne.symm htn, hnext]

theorem delete_cut_eq (fuel : Nat) (enum : RootMap → RootMap) {m : Mem α} {a n p : Nat}
    (hp : m.parent n = some p) :
    Delete fuel enum m (some a) (some n) =
      (cutAux fuel false m (some a) (some n)).bind fun m₁ =>
        promoteKids fuel m₁ (some a) (some n) := by
  simp only [Delete, ld, Option.map, hp, bind, Option.bind, cut, promoteKids, pure]
  cases cutAux fuel false m (some a) (some n) <;> simp

theorem delete_min_eq (fuel : Nat) (enum : RootMap → RootMap) {m : Mem α} {a : Nat}
    (hp : m.parent a = none) :
    Delete fuel enum m (some a) (some a) =
      (DeleteMin fuel enum m (some a)).bind fun r => some (r.1, r.2.1) := by
  simp only [Delete, ld, Option.map, hp, bind, Option.bind, if_true, pure]
  cases DeleteMin fuel enum m (some a) <;> simp

/-- `Delete` of a node other than the tracked one removes exactly that node
and keeps the shape of the heap; the tracked node stays. -/
theorem delete_spec (fuel : Nat) (enum : RootMap → RootMap) (m : Mem α) (a : Nat) (g : Ghost)
    (n : Nat) (hs : Shape m (some a) g) (hn : n ∈ g.nodes) (hna : n ≠ a)
    (hfuel : 2 * g.bound + 1 ≤ fuel) (hfuel' : g.nodes.length ≤ fuel) :
    ∃ m' g', Delete fuel enum m (some a) (some n) = some (m', some a) ∧
      Shape m' (some a) g' ∧ g'.nodes = g.nodes.erase n ∧ m'.value = m.value ∧
      m'.top = m.top ∧ (∀ q, ∀ c ∈ g'.kids q, c ∈ g.kids q) ∧
      (∀ r ∈ g.roots, r ≠ n → r ∈ g'.roots) ∧ (∀ y, y ∉ g.nodes → Same m m' y) := by
  have ha : a ∈ g.roots := hs.head
  rcases hs.root_or_kid hn with ⟨hroot, hpar⟩ | ⟨p, hp, hnp, hpar⟩
  · -- a root other than the minimum: spliced out of the root ring
    obtain ⟨l, hperm, hring⟩ := ring_front hs.ring hroot
    have hnd : (n :: l).Nodup := hperm.nodup_iff.2 (List.nodup_append.1 hs.roots_nodup).1
    have hal : a ∈ l := by
      rcases List.mem_cons.1 (hperm.mem_iff.2 ha) with h | h
      · exact absurd h.symm hna
      · exact h
    obtain ⟨b, l', rfl⟩ : ∃ b l', l = b :: l' := by
      cases l with
      | nil => simp at hal
      | cons b l' => exact ⟨b, l', rfl⟩
    obtain ⟨hl, -⟩ := seg_cons.1 (show Seg m n (b :: l') n from hring)
    obtain ⟨-, hprev⟩ := ring_head hring
    have hlast : lastOf n (b :: l') = lastOf b l' := rfl
    rw [hlast] at hprev
    have htl : lastOf b l' ∈ b :: l' := lastOf_mem b l'
    have htn : lastOf b l' ≠ n := fun e => (List.nodup_cons.1 hnd).1 (e ▸ htl)
    have hsub : ∀ y ∈ b :: l', y ∈ g.roots := fun y hy =>
      hperm.mem_iff.1 (List.mem_cons_of_mem _ hy)
    have hrk : ∀ r ∈ g.roots, ∀ q ∈ g.nodes, r ∉ g.kids q := fun r hr =>
      (hs.roots_sub r (List.mem_append_left _ hr)).2
    rw [delete_root_eq fuel enum hpar hna hprev hl.1 htn]
    have hs₁ : ShapeF ({ m with
        next := Function.update m.next (lastOf b l') (some b)
        prev := Function.update m.prev b (some (lastOf b l')) } : Mem α) (some a)
        { g with roots := b :: l' } [n] := by
      refine ⟨?_, ring_unlink hring hnd, hal, fun r hr => hs.root_parent r (hsub r hr)⟩
      have hp' : ((b :: l') ++ [n]).Perm (g.roots ++ []) := by
        have h1 : ((b :: l') ++ [n]).Perm (n :: b :: l') := List.perm_append_comm
        simpa using h1.trans hperm
      refine ((hs.toForest.perm hp').roots_irrel_forest (b :: l')).frame_forest le_rfl (fun _ _ => rfl)
        (fun _ _ => rfl) ?_
      intro q hq c hc
      have h1 : c ≠ b := fun e => hrk b (hsub b (List.mem_cons_self _ _)) q hq (e ▸ hc)
      have h2 : c ≠ lastOf b l' := fun e => hrk _ (hsub _ htl) q hq (e ▸ hc)
      simp [Function.update_apply, h1, h2]
    obtain ⟨m', g', hres, hs', hnodes, hkids, -, hval, htop, hroots, hsame, -⟩ :=
      promoteKids_spec fuel hs₁ hfuel'
    refine ⟨m', g', hres, hs', hnodes, hval, htop, fun q c hc => by rw [hkids] at hc; exact hc,
      ?_, ?_⟩
    · intro r hr hrn
      refine hroots r ?_
      rcases List.mem_cons.1 (hperm.mem_iff.2 hr) with h | h
      · exact absurd h hrn
      · exact h
    · intro y hy
      have hyr : y ∉ g.roots := fun h => hy (hs.roots_sub y (List.mem_append_left _ h)).1
      have h1 : y ≠ b := fun e => hyr (e ▸ hsub b (List.mem_cons_self _ _))
      have h2 : y ≠ lastOf b l' := fun e => hyr (e ▸ hsub _ htl)
      have h0 : Same m ({ m with
          next := Function.update m.next (lastOf b l') (some b)
          prev := Function.update m.prev b (some (lastOf b l')) } : Mem α) y := by
        refine ⟨rfl, rfl, rfl, ?_, ?_, rfl, rfl⟩
        · simp [Function.update_apply, h1]
        · simp [Function.update_apply, h2]
      exact h0.trans (hsame y hy)
  · -- a child: cut from its parent, with the cascade
    rw [delete_cut_eq fuel enum hpar]
    obtain ⟨m₁, g₁, hres₁, hs₁, -, hrel⟩ := cutAux_spec fuel false m g [] n p a hs hp hnp
      (by simp) (by simp only [Bool.false_eq_true, if_false]; omega)
    simp only [Bool.false_eq_true, if_false] at hs₁
    obtain ⟨m', g', hres, hs', hnodes, hkids, -, hval, htop, hroots, hsame, -⟩ :=
      promoteKids_spec fuel hs₁ (by rw [hrel.nodes]; exact hfuel')
    rw [hres₁]
    refine ⟨m', g', hres, hs', by rw [hnodes, hrel.nodes], hval.trans hrel.value,
      htop.trans hrel.top, ?_, fun r hr _ => hroots r (hrel.roots r hr), ?_⟩
    · intro q c hc
      rw [hkids] at hc
      exact hrel.kids_sub q c hc
    · intro y hy
      exact (hrel.same y hy).trans (hsame y (by rw [hrel.nodes]; exact hy))

end DeleteSpec

/-! ## Meld -/

/-- Two forests over disjoint sets of nodes form one forest. -/
theorem Forest.union {m : Mem α} {g₁ g₂ : Ghost} {R₁ R₂ : List Nat}
    (h₁ : Forest m g₁ R₁) (h₂ : Forest m g₂ R₂) (hdis : ∀ x ∈ g₁.nodes, x ∉ g₂.nodes)
    (roots : List Nat) : Forest m (g₁.union g₂ roots) (R₁ ++ R₂) := by
  have hk₁ : ∀ a ∈ g₁.nodes, (g₁.union g₂ roots).kids a = g₁.kids a := by
    intro a ha
    simp [Ghost.union, hdis a ha]
  have hk₂ : ∀ a ∈ g₂.nodes, (g₁.union g₂ roots).kids a = g₂.kids a := by
    intro a ha
    simp [Ghost.union, ha]
  have hh₁ : ∀ a ∈ g₁.nodes, (g₁.union g₂ roots).height a = g₁.height a := by
    intro a ha
    simp [Ghost.union, hdis a ha]
  have hh₂ : ∀ a ∈ g₂.nodes, (g₁.union g₂ roots).height a = g₂.height a := by
    intro a ha
    simp [Ghost.union, ha]
  have hmem : ∀ a, a ∈ (g₁.union g₂ roots).nodes ↔ a ∈ g₁.nodes ∨ a ∈ g₂.nodes := by
    intro a
    simp [Ghost.union]
  refine ⟨⟨?_, ?_, ?_, ?_, ?_, ?_, ?_⟩, ?_, ?_, ?_⟩
  · exact List.Nodup.append h₁.nodup h₂.nodup (fun x hx hx' => hdis x hx hx')
  · intro a ha
    rcases (hmem a).1 ha with h | h
    · exact h₁.alloc a h
    · exact h₂.alloc a h
  · intro a ha
    rcases (hmem a).1 ha with h | h
    · rw [hk₁ a h]; exact h₁.kids_nodup a h
    · rw [hk₂ a h]; exact h₂.kids_nodup a h
  · intro a ha
    rcases (hmem a).1 ha with h | h
    · rw [hk₁ a h]; exact h₁.kids_ring a h
    · rw [hk₂ a h]; exact h₂.kids_ring a h
  · intro a ha
    rcases (hmem a).1 ha with h | h
    · rw [hk₁ a h]; exact h₁.child a h
    · rw [hk₂ a h]; exact h₂.child a h
  · intro a ha
    rcases (hmem a).1 ha with h | h
    · rw [hk₁ a h]; exact h₁.rank a h
    · rw [hk₂ a h]; exact h₂.rank a h
  · intro a ha c hc
    rcases (hmem a).1 ha with h | h
    · rw [hk₁ a h] at hc
      obtain ⟨e1, e2, e3⟩ := h₁.kids_sub a h c hc
      exact ⟨(hmem c).2 (Or.inl e1), e2, by rw [hh₁ a h, hh₁ c e1]; exact e3⟩
    · rw [hk₂ a h] at hc
      obtain ⟨e1, e2, e3⟩ := h₂.kids_sub a h c hc
      exact ⟨(hmem c).2 (Or.inr e1), e2, by rw [hh₂ a h, hh₂ c e1]; exact e3⟩
  · refine List.Nodup.append h₁.roots_nodup h₂.roots_nodup ?_
    intro x hx hx'
    exact hdis x (h₁.roots_sub x hx).1 (h₂.roots_sub x hx').1
  · intro r hr
    rcases List.mem_append.1 hr with h | h
    · obtain ⟨e1, e2⟩ := h₁.roots_sub r h
      refine ⟨(hmem r).2 (Or.inl e1), fun q hq hrq => ?_⟩
      rcases (hmem q).1 hq with hq' | hq'
      · rw [hk₁ q hq'] at hrq
        exact e2 q hq' hrq
      · rw [hk₂ q hq'] at hrq
        exact hdis r e1 (h₂.kids_sub q hq' r hrq).1
    · obtain ⟨e1, e2⟩ := h₂.roots_sub r h
      refine ⟨(hmem r).2 (Or.inr e1), fun q hq hrq => ?_⟩
      rcases (hmem q).1 hq with hq' | hq'
      · rw [hk₁ q hq'] at hrq
        exact hdis r (h₁.kids_sub q hq' r hrq).1 e1
      · rw [hk₂ q hq'] at hrq
        exact e2 q hq' hrq
  · intro x hx
    rcases (hmem x).1 hx with h | h
    · rcases h₁.cover x h with e | ⟨p, hp, hxp⟩
      · left; exact List.mem_append_left _ e
      · right
        exact ⟨p, (hmem p).2 (Or.inl hp), by rw [hk₁ p hp]; exact hxp⟩
    · rcases h₂.cover x h with e | ⟨p, hp, hxp⟩
      · left; exact List.mem_append_right _ e
      · right
        exact ⟨p, (hmem p).2 (Or.inr hp), by rw [hk₂ p hp]; exact hxp⟩

section MeldSpec

variable [LinearOrder α]

theorem meld_some_eq {m : Mem α} {a b ta tb : Nat} (ha : m.prev a = some ta)
    (hb : m.prev b = some tb) :
    Meld m (some a) (some b) = some ({ m with
      next := Function.update (Function.update m.next ta (some b)) tb (some a)
      prev := Function.update (Function.update m.prev a (some tb)) b (some ta) },
      (if m.value b < m.value a then some b else some a), none) := by
  simp only [Meld, meld2_eq ha hb, ld, Option.map, bind, Option.bind, pure]
  split <;> rfl

/-- `Meld` of two heaps in shape over disjoint nodes: the receiver holds the
nodes of both, in shape, and tracks the lesser of the two tracked nodes. -/
theorem meld_spec (m : Mem α) (h₁ h₂ : Ptr) (g₁ g₂ : Ghost) (hs₁ : Shape m h₁ g₁)
    (hs₂ : Shape m h₂ g₂) (hdis : ∀ x ∈ g₁.nodes, x ∉ g₂.nodes) :
    ∃ m' h' g', Meld m h₁ h₂ = some (m', h', none) ∧ Shape m' h' g' ∧
      g'.nodes = g₁.nodes ++ g₂.nodes ∧ m'.value = m.value ∧ m'.top = m.top ∧
      (Ordered m g₁ → Ordered m g₂ → Ordered m' g') ∧
      (MinRoot m h₁ g₁ → MinRoot m h₂ g₂ → MinRoot m' h' g') ∧
      h' = meldHead m h₁ h₂ ∧
      (∀ y, y ∉ g₁.nodes → y ∉ g₂.nodes → Same m m' y) ∧
      (h₁ = none ∨ h₂ = none → m' = m) := by
  have hf := hs₁.toForest.union hs₂.toForest hdis
  simp only [List.append_nil] at hf
  have hord : ∀ rs, Ordered m g₁ → Ordered m g₂ → Ordered m (g₁.union g₂ rs) := by
    intro rs ho₁ ho₂ q hq c hc
    have hq' : q ∈ g₁.nodes ∨ q ∈ g₂.nodes := by simpa [Ghost.union] using hq
    by_cases h2 : q ∈ g₂.nodes
    · have : c ∈ g₂.kids q := by simpa [Ghost.union, h2] using hc
      exact ho₂ q h2 c this
    · have h1 : q ∈ g₁.nodes := hq'.resolve_right h2
      have : c ∈ g₁.kids q := by simpa [Ghost.union, h2] using hc
      exact ho₁ q h1 c this
  cases h₁ with
  | none =>
    have hr₁ : g₁.roots = [] := hs₁.head
    refine ⟨m, h₂, g₁.union g₂ g₂.roots, rfl, ?_, rfl, rfl, rfl, hord _, ?_, rfl,
      fun _ _ _ => ⟨rfl, rfl, rfl, rfl, rfl, rfl, rfl⟩, fun _ => rfl⟩
    · refine ⟨?_, hs₂.ring, hs₂.head, hs₂.root_parent⟩
      have := hf g₂.roots
      rw [hr₁] at this
      simpa using this
    · intro _ hm₂ a ha r hr
      exact hm₂ a ha r hr
  | some a =>
    have ha : a ∈ g₁.roots := hs₁.head
    cases h₂ with
    | none =>
      have hr₂ : g₂.roots = [] := hs₂.head
      refine ⟨m, some a, g₁.union g₂ g₁.roots, rfl, ?_, rfl, rfl, rfl, hord _, ?_, rfl,
        fun _ _ _ => ⟨rfl, rfl, rfl, rfl, rfl, rfl, rfl⟩, fun _ => rfl⟩
      · refine ⟨?_, hs₁.ring, hs₁.head, hs₁.root_parent⟩
        have := hf g₁.roots
        rw [hr₂] at this
        simpa using this
      · intro hm₁ _ a' ha' r hr
        exact hm₁ a' ha' r hr
    | some b =>
      have hb : b ∈ g₂.roots := hs₂.head
      obtain ⟨la, hpa, hra⟩ := ring_front hs₁.ring ha
      obtain ⟨lb, hpb, hrb⟩ := ring_front hs₂.ring hb
      have hr₁n : ∀ r ∈ g₁.roots, r ∈ g₁.nodes := fun r hr =>
        (hs₁.roots_sub r (List.mem_append_left _ hr)).1
      have hr₂n : ∀ r ∈ g₂.roots, r ∈ g₂.nodes := fun r hr =>
        (hs₂.roots_sub r (List.mem_append_left _ hr)).1
      have hnda : (a :: la).Nodup := hpa.nodup_iff.2 (List.nodup_append.1 hs₁.roots_nodup).1
      have hndb : (b :: lb).Nodup := hpb.nodup_iff.2 (List.nodup_append.1 hs₂.roots_nodup).1
      have hnd : ((a :: la) ++ (b :: lb)).Nodup :=
        List.Nodup.append hnda hndb (fun x hx hx' =>
          hdis x (hr₁n x (hpa.mem_iff.1 hx)) (hr₂n x (hpb.mem_iff.1 hx')))
      obtain ⟨-, hpreva⟩ := ring_head hra
      obtain ⟨-, hprevb⟩ := ring_head hrb
      have hta : lastOf a la ∈ g₁.roots := hpa.mem_iff.1 (lastOf_mem a la)
      have htb : lastOf b lb ∈ g₂.roots := hpb.mem_iff.1 (lastOf_mem b lb)
      have hp : ((a :: la) ++ (b :: lb)).Perm (g₁.roots ++ g₂.roots) := hpa.append hpb
      have hf' := (hf (a :: (la ++ b :: lb))).perm hp
      have hrootk : ∀ r ∈ (a :: la) ++ (b :: lb),
          ∀ q ∈ (g₁.union g₂ (a :: (la ++ b :: lb))).nodes,
          r ∉ (g₁.union g₂ (a :: (la ++ b :: lb))).kids q := fun r hr => (hf'.roots_sub r hr).2
      have hmemR : ∀ r, r ∈ g₁.roots ∨ r ∈ g₂.roots → r ∈ (a :: la) ++ (b :: lb) := by
        intro r hr
        refine hp.mem_iff.2 ?_
        simpa using hr
      refine ⟨_, _, g₁.union g₂ (a :: (la ++ b :: lb)), meld_some_eq hpreva hprevb, ?_, rfl, rfl,
        rfl, hord _, ?_, rfl, ?_, fun h => by simp at h⟩
      · have hshape : Shape ({ m with
            next := Function.update (Function.update m.next (lastOf a la) (some b))
              (lastOf b lb) (some a)
            prev := Function.update (Function.update m.prev a (some (lastOf b lb))) b
              (some (lastOf a la)) } : Mem α) (some a) (g₁.union g₂ (a :: (la ++ b :: lb))) := by
          refine ⟨?_, ring_meld2 hra hrb hnd, ?_, ?_⟩
          · have hf'' : Forest m (g₁.union g₂ (a :: (la ++ b :: lb)))
                ((a :: (la ++ b :: lb)) ++ []) := by simpa using hf'
            refine hf''.frame_forest le_rfl (fun _ _ => rfl) (fun _ _ => rfl) ?_
            intro q hq c hc
            have h1 : c ≠ a := fun e => hrootk a (hmemR a (Or.inl ha)) q hq (e ▸ hc)
            have h2 : c ≠ b := fun e => hrootk b (hmemR b (Or.inr hb)) q hq (e ▸ hc)
            have h3 : c ≠ lastOf a la := fun e =>
              hrootk _ (hmemR _ (Or.inl hta)) q hq (e ▸ hc)
            have h4 : c ≠ lastOf b lb := fun e =>
              hrootk _ (hmemR _ (Or.inr htb)) q hq (e ▸ hc)
            simp [Function.update_apply, h1, h2, h3, h4]
          · show a ∈ a :: (la ++ b :: lb)
            simp
          · intro r hr
            have hr0 : r ∈ a :: (la ++ b :: lb) := hr
            have hr' : r ∈ (a :: la) ++ (b :: lb) := by simpa using hr0
            rcases List.mem_append.1 hr' with h | h
            · exact hs₁.root_parent r (hpa.mem_iff.1 h)
            · exact hs₂.root_parent r (hpb.mem_iff.1 h)
        split
        · exact ⟨hshape.toForest, hshape.ring, by show b ∈ a :: (la ++ b :: lb); simp,
            hshape.root_parent⟩
        · exact hshape
      · intro hm₁ hm₂ x hx r hr
        have hr0 : r ∈ a :: (la ++ b :: lb) := hr
        have hr' : r ∈ (a :: la) ++ (b :: lb) := by simpa using hr0
        have h1 : ∀ r ∈ a :: la, ¬ m.value r < m.value a := fun r hr =>
          hm₁ a rfl r (hpa.mem_iff.1 hr)
        have h2 : ∀ r ∈ b :: lb, ¬ m.value r < m.value b := fun r hr =>
          hm₂ b rfl r (hpb.mem_iff.1 hr)
        show ¬ m.value r < m.value x
        by_cases hlt : m.value b < m.value a
        · rw [if_pos hlt] at hx
          have : b = x := Option.some.inj hx
          subst this
          rcases List.mem_append.1 hr' with h | h
          · exact not_lt.2 (le_trans (le_of_lt hlt) (not_lt.1 (h1 r h)))
          · exact h2 r h
        · rw [if_neg hlt] at hx
          have : a = x := Option.some.inj hx
          subst this
          rcases List.mem_append.1 hr' with h | h
          · exact h1 r h
          · exact not_lt.2 (le_trans (not_lt.1 hlt) (not_lt.1 (h2 r h)))
      · intro y hy₁ hy₂
        have h1 : y ≠ a := fun e => hy₁ (e ▸ hr₁n a ha)
        have h2 : y ≠ b := fun e => hy₂ (e ▸ hr₂n b hb)
        have h3 : y ≠ lastOf a la := fun e => hy₁ (e ▸ hr₁n _ hta)
        have h4 : y ≠ lastOf b lb := fun e => hy₂ (e ▸ hr₂n _ htb)
        refine ⟨rfl, rfl, rfl, ?_, ?_, rfl, rfl⟩
        · simp [Function.update_apply, h1, h2]
        · simp [Function.update_apply, h3, h4]

end MeldSpec

/-! ## Well-formed heaps -/

section WFSpec

variable [LinearOrder α]

/-- `Insert` keeps a heap well formed and adds exactly the new node. -/
theorem insert_wf (m : Mem α) (h : Ptr) (g : Ghost) (v : α) (hwf : WF m h g) :
    ∃ m' h' g', Insert m h v = some (m', h', some m.top) ∧ WF m' h' g' ∧
      g'.nodes = m.top :: g.nodes ∧ m'.value = Function.update m.value m.top v ∧
      h' = insertHead m h v := by
  obtain ⟨hs, ho, hm⟩ := hwf
  obtain ⟨m', h', g', hres, hs', hnodes, hroots, hkids, -, -, hval, -, -, -, -, -, hh⟩ :=
    insert_spec m h g v hs
  have hfresh := hs.fresh
  refine ⟨m', h', g', hres, ⟨hs', ?_, ?_⟩, hnodes, hval, hh⟩
  · intro q hq c hc
    rw [hnodes] at hq
    rw [hkids] at hc
    rcases List.mem_cons.1 hq with rfl | hq'
    · simp at hc
    · have hqt : q ≠ m.top := fun e => hfresh (e ▸ hq')
      simp only [Function.update_apply, hqt, if_false] at hc
      have hct : c ≠ m.top := fun e => hfresh (e ▸ (hs.kids_sub q hq' c hc).1)
      rw [hval]
      simp only [Function.update_apply, hqt, hct, if_false]
      exact ho q hq' c hc
  · intro b hb r hr
    have hr' := hroots.mem_iff.1 hr
    rw [hval]
    have hrt : ∀ r ∈ g.roots, r ≠ m.top := fun r hr e =>
      hfresh (e ▸ (hs.roots_sub r (List.mem_append_left _ hr)).1)
    cases h with
    | none =>
      have hr0 : g.roots = [] := hs.head
      simp only [insertHead] at hh
      rw [hh] at hb
      have : m.top = b := Option.some.inj hb
      subst this
      rw [hr0] at hr'
      simp only [List.mem_singleton] at hr'
      subst hr'
      exact lt_irrefl _
    | some a =>
      have ha : a ∈ g.roots := hs.head
      have hat := hrt a ha
      simp only [insertHead] at hh
      by_cases hlt : v < m.value a
      · rw [if_pos hlt] at hh
        rw [hh] at hb
        have : m.top = b := Option.some.inj hb
        subst this
        rcases List.mem_cons.1 hr' with rfl | hr''
        · exact lt_irrefl _
        · simp only [Function.update_apply, hrt r hr'', if_false, if_true]
          exact not_lt.2 (le_trans (le_of_lt hlt) (not_lt.1 (hm a rfl r hr'')))
      · rw [if_neg hlt] at hh
        rw [hh] at hb
        have : a = b := Option.some.inj hb
        subst this
        rcases List.mem_cons.1 hr' with rfl | hr''
        · simp only [Function.update_apply, hat, if_false, if_true]
          exact hlt
        · simp only [Function.update_apply, hrt r hr'', hat, if_false]
          exact hm a rfl r hr''

/-- `DeleteMin` on a non-empty well-formed heap returns the least value,
removes exactly the tracked node and leaves a well-formed heap. -/
theorem deleteMin_wf (fuel : Nat) (enum : RootMap → RootMap) (m : Mem α) (a : Nat)
    (g : Ghost) (hwf : WF m (some a) g) (henum : ∀ t, (enum t).Perm t)
    (hfuel : g.nodes.length ≤ fuel) :
    ∃ m' h' g', DeleteMin fuel enum m (some a) = some (m', h', some (m.value a)) ∧
      WF m' h' g' ∧ g'.nodes = g.nodes.erase a ∧ m'.value = m.value ∧
      (∀ x ∈ g.nodes, ¬ m.value x < m.value a) := by
  obtain ⟨m', h', g', hres, hs', hm', hnodes, hval, -, hord, -⟩ :=
    deleteMin_spec fuel enum m a g hwf.1 henum hfuel
  exact ⟨m', h', g', hres, ⟨hs', hord hwf.2.1, hm'⟩, hnodes, hval, hwf.min_all_wf⟩

/-- `Delete` of a node other than the tracked one keeps the heap well formed
and the tracked node in place. -/
theorem delete_wf (fuel : Nat) (enum : RootMap → RootMap) (m : Mem α) (a : Nat) (g : Ghost)
    (n : Nat) (hwf : WF m (some a) g) (hn : n ∈ g.nodes) (hna : n ≠ a)
    (hfuel : 2 * g.bound + 1 ≤ fuel) (hfuel' : g.nodes.length ≤ fuel) :
    ∃ m' g', Delete fuel enum m (some a) (some n) = some (m', some a) ∧
      WF m' (some a) g' ∧ g'.nodes = g.nodes.erase n ∧ m'.value = m.value := by
  obtain ⟨m', g', hres, hs', hnodes, hval, -, hkids, -, -⟩ :=
    delete_spec fuel enum m a g n hwf.1 hn hna hfuel hfuel'
  have hsub : ∀ x ∈ g'.nodes, x ∈ g.nodes := fun x hx => by
    rw [hnodes] at hx
    exact List.mem_of_mem_erase hx
  refine ⟨m', g', hres, ⟨hs', ?_, ?_⟩, hnodes, hval⟩
  · intro q hq c hc
    rw [hval]
    exact hwf.2.1 q (hsub q hq) c (hkids q c hc)
  · intro b hb r hr
    have : a = b := Option.some.inj hb
    subst this
    rw [hval]
    exact hwf.min_all_wf r (hsub r (hs'.roots_sub r (List.mem_append_left _ hr)).1)

/-- `Meld` of two well-formed heaps over disjoint nodes is well formed. -/
theorem meld_wf (m : Mem α) (h₁ h₂ : Ptr) (g₁ g₂ : Ghost) (hwf₁ : WF m h₁ g₁)
    (hwf₂ : WF m h₂ g₂) (hdis : ∀ x ∈ g₁.nodes, x ∉ g₂.nodes) :
    ∃ m' h' g', Meld m h₁ h₂ = some (m', h', none) ∧ WF m' h' g' ∧
      g'.nodes = g₁.nodes ++ g₂.nodes ∧ m'.value = m.value ∧
      h' = meldHead m h₁ h₂ ∧
      (h₁ = none ∨ h₂ = none → m' = m) := by
  obtain ⟨m', h', g', hres, hs', hnodes, hval, -, hord, hmin, hh, -, hsame⟩ :=
    meld_spec m h₁ h₂ g₁ g₂ hwf₁.1 hwf₂.1 hdis
  exact ⟨m', h', g', hres, ⟨hs', hord hwf₁.2.1 hwf₂.2.1, hmin hwf₁.2.2 hwf₂.2.2⟩, hnodes,
    hval, hh, hsame⟩

end WFSpec

/-! ## The iteration bound is irrelevant once a call returns -/

section Mono

variable [LinearOrder α]

theorem addLoop_mono (f : Nat) : ∀ (f' : Nat) (m : Mem α) (t : RootMap) (r : Ptr)
    (x : Mem α × RootMap), addLoop f m t r = some x → f ≤ f' → addLoop f' m t r = some x := by
  induction f with
  | zero => intro f' m t r x h; simp [addLoop] at h
  | succ f ih =>
    intro f' m t r x h hle
    obtain ⟨f', rfl⟩ : ∃ k, f' = k + 1 := ⟨f' - 1, by omega⟩
    cases r with
    | none => simp [addLoop, ld] at h
    | some r =>
      rcases hg : mapGet t (m.rank r) with _ | p
      · rw [addLoop_none f hg] at h
        rw [addLoop_none f' hg]
        exact h
      · cases p with
        | none => simp [addLoop, ld, hg] at h
        | some y =>
          rw [addLoop_some f hg] at h
          rw [addLoop_some f' hg]
          rcases hl : linkStep m (some (if m.value y < m.value r then y else r))
            (some (if m.value y < m.value r then r else y)) with _ | m₁
          · rw [hl] at h; simp at h
          · rw [hl] at h
            simp only [Option.bind] at h ⊢
            exact ih f' _ _ _ _ h (by omega)

theorem add_mono {f f' : Nat} {m : Mem α} {t : RootMap} {r : Ptr} {x : Mem α × RootMap}
    (h : add f m t r = some x) (hle : f ≤ f') : add f' m t r = some x := by
  cases r with
  | none => simp [add, stPrev] at h
  | some r =>
    simp only [add, stPrev, stNext, Option.map, bind, Option.bind] at h ⊢
    exact addLoop_mono f f' _ _ _ _ h hle

theorem rootLoop_mono (h : Ptr) (k : Nat) : ∀ (f f' k' : Nat) (m : Mem α) (t : RootMap)
    (r : Ptr) (x : Mem α × RootMap), rootLoop f h k m t r = some x → f ≤ f' → k ≤ k' →
    rootLoop f' h k' m t r = some x := by
  induction k with
  | zero => intro f f' k' m t r x hr; simp [rootLoop] at hr
  | succ k ih =>
    intro f f' k' m t r x hr hf hk
    obtain ⟨k', rfl⟩ : ∃ j, k' = j + 1 := ⟨k' - 1, by omega⟩
    by_cases hrh : r = h
    · simp only [rootLoop, hrh, if_true] at hr ⊢
      exact hr
    · cases r with
      | none => simp [rootLoop, hrh, ld] at hr
      | some r =>
        simp only [rootLoop, hrh, if_false, ld, Option.map, bind, Option.bind] at hr ⊢
        rcases ha : add f m t (some r) with _ | p
        · rw [ha] at hr; simp at hr
        · rw [ha] at hr
          rw [add_mono ha hf]
          simp only at hr ⊢
          exact ih f f' k' _ _ _ _ hr hf (by omega)

theorem childLoop_mono (c : Ptr) (k : Nat) : ∀ (f f' k' : Nat) (m : Mem α) (t : RootMap)
    (r : Ptr) (x : Mem α × RootMap), childLoop f c k m t r = some x → f ≤ f' → k ≤ k' →
    childLoop f' c k' m t r = some x := by
  induction k with
  | zero => intro f f' k' m t r x hr; simp [childLoop] at hr
  | succ k ih =>
    intro f f' k' m t r x hr hf hk
    obtain ⟨k', rfl⟩ : ∃ j, k' = j + 1 := ⟨k' - 1, by omega⟩
    by_cases hrc : r = c
    · simp only [childLoop, hrc, if_true] at hr ⊢
      exact hr
    · cases r with
      | none => simp [childLoop, hrc, ld] at hr
      | some r =>
        simp only [childLoop, hrc, if_false, ld, Option.map, bind, Option.bind, stParent]
          at hr ⊢
        rcases ha : add f ({ m with parent := Function.update m.parent r none } : Mem α) t
          (some r) with _ | p
        · rw [ha] at hr; simp at hr
        · rw [ha] at hr
          rw [add_mono ha hf]
          simp only at hr ⊢
          exact ih f f' k' _ _ _ _ hr hf (by omega)

theorem childPhase_mono {f f' : Nat} {m : Mem α} {t : RootMap} {c : Ptr}
    {x : Mem α × RootMap} (h : childPhase f m t c = some x) (hle : f ≤ f') :
    childPhase f' m t c = some x := by
  cases c with
  | none => exact h
  | some c =>
    simp only [childPhase, ld, Option.map, bind, Option.bind, stParent] at h ⊢
    rcases ha : add f ({ m with parent := Function.update m.parent c none } : Mem α) t
      (some c) with _ | p
    · rw [ha] at h; simp at h
    · rw [ha] at h
      rw [add_mono ha hle]
      simp only at h ⊢
      exact childLoop_mono _ f f f' f' _ _ _ _ h hle hle

theorem deleteMin_mono {f f' : Nat} {enum : RootMap → RootMap} {m : Mem α} {h : Ptr}
    {x : Mem α × Ptr × Option α} (hx : DeleteMin f enum m h = some x) (hle : f ≤ f') :
    DeleteMin f' enum m h = some x := by
  cases h with
  | none => exact hx
  | some a =>
    rw [deleteMin_eq] at hx ⊢
    rcases hr : rootLoop f (some a) f m [] (m.next a) with _ | p
    · rw [hr] at hx; simp at hx
    · rw [hr] at hx
      rw [rootLoop_mono _ f f f' f' _ _ _ _ hr hle hle]
      simp only [Option.bind] at hx ⊢
      rcases hc : childPhase f p.1 p.2 (p.1.child a) with _ | q
      · rw [hc] at hx; simp at hx
      · rw [hc] at hx
        rw [childPhase_mono hc hle]
        exact hx

omit [LinearOrder α] in
theorem cutAux_mono (f : Nat) : ∀ (f' : Nat) (b : Bool) (m : Mem α) (h x : Ptr) (r : Mem α),
    cutAux f b m h x = some r → f ≤ f' → cutAux f' b m h x = some r := by
  induction f with
  | zero => intro f' b m h x r hr; simp [cutAux] at hr
  | succ f ih =>
    intro f' b m h x r hr hle
    obtain ⟨f', rfl⟩ : ∃ k, f' = k + 1 := ⟨f' - 1, by omega⟩
    cases x with
    | none =>
      cases b
      · simp [cutAux, ld] at hr
      · cases f with
        | zero => simp [cutAux] at hr
        | succ f => simp [cutAux, ld] at hr
    | some x =>
      cases b with
      | false =>
        rcases hp : m.parent x with _ | p
        · simp [cutAux, ld, hp] at hr
        · rw [cutAux_cut_eq f hp] at hr
          rw [cutAux_cut_eq f' hp]
          rcases hd : detach m (some x) (some p) with _ | m₁
          · rw [hd] at hr; simp at hr
          · rw [hd] at hr
            simp only [Option.bind] at hr ⊢
            by_cases h1 : m₁.parent p = none
            · simp only [h1, if_true] at hr ⊢
              exact hr
            · simp only [h1, if_false] at hr ⊢
              by_cases h2 : (!(m₁.mark p)) = true
              · simp only [h2, if_true] at hr ⊢
                exact hr
              · simp only [h2, if_false] at hr ⊢
                exact ih f' true _ _ _ _ hr (by omega)
      | true =>
        rw [cutAux_meld_eq f] at hr
        rw [cutAux_meld_eq f']
        rcases hc : cutAux f false m h (some x) with _ | m₁
        · rw [hc] at hr; simp at hr
        · rw [hc] at hr
          rw [ih f' false _ _ _ _ hc (by omega)]
          exact hr

theorem decreaseKey_mono {f f' : Nat} {m : Mem α} {h n : Ptr} {v : α}
    {x : Mem α × Ptr × Option Err} (hx : DecreaseKey f m h n v = some x) (hle : f ≤ f') :
    DecreaseKey f' m h n v = some x := by
  cases n with
  | none => simp [DecreaseKey, ld] at hx
  | some n =>
    simp only [DecreaseKey, ld, Option.map, bind, Option.bind, stValue, cutAndMeld, pure]
      at hx ⊢
    split at hx
    · rename_i hlt
      rw [if_pos hlt]
      exact hx
    · rename_i hlt
      rw [if_neg hlt]
      split at hx
      · rename_i hnh
        rw [if_pos hnh]
        exact hx
      · rename_i hnh
        rw [if_neg hnh]
        split at hx
        · rename_i hp
          rw [if_pos hp]
          exact hx
        · rename_i hp
          rw [if_neg hp]
          rcases hc : cutAux f true ({ m with value := Function.update m.value n v } : Mem α) h
            (some n) with _ | m₁
          · rw [hc] at hx; simp at hx
          · rw [hc] at hx
            rw [cutAux_mono f f' true _ _ _ _ hc hle]
            exact hx

omit [LinearOrder α] in
theorem orphanLoop_mono (n : Ptr) (k : Nat) : ∀ (k' : Nat) (m : Mem α) (c : Ptr)
    (x : Mem α × Ptr), orphanLoop n k m c = some x → k ≤ k' → orphanLoop n k' m c = some x := by
  induction k with
  | zero => intro k' m c x h; simp [orphanLoop] at h
  | succ k ih =>
    intro k' m c x h hle
    obtain ⟨k', rfl⟩ : ∃ j, k' = j + 1 := ⟨k' - 1, by omega⟩
    cases c with
    | none => simp [orphanLoop, stParent] at h
    | some c =>
      cases n with
      | none => simp [orphanLoop, stParent, ld, bind, Option.bind] at h
      | some n =>
        simp only [orphanLoop, stParent, ld, Option.map, bind, Option.bind, pure] at h ⊢
        split at h
        · rename_i he
          rw [if_pos he]
          exact h
        · rename_i he
          rw [if_neg he]
          exact ih k' _ _ _ h (by omega)

omit [LinearOrder α] in
theorem promoteKids_mono {f f' : Nat} {m : Mem α} {h n : Ptr} {x : Mem α × Ptr}
    (hx : promoteKids f m h n = some x) (hle : f ≤ f') : promoteKids f' m h n = some x := by
  cases n with
  | none => simp [promoteKids, ld] at hx
  | some n =>
    simp only [promoteKids, ld, Option.map, bind, Option.bind, pure] at hx ⊢
    split at hx
    · rename_i he
      rw [if_pos he]
      exact hx
    · rename_i he
      rw [if_neg he]
      rcases ho : orphanLoop (some n) f m (m.child n) with _ | p
      · rw [ho] at hx; simp at hx
      · rw [ho] at hx
        rw [orphanLoop_mono _ f f' _ _ _ ho hle]
        exact hx

/-- `Delete` is the removal of the node from its ring followed by the
promotion of its children. -/
theorem delete_eq (fuel : Nat) (enum : RootMap → RootMap) (m : Mem α) (h : Ptr) (n : Nat) :
    Delete fuel enum m h (some n) =
      if m.parent n = none then
        if some n = h then (DeleteMin fuel enum m h).bind fun r => some (r.1, r.2.1)
        else ((stNext m (m.prev n) (m.next n)).bind fun m₁ =>
            stPrev m₁ (m₁.next n) (m₁.prev n)).bind fun m₂ => promoteKids fuel m₂ h (some n)
      else (cutAux fuel false m h (some n)).bind fun m₁ => promoteKids fuel m₁ h (some n) := by
  by_cases hp : m.parent n = none
  · rw [if_pos hp]
    by_cases hnh : some n = h
    · rw [if_pos hnh]
      simp only [Delete, ld, Option.map, hp, bind, Option.bind, if_true, pure, hnh]
      cases DeleteMin fuel enum m h <;> simp
    · rw [if_neg hnh]
      simp only [Delete, ld, Option.map, hp, bind, Option.bind, if_true, pure, hnh, if_false,
        promoteKids]
      rcases stNext m (m.prev n) (m.next n) with _ | m₁
      · rfl
      · dsimp only
        rcases stPrev m₁ (m₁.next n) (m₁.prev n) with _ | m₂
        · rfl
        · rfl
  · rw [if_neg hp]
    obtain ⟨p, hp'⟩ := Option.ne_none_iff_exists'.1 hp
    simp only [Delete, ld, Option.map, hp', bind, Option.bind, cut, promoteKids, pure]
    cases cutAux fuel false m h (some n) <;> simp

theorem delete_mono {f f' : Nat} {enum : RootMap → RootMap} {m : Mem α} {h n : Ptr}
    {x : Mem α × Ptr} (hx : Delete f enum m h n = some x) (hle : f ≤ f') :
    Delete f' enum m h n = some x := by
  cases n with
  | none => simp [Delete, ld] at hx
  | some n =>
    rw [delete_eq] at hx ⊢
    by_cases hp : m.parent n = none
    · rw [if_pos hp] at hx ⊢
      by_cases hnh : some n = h
      · rw [if_pos hnh] at hx ⊢
        rcases hd : DeleteMin f enum m h with _ | r
        · rw [hd] at hx; simp at hx
        · rw [hd] at hx
          rw [deleteMin_mono hd hle]
          exact hx
      · rw [if_neg hnh] at hx ⊢
        rw [Option.bind_eq_some] at hx ⊢
        obtain ⟨m₂, h1, h2⟩ := hx
        exact ⟨m₂, h1, promoteKids_mono h2 hle⟩
    · rw [if_neg hp] at hx ⊢
      rw [Option.bind_eq_some] at hx ⊢
      obtain ⟨m₂, h1, h2⟩ := hx
      exact ⟨m₂, cutAux_mono f f' false _ _ _ _ h1 hle, promoteKids_mono h2 hle⟩

end Mono

section MonoT

variable [LinearOrder α]

theorem addLoopT_mono (f : Nat) : ∀ (f' : Nat) (m : Mem α) (t : RootMap) (r : Ptr)
    (x : Nat), addLoopT f m t r = some x → f ≤ f' → addLoopT f' m t r = some x := by
  induction f with
  | zero => intro f' m t r x h; simp [addLoopT] at h
  | succ f ih =>
    intro f' m t r x h hle
    obtain ⟨f', rfl⟩ : ∃ k, f' = k + 1 := ⟨f' - 1, by omega⟩
    cases r with
    | none => simp [addLoopT, ld] at h
    | some r =>
      rcases hg : mapGet t (m.rank r) with _ | p
      · rw [addLoopT_none f hg] at h
        rw [addLoopT_none f' hg]
        exact h
      · cases p with
        | none => simp [addLoopT, ld, hg] at h
        | some y =>
          rw [addLoopT_some f hg] at h
          rw [addLoopT_some f' hg]
          rcases hl : linkStep m (some (if m.value y < m.value r then y else r))
            (some (if m.value y < m.value r then r else y)) with _ | m₁
          · rw [hl] at h; simp at h
          · rw [hl] at h
            rw [Option.some_bind] at h ⊢
            rw [Option.bind_eq_some] at h ⊢
            obtain ⟨c, h1, h2⟩ := h
            exact ⟨c, ih f' _ _ _ _ h1 (by omega), h2⟩

theorem addT_mono {f f' : Nat} {m : Mem α} {t : RootMap} {r : Ptr} {x : Nat}
    (h : addT f m t r = some x) (hle : f ≤ f') : addT f' m t r = some x := by
  cases r with
  | none => simp [addT, stPrev] at h
  | some r =>
    simp only [addT, stPrev, stNext, Option.map, bind, Option.bind] at h ⊢
    exact addLoopT_mono f f' _ _ _ _ h hle

theorem rootLoopT_mono (h : Ptr) (k : Nat) : ∀ (f f' k' : Nat) (m : Mem α) (t : RootMap)
    (r : Ptr) (x : Nat), rootLoopT f h k m t r = some x → f ≤ f' → k ≤ k' →
    rootLoopT f' h k' m t r = some x := by
  induction k with
  | zero => intro f f' k' m t r x hr; simp [rootLoopT] at hr
  | succ k ih =>
    intro f f' k' m t r x hr hf hk
    obtain ⟨k', rfl⟩ : ∃ j, k' = j + 1 := ⟨k' - 1, by omega⟩
    by_cases hrh : r = h
    · simp only [rootLoopT, hrh, if_true] at hr ⊢
      exact hr
    · cases r with
      | none => simp [rootLoopT, hrh, ld] at hr
      | some r =>
        simp only [rootLoopT, hrh, if_false, ld, Option.map, bind, Option.bind] at hr ⊢
        rcases hc : addT f m t (some r) with _ | c
        · rw [hc] at hr; simp at hr
        · rw [hc] at hr
          rw [addT_mono hc hf]
          simp only at hr ⊢
          rcases ha : add f m t (some r) with _ | p
          · rw [ha] at hr; simp at hr
          · rw [ha] at hr
            rw [add_mono ha hf]
            simp only at hr ⊢
            rcases hq : rootLoopT f h k p.1 p.2 (m.next r) with _ | c'
            · rw [hq] at hr; simp at hr
            · rw [hq] at hr
              rw [ih f f' k' _ _ _ _ hq hf (by omega)]
              exact hr

theorem childLoopT_mono (c : Ptr) (k : Nat) : ∀ (f f' k' : Nat) (m : Mem α) (t : RootMap)
    (r : Ptr) (x : Nat), childLoopT f c k m t r = some x → f ≤ f' → k ≤ k' →
    childLoopT f' c k' m t r = some x := by
  induction k with
  | zero => intro f f' k' m t r x hr; simp [childLoopT] at hr
  | succ k ih =>
    intro f f' k' m t r x hr hf hk
    obtain ⟨k', rfl⟩ : ∃ j, k' = j + 1 := ⟨k' - 1, by omega⟩
    by_cases hrc : r = c
    · simp only [childLoopT, hrc, if_true] at hr ⊢
      exact hr
    · cases r with
      | none => simp [childLoopT, hrc, ld] at hr
      | some r =>
        simp only [childLoopT, hrc, if_false, ld, Option.map, bind, Option.bind, stParent]
          at hr ⊢
        rcases hc : addT f ({ m with parent := Function.update m.parent r none } : Mem α) t
          (some r) with _ | a
        · rw [hc] at hr; simp at hr
        · rw [hc] at hr
          rw [addT_mono hc hf]
          simp only at hr ⊢
          rcases ha : add f ({ m with parent := Function.update m.parent r none } : Mem α) t
            (some r) with _ | p
          · rw [ha] at hr; simp at hr
          · rw [ha] at hr
            rw [add_mono ha hf]
            simp only at hr ⊢
            rcases hq : childLoopT f c k p.1 p.2 (m.next r) with _ | c'
            · rw [hq] at hr; simp at hr
            · rw [hq] at hr
              rw [ih f f' k' _ _ _ _ hq hf (by omega)]
              exact hr

theorem childPhaseT_mono {f f' : Nat} {m : Mem α} {t : RootMap} {c : Ptr}
    {x : Nat} (h : childPhaseT f m t c = some x) (hle : f ≤ f') :
    childPhaseT f' m t c = some x := by
  cases c with
  | none => exact h
  | some c =>
    simp only [childPhaseT, ld, Option.map, bind, Option.bind, stParent] at h ⊢
    rcases hc : addT f ({ m with parent := Function.update m.parent c none } : Mem α) t
      (some c) with _ | a
    · rw [hc] at h; simp at h
    · rw [hc] at h
      rw [addT_mono hc hle]
      simp only at h ⊢
      rcases ha : add f ({ m with parent := Function.update m.parent c none } : Mem α) t
        (some c) with _ | p
      · rw [ha] at h; simp at h
      · rw [ha] at h
        rw [add_mono ha hle]
        simp only at h ⊢
        rcases hq : childLoopT f (some c) f p.1 p.2 (m.next c) with _ | c'
        · rw [hq] at h; simp at h
        · rw [hq] at h
          rw [childLoopT_mono _ f f f' f' _ _ _ _ hq hle hle]
          exact h

theorem deleteMinT_mono {f f' : Nat} {m : Mem α} {h : Ptr}
    {x : Nat} (hx : DeleteMinT f m h = some x) (hle : f ≤ f') :
    DeleteMinT f' m h = some x := by
  cases h with
  | none => exact hx
  | some a =>
    simp only [DeleteMinT, ld, Option.map, bind, Option.bind] at hx ⊢
    rcases hc : rootLoopT f (some a) f m [] (m.next a) with _ | c₁
    · rw [hc] at hx; simp at hx
    · rw [hc] at hx
      rw [rootLoopT_mono _ f f f' f' _ _ _ _ hc hle hle]
      simp only at hx ⊢
      rcases hr : rootLoop f (some a) f m [] (m.next a) with _ | p
      · rw [hr] at hx; simp at hx
      · rw [hr] at hx
        rw [rootLoop_mono _ f f f' f' _ _ _ _ hr hle hle]
        simp only at hx ⊢
        rcases hc₂ : childPhaseT f p.1 p.2 (p.1.child a) with _ | c₂
        · rw [hc₂] at hx; simp at hx
        · rw [hc₂] at hx
          rw [childPhaseT_mono hc₂ hle]
          simp only at hx ⊢
          rcases hq : childPhase f p.1 p.2 (p.1.child a) with _ | q
          · rw [hq] at hx; simp at hx
          · rw [hq] at hx
            rw [childPhase_mono hq hle]
            exact hx

omit [LinearOrder α] in
theorem cutAuxT_mono (f : Nat) : ∀ (f' : Nat) (b : Bool) (m : Mem α) (h x : Ptr) (r : Nat),
    cutAuxT f b m h x = some r → f ≤ f' → cutAuxT f' b m h x = some r := by
  induction f with
  | zero => intro f' b m h x r hr; simp [cutAuxT] at hr
  | succ f ih =>
    intro f' b m h x r hr hle
    obtain ⟨f', rfl⟩ : ∃ k, f' = k + 1 := ⟨f' - 1, by omega⟩
    cases x with
    | none =>
      cases b
      · simp [cutAuxT, ld] at hr
      · cases f with
        | zero => simp [cutAuxT] at hr
        | succ f => simp [cutAuxT, ld] at hr
    | some x =>
      cases b with
      | false =>
        rcases hp : m.parent x with _ | p
        · simp [cutAuxT, ld, hp] at hr
        · rw [cutAuxT_cut_eq f hp] at hr
          rw [cutAuxT_cut_eq f' hp]
          rcases hd : detach m (some x) (some p) with _ | m₁
          · rw [hd] at hr; simp at hr
          · rw [hd] at hr
            simp only [Option.some_bind] at hr ⊢
            by_cases h1 : m₁.parent p = none
            · simp only [h1, if_true] at hr ⊢
              exact hr
            · simp only [h1, if_false] at hr ⊢
              by_cases h2 : (!(m₁.mark p)) = true
              · simp only [h2, if_true] at hr ⊢
                exact hr
              · rw [if_neg h2] at hr ⊢
                rw [Option.bind_eq_some] at hr ⊢
                obtain ⟨c, hc1, hc2⟩ := hr
                exact ⟨c, ih f' true _ _ _ _ hc1 (by omega), hc2⟩
      | true =>
        rw [cutAuxT_meld_eq f] at hr
        rw [cutAuxT_meld_eq f']
        rw [Option.bind_eq_some] at hr ⊢
        obtain ⟨c, hc1, hc2⟩ := hr
        exact ⟨c, ih f' false _ _ _ _ hc1 (by omega), hc2⟩

theorem decreaseKeyT_mono {f f' : Nat} {m : Mem α} {h n : Ptr} {v : α}
    {x : Nat} (hx : DecreaseKeyT f m h n v = some x) (hle : f ≤ f') :
    DecreaseKeyT f' m h n v = some x := by
  cases n with
  | none => simp [DecreaseKeyT, ld] at hx
  | some n =>
    simp only [DecreaseKeyT, ld, Option.map, bind, Option.bind, stValue, pure]
      at hx ⊢
    split at hx
    · rename_i hlt
      rw [if_pos hlt]
      exact hx
    · rename_i hlt
      rw [if_neg hlt]
      split at hx
      · rename_i hnh
        rw [if_pos hnh]
        exact hx
      · rename_i hnh
        rw [if_neg hnh]
        split at hx
        · rename_i hp
          rw [if_pos hp]
          exact hx
        · rename_i hp
          rw [if_neg hp]
          rcases hc : cutAuxT f true ({ m with value := Function.update m.value n v } : Mem α) h
            (some n) with _ | c
          · rw [hc] at hx; simp at hx
          · rw [hc] at hx
            rw [cutAuxT_mono f f' true _ _ _ _ hc hle]
            exact hx

omit [LinearOrder α] in
theorem orphanLoopT_mono (n : Ptr) (k : Nat) : ∀ (k' : Nat) (m : Mem α) (c : Ptr)
    (x : Nat), orphanLoopT n k m c = some x → k ≤ k' → orphanLoopT n k' m c = some x := by
  induction k with
  | zero => intro k' m c x h; simp [orphanLoopT] at h
  | succ k ih =>
    intro k' m c x h hle
    obtain ⟨k', rfl⟩ : ∃ j, k' = j + 1 := ⟨k' - 1, by omega⟩
    cases c with
    | none => simp [orphanLoopT, stParent] at h
    | some c =>
      cases n with
      | none => simp [orphanLoopT, stParent, ld, bind, Option.bind] at h
      | some n =>
        simp only [orphanLoopT, stParent, ld, Option.map, bind, Option.bind, pure] at h ⊢
        split at h
        · rename_i he
          rw [if_pos he]
          exact h
        · rename_i he
          rw [if_neg he]
          rcases hq : orphanLoopT (some n) k
            ({ m with parent := Function.update m.parent c none } : Mem α) (m.next c) with _ | a
          · rw [hq] at h; simp at h
          · rw [hq] at h
            rw [ih k' _ _ _ hq (by omega)]
            exact h

omit [LinearOrder α] in
theorem promoteKidsT_mono {f f' : Nat} {m : Mem α} {n : Ptr} {x : Nat}
    (hx : promoteKidsT f m n = some x) (hle : f ≤ f') : promoteKidsT f' m n = some x := by
  cases n with
  | none => simp [promoteKidsT, ld] at hx
  | some n =>
    simp only [promoteKidsT, ld, Option.map, bind, Option.bind, pure] at hx ⊢
    split at hx
    · rename_i he
      rw [if_pos he]
      exact hx
    · rename_i he
      rw [if_neg he]
      exact orphanLoopT_mono _ f f' _ _ _ hx hle

/-- The cost of `Delete`, by the three cases of the removal. -/
theorem deleteT_eq (fuel : Nat) (m : Mem α) (h : Ptr) (n : Nat) :
    DeleteT fuel m h (some n) =
      if m.parent n = none then
        if some n = h then (DeleteMinT fuel m h).bind fun c => some (c + 1)
        else ((stNext m (m.prev n) (m.next n)).bind fun m₁ =>
            stPrev m₁ (m₁.next n) (m₁.prev n)).bind fun m₂ =>
              (promoteKidsT fuel m₂ (some n)).bind fun c => some (c + 1)
      else (cutAuxT fuel false m h (some n)).bind fun a =>
        (cutAux fuel false m h (some n)).bind fun m₁ =>
          (promoteKidsT fuel m₁ (some n)).bind fun c => some (a + c + 1) := by
  by_cases hp : m.parent n = none
  · rw [if_pos hp]
    by_cases hnh : some n = h
    · rw [if_pos hnh]
      simp only [DeleteT, ld, Option.map, hp, bind, Option.bind, if_true, pure, hnh]
    · rw [if_neg hnh]
      simp only [DeleteT, ld, Option.map, hp, bind, Option.bind, if_true, pure, hnh, if_false]
      rcases stNext m (m.prev n) (m.next n) with _ | m₁
      · rfl
      · rfl
  · rw [if_neg hp]
    obtain ⟨p, hp'⟩ := Option.ne_none_iff_exists'.1 hp
    simp only [DeleteT, ld, Option.map, hp', bind, Option.bind, cut, pure]
    simp

theorem deleteT_mono {f f' : Nat} {m : Mem α} {h n : Ptr}
    {x : Nat} (hx : DeleteT f m h n = some x) (hle : f ≤ f') :
    DeleteT f' m h n = some x := by
  cases n with
  | none => simp [DeleteT, ld] at hx
  | some n =>
    rw [deleteT_eq] at hx ⊢
    by_cases hp : m.parent n = none
    · rw [if_pos hp] at hx ⊢
      by_cases hnh : some n = h
      · rw [if_pos hnh] at hx ⊢
        rw [Option.bind_eq_some] at hx ⊢
        obtain ⟨c, h1, h2⟩ := hx
        exact ⟨c, deleteMinT_mono h1 hle, h2⟩
      · rw [if_neg hnh] at hx ⊢
        rw [Option.bind_eq_some] at hx ⊢
        obtain ⟨m₂, h1, h2⟩ := hx
        refine ⟨m₂, h1, ?_⟩
        rw [Option.bind_eq_some] at h2 ⊢
        obtain ⟨c, h3, h4⟩ := h2
        exact ⟨c, promoteKidsT_mono h3 hle, h4⟩
    · rw [if_neg hp] at hx ⊢
      rw [Option.bind_eq_some] at hx ⊢
      obtain ⟨a, h1, h2⟩ := hx
      refine ⟨a, cutAuxT_mono f f' false _ _ _ _ h1 hle, ?_⟩
      rw [Option.bind_eq_some] at h2 ⊢
      obtain ⟨m₂, h3, h4⟩ := h2
      refine ⟨m₂, cutAux_mono f f' false _ _ _ _ h3 hle, ?_⟩
      rw [Option.bind_eq_some] at h4 ⊢
      obtain ⟨c, h5, h6⟩ := h4
      exact ⟨c, promoteKidsT_mono h5 hle, h6⟩

end MonoT

/-! ## The cost of a call that returns is defined -/

section Defined

variable [LinearOrder α]

theorem addLoopT_defined (f : Nat) : ∀ (m : Mem α) (t : RootMap) (r : Ptr)
    (x : Mem α × RootMap), addLoop f m t r = some x → ∃ c, addLoopT f m t r = some c := by
  induction f with
  | zero => intro m t r x h; simp [addLoop] at h
  | succ f ih =>
    intro m t r x h
    cases r with
    | none => simp [addLoop, ld] at h
    | some r =>
      rcases hg : mapGet t (m.rank r) with _ | p
      · exact ⟨1, addLoopT_none f hg⟩
      · cases p with
        | none => simp [addLoop, ld, hg] at h
        | some y =>
          rw [addLoop_some f hg] at h
          rw [addLoopT_some f hg]
          rcases hl : linkStep m (some (if m.value y < m.value r then y else r))
            (some (if m.value y < m.value r then r else y)) with _ | m₁
          · rw [hl] at h; simp at h
          · rw [hl] at h
            rw [Option.some_bind] at h ⊢
            obtain ⟨c, hc⟩ := ih _ _ _ _ h
            exact ⟨c + 1, by rw [hc]; rfl⟩

theorem addT_defined {f : Nat} {m : Mem α} {t : RootMap} {r : Ptr} {x : Mem α × RootMap}
    (h : add f m t r = some x) : ∃ c, addT f m t r = some c := by
  cases r with
  | none => simp [add, stPrev] at h
  | some r =>
    simp only [add, addT, stPrev, stNext, Option.map, bind, Option.bind] at h ⊢
    exact addLoopT_defined f _ _ _ _ h

theorem rootLoopT_defined (h : Ptr) (k : Nat) : ∀ (f : Nat) (m : Mem α) (t : RootMap)
    (r : Ptr) (x : Mem α × RootMap), rootLoop f h k m t r = some x →
    ∃ c, rootLoopT f h k m t r = some c := by
  induction k with
  | zero => intro f m t r x hr; simp [rootLoop] at hr
  | succ k ih =>
    intro f m t r x hr
    by_cases hrh : r = h
    · simp only [rootLoopT, hrh, if_true]
      exact ⟨0, rfl⟩
    · cases r with
      | none => simp [rootLoop, hrh, ld] at hr
      | some r =>
        simp only [rootLoop, hrh, if_false, ld, Option.map, bind, Option.bind] at hr
        simp only [rootLoopT, hrh, if_false, ld, Option.map, bind, Option.bind]
        rcases ha : add f m t (some r) with _ | p
        · rw [ha] at hr; simp at hr
        · rw [ha] at hr
          simp only at hr
          obtain ⟨c, hc⟩ := addT_defined ha
          obtain ⟨c', hc'⟩ := ih f _ _ _ _ hr
          rw [hc]
          simp only [hc']
          exact ⟨_, rfl⟩

theorem childLoopT_defined (c : Ptr) (k : Nat) : ∀ (f : Nat) (m : Mem α) (t : RootMap)
    (r : Ptr) (x : Mem α × RootMap), childLoop f c k m t r = some x →
    ∃ a, childLoopT f c k m t r = some a := by
  induction k with
  | zero => intro f m t r x hr; simp [childLoop] at hr
  | succ k ih =>
    intro f m t r x hr
    by_cases hrc : r = c
    · simp only [childLoopT, hrc, if_true]
      exact ⟨0, rfl⟩
    · cases r with
      | none => simp [childLoop, hrc, ld] at hr
      | some r =>
        simp only [childLoop, hrc, if_false, ld, Option.map, bind, Option.bind, stParent]
          at hr
        simp only [childLoopT, hrc, if_false, ld, Option.map, bind, Option.bind, stParent]
        rcases ha : add f ({ m with parent := Function.update m.parent r none } : Mem α) t
          (some r) with _ | p
        · rw [ha] at hr; simp at hr
        · rw [ha] at hr
          simp only at hr
          obtain ⟨a, hc⟩ := addT_defined ha
          obtain ⟨a', hc'⟩ := ih f _ _ _ _ hr
          rw [hc]
          simp only [hc']
          exact ⟨_, rfl⟩

theorem childPhaseT_defined {f : Nat} {m : Mem α} {t : RootMap} {c : Ptr}
    {x : Mem α × RootMap} (h : childPhase f m t c = some x) :
    ∃ a, childPhaseT f m t c = some a := by
  cases c with
  | none => exact ⟨0, rfl⟩
  | some c =>
    simp only [childPhase, ld, Option.map, bind, Option.bind, stParent] at h
    simp only [childPhaseT, ld, Option.map, bind, Option.bind, stParent]
    rcases ha : add f ({ m with parent := Function.update m.parent c none } : Mem α) t
      (some c) with _ | p
    · rw [ha] at h; simp at h
    · rw [ha] at h
      simp only at h
      obtain ⟨a, hc⟩ := addT_defined ha
      obtain ⟨a', hc'⟩ := childLoopT_defined _ _ f _ _ _ _ h
      rw [hc]
      simp only [hc']
      exact ⟨_, rfl⟩

theorem deleteMinT_defined {f : Nat} {enum : RootMap → RootMap} {m : Mem α} {h : Ptr}
    {x : Mem α × Ptr × Option α} (hx : DeleteMin f enum m h = some x) :
    ∃ c, DeleteMinT f m h = some c := by
  cases h with
  | none => exact ⟨1, rfl⟩
  | some a =>
    rw [deleteMin_eq] at hx
    simp only [DeleteMinT, ld, Option.map, bind, Option.bind]
    rcases hr : rootLoop f (some a) f m [] (m.next a) with _ | p
    · rw [hr] at hx; simp at hx
    · rw [hr] at hx
      simp only [Option.bind] at hx
      rcases hc : childPhase f p.1 p.2 (p.1.child a) with _ | q
      · rw [hc] at hx; simp at hx
      · obtain ⟨c₁, h1⟩ := rootLoopT_defined _ _ f _ _ _ _ hr
        obtain ⟨c₂, h2⟩ := childPhaseT_defined hc
        rw [h1]
        simp only [h2, hc]
        exact ⟨_, rfl⟩

omit [LinearOrder α] in
theorem cutAuxT_defined (f : Nat) : ∀ (b : Bool) (m : Mem α) (h x : Ptr) (r : Mem α),
    cutAux f b m h x = some r → ∃ c, cutAuxT f b m h x = some c := by
  induction f with
  | zero => intro b m h x r hr; simp [cutAux] at hr
  | succ f ih =>
    intro b m h x r hr
    cases x with
    | none =>
      cases b
      · simp [cutAux, ld] at hr
      · cases f with
        | zero => simp [cutAux] at hr
        | succ f => simp [cutAux, ld] at hr
    | some x =>
      cases b with
      | false =>
        rcases hp : m.parent x with _ | p
        · simp [cutAux, ld, hp] at hr
        · rw [cutAux_cut_eq f hp] at hr
          rw [cutAuxT_cut_eq f hp]
          rcases hd : detach m (some x) (some p) with _ | m₁
          · rw [hd] at hr; simp at hr
          · rw [hd] at hr
            simp only [Option.some_bind] at hr ⊢
            by_cases h1 : m₁.parent p = none
            · rw [if_pos h1]
              exact ⟨1, rfl⟩
            · rw [if_neg h1] at hr ⊢
              by_cases h2 : (!(m₁.mark p)) = true
              · rw [if_pos h2]
                exact ⟨1, rfl⟩
              · rw [if_neg h2] at hr ⊢
                obtain ⟨c, hc⟩ := ih true _ _ _ _ hr
                exact ⟨c + 1, by rw [hc]; rfl⟩
      | true =>
        rw [cutAux_meld_eq f] at hr
        rw [cutAuxT_meld_eq f]
        rcases hc : cutAux f false m h (some x) with _ | m₁
        · rw [hc] at hr; simp at hr
        · obtain ⟨c, hc'⟩ := ih false _ _ _ _ hc
          exact ⟨c + 1, by rw [hc']; rfl⟩

theorem decreaseKeyT_defined {f : Nat} {m : Mem α} {h n : Ptr} {v : α}
    {x : Mem α × Ptr × Option Err} (hx : DecreaseKey f m h n v = some x) :
    ∃ c, DecreaseKeyT f m h n v = some c := by
  cases n with
  | none => simp [DecreaseKey, ld] at hx
  | some n =>
    simp only [DecreaseKey, ld, Option.map, bind, Option.bind, stValue, cutAndMeld, pure]
      at hx
    simp only [DecreaseKeyT, ld, Option.map, bind, Option.bind, stValue, pure]
    split at hx
    · rename_i hlt
      rw [if_pos hlt]
      exact ⟨1, rfl⟩
    · rename_i hlt
      rw [if_neg hlt]
      split at hx
      · rename_i hnh
        rw [if_pos hnh]
        exact ⟨1, rfl⟩
      · rename_i hnh
        rw [if_neg hnh]
        split at hx
        · rename_i hp
          rw [if_pos hp]
          exact ⟨1, rfl⟩
        · rename_i hp
          rw [if_neg hp]
          rcases hc : cutAux f true ({ m with value := Function.update m.value n v } : Mem α) h
            (some n) with _ | m₁
          · rw [hc] at hx; simp at hx
          · obtain ⟨c, hc'⟩ := cutAuxT_defined f true _ _ _ _ hc
            rw [hc']
            exact ⟨_, rfl⟩

omit [LinearOrder α] in
theorem orphanLoopT_defined (n : Ptr) (k : Nat) : ∀ (m : Mem α) (c : Ptr)
    (x : Mem α × Ptr), orphanLoop n k m c = some x → ∃ a, orphanLoopT n k m c = some a := by
  induction k with
  | zero => intro m c x h; simp [orphanLoop] at h
  | succ k ih =>
    intro m c x h
    cases c with
    | none => simp [orphanLoop, stParent] at h
    | some c =>
      cases n with
      | none => simp [orphanLoop, stParent, ld, bind, Option.bind] at h
      | some n =>
        simp only [orphanLoop, stParent, ld, Option.map, bind, Option.bind, pure] at h
        simp only [orphanLoopT, stParent, ld, Option.map, bind, Option.bind, pure]
        split at h
        · rename_i he
          rw [if_pos he]
          exact ⟨1, rfl⟩
        · rename_i he
          rw [if_neg he]
          obtain ⟨a, ha⟩ := ih _ _ _ h
          rw [ha]
          exact ⟨_, rfl⟩

omit [LinearOrder α] in
theorem promoteKidsT_defined {f : Nat} {m : Mem α} {h n : Ptr} {x : Mem α × Ptr}
    (hx : promoteKids f m h n = some x) : ∃ c, promoteKidsT f m n = some c := by
  cases n with
  | none => simp [promoteKids, ld] at hx
  | some n =>
    simp only [promoteKids, ld, Option.map, bind, Option.bind, pure] at hx
    simp only [promoteKidsT, ld, Option.map, bind, Option.bind, pure]
    split at hx
    · rename_i he
      rw [if_pos he]
      exact ⟨0, rfl⟩
    · rename_i he
      rw [if_neg he]
      rcases ho : orphanLoop (some n) f m (m.child n) with _ | p
      · rw [ho] at hx; simp at hx
      · exact orphanLoopT_defined _ f _ _ _ ho

theorem deleteT_defined {f : Nat} {enum : RootMap → RootMap} {m : Mem α} {h n : Ptr}
    {x : Mem α × Ptr} (hx : Delete f enum m h n = some x) :
    ∃ c, DeleteT f m h n = some c := by
  cases n with
  | none => simp [Delete, ld] at hx
  | some n =>
    rw [delete_eq] at hx
    rw [deleteT_eq]
    by_cases hp : m.parent n = none
    · rw [if_pos hp] at hx ⊢
      by_cases hnh : some n = h
      · rw [if_pos hnh] at hx ⊢
        rcases hd : DeleteMin f enum m h with _ | r
        · rw [hd] at hx; simp at hx
        · obtain ⟨c, hc⟩ := deleteMinT_defined hd
          exact ⟨c + 1, by rw [hc]; rfl⟩
      · rw [if_neg hnh] at hx ⊢
        rw [Option.bind_eq_some] at hx
        obtain ⟨m₂, h1, h2⟩ := hx
        obtain ⟨c, hc⟩ := promoteKidsT_defined h2
        exact ⟨c + 1, by rw [h1, Option.some_bind, hc]; rfl⟩
    · rw [if_neg hp] at hx ⊢
      rw [Option.bind_eq_some] at hx
      obtain ⟨m₂, h1, h2⟩ := hx
      obtain ⟨a, ha⟩ := cutAuxT_defined f false _ _ _ _ h1
      obtain ⟨c, hc⟩ := promoteKidsT_defined h2
      exact ⟨a + c + 1, by rw [ha, Option.some_bind, h1, Option.some_bind, hc]; rfl⟩

end Defined

/-! ## Sequences of operations -/

theorem Shape.empty_shape (m : Mem α) : Shape m none Ghost.empty := by
  refine ⟨⟨⟨?_, ?_, ?_, ?_, ?_, ?_, ?_⟩, ?_, ?_, ?_⟩, trivial, rfl, ?_⟩ <;>
    simp [Ghost.empty]

theorem Shape.head_some {m : Mem α} {h : Ptr} {g : Ghost} (hs : Shape m h g)
    (hne : g.nodes ≠ []) : ∃ a, h = some a := by
  cases h with
  | none => exact absurd hs.nodes_nil_shape hne
  | some a => exact ⟨a, rfl⟩

theorem Shape.head_none {m : Mem α} {h : Ptr} {g : Ghost} (hs : Shape m h g)
    (he : g.nodes = []) : h = none := by
  cases h with
  | none => rfl
  | some a =>
    have ha : a ∈ g.roots := hs.head
    have := (hs.roots_sub a (List.mem_append_left _ ha)).1
    rw [he] at this
    simp at this

section Sequences

variable [LinearOrder α]

theorem WF.empty_wf (m : Mem α) : WF m none Ghost.empty :=
  ⟨Shape.empty_shape m, fun a ha => by simp [Ghost.empty] at ha, fun a ha => by simp at ha⟩

theorem insertAll_wf (vs : List α) : ∀ (m : Mem α) (h : Ptr) (g : Ghost), WF m h g →
    ∃ m' h' g', insertAll m h vs = some (m', h') ∧ WF m' h' g' ∧
      (g'.nodes.map m'.value).Perm (vs ++ g.nodes.map m.value) := by
  induction vs with
  | nil => intro m h g hwf; exact ⟨m, h, g, rfl, hwf, by simp⟩
  | cons v vs ih =>
    intro m h g hwf
    obtain ⟨m₁, h₁, g₁, hres, hwf₁, hnodes, hval, -⟩ := insert_wf m h g v hwf
    obtain ⟨m', h', g', hres', hwf', hperm⟩ := ih m₁ h₁ g₁ hwf₁
    refine ⟨m', h', g', ?_, hwf', ?_⟩
    · simp only [insertAll, hres, Option.bind]
      exact hres'
    · refine hperm.trans ?_
      have hfresh := hwf.1.fresh
      have hmap : g₁.nodes.map m₁.value = v :: g.nodes.map m.value := by
        rw [hnodes, hval, List.map_cons, Function.update_same]
        congr 1
        apply List.map_congr_left
        intro x hx
        have : x ≠ m.top := fun e => hfresh (e ▸ hx)
        simp [Function.update_apply, this]
      rw [hmap]
      simp

theorem drain_wf (fuel : Nat) (enum : Nat → RootMap → RootMap)
    (henum : ∀ k t, (enum k t).Perm t) : ∀ (k : Nat) (m : Mem α) (h : Ptr) (g : Ghost),
    WF m h g → g.nodes.length = k → k ≤ fuel →
    ∃ (m' : Mem α) (outs : List α), drain fuel enum k m h = some (m', none, outs.map some) ∧
      outs.Perm (g.nodes.map m.value) ∧ outs.Sorted (· ≤ ·) := by
  intro k
  induction k with
  | zero =>
    intro m h g hwf hlen _
    have he : g.nodes = [] := List.length_eq_zero.1 hlen
    have := hwf.1.head_none he
    subst this
    exact ⟨m, [], rfl, by simp [he], List.sorted_nil⟩
  | succ k ih =>
    intro m h g hwf hlen hfuel
    have hne : g.nodes ≠ [] := by
      intro he
      rw [he] at hlen
      simp at hlen
    obtain ⟨a, rfl⟩ := hwf.1.head_some hne
    have han : a ∈ g.nodes :=
      (hwf.1.roots_sub a (List.mem_append_left _ (hwf.1.head : a ∈ g.roots))).1
    obtain ⟨m₁, h₁, g₁, hres, hwf₁, hnodes, hval, hmin⟩ :=
      deleteMin_wf fuel (enum k) m a g hwf (henum k) (by omega)
    have hlen₁ : g₁.nodes.length = k := by
      rw [hnodes, List.length_erase_of_mem han, hlen]
      rfl
    obtain ⟨m', outs, hres', hperm, hsort⟩ := ih m₁ h₁ g₁ hwf₁ hlen₁ (by omega)
    have hperm' : outs.Perm ((g.nodes.erase a).map m.value) := by
      rw [← hnodes, ← hval]
      exact hperm
    refine ⟨m', m.value a :: outs, ?_, ?_, ?_⟩
    · simp only [drain, hres, Option.bind, hres', List.map_cons]
    · exact (hperm'.cons _).trans ((List.perm_cons_erase han).map m.value).symm
    · refine List.sorted_cons.2 ⟨?_, hsort⟩
      intro b hb
      obtain ⟨x, hx, rfl⟩ := List.mem_map.1 (hperm'.mem_iff.1 hb)
      exact not_lt.1 (hmin x (List.mem_of_mem_erase hx))

end Sequences

/-! ## Membership, the invariants field by field, and frames -/

theorem ring_links {m : Mem α} {l : List Nat} {x : Nat} (h : Ring m l) (hx : x ∈ l) :
    ∃ y z, y ∈ l ∧ z ∈ l ∧ Link m x y ∧ Link m z x := by
  obtain ⟨l', hperm, hring⟩ := ring_front h hx
  have hlast : Link m (lastOf x l') x := seg_last hring
  have hz : lastOf x l' ∈ l := hperm.mem_iff.1 (lastOf_mem x l')
  cases l' with
  | nil => exact ⟨x, x, hx, hx, seg_nil.1 hring, seg_nil.1 hring⟩
  | cons c l'' =>
    exact ⟨c, _, hperm.mem_iff.1 (by simp), hz, (seg_cons.1 hring).1, hlast⟩

theorem ring_next_mem {m : Mem α} {l : List Nat} {x y : Nat} (h : Ring m l) (hx : x ∈ l)
    (hn : m.next x = some y) : y ∈ l := by
  obtain ⟨y', -, hy', -, hl, -⟩ := ring_links h hx
  have := hl.1
  rw [hn] at this
  rw [Option.some.inj this]
  exact hy'

theorem seg_member {m : Mem α} {h : Ptr} {a b : Nat} {l : List Nat} (hs : Seg m a l b)
    (ha : Member m h a) : ∀ y ∈ l, Member m h y := by
  induction l generalizing a with
  | nil => intro y hy; simp at hy
  | cons c l ih =>
    obtain ⟨h1, h2⟩ := seg_cons.1 hs
    have hc := Member.next ha h1.1
    intro y hy
    rcases List.mem_cons.1 hy with rfl | hy'
    · exact hc
    · exact ih h2 hc y hy'

theorem ring_member {m : Mem α} {h : Ptr} {l : List Nat} {a : Nat} (hr : Ring m l)
    (hal : a ∈ l) (ha : Member m h a) : ∀ y ∈ l, Member m h y := by
  obtain ⟨l', hperm, hring⟩ := ring_front hr hal
  intro y hy
  rcases List.mem_cons.1 (hperm.mem_iff.2 hy) with rfl | hy'
  · exact ha
  · exact seg_member hring ha y hy'

/-- The members of a heap in shape are the nodes of its forest. -/
theorem Shape.member_iff {m : Mem α} {h : Ptr} {g : Ghost} (hs : Shape m h g) (x : Nat) :
    Member m h x ↔ x ∈ g.nodes := by
  constructor
  · intro hm
    induction hm with
    | head a => exact (hs.roots_sub a (List.mem_append_left _ (hs.head : a ∈ g.roots))).1
    | next _ hn ih =>
      have ih := ih hs
      rcases hs.root_or_kid ih with ⟨hroot, -⟩ | ⟨p, hp, hxp, -⟩
      · exact (hs.roots_sub _ (List.mem_append_left _ (ring_next_mem hs.ring hroot hn))).1
      · exact (hs.kids_sub p hp _ (ring_next_mem (hs.kids_ring p hp) hxp hn)).1
    | child _ hc ih =>
      have ih := ih hs
      have := hs.child _ ih
      rw [hc] at this
      exact (hs.kids_sub _ ih _ this).1
  · intro hx
    cases h with
    | none =>
      have := hs.nodes_nil_shape
      rw [this] at hx
      simp at hx
    | some a =>
      have ha : a ∈ g.roots := hs.head
      refine hs.toForest.exists_root (fun y => Member m (some a) y) ?_ ?_ x hx
      · intro p hp c hc hmp
        have hhead := hs.child p hp
        cases hch : m.child p with
        | none =>
          rw [hch] at hhead
          have : g.kids p = [] := hhead
          rw [this] at hc
          simp at hc
        | some c₀ =>
          rw [hch] at hhead
          exact ring_member (hs.kids_ring p hp) hhead (Member.child hmp hch) c hc
      · intro r hr
        simp only [List.append_nil] at hr
        exact ring_member hs.ring ha (Member.head a) r hr

/-- A heap in shape satisfies the shape invariants field by field. -/
theorem Shape.nodeOK {m : Mem α} {h : Ptr} {g : Ghost} (hs : Shape m h g) {x : Nat}
    (hx : x ∈ g.nodes) : NodeOK m g x := by
  refine ⟨⟨hs.rank x hx, hs.kids_ring x hx, hs.child x hx⟩, ?_,
    fun c hc => (hs.kids_sub x hx c hc).2.1, hs.root_parent x⟩
  have key : ∃ l, Ring m l ∧ x ∈ l := by
    rcases hs.root_or_kid hx with ⟨hroot, -⟩ | ⟨p, hp, hxp, -⟩
    · exact ⟨g.roots, hs.ring, hroot⟩
    · exact ⟨g.kids p, hs.kids_ring p hp, hxp⟩
  obtain ⟨l, hr, hxl⟩ := key
  obtain ⟨y, z, -, -, h1, h2⟩ := ring_links hr hxl
  exact ⟨y, z, h1.1, h1.2, h2.2, h2.1⟩

/-- A heap keeps its shape when the fields of its nodes are kept. -/
theorem Shape.of_same {m m' : Mem α} {h : Ptr} {g : Ghost} (hs : Shape m h g)
    (htop : m.top ≤ m'.top) (hsame : ∀ y ∈ g.nodes, Same m m' y) : Shape m' h g := by
  have hr : ∀ r ∈ g.roots, r ∈ g.nodes := fun r hr =>
    (hs.roots_sub r (List.mem_append_left _ hr)).1
  refine ⟨hs.toForest.frame_forest htop (fun a ha => (hsame a ha).2.2.1)
    (fun a ha => (hsame a ha).2.2.2.2.2.1) ?_, ?_, hs.head, ?_⟩
  · intro a ha c hc
    have := hsame c (hs.kids_sub a ha c hc).1
    exact ⟨this.2.1, this.2.2.2.2.1, this.2.2.2.1⟩
  · exact ring_congr (fun x hx => (hsame x (hr x hx)).2.2.2.2.1)
      (fun x hx => (hsame x (hr x hx)).2.2.2.1) hs.ring
  · intro r hr'
    rw [(hsame r (hr r hr')).2.1]
    exact hs.root_parent r hr'

theorem Ordered.of_same_values [LT α] {m m' : Mem α} {g : Ghost} (ho : Ordered m g)
    (hk : ∀ a ∈ g.nodes, ∀ c ∈ g.kids a, c ∈ g.nodes)
    (hsame : ∀ y ∈ g.nodes, Same m m' y) : Ordered m' g := by
  intro a ha c hc
  rw [(hsame a ha).1, (hsame c (hk a ha c hc)).1]
  exact ho a ha c hc

theorem seg_inRing {m : Mem α} {h : Ptr} {a b : Nat} {l : List Nat} (hs : Seg m a l b)
    (ha : InRing m h a) : ∀ y ∈ l, InRing m h y := by
  induction l generalizing a with
  | nil => intro y hy; simp at hy
  | cons c l ih =>
    obtain ⟨h1, h2⟩ := seg_cons.1 hs
    have hc := InRing.next ha h1.1
    intro y hy
    rcases List.mem_cons.1 hy with rfl | hy'
    · exact hc
    · exact ih h2 hc y hy'

/-- The nodes reached from the tracked node by `next` are the roots. -/
theorem Shape.inRing_iff {m : Mem α} {h : Ptr} {g : Ghost} (hs : Shape m h g) (x : Nat) :
    InRing m h x ↔ x ∈ g.roots := by
  constructor
  · intro hx
    have key : ∀ h y, InRing m h y → Shape m h g → y ∈ g.roots := by
      intro h y hy
      induction hy with
      | head a => exact fun hsh => hsh.head
      | next _ hn ih => exact fun hsh => ring_next_mem hsh.ring (ih hsh) hn
    exact key h x hx hs
  · intro hx
    cases h with
    | none =>
      have hr : g.roots = [] := hs.head
      rw [hr] at hx
      simp at hx
    | some a =>
      have ha : a ∈ g.roots := hs.head
      obtain ⟨l', hperm, hring⟩ := ring_front hs.ring ha
      rcases List.mem_cons.1 (hperm.mem_iff.2 hx) with rfl | hx'
      · exact InRing.head x
      · exact seg_inRing hring (InRing.head a) x hx'

theorem Cascade.stop_cond {m : Mem α} {x : Nat} {C : List Nat} {s : Nat}
    (h : Cascade m x C s) : m.parent s = none ∨ m.mark s = false := by
  induction h with
  | stop _ h2 => exact h2
  | step _ _ _ _ ih => exact ih

theorem Cascade.mem_nodes {m : Mem α} {h : Ptr} {g : Ghost} (hs : Shape m h g) {x : Nat}
    {C : List Nat} {s : Nat} (hc : Cascade m x C s) (hx : x ∈ g.nodes) :
    ∀ y ∈ s :: C, y ∈ g.nodes := by
  have hpar : ∀ y q, y ∈ g.nodes → m.parent y = some q → q ∈ g.nodes := by
    intro y q hy hq
    rcases hs.root_or_kid hy with ⟨-, h1⟩ | ⟨q', hq', -, h1⟩
    · rw [h1] at hq
      exact absurd hq (by simp)
    · rw [h1] at hq
      exact Option.some.inj hq ▸ hq'
  induction hc with
  | stop h1 _ =>
    intro y hy
    simp only [List.mem_singleton] at hy
    subst hy
    exact hpar _ _ hx h1
  | step h1 _ _ _ ih =>
    have hp := hpar _ _ hx h1
    intro y hy
    rcases List.mem_cons.1 hy with rfl | hy'
    · exact ih hp y (List.mem_cons_self _ _)
    · rcases List.mem_cons.1 hy' with rfl | hy''
      · exact hp
      · exact ih hp y (List.mem_cons_of_mem _ hy'')


/-! ## The concrete heaps of the example are well formed -/

theorem exShapeA : Shape exMem (some 1) exGhostA := by
  refine ⟨⟨⟨?_, ?_, ?_, ?_, ?_, ?_, ?_⟩, ?_, ?_, ?_⟩, ?_, ?_, ?_⟩ <;> decide

theorem exWFA : WF exMem (some 1) exGhostA :=
  ⟨exShapeA, by unfold Ordered; decide, by
    intro a ha
    have : a = 1 := (Option.some.inj ha).symm
    subst this
    decide⟩

theorem exWFB : WF exMem (some 3) exGhostB := by
  refine ⟨⟨⟨⟨?_, ?_, ?_, ?_, ?_, ?_, ?_⟩, ?_, ?_, ?_⟩, ?_, ?_, ?_⟩, ?_, ?_⟩
  on_goal 15 =>
    intro a ha
    have : a = 3 := (Option.some.inj ha).symm
    subst this
    decide
  on_goal 14 => unfold Ordered; decide
  all_goals decide

set_option maxRecDepth 4000 in
theorem exShape5 : Shape (stateOf afterInsert5).1 (some 0) exGhost5 := by
  refine ⟨⟨⟨?_, ?_, ?_, ?_, ?_, ?_, ?_⟩, ?_, ?_, ?_⟩, ?_, ?_, ?_⟩ <;> decide

set_option maxRecDepth 4000 in
theorem exShapeTree : Shape (stateOf afterDeleteMin5).1 (some 1) exGhostTree := by
  refine ⟨⟨⟨?_, ?_, ?_, ?_, ?_, ?_, ?_⟩, ?_, ?_, ?_⟩, ?_, ?_, ?_⟩ <;> decide

set_option maxRecDepth 4000 in
theorem exShapeItems : Shape itemHeap.1 (some 0) exGhost4 := by
  refine ⟨⟨⟨?_, ?_, ?_, ?_, ?_, ?_, ?_⟩, ?_, ?_, ?_⟩, ?_, ?_, ?_⟩ <;> decide

set_option maxRecDepth 4000 in
theorem exWFItems : WF itemHeap.1 (some 0) exGhost4 :=
  ⟨exShapeItems, by unfold Ordered; decide, by
    intro a ha
    have : a = 0 := (Option.some.inj ha).symm
    subst this
    decide⟩

set_option maxRecDepth 4000 in
theorem exShape4 : Shape (stateOf afterInsert0777).1 (some 0) exGhost4 := by
  refine ⟨⟨⟨?_, ?_, ?_, ?_, ?_, ?_, ?_⟩, ?_, ?_, ?_⟩, ?_, ?_, ?_⟩ <;> decide


/-! ## Reachable states -/

section World

variable [LinearOrder α]

/-- `Insert` keeps shape and heap order and touches only the root ring and the
new node. -/
theorem insert_frame (m : Mem α) (h : Ptr) (g : Ghost) (v : α) (hs : Shape m h g) :
    ∃ m' h' g', Insert m h v = some (m', h', some m.top) ∧ Shape m' h' g' ∧
      g'.nodes = m.top :: g.nodes ∧ m'.top = m.top + 1 ∧ (Ordered m g → Ordered m' g') ∧
      (∀ y, y ∉ g.nodes → y ≠ m.top → Same m m' y) := by
  obtain ⟨m', h', g', hres, hs', hnodes, -, hkids, -, htop, hval, hpar, hch, hrk, hmk, hpn, -⟩ :=
    insert_spec m h g v hs
  have hfresh := hs.fresh
  refine ⟨m', h', g', hres, hs', hnodes, htop, ?_, ?_⟩
  · intro ho q hq c hc
    rw [hnodes] at hq
    rw [hkids] at hc
    rcases List.mem_cons.1 hq with rfl | hq'
    · simp at hc
    · have hqt : q ≠ m.top := fun e => hfresh (e ▸ hq')
      simp only [Function.update_apply, hqt, if_false] at hc
      have hct : c ≠ m.top := fun e => hfresh (e ▸ (hs.kids_sub q hq' c hc).1)
      rw [hval]
      simp only [Function.update_apply, hqt, hct, if_false]
      exact ho q hq' c hc
  · intro y hy hyt
    have hyr : y ∉ g.roots := fun hr => hy (hs.roots_sub y (List.mem_append_left _ hr)).1
    obtain ⟨h1, h2⟩ := hpn y hyr hyt
    refine ⟨?_, ?_, ?_, h1, h2, ?_, ?_⟩
    · rw [hval]; simp [Function.update_apply, hyt]
    · rw [hpar]; simp [Function.update_apply, hyt]
    · rw [hch]; simp [Function.update_apply, hyt]
    · rw [hrk]; simp [Function.update_apply, hyt]
    · rw [hmk]; simp [Function.update_apply, hyt]

omit [LinearOrder α] in
theorem Shape.kids_nodes {m : Mem α} {h : Ptr} {g : Ghost} (hs : Shape m h g) :
    ∀ a ∈ g.nodes, ∀ c ∈ g.kids a, c ∈ g.nodes :=
  fun a ha c hc => (hs.kids_sub a ha c hc).1

/-- A heap over nodes that an operation leaves alone stays as it is. -/
theorem frame_heap {m m' : Mem α} {h : Ptr} {g : Ghost} (hs : Shape m h g ∧ Ordered m g)
    (htop : m.top ≤ m'.top) (hsame : ∀ y ∈ g.nodes, Same m m' y) :
    Shape m' h g ∧ Ordered m' g :=
  ⟨hs.1.of_same htop hsame, hs.2.of_same_values hs.1.kids_nodes hsame⟩

/-- One heap changes, within its own nodes and fresh ones, and the others are
left alone: the invariant of the reachable states is kept. -/
theorem worldInv_step {m m' : Mem α} {hs : Nat → Ptr} {gs : Nat → Ghost}
    (hinv : ∀ i, Shape m (hs i) (gs i) ∧ Ordered m (gs i))
    (hdis : ∀ i j, i ≠ j → ∀ x ∈ (gs i).nodes, x ∉ (gs j).nodes) (i : Nat) {h' : Ptr}
    {g' : Ghost} (hnew : Shape m' h' g' ∧ Ordered m' g') (htop : m.top ≤ m'.top)
    (hsub : ∀ j, j ≠ i → ∀ x ∈ g'.nodes, x ∉ (gs j).nodes)
    (hsame : ∀ j, j ≠ i → ∀ y ∈ (gs j).nodes, Same m m' y) :
    WorldInv m' (Function.update hs i h') := by
  refine ⟨Function.update gs i g', ?_, ?_⟩
  · intro k
    by_cases hk : k = i
    · subst hk
      simpa using hnew
    · simp only [Function.update_apply, hk, if_false]
      exact frame_heap (hinv k) htop (hsame k hk)
  · intro k j hkj x hx
    by_cases hk : k = i
    · subst hk
      have hj : j ≠ k := fun e => hkj e.symm
      simp only [Function.update_apply, hj, if_false, if_true] at hx ⊢
      exact hsub j hj x hx
    · simp only [Function.update_apply, hk, if_false] at hx
      by_cases hj : j = i
      · subst hj
        simp only [Function.update_apply, if_true]
        exact fun hx' => hsub k hk x hx' hx
      · simp only [Function.update_apply, hj, if_false]
        exact hdis k j hkj x hx

theorem worldInv_insert {m : Mem α} {hs : Nat → Ptr} (hw : WorldInv m hs) (i : Nat) (v : α)
    {m' : Mem α} {h' x : Ptr} (hr : Insert m (hs i) v = some (m', h', x)) :
    WorldInv m' (Function.update hs i h') := by
  obtain ⟨gs, hinv, hdis⟩ := hw
  obtain ⟨m₁, h₁, g₁, hres, hs₁, hnodes, htop, hord, hsame⟩ :=
    insert_frame m (hs i) (gs i) v (hinv i).1
  rw [hr] at hres
  obtain ⟨rfl, rfl, rfl⟩ : m' = m₁ ∧ h' = h₁ ∧ x = some m.top := by
    simpa [Prod.ext_iff] using hres
  refine worldInv_step hinv hdis i ⟨hs₁, hord (hinv i).2⟩ (by omega) ?_ ?_
  · intro j hj y hy
    rw [hnodes] at hy
    rcases List.mem_cons.1 hy with rfl | hy'
    · exact (hinv j).1.fresh
    · exact hdis i j (Ne.symm hj) y hy'
  · intro j hj y hy
    exact hsame y (fun hy' => hdis i j (Ne.symm hj) y hy' hy)
      (fun e => (hinv j).1.fresh (e ▸ hy))

theorem worldInv_decreaseKey {m : Mem α} {hs : Nat → Ptr} (hw : WorldInv m hs)
    (fuel i n : Nat) (v : α) {m' : Mem α} {h' : Ptr} {e : Option Err}
    (hn : Member m (hs i) n)
    (hr : DecreaseKey fuel m (hs i) (some n) v = some (m', h', e)) :
    WorldInv m' (Function.update hs i h') := by
  by_cases hv : m.value n < v
  · rw [decreaseKey_error fuel m (hs i) n v hv] at hr
    obtain ⟨rfl, rfl, -⟩ : m = m' ∧ hs i = h' ∧ some Err.orderViolation = e := by
      simpa [Prod.ext_iff] using hr
    rw [Function.update_eq_self]
    exact hw
  · obtain ⟨gs, hinv, hdis⟩ := hw
    have hng : n ∈ (gs i).nodes := ((hinv i).1.member_iff n).1 hn
    obtain ⟨a, ha⟩ := (hinv i).1.head_some (List.ne_nil_of_mem hng)
    have hsa := (hinv i).1
    rw [ha] at hsa hr
    obtain ⟨m₁, h₁, g₁, hres, hs₁, hnodes, -, htop, hord, hsame, -⟩ :=
      decreaseKey_spec (max fuel (2 * (gs i).bound + 2)) m a (gs i) n v hsa hng hv
        (le_max_right _ _)
    rw [decreaseKey_mono hr (le_max_left _ _)] at hres
    obtain ⟨rfl, rfl, -⟩ : m' = m₁ ∧ h' = h₁ ∧ e = none := by
      simpa [Prod.ext_iff] using hres
    refine worldInv_step hinv hdis i ⟨hs₁, hord (hinv i).2⟩ (le_of_eq htop.symm) ?_ ?_
    · intro j hj y hy
      rw [hnodes] at hy
      exact hdis i j (Ne.symm hj) y hy
    · intro j hj y hy
      exact hsame y (fun hy' => hdis i j (Ne.symm hj) y hy' hy)

theorem worldInv_deleteMin {m : Mem α} {hs : Nat → Ptr} (hw : WorldInv m hs)
    (fuel i : Nat) (enum : RootMap → RootMap) {m' : Mem α} {h' : Ptr} {r : Option α}
    (henum : ∀ t, (enum t).Perm t)
    (hr : DeleteMin fuel enum m (hs i) = some (m', h', r)) :
    WorldInv m' (Function.update hs i h') := by
  rcases ha : hs i with _ | a
  · rw [ha] at hr
    obtain ⟨rfl, rfl, -⟩ : m = m' ∧ none = h' ∧ none = r := by
      simpa [DeleteMin, Prod.ext_iff] using hr
    rw [← ha, Function.update_eq_self]
    exact hw
  · obtain ⟨gs, hinv, hdis⟩ := hw
    have hsa := (hinv i).1
    rw [ha] at hsa hr
    obtain ⟨m₁, h₁, g₁, hres, hs₁, -, hnodes, -, htop, hord, hsame⟩ :=
      deleteMin_spec (max fuel (gs i).nodes.length) enum m a (gs i) hsa henum
        (le_max_right _ _)
    rw [deleteMin_mono hr (le_max_left _ _)] at hres
    obtain ⟨rfl, rfl, -⟩ : m' = m₁ ∧ h' = h₁ ∧ r = some (m.value a) := by
      simpa [Prod.ext_iff] using hres
    refine worldInv_step hinv hdis i ⟨hs₁, hord (hinv i).2⟩ (le_of_eq htop.symm) ?_ ?_
    · intro j hj y hy
      rw [hnodes] at hy
      exact hdis i j (Ne.symm hj) y (List.mem_of_mem_erase hy)
    · intro j hj y hy
      exact hsame y (fun hy' => hdis i j (Ne.symm hj) y (List.mem_of_mem_erase hy') hy)

theorem worldInv_delete {m : Mem α} {hs : Nat → Ptr} (hw : WorldInv m hs)
    (fuel i n : Nat) (enum : RootMap → RootMap) {m' : Mem α} {h' : Ptr}
    (hn : Member m (hs i) n) (henum : ∀ t, (enum t).Perm t)
    (hr : Delete fuel enum m (hs i) (some n) = some (m', h')) :
    WorldInv m' (Function.update hs i h') := by
  have hw' := hw
  obtain ⟨gs, hinv, hdis⟩ := hw
  have hng : n ∈ (gs i).nodes := ((hinv i).1.member_iff n).1 hn
  obtain ⟨a, ha⟩ := (hinv i).1.head_some (List.ne_nil_of_mem hng)
  have hsa := (hinv i).1
  rw [ha] at hsa
  by_cases hna : n = a
  · subst hna
    have hp : m.parent n = none := hsa.root_parent n hsa.head
    rw [ha, delete_min_eq fuel enum hp, Option.bind_eq_some] at hr
    obtain ⟨r, hr1, hr2⟩ := hr
    obtain ⟨rfl, rfl⟩ : r.1 = m' ∧ r.2.1 = h' := by simpa [Prod.ext_iff] using hr2
    rw [← ha] at hr1
    exact worldInv_deleteMin hw' fuel i enum henum hr1
  · rw [ha] at hr
    obtain ⟨m₁, g₁, hres, hs₁, hnodes, hval, htop, hkids, -, hsame⟩ :=
      delete_spec (max fuel (max (2 * (gs i).bound + 1) (gs i).nodes.length)) enum m a (gs i) n
        hsa hng hna (le_trans (le_max_left _ _) (le_max_right _ _))
        (le_trans (le_max_right _ _) (le_max_right _ _))
    rw [delete_mono hr (le_max_left _ _)] at hres
    obtain ⟨rfl, rfl⟩ : m' = m₁ ∧ h' = some a := by simpa [Prod.ext_iff] using hres
    have hord : Ordered m' g₁ := by
      intro q hq c hc
      rw [hval]
      rw [hnodes] at hq
      exact (hinv i).2 q (List.mem_of_mem_erase hq) c (hkids q c hc)
    refine worldInv_step hinv hdis i ⟨hs₁, hord⟩ (le_of_eq htop.symm) ?_ ?_
    · intro j hj y hy
      rw [hnodes] at hy
      exact hdis i j (Ne.symm hj) y (List.mem_of_mem_erase hy)
    · intro j hj y hy
      exact hsame y (fun hy' => hdis i j (Ne.symm hj) y hy' hy)

theorem worldInv_meld {m : Mem α} {hs : Nat → Ptr} (hw : WorldInv m hs) (i j : Nat)
    {m' : Mem α} {h' h₂' : Ptr} (hij : i ≠ j)
    (hr : Meld m (hs i) (hs j) = some (m', h', h₂')) :
    WorldInv m' (Function.update (Function.update hs i h') j h₂') := by
  obtain ⟨gs, hinv, hdis⟩ := hw
  obtain ⟨m₁, h₁, g₁, hres, hs₁, hnodes, -, htop, hord, -, -, hsame, -⟩ :=
    meld_spec m (hs i) (hs j) (gs i) (gs j) (hinv i).1 (hinv j).1 (hdis i j hij)
  rw [hr] at hres
  obtain ⟨rfl, rfl, rfl⟩ : m' = m₁ ∧ h' = h₁ ∧ h₂' = none := by
    simpa [Prod.ext_iff] using hres
  have hji : j ≠ i := Ne.symm hij
  refine ⟨Function.update (Function.update gs i g₁) j Ghost.empty, ?_, ?_⟩
  · intro k
    by_cases hkj : k = j
    · subst hkj
      simp only [Function.update_same]
      exact ⟨Shape.empty_shape m', fun q hq => by simp [Ghost.empty] at hq⟩
    · by_cases hki : k = i
      · subst hki
        simp only [Function.update_apply, hkj, if_false, if_true]
        exact ⟨hs₁, hord (hinv k).2 (hinv j).2⟩
      · simp only [Function.update_apply, hkj, hki, if_false]
        exact frame_heap (hinv k) (le_of_eq htop.symm) (fun y hy =>
          hsame y (fun hy' => hdis i k (Ne.symm hki) y hy' hy)
            (fun hy' => hdis j k (Ne.symm hkj) y hy' hy))
  · have hg₁ : ∀ k, k ≠ i → k ≠ j → ∀ x ∈ g₁.nodes, x ∉ (gs k).nodes := by
      intro k hki hkj x hx
      rw [hnodes] at hx
      rcases List.mem_append.1 hx with hx' | hx'
      · exact hdis i k (Ne.symm hki) x hx'
      · exact hdis j k (Ne.symm hkj) x hx'
    intro k l hkl x hx
    by_cases hkj : k = j
    · subst hkj
      simp [Ghost.empty] at hx
    · by_cases hlj : l = j
      · subst hlj
        simp [Ghost.empty]
      · simp only [Function.update_apply, hkj, hlj, if_false] at hx ⊢
        by_cases hki : k = i
        · subst hki
          have hlk : l ≠ k := Ne.symm hkl
          simp only [hlk, if_false, if_true] at hx ⊢
          exact hg₁ l hlk hlj x hx
        · simp only [hki, if_false] at hx
          by_cases hli : l = i
          · subst hli
            simp only [if_true]
            exact fun hx' => hg₁ k hki hkj x hx' hx
          · simp only [hli, if_false]
            exact hdis k l hkl x hx

/-- Every reachable state satisfies the invariant: all heaps are in shape and
in heap order, over disjoint nodes. -/
theorem reach_inv {m : Mem α} {hs : Nat → Ptr} (hr : Reach m hs) : WorldInv m hs := by
  induction hr with
  | init m =>
    exact ⟨fun _ => Ghost.empty,
      fun _ => ⟨Shape.empty_shape m, fun q hq => by simp [Ghost.empty] at hq⟩,
      fun _ _ _ x hx => by simp [Ghost.empty] at hx⟩
  | insert i v _ hr ih => exact worldInv_insert ih i v hr
  | meld i j _ hij hr ih => exact worldInv_meld ih i j hij hr
  | decreaseKey fuel i n v _ hn hr ih => exact worldInv_decreaseKey ih fuel i n v hn hr
  | deleteMin fuel i enum _ henum hr ih => exact worldInv_deleteMin ih fuel i enum henum hr
  | delete fuel i n enum _ hn henum hr ih => exact worldInv_delete ih fuel i n enum hn henum hr

end World

/-- The run `Insert(1)`, `Insert(2)`, `Insert(3)`, `DeleteMin()` on heap
variable 0 is a sequence of public operations from empty heaps. -/
theorem reach_example : Reach (stateOf afterDeleteMin).1 reachHeaps :=
  Reach.deleteMin 5 0 id (r := some 1)
    (Reach.insert 0 3 (x := some 2)
      (Reach.insert 0 2 (x := some 1)
        (Reach.insert 0 1 (x := some 0) (Reach.init emptyMem) rfl) rfl) rfl)
    (fun _ => List.Perm.refl _) rfl

/-! ### Runs on a single heap variable -/

theorem oneHeap_update (h h' : Ptr) : Function.update (oneHeap h) 0 h' = oneHeap h' := by
  funext i
  by_cases hi : i = 0 <;> simp [oneHeap, Function.update_apply, hi]

section Runs

variable [LinearOrder α]

theorem reach_init (m : Mem α) : Reach m (oneHeap none) := by
  have : oneHeap none = fun _ => none := by
    funext i
    simp [oneHeap]
  rw [this]
  exact Reach.init m

theorem reach_insert {m : Mem α} {h : Ptr} (v : α) {m' : Mem α} {h' x : Ptr}
    (hr : Reach m (oneHeap h)) (he : Insert m h v = some (m', h', x)) :
    Reach m' (oneHeap h') :=
  oneHeap_update h h' ▸ Reach.insert 0 v hr (by simpa [oneHeap] using he)

theorem reach_deleteMin {m : Mem α} {h : Ptr} (fuel : Nat) {m' : Mem α} {h' : Ptr}
    {r : Option α} (hr : Reach m (oneHeap h)) (he : DeleteMin fuel id m h = some (m', h', r)) :
    Reach m' (oneHeap h') :=
  oneHeap_update h h' ▸ Reach.deleteMin fuel 0 id hr (fun _ => List.Perm.refl _)
    (by simpa [oneHeap] using he)

theorem reach_decreaseKey {m : Mem α} {h : Ptr} (fuel n : Nat) (v : α) {m' : Mem α}
    {h' : Ptr} {e : Option Err} (hr : Reach m (oneHeap h)) (hn : Member m h n)
    (he : DecreaseKey fuel m h (some n) v = some (m', h', e)) : Reach m' (oneHeap h') :=
  oneHeap_update h h' ▸ Reach.decreaseKey fuel 0 n v hr (by simpa [oneHeap] using hn)
    (by simpa [oneHeap] using he)

end Runs

theorem reach_afterDeleteMin5 : Reach (stateOf afterDeleteMin5).1 (oneHeap (some 1)) :=
  reach_deleteMin 5 (r := some 1)
    (reach_insert 5 (x := some 4)
      (reach_insert 4 (x := some 3)
        (reach_insert 3 (x := some 2)
          (reach_insert 2 (x := some 1)
            (reach_insert 1 (x := some 0) (reach_init emptyMem) rfl) rfl) rfl) rfl) rfl) rfl

theorem reach_afterCut2 : Reach (stateOf afterCut2).1 (oneHeap (some 1)) :=
  reach_decreaseKey 5 3 2 (e := none)
    (reach_decreaseKey 5 4 2 (e := none) reach_afterDeleteMin5
      (Member.child (Member.next (Member.child (Member.head 1) (c := 2) rfl) (y := 3) rfl) rfl)
      rfl)
    (Member.next (Member.child (Member.head 1) (c := 2) rfl) rfl) rfl


/-! ## The claims -/

section Claims

variable [LinearOrder α]

/-- C2: heap-sort law.  Inserting the values of a list into an empty heap and
calling `DeleteMin` as many times returns a value with ok = true each time,
the returned values are a permutation of the inserted ones in non-decreasing
order, and the heap is empty afterwards, whatever order the map of roots is
enumerated in. -/
theorem C2_heap_sort (m : Mem α) (vs : List α) (fuel : Nat)
    (enum : Nat → RootMap → RootMap) (henum : ∀ k t, (enum k t).Perm t)
    (hfuel : vs.length ≤ fuel) :
    ∃ (m₁ : Mem α) (h₁ : Ptr) (m₂ : Mem α) (outs : List α),
      insertAll m none vs = some (m₁, h₁) ∧
      drain fuel enum vs.length m₁ h₁ = some (m₂, none, outs.map some) ∧
      outs.Perm vs ∧ outs.Sorted (· ≤ ·) := by
  obtain ⟨m₁, h₁, g₁, hins, hwf₁, hperm⟩ := insertAll_wf vs m none Ghost.empty (WF.empty_wf m)
  have hperm' : (g₁.nodes.map m₁.value).Perm vs := by
    simpa [Ghost.empty] using hperm
  have hlen : g₁.nodes.length = vs.length := by
    have := hperm'.length_eq
    simpa using this
  obtain ⟨m₂, outs, hdrain, hp, hsorted⟩ :=
    drain_wf fuel enum henum vs.length m₁ h₁ g₁ hwf₁ hlen hfuel
  exact ⟨m₁, h₁, m₂, outs, hins, hdrain, hp.trans hperm', hsorted⟩

/-- C4: on a well-formed non-empty heap `DeleteMin` returns the value of the
tracked node and removes exactly that node: the stored values are the
previous ones minus one occurrence of the returned value, the heap stays well
formed, and the new tracked node holds a least remaining value (the heap is
empty if no node remains). -/
theorem C4_deleteMin_effect (fuel : Nat) (enum : RootMap → RootMap) (m : Mem α) (a : Nat)
    (g : Ghost) (hwf : WF m (some a) g) (henum : ∀ t, (enum t).Perm t)
    (hfuel : g.nodes.length ≤ fuel) :
    ∃ m' h' g', DeleteMin fuel enum m (some a) = some (m', h', some (m.value a)) ∧
      WF m' h' g' ∧ g'.nodes = g.nodes.erase a ∧ m'.value = m.value ∧
      g'.values m' = (g.values m).erase (m.value a) ∧
      (g'.nodes = [] → h' = none) ∧
      (∀ b, h' = some b → b ∈ g'.nodes ∧ ∀ x ∈ g'.nodes, ¬ m'.value x < m'.value b) := by
  obtain ⟨m', h', g', hres, hwf', hnodes, hval, -⟩ :=
    deleteMin_wf fuel enum m a g hwf henum hfuel
  have han : a ∈ g.nodes :=
    (hwf.1.roots_sub a (List.mem_append_left _ (hwf.1.head : a ∈ g.roots))).1
  refine ⟨m', h', g', hres, hwf', hnodes, hval, ?_, hwf'.1.head_none, ?_⟩
  · have h1 : g.values m = m.value a ::ₘ g'.values m' := by
      unfold Ghost.values
      rw [hnodes, hval, Multiset.cons_coe, Multiset.coe_eq_coe]
      exact (List.perm_cons_erase han).map m.value
    rw [h1, Multiset.erase_cons_head]
  · intro b hb
    subst hb
    exact ⟨(hwf'.1.roots_sub b (List.mem_append_left _ (hwf'.1.head : b ∈ g'.roots))).1,
      hwf'.min_all_wf⟩

/-- C5: on a well-formed heap, `Delete` of a node `n` other than the tracked
one removes exactly `n`: the stored values are the previous ones minus one
occurrence of `n`'s value, the heap stays well formed, the tracked node is
unchanged and `Min` still returns a least remaining value. -/
theorem C5_delete_effect (fuel : Nat) (enum : RootMap → RootMap) (m : Mem α) (a : Nat)
    (g : Ghost) (n : Nat) (hwf : WF m (some a) g) (hn : n ∈ g.nodes) (hna : n ≠ a)
    (hfuel : 2 * g.bound + 1 ≤ fuel) (hfuel' : g.nodes.length ≤ fuel) :
    ∃ m' g', Delete fuel enum m (some a) (some n) = some (m', some a) ∧
      WF m' (some a) g' ∧ g'.nodes = g.nodes.erase n ∧ m'.value = m.value ∧
      g'.values m' = (g.values m).erase (m.value n) ∧
      Min m' (some a) = Min m (some a) ∧
      ∀ x ∈ g'.nodes, ¬ m'.value x < m'.value a := by
  obtain ⟨m', g', hres, hwf', hnodes, hval⟩ :=
    delete_wf fuel enum m a g n hwf hn hna hfuel hfuel'
  refine ⟨m', g', hres, hwf', hnodes, hval, ?_, by simp [Min, hval], hwf'.min_all_wf⟩
  have h1 : g.values m = m.value n ::ₘ g'.values m' := by
    unfold Ghost.values
    rw [hnodes, hval, Multiset.cons_coe, Multiset.coe_eq_coe]
    exact (List.perm_cons_erase hn).map m.value
  rw [h1, Multiset.erase_cons_head]

/-- C6: meld law.  For two well-formed heaps over disjoint nodes, after
`A.Meld(B)` heap A is well formed and stores the values of both (with
multiplicity), heap B is empty, and if both were non-empty A's minimum is the
lesser of the two previous minima (A's when neither is less). -/
theorem C6_meld_law (m : Mem α) (h₁ h₂ : Ptr) (g₁ g₂ : Ghost) (hwf₁ : WF m h₁ g₁)
    (hwf₂ : WF m h₂ g₂) (hdis : ∀ x ∈ g₁.nodes, x ∉ g₂.nodes) :
    ∃ m' h' g', Meld m h₁ h₂ = some (m', h', none) ∧ WF m' h' g' ∧
      g'.values m' = g₁.values m + g₂.values m ∧
      Min m' none = none ∧ WF m' none Ghost.empty ∧
      ∀ a b, h₁ = some a → h₂ = some b →
        Min m' h' = some (if m.value b < m.value a then m.value b else m.value a) := by
  obtain ⟨m', h', g', hres, hwf', hnodes, hval, hh, -⟩ :=
    meld_wf m h₁ h₂ g₁ g₂ hwf₁ hwf₂ hdis
  refine ⟨m', h', g', hres, hwf', ?_, rfl, WF.empty_wf m', ?_⟩
  · unfold Ghost.values
    rw [hnodes, hval, List.map_append, Multiset.coe_add]
  · intro a b ha hb
    subst ha hb
    rw [hh]
    simp only [meldHead]
    split <;> simp [Min, hval]

/-- C9: on a heap with the shape invariants and a node `n` of it,
`DecreaseKey(n, v)` returns a non-nil error exactly when `n`'s value is less
than `v`, and in that case leaves the memory and the heap unchanged. -/
theorem C9_decreaseKey_error (fuel : Nat) (m : Mem α) (h : Ptr) (g : Ghost) (n : Nat) (v : α)
    (hs : Shape m h g) (hn : n ∈ g.nodes) (hfuel : 2 * g.bound + 2 ≤ fuel) :
    ∃ m' h' e, DecreaseKey fuel m h (some n) v = some (m', h', e) ∧
      (e ≠ none ↔ m.value n < v) ∧ (e ≠ none → m' = m ∧ h' = h) := by
  by_cases hv : m.value n < v
  · exact ⟨m, h, some Err.orderViolation, decreaseKey_error fuel m h n v hv, by simp [hv],
      fun _ => ⟨rfl, rfl⟩⟩
  · obtain ⟨a, rfl⟩ := hs.head_some (List.ne_nil_of_mem hn)
    obtain ⟨m', h', g', hres, -⟩ := decreaseKey_spec fuel m a g n v hs hn hv hfuel
    exact ⟨m', h', none, hres, by simp [hv], fun h => absurd rfl h⟩

/-- C10: DecreaseKey on a root `n` with a value `v` not above its current one
returns a nil error, writes only `n.value` (no link, rank or mark changes), and
afterwards `Min` is `v` if `n` was the tracked minimum or `v` is less than the
previous minimum, and the previous minimum otherwise. -/
theorem C10_decreaseKey_root (fuel : Nat) (m : Mem α) (h : Ptr) (g : Ghost) (n : Nat) (v : α)
    (hwf : WF m h g) (hn : n ∈ g.roots) (hv : ¬ m.value n < v) :
    ∃ h', DecreaseKey fuel m h (some n) v =
        some ({ m with value := Function.update m.value n v }, h', none) ∧
      ((h = some n ∨ ∃ mn, Min m h = some mn ∧ v < mn) →
        Min { m with value := Function.update m.value n v } h' = some v) ∧
      (¬ (h = some n ∨ ∃ mn, Min m h = some mn ∧ v < mn) →
        Min { m with value := Function.update m.value n v } h' = Min m h) := by
  obtain ⟨hs, -, -⟩ := hwf
  have hp := hs.root_parent n hn
  have hh := hs.head
  cases h with
  | none => simp [HeadIn] at hh; simp [hh] at hn
  | some a =>
    rw [decreaseKey_root_eq fuel m a n v hp hv]
    refine ⟨_, rfl, ?_, ?_⟩
    · rintro (h1 | ⟨mn, h1, h2⟩)
      · simp at h1; subst h1; simp [Min]
      · simp [Min] at h1; subst h1
        by_cases hna : n = a
        · subst hna; simp [Min]
        · simp [hna, h2, Min]
    · intro hneg
      simp only [not_or, not_exists, not_and] at hneg
      have hna : n ≠ a := fun e => hneg.1 (by rw [e])
      have hlt : ¬ v < m.value a := hneg.2 _ (by simp [Min])
      simp [hna, hlt, Min, Function.update_apply, Ne.symm hna]

end Claims

/-! ## The claims at concrete heaps -/

/-- C1: after `Insert(1)`, `Insert(2)`, `x := Insert(3)`, `DeleteMin()` and
`DecreaseKey(x, 0)` on an empty heap, `Min` returns 2 from the tracked node 1,
although node 2 is a root (its parent is nil and it follows node 1 in the
root ring) and holds the value 0. -/
theorem C1_min_not_tracked :
    afterDecreaseKey.map (fun s => (Min s.1 s.2, s.2, s.1.next 1, s.1.parent 2, s.1.value 2))
      = some (some 2, some 1, some 2, none, 0) := by
  decide

/-- C3: in the well-formed heap A of the example, node 2 has the parent 1,
the value 0 is not above its value 3 and is less than the minimum 2, and
`DecreaseKey(node 2, 0)` returns a nil error but leaves node 1 the tracked
node, so that `Min` returns 2 and not 0. -/
theorem C3_child_not_tracked :
    WF exMem (some 1) exGhostA ∧ exMem.parent 2 = some 1 ∧ ¬ exMem.value 2 < 0 ∧
      0 < exMem.value 1 ∧
      (DecreaseKey 4 exMem (some 1) (some 2) 0).map
        (fun r => (r.2.2, r.2.1, Min r.1 r.2.1, r.1.value 2)) =
        some (none, some 1, some 2, 0) :=
  ⟨exWFA, by decide, by decide, by decide, by decide⟩

theorem C2_heap_sort_witness :
    ∃ (m₁ : Mem Nat) (h₁ : Ptr) (m₂ : Mem Nat) (outs : List Nat),
      insertAll emptyMem none [3, 1, 2] = some (m₁, h₁) ∧
      drain 3 (fun _ t => t) [3, 1, 2].length m₁ h₁ = some (m₂, none, outs.map some) ∧
      outs.Perm [3, 1, 2] ∧ outs.Sorted (· ≤ ·) :=
  C2_heap_sort emptyMem [3, 1, 2] 3 (fun _ t => t) (fun _ t => List.Perm.refl t) (by decide)

theorem C4_deleteMin_effect_witness :
    ∃ m' h' g', DeleteMin 2 id exMem (some 1) = some (m', h', some (exMem.value 1)) ∧
      WF m' h' g' ∧ g'.nodes = exGhostA.nodes.erase 1 ∧ m'.value = exMem.value ∧
      g'.values m' = (exGhostA.values exMem).erase (exMem.value 1) ∧
      (g'.nodes = [] → h' = none) ∧
      (∀ b, h' = some b → b ∈ g'.nodes ∧ ∀ x ∈ g'.nodes, ¬ m'.value x < m'.value b) :=
  C4_deleteMin_effect 2 id exMem 1 exGhostA exWFA (fun t => List.Perm.refl t) (by decide)

theorem C5_delete_effect_witness :
    ∃ m' g', Delete 3 id exMem (some 1) (some 2) = some (m', some 1) ∧
      WF m' (some 1) g' ∧ g'.nodes = exGhostA.nodes.erase 2 ∧ m'.value = exMem.value ∧
      g'.values m' = (exGhostA.values exMem).erase (exMem.value 2) ∧
      Min m' (some 1) = Min exMem (some 1) ∧
      ∀ x ∈ g'.nodes, ¬ m'.value x < m'.value 1 :=
  C5_delete_effect 3 id exMem 1 exGhostA 2 exWFA (by decide) (by decide) (by decide)
    (by decide)

theorem C6_meld_law_witness :
    ∃ m' h' g', Meld exMem (some 1) (some 3) = some (m', h', none) ∧ WF m' h' g' ∧
      g'.values m' = exGhostA.values exMem + exGhostB.values exMem ∧
      Min m' none = none ∧ WF m' none Ghost.empty ∧
      ∀ a b, some 1 = some a → some 3 = some b →
        Min m' h' =
          some (if exMem.value b < exMem.value a then exMem.value b else exMem.value a) :=
  C6_meld_law exMem (some 1) (some 3) exGhostA exGhostB exWFA exWFB (by decide)

theorem C9_decreaseKey_error_witness :
    ∃ m' h' e, DecreaseKey 4 exMem (some 1) (some 2) 7 = some (m', h', e) ∧
      (e ≠ none ↔ exMem.value 2 < 7) ∧ (e ≠ none → m' = exMem ∧ h' = some 1) :=
  C9_decreaseKey_error 4 exMem (some 1) exGhostA 2 7 exShapeA (by decide) (by decide)

theorem C10_decreaseKey_root_witness :
    ∃ h', DecreaseKey 0 exMem (some 1) (some 1) 1 =
        some ({ exMem with value := Function.update exMem.value 1 1 }, h', none) ∧
      ((some 1 = some 1 ∨ ∃ mn, Min exMem (some 1) = some mn ∧ 1 < mn) →
        Min { exMem with value := Function.update exMem.value 1 1 } h' = some 1) ∧
      (¬ (some 1 = some 1 ∨ ∃ mn, Min exMem (some 1) = some mn ∧ 1 < mn) →
        Min { exMem with value := Function.update exMem.value 1 1 } h' = Min exMem (some 1)) :=
  C10_decreaseKey_root 0 exMem (some 1) exGhostA 1 1 exWFA (by decide) (by decide)
/-! ## The invariants of reachable heaps -/

section Claims2

variable [LinearOrder α]

/-- C7: heap-order invariant.  In every state reached from empty heaps by
public operations whose preconditions are met, no node of a heap has a value
less than its parent's; the parent of the node a `child` pointer names is the
node holding the pointer, and ring neighbours have the same parent, so that
the children of a node are the members of its child ring. -/
theorem C7_heap_order {m : Mem α} {hs : Nat → Ptr} (hr : Reach m hs) (i : Nat) :
    (∀ c p, Member m (hs i) c → m.parent c = some p →
      Member m (hs i) p ∧ ¬ m.value c < m.value p) ∧
    (∀ p c, Member m (hs i) p → m.child p = some c → m.parent c = some p) ∧
    (∀ x y, Member m (hs i) x → m.next x = some y → m.parent y = m.parent x) := by
  obtain ⟨gs, hinv, -⟩ := reach_inv hr
  obtain ⟨hsh, hord⟩ := hinv i
  refine ⟨?_, ?_, ?_⟩
  · intro c p hc hp
    have hcg := (hsh.member_iff c).1 hc
    rcases hsh.root_or_kid hcg with ⟨-, hpar⟩ | ⟨q, hq, hcq, hpar⟩
    · rw [hpar] at hp
      exact absurd hp (by simp)
    · rw [hpar] at hp
      obtain rfl := Option.some.inj hp
      exact ⟨(hsh.member_iff q).2 hq, hord q hq c hcq⟩
  · intro p c hp hc
    have hpg := (hsh.member_iff p).1 hp
    have hh : HeadIn (m.child p) ((gs i).kids p) := hsh.child p hpg
    rw [hc] at hh
    exact (hsh.kids_sub p hpg c hh).2.1
  · intro x y hx hxy
    have hxg := (hsh.member_iff x).1 hx
    rcases hsh.root_or_kid hxg with ⟨hroot, hpar⟩ | ⟨q, hq, hxq, hpar⟩
    · rw [hpar, hsh.root_parent y (ring_next_mem hsh.ring hroot hxy)]
    · rw [hpar, (hsh.kids_sub q hq y (ring_next_mem (hsh.kids_ring q hq) hxq hxy)).2.1]

/-- C8: shape invariant.  Every public operation applied to a heap with the
shape invariants (with its precondition met: a node argument belongs to the
heap, a melded heap is a distinct heap in shape) returns, and the heap it
yields has the shape invariants again: at every node (a) the rank is the
number of nodes of the child ring, (b) the node is linked consistently with
its ring neighbours, (c) the parent of every child is the node and the parent
of every root is nil. -/
theorem C8_shape_preserved (fuel : Nat) (enum : RootMap → RootMap) (m : Mem α) (h : Ptr)
    (g : Ghost) (op : Op α) (hs : Shape m h g) (hpre : op.Pre m g)
    (henum : ∀ t, (enum t).Perm t) (hfuel : 2 * g.bound + 2 ≤ fuel)
    (hfuel' : g.nodes.length ≤ fuel) :
    ∃ m' h' g', runOp fuel enum m h op = some (m', h') ∧ Shape m' h' g' ∧
      ∀ x ∈ g'.nodes, NodeOK m' g' x := by
  have key : ∃ m' h' g', runOp fuel enum m h op = some (m', h') ∧ Shape m' h' g' := by
    cases op with
    | insert v =>
      obtain ⟨m', h', g', hres, hs', -⟩ := insert_spec m h g v hs
      exact ⟨m', h', g', by simp [runOp, hres], hs'⟩
    | meld h₂ =>
      obtain ⟨g₂, hs₂, hdis⟩ := hpre
      obtain ⟨m', h', g', hres, hs', -⟩ := meld_spec m h h₂ g g₂ hs hs₂ hdis
      exact ⟨m', h', g', by simp [runOp, hres], hs'⟩
    | decreaseKey n v =>
      have hn : n ∈ g.nodes := hpre
      by_cases hv : m.value n < v
      · exact ⟨m, h, g, by simp [runOp, decreaseKey_error fuel m h n v hv], hs⟩
      · obtain ⟨a, rfl⟩ := hs.head_some (List.ne_nil_of_mem hn)
        obtain ⟨m', h', g', hres, hs', -⟩ := decreaseKey_spec fuel m a g n v hs hn hv hfuel
        exact ⟨m', h', g', by simp [runOp, hres], hs'⟩
    | deleteMin =>
      cases h with
      | none => exact ⟨m, none, g, by simp [runOp, DeleteMin], hs⟩
      | some a =>
        obtain ⟨m', h', g', hres, hs', -⟩ := deleteMin_spec fuel enum m a g hs henum hfuel'
        exact ⟨m', h', g', by simp [runOp, hres], hs'⟩
    | delete n =>
      have hn : n ∈ g.nodes := hpre
      obtain ⟨a, rfl⟩ := hs.head_some (List.ne_nil_of_mem hn)
      by_cases hna : n = a
      · subst hna
        obtain ⟨m', h', g', hres, hs', -⟩ := deleteMin_spec fuel enum m n g hs henum hfuel'
        refine ⟨m', h', g', ?_, hs'⟩
        simp only [runOp]
        rw [delete_min_eq fuel enum (hs.root_parent n hs.head), hres]
        rfl
      · obtain ⟨m', g', hres, hs', -⟩ :=
          delete_spec fuel enum m a g n hs hn hna (by omega) hfuel'
        exact ⟨m', some a, g', by simp [runOp, hres], hs'⟩
  obtain ⟨m', h', g', hres, hs'⟩ := key
  exact ⟨m', h', g', hres, hs', fun x hx => hs'.nodeOK hx⟩

end Claims2

theorem C7_heap_order_witness :
    Reach (stateOf afterDeleteMin).1 reachHeaps ∧
    Member (stateOf afterDeleteMin).1 (reachHeaps 0) 2 ∧
    (stateOf afterDeleteMin).1.parent 2 = some 1 ∧
    ¬ (stateOf afterDeleteMin).1.value 2 < (stateOf afterDeleteMin).1.value 1 :=
  ⟨reach_example, Member.child (Member.head 1) rfl, rfl,
    ((C7_heap_order reach_example 0).1 2 1 (Member.child (Member.head 1) rfl) rfl).2⟩

theorem C8_shape_preserved_witness :
    ∃ m' h' g', runOp 5 id exMem (some 1) (Op.decreaseKey 2 0) = some (m', h') ∧
      Shape m' h' g' ∧ ∀ x ∈ g'.nodes, NodeOK m' g' x :=
  C8_shape_preserved 5 id exMem (some 1) exGhostA (Op.decreaseKey 2 0) exShapeA
    (show 2 ∈ exGhostA.nodes by decide) (fun _ => List.Perm.refl _) (by decide) (by decide)


/-! ## The operations one by one -/

section Claims3

variable [LinearOrder α]

/-- C11: on a well-formed heap `Insert(v)` returns a new node `x` (the next
free address) holding `v` that is a root with rank 0, no child, no parent and
mark false; the heap stays well formed, its nodes are the previous ones and
`x`, the stored values are the previous ones plus `v`, every previous node
keeps its value, child, rank, mark and parent; `Min` afterwards is `v` if the
heap was empty or `v` is less than the previous minimum, and the previous
minimum otherwise. -/
theorem C11_insert_effect (m : Mem α) (h : Ptr) (g : Ghost) (v : α) (hwf : WF m h g) :
    ∃ m' h' g', Insert m h v = some (m', h', some m.top) ∧ WF m' h' g' ∧
      m.top ∉ g.nodes ∧ g'.nodes = m.top :: g.nodes ∧
      (m'.value m.top = v ∧ m.top ∈ g'.roots ∧ m'.parent m.top = none ∧
        m'.rank m.top = 0 ∧ m'.child m.top = none ∧ m'.mark m.top = false) ∧
      g'.values m' = v ::ₘ g.values m ∧
      (∀ y ∈ g.nodes, m'.value y = m.value y ∧ m'.child y = m.child y ∧
        m'.rank y = m.rank y ∧ m'.mark y = m.mark y ∧ m'.parent y = m.parent y) ∧
      (Min m h = none → Min m' h' = some v) ∧
      (∀ w, Min m h = some w → Min m' h' = some (if v < w then v else w)) := by
  have hfresh := hwf.1.fresh
  obtain ⟨m', h', g', hres, hs', hnodes, hroots, -, -, -, hval, hpar, hch, hrk, hmk, -, hh⟩ :=
    insert_spec m h g v hwf.1
  obtain ⟨m₁, h₁, g₁, hres₁, hwf₁, hnodes₁, -, -⟩ := insert_wf m h g v hwf
  rw [hres] at hres₁
  obtain ⟨rfl, rfl⟩ : m' = m₁ ∧ h' = h₁ := by simpa [Prod.ext_iff] using hres₁
  have hne : ∀ y ∈ g.nodes, y ≠ m.top := fun y hy e => hfresh (e ▸ hy)
  refine ⟨m', h', g₁, hres, hwf₁, hfresh, hnodes₁, ⟨?_, ?_, ?_, ?_, ?_, ?_⟩, ?_, ?_, ?_, ?_⟩
  · rw [hval]; simp
  · have hp : m'.parent m.top = none := by rw [hpar]; simp
    have hin : m.top ∈ g₁.nodes := by rw [hnodes₁]; simp
    rcases hwf₁.1.root_or_kid hin with ⟨hr, -⟩ | ⟨p, -, -, hp'⟩
    · exact hr
    · rw [hp] at hp'
      exact absurd hp' (by simp)
  · rw [hpar]; simp
  · rw [hrk]; simp
  · rw [hch]; simp
  · rw [hmk]; simp
  · unfold Ghost.values
    rw [hnodes₁, List.map_cons, ← Multiset.cons_coe, hval]
    simp only [Function.update_same]
    congr 2
    exact List.map_congr_left fun y hy => by simp [Function.update_apply, hne y hy]
  · intro y hy
    have := hne y hy
    rw [hval, hch, hrk, hmk, hpar]
    simp [Function.update_apply, this]
  · intro hmin
    cases h with
    | none => rw [hh]; simp [insertHead, Min, hval]
    | some a => simp [Min] at hmin
  · intro w hw
    cases h with
    | none => simp [Min] at hw
    | some a =>
      have ha : a ≠ m.top := hne a
        (hwf.1.roots_sub a (List.mem_append_left _ (hwf.1.head : a ∈ g.roots))).1
      simp only [Min, Option.some.injEq] at hw
      subst hw
      rw [hh]
      simp only [insertHead]
      by_cases hlt : v < m.value a
      · simp [hlt, Min, hval]
      · simp [hlt, Min, hval, Function.update_apply, ha]

/-- C12: `Min` returns `(nil, false)` exactly on the empty heap and the value
of the tracked node with ok = true otherwise; `DeleteMin` on the empty heap
returns `(nil, false)` and leaves memory and heap as they are; on a non-empty
heap with the shape invariants it returns the pair `Min` returns before the
call, with ok = true. -/
theorem C12_min_results (fuel : Nat) (enum : RootMap → RootMap) (m : Mem α) (h : Ptr)
    (g : Ghost) (hs : Shape m h g) (henum : ∀ t, (enum t).Perm t)
    (hfuel : g.nodes.length ≤ fuel) :
    (Min m h = none ↔ h = none) ∧ (∀ a, h = some a → Min m h = some (m.value a)) ∧
    (h = none → DeleteMin fuel enum m h = some (m, none, none)) ∧
    (h ≠ none → Min m h ≠ none ∧
      ∃ m' h', DeleteMin fuel enum m h = some (m', h', Min m h)) := by
  cases h with
  | none => exact ⟨by simp [Min], by simp, fun _ => rfl, fun hne => absurd rfl hne⟩
  | some a =>
    obtain ⟨m', h', g', hres, -⟩ := deleteMin_spec fuel enum m a g hs henum hfuel
    exact ⟨by simp [Min], by simp [Min], by simp, fun _ => ⟨by simp [Min], m', h', hres⟩⟩

/-- C14: on a heap with the shape invariants, `DecreaseKey(n, v)` with `v` not
above the value of the node `n` of the heap returns a nil error, sets the
value of `n` to `v` and changes no other value; the nodes of the heap are the
same before and after, each once, as are the nodes reached from the heap; `n`
is a root afterwards; the stored values are the previous ones with one
occurrence of the old value of `n` replaced by `v`; heap order is kept. -/
theorem C14_decreaseKey_conserves (fuel : Nat) (m : Mem α) (a : Nat) (g : Ghost) (n : Nat)
    (v : α) (hs : Shape m (some a) g) (hn : n ∈ g.nodes) (hv : ¬ m.value n < v)
    (hfuel : 2 * g.bound + 2 ≤ fuel) :
    ∃ m' h' g', DecreaseKey fuel m (some a) (some n) v = some (m', h', none) ∧
      Shape m' h' g' ∧ (Ordered m g → Ordered m' g') ∧
      g'.nodes = g.nodes ∧ g'.nodes.Nodup ∧ g'.roots.Nodup ∧
      (∀ x, Member m' h' x ↔ Member m (some a) x) ∧
      m'.value n = v ∧ (∀ y, y ≠ n → m'.value y = m.value y) ∧
      n ∈ g'.roots ∧ m'.parent n = none ∧
      g'.values m' = v ::ₘ (g.values m).erase (m.value n) := by
  obtain ⟨m', h', g', hres, hs', hnodes, hval, -, hord, -, hroot⟩ :=
    decreaseKey_spec fuel m a g n v hs hn hv hfuel
  have hnr : n ∈ g'.roots := by
    rcases hs.root_or_kid hn with ⟨hr, hp⟩ | ⟨p, -, -, hp⟩
    · rw [decreaseKey_root_eq fuel m a n v hp hv] at hres
      have hm : m'.parent = m.parent := by
        have := congrArg (fun r => r.1.parent) (Option.some.inj hres)
        exact this.symm
      rcases hs'.root_or_kid (hnodes ▸ hn : n ∈ g'.nodes) with ⟨hr', -⟩ | ⟨p, -, -, hp'⟩
      · exact hr'
      · rw [hm, hp] at hp'
        exact absurd hp' (by simp)
    · exact (hroot (by rw [hp]; simp)).2
  refine ⟨m', h', g', hres, hs', hord, hnodes, hs'.nodup, ?_, ?_, ?_, ?_, hnr,
    hs'.root_parent n hnr, ?_⟩
  · simpa using hs'.roots_nodup
  · intro x
    rw [hs'.member_iff, hs.member_iff, hnodes]
  · rw [hval]; simp
  · intro y hy
    rw [hval]; simp [Function.update_apply, hy]
  · unfold Ghost.values
    rw [hnodes, hval]
    have hnd := hs.nodup
    have hp : (g.nodes.map (Function.update m.value n v)).Perm
        (v :: (g.nodes.erase n).map m.value) := by
      have h1 := (List.perm_cons_erase hn).map (Function.update m.value n v)
      refine h1.trans ?_
      rw [List.map_cons, Function.update_same]
      refine List.Perm.cons _ (List.Perm.of_eq (List.map_congr_left fun y hy => ?_))
      have : y ≠ n := fun e => (List.Nodup.not_mem_erase hnd) (e ▸ hy)
      simp [Function.update_apply, this]
    have hq : (g.nodes.map m.value).Perm (m.value n :: (g.nodes.erase n).map m.value) :=
      (List.perm_cons_erase hn).map m.value
    rw [← Multiset.coe_eq_coe] at hp hq
    rw [hp, hq, ← Multiset.cons_coe, ← Multiset.cons_coe, Multiset.erase_cons_head]

/-- C15: the empty heap is an identity for `Meld`.  Melding the empty heap
into a heap leaves the memory and the tracked node of the heap unchanged;
melding a heap into the empty heap leaves the memory unchanged, the receiver
tracks the node the argument tracked, and the argument is left empty; melding
two empty heaps leaves both empty. -/
theorem C15_meld_empty (m : Mem α) (h : Ptr) :
    Meld m h none = some (m, h, none) ∧ Meld m none h = some (m, h, none) ∧
    Meld m none none = some (m, none, none) := by
  cases h <;> exact ⟨rfl, rfl, rfl⟩

/-- C16: on a non-empty heap with the shape invariants, `Delete(h.Node)` is
`DeleteMin()`: both return, for the same enumeration order of the map of
roots, with the same memory and the same tracked node. -/
theorem C16_delete_min (fuel : Nat) (enum : RootMap → RootMap) (m : Mem α) (a : Nat)
    (g : Ghost) (hs : Shape m (some a) g) (henum : ∀ t, (enum t).Perm t)
    (hfuel : g.nodes.length ≤ fuel) :
    ∃ m' h' r, DeleteMin fuel enum m (some a) = some (m', h', r) ∧
      Delete fuel enum m (some a) (some a) = some (m', h') := by
  obtain ⟨m', h', g', hres, -⟩ := deleteMin_spec fuel enum m a g hs henum hfuel
  refine ⟨m', h', _, hres, ?_⟩
  rw [delete_min_eq fuel enum (hs.root_parent a hs.head), hres]
  rfl

end Claims3

theorem C11_insert_effect_witness :
    ∃ m' h' g', Insert exMem (some 1) 0 = some (m', h', some exMem.top) ∧ WF m' h' g' ∧
      exMem.top ∉ exGhostA.nodes ∧ g'.nodes = exMem.top :: exGhostA.nodes ∧
      (m'.value exMem.top = 0 ∧ exMem.top ∈ g'.roots ∧ m'.parent exMem.top = none ∧
        m'.rank exMem.top = 0 ∧ m'.child exMem.top = none ∧ m'.mark exMem.top = false) ∧
      g'.values m' = 0 ::ₘ exGhostA.values exMem ∧
      (∀ y ∈ exGhostA.nodes, m'.value y = exMem.value y ∧ m'.child y = exMem.child y ∧
        m'.rank y = exMem.rank y ∧ m'.mark y = exMem.mark y ∧
        m'.parent y = exMem.parent y) ∧
      (Min exMem (some 1) = none → Min m' h' = some 0) ∧
      (∀ w, Min exMem (some 1) = some w → Min m' h' = some (if 0 < w then 0 else w)) :=
  C11_insert_effect exMem (some 1) exGhostA 0 exWFA

theorem C12_min_results_witness :
    (Min exMem (some 1) = none ↔ (some 1 : Ptr) = none) ∧
    (∀ a, (some 1 : Ptr) = some a → Min exMem (some 1) = some (exMem.value a)) ∧
    ((some 1 : Ptr) = none → DeleteMin 2 id exMem (some 1) = some (exMem, none, none)) ∧
    ((some 1 : Ptr) ≠ none → Min exMem (some 1) ≠ none ∧
      ∃ m' h', DeleteMin 2 id exMem (some 1) = some (m', h', Min exMem (some 1))) :=
  C12_min_results 2 id exMem (some 1) exGhostA exShapeA (fun t => List.Perm.refl t)
    (by decide)

theorem C14_decreaseKey_conserves_witness :
    ∃ m' h' g', DecreaseKey 4 exMem (some 1) (some 2) 0 = some (m', h', none) ∧
      Shape m' h' g' ∧ (Ordered exMem exGhostA → Ordered m' g') ∧
      g'.nodes = exGhostA.nodes ∧ g'.nodes.Nodup ∧ g'.roots.Nodup ∧
      (∀ x, Member m' h' x ↔ Member exMem (some 1) x) ∧
      m'.value 2 = 0 ∧ (∀ y, y ≠ 2 → m'.value y = exMem.value y) ∧
      2 ∈ g'.roots ∧ m'.parent 2 = none ∧
      g'.values m' = 0 ::ₘ (exGhostA.values exMem).erase (exMem.value 2) :=
  C14_decreaseKey_conserves 4 exMem 1 exGhostA 2 0 exShapeA (by decide) (by decide)
    (by decide)

theorem C16_delete_min_witness :
    ∃ m' h' r, DeleteMin 2 id exMem (some 1) = some (m', h', r) ∧
      Delete 2 id exMem (some 1) (some 1) = some (m', h') :=
  C16_delete_min 2 id exMem 1 exGhostA exShapeA (fun t => List.Perm.refl t) (by decide)
/-! ## Marks of roots -/

section Claims4

variable [LinearOrder α]

/-- C13, as amended: in every state reached from empty heaps by public
operations whose preconditions are met, every node in the root ring of a heap
has a nil parent (its mark may be true or false). -/
theorem C13_root_parent {m : Mem α} {hs : Nat → Ptr} (hr : Reach m hs) (i x : Nat)
    (hx : InRing m (hs i) x) : m.parent x = none := by
  obtain ⟨gs, hinv, -⟩ := reach_inv hr
  obtain ⟨hsh, -⟩ := hinv i
  have hroot : ∀ h y, InRing m h y → Shape m h (gs i) → y ∈ (gs i).roots := by
    intro h y hy
    induction hy with
    | head a => exact fun hsh => hsh.head
    | next _ hn ih => exact fun hsh => ring_next_mem hsh.ring (ih hsh) hn
  exact hsh.root_parent x (hroot _ x hx hsh)

end Claims4

/-- C13: after `Insert(1)`, ..., `Insert(5)`, `DeleteMin()`, `DecreaseKey(x, 2)`
on the node of `Insert(5)` and `DecreaseKey(y, 2)` on the node of `Insert(4)`,
the node `y` (address 3) is in the root ring of the heap, next to the next of
the tracked node 1, with a nil parent and mark = true. -/
theorem C13_marked_root :
    Reach (stateOf afterCut2).1 (oneHeap (some 1)) ∧
    InRing (stateOf afterCut2).1 (oneHeap (some 1) 0) 3 ∧
    (stateOf afterCut2).1.parent 3 = none ∧ (stateOf afterCut2).1.mark 3 = true :=
  ⟨reach_afterCut2, InRing.next (InRing.next (InRing.head 1) (y := 4) rfl) rfl, rfl, rfl⟩

theorem C13_root_parent_witness :
    InRing (stateOf afterCut2).1 (oneHeap (some 1) 0) 4 ∧
    (stateOf afterCut2).1.parent 4 = none :=
  ⟨InRing.next (InRing.head 1) rfl,
    C13_root_parent reach_afterCut2 0 4 (InRing.next (InRing.head 1) rfl)⟩

/-! ## Consolidation by DeleteMin -/

section Claims5

variable [LinearOrder α]

/-- C19: on a non-empty heap with the shape invariants `DeleteMin` returns,
and right afterwards the roots of the heap have pairwise distinct ranks; every
node `y` linked under a node `p` during the call (its parent is `p`
afterwards and was not before) has mark = false and a value not less than the
value of `p`, and it was linked when `p` had its rank: the ranks of the nodes
linked under `p` are pairwise distinct, at least the rank `p` had before the
call and less than the rank `p` has afterwards. -/
theorem C19_consolidation (fuel : Nat) (enum : RootMap → RootMap) (m : Mem α) (a : Nat)
    (g : Ghost) (hs : Shape m (some a) g) (henum : ∀ t, (enum t).Perm t)
    (hfuel : g.nodes.length ≤ fuel) :
    ∃ m' h' g', DeleteMin fuel enum m (some a) = some (m', h', some (m.value a)) ∧
      Shape m' h' g' ∧ g'.nodes = g.nodes.erase a ∧
      (∀ x ∈ g'.roots, ∀ y ∈ g'.roots, m'.rank x = m'.rank y → x = y) ∧
      (∀ y p, y ∈ g'.nodes → m'.parent y = some p → m.parent y ≠ some p →
        m'.mark y = false ∧ ¬ m'.value y < m'.value p ∧
        m.rank p ≤ m'.rank y ∧ m'.rank y < m'.rank p ∧
        ∀ z ∈ g'.nodes, m'.parent z = some p → m.parent z ≠ some p →
          m'.rank z = m'.rank y → z = y) := by
  obtain ⟨m₄, t₄, g₄, hc₄, hext, hall, -⟩ := deleteMin_full fuel m a g hs hfuel
  obtain ⟨m', h', R', hres, hshape, -, hR, hval, hpar, -, hrk, hmk, -, -⟩ := hall enum henum
  have hnodes : g₄.nodes = g.nodes.erase a := hext.nodes
  have hmem : ∀ y, y ∈ g.nodes.erase a → y ∈ g.nodes := fun y hy => List.mem_of_mem_erase hy
  -- a node of the new heap whose parent is `p` is a child of `p` in the forest
  have hkid : ∀ y p, y ∈ g₄.nodes → m'.parent y = some p → p ∈ g₄.nodes ∧ y ∈ g₄.kids p := by
    intro y p hy hp
    rcases hshape.root_or_kid hy with ⟨-, hp'⟩ | ⟨q, hq, hyq, hp'⟩
    · rw [hp'] at hp
      exact absurd hp (by simp)
    · rw [hp'] at hp
      obtain rfl := Option.some.inj hp
      exact ⟨hq, hyq⟩
  have hnew : ∀ y p, p ∈ g₄.nodes → m.parent y ≠ some p → y ∉ g.kids p := by
    intro y p hp hne hyk
    rw [hnodes] at hp
    exact hne (hs.kids_sub p (hmem p hp) y hyk).2.1
  refine ⟨m', h', { g₄ with roots := R' }, hres, hshape, hnodes, ?_, ?_⟩
  · intro x hx y hy hxy
    rw [hrk] at hxy
    exact hc₄.table.rank_inj x (hR.mem_iff.1 hx) y (hR.mem_iff.1 hy) hxy
  · intro y p hy hp hne
    obtain ⟨hpn, hyk⟩ := hkid y p hy hp
    have hpn' : p ∈ g.nodes.erase a := hnodes ▸ hpn
    obtain ⟨h1, h2, h3, h4⟩ := hext.lnk.gained p hpn' y hyk (hnew y p hpn hne)
    refine ⟨by rw [hmk]; exact h1, by rw [hval]; exact h2, by rw [hrk]; exact h3,
      by rw [hrk]; exact h4, ?_⟩
    intro z hz hzp hzne hzy
    obtain ⟨-, hzk⟩ := hkid z p hz hzp
    rw [hrk] at hzy
    exact hext.lnk.inj p hpn' z hzk y hyk (hnew z p hpn hzne) (hnew y p hpn hne) hzy

/-- C20: for values with a linear order (of two distinct values one is less
than the other), `DeleteMin` does not depend on the order in which the map of
roots is enumerated.  On a non-empty heap with the shape invariants, for any
two enumeration orders the call returns the same value, the heaps afterwards
have the same nodes, the same roots and the same children for every node,
every node has the same value, parent, child, rank and mark, every node that
is not a root has the same ring neighbours, and `Min` reports the same
value. -/
theorem C20_enum_independent (fuel : Nat) (e₁ e₂ : RootMap → RootMap) (m : Mem α) (a : Nat)
    (g : Ghost) (hs : Shape m (some a) g) (he₁ : ∀ t, (e₁ t).Perm t)
    (he₂ : ∀ t, (e₂ t).Perm t) (hfuel : g.nodes.length ≤ fuel) :
    ∃ m₁ h₁ g₁ m₂ h₂ g₂,
      DeleteMin fuel e₁ m (some a) = some (m₁, h₁, some (m.value a)) ∧
      DeleteMin fuel e₂ m (some a) = some (m₂, h₂, some (m.value a)) ∧
      Shape m₁ h₁ g₁ ∧ Shape m₂ h₂ g₂ ∧
      g₁.nodes = g₂.nodes ∧ g₁.roots.Perm g₂.roots ∧ g₁.kids = g₂.kids ∧
      m₁.value = m₂.value ∧ m₁.parent = m₂.parent ∧ m₁.child = m₂.child ∧
      m₁.rank = m₂.rank ∧ m₁.mark = m₂.mark ∧
      (∀ y, y ∉ g₁.roots → m₁.next y = m₂.next y ∧ m₁.prev y = m₂.prev y) ∧
      Min m₁ h₁ = Min m₂ h₂ := by
  obtain ⟨m₄, t₄, g₄, -, -, hall, -⟩ := deleteMin_full fuel m a g hs hfuel
  obtain ⟨m₁, h₁, R₁, hres₁, hsh₁, hmin₁, hR₁, a1, a2, a3, a4, a5, -, a7⟩ := hall e₁ he₁
  obtain ⟨m₂, h₂, R₂, hres₂, hsh₂, hmin₂, hR₂, b1, b2, b3, b4, b5, -, b7⟩ := hall e₂ he₂
  have hR : R₁.Perm R₂ := hR₁.trans hR₂.symm
  have hval : m₁.value = m₂.value := a1.trans b1.symm
  refine ⟨m₁, h₁, { g₄ with roots := R₁ }, m₂, h₂, { g₄ with roots := R₂ }, hres₁, hres₂,
    hsh₁, hsh₂, rfl, hR, rfl, hval, a2.trans b2.symm, a3.trans b3.symm, a4.trans b4.symm,
    a5.trans b5.symm, ?_, ?_⟩
  · intro y hy
    have hy' : y ∉ tnodes t₄ := fun h => hy (hR₁.mem_iff.2 h)
    obtain ⟨c1, c2⟩ := a7 y hy'
    obtain ⟨d1, d2⟩ := b7 y hy'
    exact ⟨c1.trans d1.symm, c2.trans d2.symm⟩
  · have hh₁ : HeadIn h₁ R₁ := hsh₁.head
    have hh₂ : HeadIn h₂ R₂ := hsh₂.head
    cases h₁ with
    | none =>
      have hR₁' : R₁ = [] := hh₁
      cases h₂ with
      | none => rfl
      | some b₂ =>
        have : b₂ ∈ R₁ := hR.mem_iff.2 hh₂
        rw [hR₁'] at this
        simp at this
    | some b₁ =>
      have hb₁ : b₁ ∈ R₁ := hh₁
      cases h₂ with
      | none =>
        have hR₂' : R₂ = [] := hh₂
        have : b₁ ∈ R₂ := hR.mem_iff.1 hb₁
        rw [hR₂'] at this
        simp at this
      | some b₂ =>
        have hb₂ : b₂ ∈ R₂ := hh₂
        have h1 : ¬ m₁.value b₂ < m₁.value b₁ := hmin₁ b₁ rfl b₂ (hR.mem_iff.2 hb₂)
        have h2 : ¬ m₂.value b₁ < m₂.value b₂ := hmin₂ b₂ rfl b₁ (hR.mem_iff.1 hb₁)
        rw [← hval] at h2
        simp only [Min, Option.some.injEq]
        rw [← hval]
        exact le_antisymm (not_lt.1 h1) (not_lt.1 h2)

end Claims5

theorem C19_consolidation_witness :
    ∃ m' h' g', DeleteMin 5 id (stateOf afterInsert5).1 (some 0) =
        some (m', h', some ((stateOf afterInsert5).1.value 0)) ∧
      Shape m' h' g' ∧ g'.nodes = exGhost5.nodes.erase 0 ∧
      (∀ x ∈ g'.roots, ∀ y ∈ g'.roots, m'.rank x = m'.rank y → x = y) ∧
      (∀ y p, y ∈ g'.nodes → m'.parent y = some p →
        (stateOf afterInsert5).1.parent y ≠ some p →
        m'.mark y = false ∧ ¬ m'.value y < m'.value p ∧
        (stateOf afterInsert5).1.rank p ≤ m'.rank y ∧ m'.rank y < m'.rank p ∧
        ∀ z ∈ g'.nodes, m'.parent z = some p → (stateOf afterInsert5).1.parent z ≠ some p →
          m'.rank z = m'.rank y → z = y) :=
  C19_consolidation 5 id (stateOf afterInsert5).1 0 exGhost5 exShape5
    (fun t => List.Perm.refl t) (by decide)

theorem C20_enum_independent_witness :
    ∃ m₁ h₁ g₁ m₂ h₂ g₂,
      DeleteMin 4 id (stateOf afterInsert0777).1 (some 0) =
        some (m₁, h₁, some ((stateOf afterInsert0777).1.value 0)) ∧
      DeleteMin 4 List.reverse (stateOf afterInsert0777).1 (some 0) =
        some (m₂, h₂, some ((stateOf afterInsert0777).1.value 0)) ∧
      Shape m₁ h₁ g₁ ∧ Shape m₂ h₂ g₂ ∧
      g₁.nodes = g₂.nodes ∧ g₁.roots.Perm g₂.roots ∧ g₁.kids = g₂.kids ∧
      m₁.value = m₂.value ∧ m₁.parent = m₂.parent ∧ m₁.child = m₂.child ∧
      m₁.rank = m₂.rank ∧ m₁.mark = m₂.mark ∧
      (∀ y, y ∉ g₁.roots → m₁.next y = m₂.next y ∧ m₁.prev y = m₂.prev y) ∧
      Min m₁ h₁ = Min m₂ h₂ :=
  C20_enum_independent 4 id List.reverse (stateOf afterInsert0777).1 0 exGhost4 exShape4
    (fun t => List.Perm.refl t) (fun t => List.reverse_perm t) (by decide)

set_option maxRecDepth 8000 in
/-- C20: with values that are compared by a key, the value that `Min` reports
after `DeleteMin` depends on the order in which the table of roots is
enumerated.  The heap after `Insert` of the items (0, 0), (7, 1), (7, 2),
(7, 3) on an empty heap is well formed; `DeleteMin` returns the item (0, 0)
for the order of the table and for the reverse order, and `Min` then reports
the item (7, 3) after the one and the item (7, 2) after the other. -/
theorem C20_min_depends_on_order :
    insertAll emptyItems none [⟨0, 0⟩, ⟨7, 1⟩, ⟨7, 2⟩, ⟨7, 3⟩] = some itemHeap ∧
    itemHeap.2 = some 0 ∧ WF itemHeap.1 (some 0) exGhost4 ∧
    (DeleteMin 4 id itemHeap.1 (some 0)).map (fun r => (r.2.2, Min r.1 r.2.1)) =
      some (some ⟨0, 0⟩, some ⟨7, 3⟩) ∧
    (DeleteMin 4 List.reverse itemHeap.1 (some 0)).map (fun r => (r.2.2, Min r.1 r.2.1)) =
      some (some ⟨0, 0⟩, some ⟨7, 2⟩) :=
  ⟨rfl, rfl, exWFItems, by decide, by decide⟩

set_option maxRecDepth 8000 in
/-- On the heap after `Insert(0)`, `Insert(7)`, `Insert(7)`, `Insert(7)` the
table of roots of `DeleteMin` has two entries, and the two orders of
enumeration leave different nodes tracked. -/
theorem deleteMin_orders_differ :
    (DeleteMin 4 id (stateOf afterInsert0777).1 (some 0)).map (fun r => r.2.1) =
      some (some 3) ∧
    (DeleteMin 4 List.reverse (stateOf afterInsert0777).1 (some 0)).map (fun r => r.2.1) =
      some (some 2) := by
  decide
/-! ## The cascading cut of DecreaseKey -/

section Claims6

variable [LinearOrder α]

/-- C18: cascading cut.  On a heap with the shape invariants, `DecreaseKey(n,
v)` on a node `n` with a parent and a value not less than `v` returns a nil
error and promotes to the root ring exactly `n` and the chain `C` of marked
ancestors with a parent above it: these get a nil parent and every other node
keeps its parent.  The nodes of `C` and the first ancestor `s` above the chain
(the former parents of the promoted nodes) lose one from their rank and every
other rank is kept.  If `s` has a parent it was unmarked and is marked
afterwards; if it is a root its mark is kept; every other mark is kept. -/
theorem C18_cascading_cut (fuel : Nat) (m : Mem α) (a : Nat) (g : Ghost) (n p : Nat) (v : α)
    (hs : Shape m (some a) g) (hn : n ∈ g.nodes) (hp : m.parent n = some p)
    (hv : ¬ m.value n < v) (hfuel : 2 * g.bound + 2 ≤ fuel) :
    ∃ m' h' g' C s, DecreaseKey fuel m (some a) (some n) v = some (m', h', none) ∧
      Shape m' h' g' ∧ Cascade m n C s ∧
      (∀ y ∈ n :: C, m'.parent y = none ∧ InRing m' h' y) ∧
      (∀ y, y ∉ n :: C → m'.parent y = m.parent y) ∧
      (∀ y ∈ s :: C, m'.rank y = m.rank y - 1) ∧
      (∀ y, y ∉ s :: C → m'.rank y = m.rank y) ∧
      (m.parent s ≠ none → m.mark s = false ∧ m'.mark s = true) ∧
      (m.parent s = none → m'.mark s = m.mark s) ∧
      (∀ y, y ≠ s → m'.mark y = m.mark y) := by
  obtain ⟨m', h', g', hres, hs', hnodes, -⟩ := decreaseKey_spec fuel m a g n v hs hn hv hfuel
  have hpk : p ∈ g.nodes ∧ n ∈ g.kids p := by
    rcases hs.root_or_kid hn with ⟨-, h1⟩ | ⟨q, hq, hnq, h1⟩
    · rw [h1] at hp
      exact absurd hp (by simp)
    · rw [h1] at hp
      obtain rfl := Option.some.inj hp
      exact ⟨hq, hnq⟩
  have hna : n ≠ a := by
    rintro rfl
    have := hs.root_parent n hs.head
    rw [this] at hp
    exact absurd hp (by simp)
  have hs₀ : ShapeF ({ m with value := Function.update m.value n v } : Mem α) (some a) g [] :=
    hs.set_value _
  obtain ⟨m₁, C, s, hcut, hcas₀, -, e1, e2, e3, -⟩ := cutAux_cascade fuel true _ g [] n p a hs₀
    hpk.1 hpk.2 (by simp) (by simp only [if_true]; omega)
  have hcas : Cascade m n C s := hcas₀.congr_fields rfl rfl
  rw [decreaseKey_cut_eq fuel m a n p v hv hna hp, hcut] at hres
  obtain ⟨rfl, -⟩ : m₁ = m' ∧ some a = h' := by simpa [Prod.ext_iff] using hres
  have e1' : m₁.parent = fun y => if y ∈ C ∨ y = n then none else m.parent y := by
    rw [e1]
    funext y
    simp
  have e2' : m₁.rank = fun y => if y ∈ s :: C then m.rank y - 1 else m.rank y := e2
  have e3' : m₁.mark = fun y => if y = s ∧ m.parent s ≠ none then true else m.mark y := e3
  have hCn := hcas.mem_nodes hs hn
  have hres' : DecreaseKey fuel m (some a) (some n) v = some (m₁, h', none) := by
    rw [decreaseKey_cut_eq fuel m a n p v hv hna hp, hcut]
    simpa using hres
  refine ⟨m₁, h', g', C, s, hres', hs', hcas, ?_, ?_, ?_, ?_, ?_, ?_, ?_⟩
  · intro y hy
    have hpy : m₁.parent y = none := by
      rw [e1']
      simp only [List.mem_cons] at hy
      rcases hy with h1 | h1
      · simp [h1]
      · simp [h1]
    have hyn : y ∈ g'.nodes := by
      rw [hnodes]
      rcases List.mem_cons.1 hy with rfl | h1
      · exact hn
      · exact hCn y (List.mem_cons_of_mem _ h1)
    refine ⟨hpy, (hs'.inRing_iff y).2 ?_⟩
    rcases hs'.root_or_kid hyn with ⟨hr, -⟩ | ⟨q, -, -, hq⟩
    · exact hr
    · rw [hpy] at hq
      exact absurd hq (by simp)
  · intro y hy
    simp only [List.mem_cons, not_or] at hy
    rw [e1']
    simp [hy.1, hy.2]
  · intro y hy
    rw [e2']
    simp only [hy, if_true]
  · intro y hy
    rw [e2']
    simp only [hy, if_false]
  · intro hps
    refine ⟨?_, by rw [e3']; simp [hps]⟩
    rcases hcas.stop_cond with h1 | h1
    · exact absurd h1 hps
    · exact h1
  · intro hps
    rw [e3']
    simp [hps]
  · intro y hy
    rw [e3']
    simp [hy]

end Claims6

theorem C18_cascading_cut_witness :
    ∃ m' h' g' C s,
      DecreaseKey 6 (stateOf afterDeleteMin5).1 (some 1) (some 4) 2 = some (m', h', none) ∧
      Shape m' h' g' ∧ Cascade (stateOf afterDeleteMin5).1 4 C s ∧
      (∀ y ∈ 4 :: C, m'.parent y = none ∧ InRing m' h' y) ∧
      (∀ y, y ∉ 4 :: C → m'.parent y = (stateOf afterDeleteMin5).1.parent y) ∧
      (∀ y ∈ s :: C, m'.rank y = (stateOf afterDeleteMin5).1.rank y - 1) ∧
      (∀ y, y ∉ s :: C → m'.rank y = (stateOf afterDeleteMin5).1.rank y) ∧
      ((stateOf afterDeleteMin5).1.parent s ≠ none →
        (stateOf afterDeleteMin5).1.mark s = false ∧ m'.mark s = true) ∧
      ((stateOf afterDeleteMin5).1.parent s = none →
        m'.mark s = (stateOf afterDeleteMin5).1.mark s) ∧
      (∀ y, y ≠ s → m'.mark y = (stateOf afterDeleteMin5).1.mark y) :=
  C18_cascading_cut 6 (stateOf afterDeleteMin5).1 1 exGhostTree 4 3 2 exShapeTree
    (by decide) (by decide) (by decide) (by decide)

/-! ## The Fibonacci bound on ranks -/

/-- A list of numbers of which at most `j` are below `j`, for every `j`, has
Fibonacci weight: the sum of `fib (d + 1)` over the list, plus one, is at
least `fib` of its length plus two. -/
theorem fib_sum_le : ∀ (k : Nat) (L : List Nat), L.length = k →
    (∀ j, (L.filter (fun d => decide (d < j))).length ≤ j) →
    Nat.fib (k + 2) ≤ 1 + (L.map fun d => Nat.fib (d + 1)).sum := by
  intro k
  induction k with
  | zero =>
    intro L hL _
    simp [List.length_eq_zero.1 hL]
  | succ k ih =>
    intro L hL hcount
    -- some member is at least `k`
    have hex : ∃ d ∈ L, k ≤ d := by
      by_contra hne
      push_neg at hne
      have hall : L.filter (fun d => decide (d < k)) = L :=
        List.filter_eq_self.2 (fun d hd => by simpa using hne d hd)
      have := hcount k
      rw [hall, hL] at this
      omega
    obtain ⟨d, hd, hkd⟩ := hex
    have hlen : (L.erase d).length = k := by
      rw [List.length_erase_of_mem hd, hL]
      rfl
    have hsub : ∀ j, ((L.erase d).filter (fun d => decide (d < j))).length ≤ j := by
      intro j
      refine le_trans ?_ (hcount j)
      exact ((List.erase_sublist d L).filter _).length_le
    have h1 := ih (L.erase d) hlen hsub
    have hperm : L.Perm (d :: L.erase d) := List.perm_cons_erase hd
    have hsum : (L.map fun d => Nat.fib (d + 1)).sum =
        Nat.fib (d + 1) + ((L.erase d).map fun d => Nat.fib (d + 1)).sum := by
      rw [(hperm.map _).sum_eq]
      simp
    have h2 : Nat.fib (k + 1) ≤ Nat.fib (d + 1) := Nat.fib_mono (by omega)
    have h3 : Nat.fib (k + 1 + 2) = Nat.fib (k + 1) + Nat.fib (k + 2) := Nat.fib_add_two
    rw [hsum, h3]
    omega

/-- Fibonacci numbers grow at least like powers of two of half the index. -/
theorem two_pow_le_fib : ∀ k : Nat, 2 ^ k ≤ Nat.fib (2 * k + 2) := by
  intro k
  induction k with
  | zero => simp
  | succ k ih =>
    have h1 : Nat.fib (2 * (k + 1) + 2) = Nat.fib (2 * k + 2) + Nat.fib (2 * k + 3) := by
      have : 2 * (k + 1) + 2 = (2 * k + 2) + 2 := by ring
      rw [this, Nat.fib_add_two]
    have h2 : Nat.fib (2 * k + 2) ≤ Nat.fib (2 * k + 3) := Nat.fib_mono (by omega)
    rw [h1, pow_succ]
    omega

/-- The children of a node of a heap in shape are the nodes whose parent it
is. -/
theorem Shape.kids_perm {m : Mem α} {h : Ptr} {g : Ghost} (hs : Shape m h g) {x : Nat}
    (hx : x ∈ g.nodes) :
    (g.kids x).Perm (g.nodes.filter fun y => decide (m.parent y = some x)) := by
  refine (List.perm_ext_iff_of_nodup (hs.kids_nodup x hx) (hs.nodup.filter _)).2 fun y => ?_
  simp only [List.mem_filter, decide_eq_true_eq]
  constructor
  · intro hy
    exact ⟨(hs.kids_sub x hx y hy).1, (hs.kids_sub x hx y hy).2.1⟩
  · rintro ⟨hy, hp⟩
    rcases hs.root_or_kid hy with ⟨-, h1⟩ | ⟨q, -, hyq, h1⟩
    · rw [h1] at hp
      exact absurd hp (by simp)
    · rw [h1] at hp
      exact Option.some.inj hp ▸ hyq

theorem sub_self (g : Ghost) (f x : Nat) : x ∈ sub g f x := by
  cases f <;> simp [sub]

/-- A node below `x` other than `x` is the child of a node below `x`. -/
theorem sub_parent (g : Ghost) : ∀ (f x z : Nat), z ∈ sub g f x → z ≠ x →
    ∃ q ∈ sub g f x, z ∈ g.kids q := by
  intro f
  induction f with
  | zero =>
    intro x z hz hne
    simp only [sub, List.mem_singleton] at hz
    exact absurd hz hne
  | succ f ih =>
    intro x z hz hne
    simp only [sub, List.mem_cons, List.mem_flatMap] at hz
    rcases hz with h1 | ⟨c, hc, hzc⟩
    · exact absurd h1 hne
    · by_cases hzc' : z = c
      · subst hzc'
        exact ⟨x, sub_self g _ x, hc⟩
      · obtain ⟨q, hq, hzq⟩ := ih c z hzc hzc'
        refine ⟨q, ?_, hzq⟩
        simp only [sub, List.mem_cons, List.mem_flatMap]
        exact Or.inr ⟨c, hc, hq⟩

/-- The nodes below a node of a forest are nodes of the forest, of lesser
height. -/
theorem Trees.sub_height {m : Mem α} {g : Ghost} (ht : Trees m g) : ∀ (f x z : Nat),
    x ∈ g.nodes → z ∈ sub g f x → z ∈ g.nodes ∧ (z = x ∨ g.height z < g.height x) := by
  intro f
  induction f with
  | zero =>
    intro x z hx hz
    simp only [sub, List.mem_singleton] at hz
    subst hz
    exact ⟨hx, Or.inl rfl⟩
  | succ f ih =>
    intro x z hx hz
    simp only [sub, List.mem_cons, List.mem_flatMap] at hz
    rcases hz with h1 | ⟨c, hc, hzc⟩
    · subst h1
      exact ⟨hx, Or.inl rfl⟩
    · obtain ⟨hcn, -, hch⟩ := ht.kids_sub x hx c hc
      obtain ⟨hzn, hz'⟩ := ih c z hcn hzc
      refine ⟨hzn, Or.inr ?_⟩
      rcases hz' with rfl | h2
      · exact hch
      · exact lt_trans h2 hch

/-- Two trees of a forest that share a node lie one below the other. -/
theorem Trees.sub_comparable {m : Mem α} {g : Ghost} (ht : Trees m g) : ∀ (f c c' z : Nat),
    c ∈ g.nodes → c' ∈ g.nodes → z ∈ sub g f c → z ∈ sub g f c' →
    c ∈ sub g f c' ∨ c' ∈ sub g f c := by
  intro f
  induction f with
  | zero =>
    intro c c' z _ _ hz hz'
    simp only [sub, List.mem_singleton] at hz hz'
    subst hz
    subst hz'
    exact Or.inl (by simp [sub])
  | succ f ih =>
    intro c c' z hc hc' hz hz'
    have hz₀ := hz
    have hz₀' := hz'
    simp only [sub, List.mem_cons, List.mem_flatMap] at hz hz'
    rcases hz with h1 | ⟨k, hk, hzk⟩
    · subst h1
      exact Or.inl hz₀'
    · rcases hz' with h1 | ⟨k', hk', hzk'⟩
      · subst h1
        exact Or.inr hz₀
      · have hkn := (ht.kids_sub c hc k hk).1
        have hkn' := (ht.kids_sub c' hc' k' hk').1
        have up : ∀ a b ka kb : Nat, a ∈ g.nodes → b ∈ g.nodes → ka ∈ g.kids a →
            kb ∈ g.kids b → ka ∈ sub g f kb → a ∈ sub g (f + 1) b := by
          intro a b ka kb ha hb hka hkb hin
          by_cases he : ka = kb
          · subst he
            have := ht.kids_unique ha hb hka hkb
            subst this
            exact sub_self g _ a
          · obtain ⟨q, hq, hkq⟩ := sub_parent g f kb ka hin he
            have hqn := (ht.sub_height f kb q (ht.kids_sub b hb kb hkb).1 hq).1
            have := ht.kids_unique ha hqn hka hkq
            subst this
            simp only [sub, List.mem_cons, List.mem_flatMap]
            exact Or.inr ⟨kb, hkb, hq⟩
        rcases ih k k' z hkn hkn' hzk hzk' with h2 | h2
        · exact Or.inl (up c c' k k' hc hc' hk hk' h2)
        · exact Or.inr (up c' c k' k hc' hc hk' hk h2)

/-- No node occurs twice below a node of a forest. -/
theorem Trees.sub_nodup {m : Mem α} {g : Ghost} (ht : Trees m g) : ∀ (f x : Nat),
    x ∈ g.nodes → (sub g f x).Nodup := by
  intro f
  induction f with
  | zero => intro x _; simp [sub]
  | succ f ih =>
    intro x hx
    simp only [sub, List.nodup_cons, List.mem_flatMap, not_exists, not_and]
    refine ⟨?_, List.nodup_flatMap.2 ⟨?_, ?_⟩⟩
    · intro c hc hxc
      obtain ⟨hcn, -, hch⟩ := ht.kids_sub x hx c hc
      rcases (ht.sub_height f c x hcn hxc).2 with h1 | h1
      · rw [h1] at hch
        exact lt_irrefl _ hch
      · exact lt_irrefl _ (lt_trans h1 hch)
    · intro c hc
      exact ih c (ht.kids_sub x hx c hc).1
    · refine (List.pairwise_iff_forall_sublist.2 ?_)
      intro c c' hsub z hz hz'
      have hcc : [c, c'].Nodup := (ht.kids_nodup x hx).sublist hsub
      have hne : c ≠ c' := by
        intro e
        simp [e] at hcc
      have hc : c ∈ g.kids x := hsub.subset (by simp)
      have hc' : c' ∈ g.kids x := hsub.subset (by simp)
      have hcn := (ht.kids_sub x hx c hc).1
      have hcn' := (ht.kids_sub x hx c' hc').1
      have key : ∀ a b : Nat, a ∈ g.kids x → b ∈ g.kids x → a ≠ b → a ∉ sub g f b := by
        intro a b ha hb hab hin
        have hbn := (ht.kids_sub x hx b hb).1
        obtain ⟨q, hq, haq⟩ := sub_parent g f b a hin hab
        obtain ⟨hqn, hqh⟩ := ht.sub_height f b q hbn hq
        have := ht.kids_unique hx hqn ha haq
        subst this
        have hbh := (ht.kids_sub x hx b hb).2.2
        rcases hqh with h1 | h1
        · rw [h1] at hbh
          exact lt_irrefl _ hbh
        · exact lt_irrefl _ (lt_trans h1 hbh)
      rcases ht.sub_comparable f c c' z hcn hcn' hz hz' with h1 | h1
      · exact key c c' hc hc' hne h1
      · exact key c' c hc' hc (Ne.symm hne) h1

/-- A tree of a forest has no more nodes than the forest. -/
theorem Trees.sub_length_le {m : Mem α} {g : Ghost} (ht : Trees m g) (f x : Nat)
    (hx : x ∈ g.nodes) : (sub g f x).length ≤ g.nodes.length :=
  ((ht.sub_nodup f x hx).subperm (fun z hz => (ht.sub_height f x z hx hz).1)).length_le

/-- With the invariant, a node with `k` children is the root of a tree of at
least `fib (k + 2)` nodes. -/
theorem Shape.fib_le_sub {m : Mem α} {h : Ptr} {g : Ghost} {d : Nat → Nat}
    (hs : Shape m h g) (hf : FibInv m g d) : ∀ (f x : Nat), x ∈ g.nodes → g.height x ≤ f →
    Nat.fib ((g.kids x).length + 2) ≤ (sub g f x).length := by
  intro f
  induction f with
  | zero =>
    intro x hx hh
    have hk : g.kids x = [] := by
      cases hkx : g.kids x with
      | nil => rfl
      | cons c l =>
        have := (hs.kids_sub x hx c (by rw [hkx]; simp)).2.2
        omega
    simp [hk, sub]
  | succ f ih =>
    intro x hx hh
    have hcount : ∀ j, (((g.kids x).map d).filter (fun e => decide (e < j))).length ≤ j := by
      intro j
      rw [List.filter_map, List.length_map]
      have hp := (hs.kids_perm hx).filter (fun y => decide (d y < j))
      have := hp.length_eq
      have h2 := hf.count x hx j
      rw [List.filter_filter] at this
      have e : ((fun y => decide (d y < j)) ∘ fun e => e) = fun y => decide (d y < j) := rfl
      have e2 : (List.filter ((fun e => decide (e < j)) ∘ d) (g.kids x)) =
          List.filter (fun y => decide (d y < j)) (g.kids x) := rfl
      rw [e2, this]
      refine le_trans (le_of_eq ?_) h2
      congr 1
      refine List.filter_congr fun y _ => ?_
      simp [Bool.and_comm]
    have h1 := fib_sum_le (g.kids x).length ((g.kids x).map d) (by simp) hcount
    rw [List.map_map] at h1
    have h2 : ((g.kids x).map ((fun e => Nat.fib (e + 1)) ∘ d)).sum ≤
        ((g.kids x).map (List.length ∘ sub g f)).sum := by
      refine List.sum_le_sum fun c hc => ?_
      obtain ⟨hcn, hcp, hch⟩ := hs.kids_sub x hx c hc
      have h3 := ih c hcn (by omega)
      have h4 := hf.low c hcn (by rw [hcp]; simp)
      have h5 := hs.rank c hcn
      have h6 : d c ≤ (g.kids c).length + 1 := by
        have : (d c : Int) ≤ ((g.kids c).length : Int) + 1 := by
          rw [h5] at h4
          refine le_trans h4 ?_
          split <;> omega
        omega
      exact le_trans (Nat.fib_mono (by show d c + 1 ≤ (g.kids c).length + 2; omega)) h3
    simp only [sub, List.length_cons, List.length_flatMap]
    omega

/-- The Fibonacci bound on ranks: with the invariant, a heap holding a node of
rank `k` holds at least `fib (k + 2)` nodes. -/
theorem Shape.fib_rank_le {m : Mem α} {h : Ptr} {g : Ghost} {d : Nat → Nat}
    (hs : Shape m h g) (hf : FibInv m g d) {x : Nat} (hx : x ∈ g.nodes) :
    Nat.fib ((m.rank x).toNat + 2) ≤ g.nodes.length := by
  have h1 := hs.fib_le_sub hf (g.height x) x hx le_rfl
  have h2 := hs.toTrees.sub_length_le (g.height x) x hx
  rw [hs.rank x hx]
  simpa using le_trans h1 h2

/-! ## The Fibonacci invariant and the potential under the operations -/

/-- The length of a duplicate-free filtered list that lies within another. -/
theorem filter_length_le {l l' : List Nat} {p p' : Nat → Bool} (hnd : l'.Nodup)
    (h : ∀ y ∈ l', p' y = true → y ∈ l ∧ p y = true) :
    (l'.filter p').length ≤ (l.filter p).length := by
  refine ((hnd.filter p').subperm fun y hy => ?_).length_le
  obtain ⟨h1, h2⟩ := List.mem_filter.1 hy
  exact List.mem_filter.2 (h y h1 h2)

/-- The parent of a node of a heap in shape is a node of the heap. -/
theorem Shape.parent_mem {m : Mem α} {h : Ptr} {g : Ghost} (hs : Shape m h g) {y x : Nat}
    (hy : y ∈ g.nodes) (hp : m.parent y = some x) : x ∈ g.nodes := by
  rcases hs.root_or_kid hy with ⟨-, h1⟩ | ⟨q, hq, -, h1⟩
  · rw [h1] at hp
    exact absurd hp (by simp)
  · rw [h1] at hp
    exact Option.some.inj hp ▸ hq

/-- The invariant is kept by a step that links nothing: every parent pointer
is kept or cleared, and no child loses rank without being marked. -/
theorem FibInv.shrink {m m' : Mem α} {g g' : Ghost} {d : Nat → Nat} (hf : FibInv m g d)
    (hnd : g'.nodes.Nodup)
    (hpar : ∀ y ∈ g'.nodes, ∀ x, m'.parent y = some x →
      y ∈ g.nodes ∧ x ∈ g.nodes ∧ m.parent y = some x)
    (hlow : ∀ y ∈ g'.nodes, m'.parent y ≠ none →
      m.rank y + (if m.mark y = true then 1 else 0) ≤
        m'.rank y + (if m'.mark y = true then 1 else 0)) :
    FibInv m' g' d := by
  refine ⟨?_, ?_⟩
  · intro x _ j
    by_cases hxg : x ∈ g.nodes
    · refine le_trans (filter_length_le hnd ?_) (hf.count x hxg j)
      intro y hy hp
      simp only [Bool.and_eq_true, decide_eq_true_eq] at hp ⊢
      obtain ⟨h1, -, h3⟩ := hpar y hy x hp.1
      exact ⟨h1, h3, hp.2⟩
    · have : (g'.nodes.filter fun y =>
          decide (m'.parent y = some x) && decide (d y < j)) = [] := by
        rw [List.filter_eq_nil_iff]
        intro y hy hp
        simp only [Bool.and_eq_true, decide_eq_true_eq] at hp
        exact hxg (hpar y hy x hp.1).2.1
      rw [this]
      simp
  · intro y hy hp
    obtain ⟨x, hx⟩ := Option.ne_none_iff_exists'.1 hp
    obtain ⟨h1, -, h3⟩ := hpar y hy x hx
    exact le_trans (hf.low y h1 (by rw [h3]; simp)) (hlow y hy hp)

/-- The invariant depends on the nodes of the forest only. -/
theorem FibInv.of_perm {m : Mem α} {g g' : Ghost} {d : Nat → Nat} (hf : FibInv m g d)
    (hp : g'.nodes.Perm g.nodes) : FibInv m g' d := by
  refine ⟨?_, fun y hy => hf.low y (hp.mem_iff.1 hy)⟩
  intro x hx j
  rw [(hp.filter _).length_eq]
  exact hf.count x (hp.mem_iff.1 hx) j

theorem potential_perm {m : Mem α} {g g' : Ghost} (hp : g'.nodes.Perm g.nodes) :
    potential m g' = potential m g :=
  (hp.map _).sum_eq

/-- The potential is the sum of the weights; it changes by the change of the
weights on a set of nodes outside of which the weights are kept. -/
theorem sum_map_split (f : Nat → Nat) : ∀ (L S : List Nat), L.Nodup → S.Nodup →
    (∀ y ∈ S, y ∈ L) →
    (L.map f).sum = (S.map f).sum + ((L.filter fun y => decide (y ∉ S)).map f).sum := by
  intro L S hL hS hsub
  have hperm : L.Perm (S ++ L.filter fun y => decide (y ∉ S)) := by
    refine (List.perm_ext_iff_of_nodup hL ?_).2 fun y => ?_
    · refine List.Nodup.append hS (hL.filter _) ?_
      intro y hy hy'
      have := (List.mem_filter.1 hy').2
      simp only [decide_eq_true_eq] at this
      exact this hy
    · simp only [List.mem_append, List.mem_filter, decide_eq_true_eq]
      constructor
      · intro hy
        by_cases h : y ∈ S
        · exact Or.inl h
        · exact Or.inr ⟨hy, h⟩
      · rintro (h | h)
        · exact hsub y h
        · exact h.1
  rw [(hperm.map f).sum_eq, List.map_append, List.sum_append]

/-- Two memories that agree on parent and mark outside a set `S` of nodes
have potentials that differ by the weights of `S`. -/
theorem potential_change (m m' : Mem α) {g g' : Ghost} (S : List Nat) (hn : g'.nodes = g.nodes)
    (hL : g.nodes.Nodup) (hS : S.Nodup) (hsub : ∀ y ∈ S, y ∈ g.nodes)
    (hsame : ∀ y, y ∉ S → m'.parent y = m.parent y ∧ m'.mark y = m.mark y) :
    potential m' g' + (S.map (weight m)).sum = potential m g + (S.map (weight m')).sum := by
  unfold potential
  rw [hn, sum_map_split (weight m') g.nodes S hL hS hsub,
    sum_map_split (weight m) g.nodes S hL hS hsub]
  have : ((g.nodes.filter fun y => decide (y ∉ S)).map (weight m')) =
      ((g.nodes.filter fun y => decide (y ∉ S)).map (weight m)) := by
    refine List.map_congr_left fun y hy => ?_
    have hyS := (List.mem_filter.1 hy).2
    simp only [decide_eq_true_eq] at hyS
    obtain ⟨h1, h2⟩ := hsame y hyS
    simp [weight, h1, h2]
  rw [this]
  omega


section Amortized

variable [LinearOrder α]

/-- `Insert` keeps the invariant and adds the weight of one root. -/
theorem insert_good (m : Mem α) (h : Ptr) (g : Ghost) (d : Nat → Nat) (v : α)
    (hs : Shape m h g) (hf : FibInv m g d) :
    ∃ m' h' g', Insert m h v = some (m', h', some m.top) ∧ Shape m' h' g' ∧
      FibInv m' g' d ∧ g'.nodes = m.top :: g.nodes ∧
      potential m' g' = potential m g + 3 := by
  obtain ⟨m', h', g', hres, hs', hnodes, -, -, -, -, -, hpar, -, hrk, hmk, -, -⟩ :=
    insert_spec m h g v hs
  have hfresh := hs.fresh
  have hne : ∀ y ∈ g.nodes, y ≠ m.top := fun y hy e => hfresh (e ▸ hy)
  refine ⟨m', h', g', hres, hs', ?_, hnodes, ?_⟩
  · refine hf.shrink hs'.nodup ?_ ?_
    · intro y hy x hp
      rw [hnodes] at hy
      rw [hpar] at hp
      rcases List.mem_cons.1 hy with rfl | hy'
      · simp at hp
      · simp only [Function.update_apply, hne y hy', if_false] at hp
        exact ⟨hy', hs.parent_mem hy' hp, hp⟩
    · intro y hy hp
      rw [hnodes] at hy
      rw [hpar] at hp
      rcases List.mem_cons.1 hy with rfl | hy'
      · simp at hp
      · rw [hrk, hmk]
        simp [Function.update_apply, hne y hy']
  · unfold potential
    rw [hnodes, List.map_cons, List.sum_cons]
    have h1 : weight m' m.top = 3 := by simp [weight, hpar]
    have h2 : g.nodes.map (weight m') = g.nodes.map (weight m) := by
      refine List.map_congr_left fun y hy => ?_
      simp [weight, hpar, hmk, Function.update_apply, hne y hy]
    rw [h1, h2]
    omega

omit [LinearOrder α] in
theorem meld2_fields {m m' : Mem α} {a b : Ptr} (h : meld2 m a b = some m') :
    m'.parent = m.parent ∧ m'.rank = m.rank ∧ m'.mark = m.mark := by
  cases a with
  | none => simp [meld2, ld] at h
  | some a =>
    cases b with
    | none =>
      simp only [meld2, ld, bind, Option.bind] at h
      cases hst : stNext m (m.prev a) none <;> simp [hst] at h
    | some b =>
      rcases ha : m.prev a with _ | ta
      · simp [meld2, ld, stNext, ha, bind, Option.bind] at h
      · rcases hb : m.prev b with _ | tb
        · simp [meld2, ld, stNext, ha, hb, bind, Option.bind] at h
        · rw [meld2_eq ha hb] at h
          obtain rfl := Option.some.inj h
          exact ⟨rfl, rfl, rfl⟩

theorem meld_fields {m m' : Mem α} {h₁ h₂ h' x : Ptr} (h : Meld m h₁ h₂ = some (m', h', x)) :
    m'.parent = m.parent ∧ m'.rank = m.rank ∧ m'.mark = m.mark := by
  cases h₁ with
  | none =>
    obtain ⟨rfl, -⟩ : m = m' ∧ _ := by simpa [Meld, Prod.ext_iff] using h
    exact ⟨rfl, rfl, rfl⟩
  | some a =>
    cases h₂ with
    | none =>
      obtain ⟨rfl, -⟩ : m = m' ∧ _ := by simpa [Meld, Prod.ext_iff] using h
      exact ⟨rfl, rfl, rfl⟩
    | some b =>
      simp only [Meld, bind, Option.bind] at h
      rcases hm : meld2 m (some a) (some b) with _ | m₁
      · rw [hm] at h; simp at h
      · rw [hm] at h
        have hf := meld2_fields hm
        have : m₁ = m' := by
          simp only [ld, Option.map, pure] at h
          split at h <;> exact (Prod.ext_iff.1 (Option.some.inj h)).1
        exact this ▸ hf

/-- `Meld` keeps the invariant, and the potential of the melded heap is the
sum of the potentials. -/
theorem meld_good (m : Mem α) (h₁ h₂ : Ptr) (g₁ g₂ : Ghost) (d : Nat → Nat)
    (hs₁ : Shape m h₁ g₁) (hs₂ : Shape m h₂ g₂) (hdis : ∀ x ∈ g₁.nodes, x ∉ g₂.nodes)
    (hf₁ : FibInv m g₁ d) (hf₂ : FibInv m g₂ d) :
    ∃ m' h' g', Meld m h₁ h₂ = some (m', h', none) ∧ Shape m' h' g' ∧ FibInv m' g' d ∧
      g'.nodes = g₁.nodes ++ g₂.nodes ∧
      potential m' g' = potential m g₁ + potential m g₂ := by
  obtain ⟨m', h', g', hres, hs', hnodes, -⟩ := meld_spec m h₁ h₂ g₁ g₂ hs₁ hs₂ hdis
  obtain ⟨hpar, hrk, hmk⟩ := meld_fields hres
  refine ⟨m', h', g', hres, hs', ⟨?_, ?_⟩, hnodes, ?_⟩
  · intro x hx j
    rw [hnodes] at hx ⊢
    rw [List.filter_append, List.length_append, hpar]
    rcases List.mem_append.1 hx with hx₁ | hx₂
    · have h2 : (g₂.nodes.filter fun y =>
          decide (m.parent y = some x) && decide (d y < j)) = [] := by
        rw [List.filter_eq_nil_iff]
        intro y hy hp
        simp only [Bool.and_eq_true, decide_eq_true_eq] at hp
        exact hdis x hx₁ (hs₂.parent_mem hy hp.1)
      rw [h2]
      simpa using hf₁.count x hx₁ j
    · have h1 : (g₁.nodes.filter fun y =>
          decide (m.parent y = some x) && decide (d y < j)) = [] := by
        rw [List.filter_eq_nil_iff]
        intro y hy hp
        simp only [Bool.and_eq_true, decide_eq_true_eq] at hp
        exact hdis x (hs₁.parent_mem hy hp.1) hx₂
      rw [h1]
      simpa using hf₂.count x hx₂ j
  · intro y hy hp
    rw [hnodes] at hy
    rw [hpar] at hp
    rw [hrk, hmk]
    rcases List.mem_append.1 hy with hy₁ | hy₂
    · exact hf₁.low y hy₁ hp
    · exact hf₂.low y hy₂ hp
  · unfold potential
    rw [hnodes, List.map_append, List.sum_append]
    have e : weight m' = weight m := by
      funext y
      simp [weight, hpar, hmk]
    rw [e]

end Amortized


theorem sum_map_eq_const {f : Nat → Nat} {k : Nat} : ∀ (L : List Nat),
    (∀ y ∈ L, f y = k) → (L.map f).sum = k * L.length := by
  intro L
  induction L with
  | nil => intro _; simp
  | cons a L ih =>
    intro h
    rw [List.map_cons, List.sum_cons, h a (List.mem_cons_self _ _),
      ih fun y hy => h y (List.mem_cons_of_mem _ hy), List.length_cons]
    ring

theorem Cascade.chain_marked {m : Mem α} {x : Nat} {C : List Nat} {s : Nat}
    (h : Cascade m x C s) : ∀ y ∈ C, m.parent y ≠ none ∧ m.mark y = true := by
  induction h with
  | stop _ _ => intro y hy; simp at hy
  | step _ h2 h3 _ ih =>
    intro y hy
    rcases List.mem_cons.1 hy with rfl | hy'
    · exact ⟨h2, h3⟩
    · exact ih y hy'

/-- The nodes of a cascade lie above its start. -/
theorem Cascade.height_lt {m : Mem α} {h : Ptr} {g : Ghost} (hs : Shape m h g) {x : Nat}
    {C : List Nat} {s : Nat} (hc : Cascade m x C s) (hx : x ∈ g.nodes) :
    ∀ y ∈ C ++ [s], g.height x < g.height y := by
  have hpar : ∀ y q, y ∈ g.nodes → m.parent y = some q →
      q ∈ g.nodes ∧ g.height y < g.height q := by
    intro y q hy hq
    rcases hs.root_or_kid hy with ⟨-, h1⟩ | ⟨q', hq', hyq, h1⟩
    · rw [h1] at hq
      exact absurd hq (by simp)
    · rw [h1] at hq
      obtain rfl := Option.some.inj hq
      exact ⟨hq', (hs.kids_sub q' hq' y hyq).2.2⟩
  induction hc with
  | stop h1 _ =>
    intro y hy
    simp only [List.nil_append, List.mem_singleton] at hy
    subst hy
    exact (hpar _ _ hx h1).2
  | step h1 _ _ _ ih =>
    obtain ⟨hp, hlt⟩ := hpar _ _ hx h1
    intro y hy
    rcases List.mem_cons.1 hy with rfl | hy'
    · exact hlt
    · exact lt_trans hlt (ih hp y hy')

/-- The start of a cascade, its chain and the node above are pairwise
distinct. -/
theorem Cascade.nodup_chain {m : Mem α} {h : Ptr} {g : Ghost} (hs : Shape m h g) {x : Nat}
    {C : List Nat} {s : Nat} (hc : Cascade m x C s) (hx : x ∈ g.nodes) :
    (x :: (C ++ [s])).Nodup := by
  have hpar : ∀ y q, y ∈ g.nodes → m.parent y = some q → q ∈ g.nodes := fun y q hy hq =>
    hs.parent_mem hy hq
  have key : ∀ x C s, Cascade m x C s → x ∈ g.nodes → (x :: (C ++ [s])).Nodup := by
    intro x C s hc
    induction hc with
    | stop h1 h2 =>
      intro hx
      have := (Cascade.stop h1 h2).height_lt hs hx
      simp only [List.nil_append, List.nodup_cons, List.mem_singleton, List.not_mem_nil,
        not_false_eq_true, List.nodup_nil, and_true]
      intro e
      have h3 := this _ (List.mem_append_right _ (List.mem_singleton_self _))
      rw [← e] at h3
      exact lt_irrefl _ h3
    | step h1 h2 h3 h4 ih =>
      intro hx
      have hlt := (Cascade.step h1 h2 h3 h4).height_lt hs hx
      refine List.nodup_cons.2 ⟨fun hmem => ?_, ih (hpar _ _ hx h1)⟩
      exact lt_irrefl _ (hlt _ hmem)
  exact key x C s hc hx


section Amortized2

variable [LinearOrder α]

/-- `DecreaseKey` keeps the invariant, and its cost and the growth of the
potential are bounded by a constant. -/
theorem decreaseKey_good (fuel : Nat) (m : Mem α) (a : Nat) (g : Ghost) (d : Nat → Nat)
    (n : Nat) (v : α) (hs : Shape m (some a) g) (hf : FibInv m g d) (hn : n ∈ g.nodes)
    (hfuel : 2 * g.bound + 2 ≤ fuel) :
    ∃ m' h' g' e c, DecreaseKey fuel m (some a) (some n) v = some (m', h', e) ∧
      DecreaseKeyT fuel m (some a) (some n) v = some c ∧ Shape m' h' g' ∧ FibInv m' g' d ∧
      g'.nodes = g.nodes ∧ c + potential m' g' ≤ potential m g + 11 ∧
      (∀ y, y ∉ g.nodes → Same m m' y) ∧ m'.top = m.top := by
  by_cases hv : m.value n < v
  · refine ⟨m, some a, g, _, 1, decreaseKey_error fuel m (some a) n v hv, ?_, hs, hf, rfl,
      by omega, fun _ _ => ⟨rfl, rfl, rfl, rfl, rfl, rfl, rfl⟩, rfl⟩
    simp [DecreaseKeyT, ld, hv, bind, Option.bind]
  obtain ⟨m', h', g', hres, hs', hnodes, -, htop, -, hsame, -⟩ :=
    decreaseKey_spec fuel m a g n v hs hn hv hfuel
  rcases hs.root_or_kid hn with ⟨-, hp⟩ | ⟨p, hpn, hnp, hp⟩
  · -- a root: only the value is written
    have hm : m' = ({ m with value := Function.update m.value n v } : Mem α) := by
      rw [decreaseKey_root_eq fuel m a n v hp hv] at hres
      exact ((Prod.ext_iff.1 (Option.some.inj hres)).1).symm
    have hT : DecreaseKeyT fuel m (some a) (some n) v = some 1 := by
      by_cases hna : n = a
      · simp [DecreaseKeyT, ld, stValue, hv, hna, bind, Option.bind]
      · simp [DecreaseKeyT, ld, stValue, hv, hna, hp, bind, Option.bind]
    refine ⟨m', h', g', none, 1, hres, hT, hs', ?_, hnodes, ?_, hsame, htop⟩
    · refine hf.shrink hs'.nodup ?_ ?_
      · intro y hy x hx
        rw [hnodes] at hy
        rw [hm] at hx
        exact ⟨hy, hs.parent_mem hy hx, hx⟩
      · intro y _ _
        rw [hm]
    · have : potential m' g' = potential m g := by
        unfold potential
        rw [hnodes, hm]
        rfl
      omega
  · -- a child: the cascade
    have hna : n ≠ a := by
      rintro rfl
      have := hs.root_parent n hs.head
      rw [this] at hp
      exact absurd hp (by simp)
    have hs₀ : ShapeF ({ m with value := Function.update m.value n v } : Mem α) (some a) g [] :=
      hs.set_value _
    obtain ⟨m₁, C, s, hcut, hcas₀, -, e1, e2, e3, hT⟩ := cutAux_cascade fuel true _ g [] n p a
      hs₀ hpn hnp (by simp) (by simp only [if_true]; omega)
    have hcas : Cascade m n C s := hcas₀.congr_fields rfl rfl
    have hres' := hres
    rw [decreaseKey_cut_eq fuel m a n p v hv hna hp, hcut] at hres'
    obtain ⟨rfl, -⟩ : m₁ = m' ∧ some a = h' := by simpa [Prod.ext_iff] using hres'
    have e1' : m₁.parent = fun y => if y ∈ C ∨ y = n then none else m.parent y := by
      rw [e1]
      funext y
      simp
    have e2' : m₁.rank = fun y => if y ∈ s :: C then m.rank y - 1 else m.rank y := e2
    have e3' : m₁.mark = fun y => if y = s ∧ m.parent s ≠ none then true else m.mark y := e3
    have hC := hcas.chain_marked
    have hnd := hcas.nodup_chain hs hn
    have hmem := hcas.mem_nodes hs hn
    have hsn : s ≠ n := by
      intro e
      have := (List.nodup_cons.1 hnd).1
      exact this (e ▸ List.mem_append_right _ (List.mem_singleton_self _))
    have hsC : s ∉ C := by
      have := (List.nodup_cons.1 hnd).2
      rw [List.nodup_append] at this
      exact fun h => this.2.2 h (List.mem_singleton_self _)
    have hnC : n ∉ C := fun h => (List.nodup_cons.1 hnd).1 (List.mem_append_left _ h)
    have hTc : DecreaseKeyT fuel m (some a) (some n) v = some (2 * C.length + 3) := by
      simp only [if_true] at hT
      simp [DecreaseKeyT, ld, stValue, hv, hna, hp, bind, Option.bind, hT]
    refine ⟨m₁, h', g', none, 2 * C.length + 3, hres, hTc, hs', ?_, hnodes, ?_, hsame, htop⟩
    · refine hf.shrink hs'.nodup ?_ ?_
      · intro y hy x hx
        rw [hnodes] at hy
        rw [e1'] at hx
        simp only at hx
        split at hx
        · simp at hx
        · exact ⟨hy, hs.parent_mem hy hx, hx⟩
      · intro y _ hpy
        rw [e1'] at hpy
        simp only at hpy
        split at hpy
        · simp at hpy
        · rename_i hyC
          simp only [not_or] at hyC
          rw [e2', e3']
          by_cases hys : y = s
          · subst hys
            rcases hcas.stop_cond with h1 | h1
            · exact absurd h1 hpy
            · simp [hpy, h1]
          · have : y ∉ s :: C := by
              simp only [List.mem_cons, not_or]
              exact ⟨hys, hyC.1⟩
            simp [this, hys]
    · have hch := potential_change m m₁ (n :: (C ++ [s])) hnodes hs.nodup hnd
        (by
          intro y hy
          rcases List.mem_cons.1 hy with rfl | hy'
          · exact hn
          · rcases List.mem_append.1 hy' with h1 | h1
            · exact hmem y (List.mem_cons_of_mem _ h1)
            · simp only [List.mem_singleton] at h1
              subst h1
              exact hmem y (List.mem_cons_self _ _))
        (by
          intro y hy
          simp only [List.mem_cons, List.mem_append, List.mem_singleton, not_or,
            List.not_mem_nil, or_false] at hy
          rw [e1', e3']
          simp [hy.1, hy.2.1, hy.2.2])
      have w1 : (C.map (weight m)).sum = 5 * C.length :=
        sum_map_eq_const C fun y hy => by
          obtain ⟨h1, h2⟩ := hC y hy
          simp [weight, h1, h2]
      have w2 : (C.map (weight m₁)).sum = 3 * C.length :=
        sum_map_eq_const C fun y hy => by
          simp [weight, e1', hy]
      have w3 : weight m₁ n = 3 := by simp [weight, e1']
      have w4 : weight m₁ s ≤ weight m s + 5 := by
        by_cases hps : m.parent s = none
        · simp [weight, e1', hsC, hsn, hps]
        · rcases hcas.stop_cond with h1 | h1
          · exact absurd h1 hps
          · simp [weight, e1', e3', hsC, hsn, hps, h1]
      simp only [List.map_cons, List.map_append, List.sum_cons, List.sum_append, List.map_nil,
        List.sum_nil, add_zero, w1, w2, w3] at hch
      omega

end Amortized2

/-- A duplicate-free list mapped injectively into an interval is no longer
than the interval. -/
theorem length_le_of_inj_bounded {f : Nat → Nat} {lo hi : Nat} {L : List Nat} (hnd : L.Nodup)
    (hinj : ∀ x ∈ L, ∀ y ∈ L, f x = f y → x = y) (hb : ∀ y ∈ L, lo ≤ f y ∧ f y < hi) :
    L.length ≤ hi - lo := by
  have h1 : (L.map f).Nodup := (List.nodup_map_iff_inj_on hnd).2 hinj
  have h2 : ∀ z ∈ L.map f, z ∈ List.Ico lo hi := by
    intro z hz
    obtain ⟨y, hy, rfl⟩ := List.mem_map.1 hz
    exact List.Ico.mem.2 (hb y hy)
  have := (h1.subperm h2).length_le
  simpa using this

/-- A number `k` with `fib (k + 2)` at most `n` is at most twice the binary
logarithm of `n`, plus one. -/
theorem le_log_of_fib_le {k n : Nat} (h : Nat.fib (k + 2) ≤ n) : k ≤ 2 * Nat.log 2 n + 1 := by
  have h1 : 2 ^ (k / 2) ≤ n := by
    refine le_trans (two_pow_le_fib (k / 2)) (le_trans (Nat.fib_mono ?_) h)
    omega
  have hn : n ≠ 0 := by
    intro e
    rw [e] at h1
    have := Nat.pos_pow_of_pos (k / 2) (by norm_num : 0 < 2)
    omega
  have h2 : k / 2 ≤ Nat.log 2 n := (Nat.pow_le_iff_le_log (by norm_num) hn).1 h1
  omega

/-- The potential of a heap in shape: three for each root, and five for each
marked node with a parent. -/
theorem Shape.potential_eq {m : Mem α} {h : Ptr} {g : Ghost} (hs : Shape m h g) :
    potential m g = 3 * g.roots.length +
      (g.nodes.map fun y => if m.parent y = none then 0 else weight m y).sum := by
  have hroots : g.roots.Perm (g.nodes.filter fun y => decide (m.parent y = none)) := by
    have hnd : g.roots.Nodup := by simpa using hs.roots_nodup
    refine (List.perm_ext_iff_of_nodup hnd (hs.nodup.filter _)).2 fun y => ?_
    simp only [List.mem_filter, decide_eq_true_eq]
    constructor
    · intro hy
      exact ⟨(hs.roots_sub y (List.mem_append_left _ hy)).1, hs.root_parent y hy⟩
    · rintro ⟨hy, hp⟩
      rcases hs.root_or_kid hy with ⟨hr, -⟩ | ⟨q, -, -, h1⟩
      · exact hr
      · rw [hp] at h1
        exact absurd h1 (by simp)
  rw [hroots.length_eq]
  unfold potential
  generalize g.nodes = L
  induction L with
  | nil => simp
  | cons y L ih =>
    simp only [List.map_cons, List.sum_cons, List.filter_cons]
    by_cases hp : m.parent y = none
    · simp only [hp, decide_True, if_true, List.length_cons]
      have : weight m y = 3 := by simp [weight, hp]
      rw [this, ih]
      ring
    · simp only [hp, decide_False, if_false]
      rw [ih]
      simp
      ring


section Amortized3

variable [LinearOrder α]

/-- `DeleteMin` keeps the invariant: the nodes linked in the call take their
rank as their number. -/
theorem deleteMin_fib (fuel : Nat) (enum : RootMap → RootMap) (m : Mem α) (a : Nat)
    (g : Ghost) (d : Nat → Nat) (hs : Shape m (some a) g) (hf : FibInv m g d)
    (henum : ∀ t, (enum t).Perm t) (hfuel : g.nodes.length ≤ fuel) :
    ∃ m' h' g' d' c, DeleteMin fuel enum m (some a) = some (m', h', some (m.value a)) ∧
      DeleteMinT fuel m (some a) = some c ∧ Shape m' h' g' ∧ FibInv m' g' d' ∧
      g'.nodes = g.nodes.erase a ∧
      c + 2 ≤ 3 * (g.roots.length + (g.kids a).length) ∧
      (∀ x ∈ g'.roots, ∀ y ∈ g'.roots, m'.rank x = m'.rank y → x = y) ∧
      (∀ y ∈ g'.nodes, (if m'.parent y = none then 0 else weight m' y) ≤
        (if m.parent y = none then 0 else weight m y)) ∧
      (∀ y, y ∉ g.nodes.erase a → Same m m' y ∧ d' y = d y) ∧ m'.top = m.top := by
  obtain ⟨m₄, t₄, g₄, hc₄, hext, hall, c, hT, hcost⟩ := deleteMin_full fuel m a g hs hfuel
  obtain ⟨m', h', R', hres, hshape, -, hR, hval, hpar, hch, hrk, hmk, htop, hnp⟩ :=
    hall enum henum
  have hnodes : g₄.nodes = g.nodes.erase a := hext.nodes
  have hmem : ∀ y, y ∈ g₄.nodes → y ∈ g.nodes := fun y hy =>
    List.mem_of_mem_erase (hnodes ▸ hy)
  have hkid : ∀ y p, y ∈ g₄.nodes → m'.parent y = some p → p ∈ g₄.nodes ∧ y ∈ g₄.kids p := by
    intro y p hy hp
    rcases hshape.root_or_kid hy with ⟨-, hp'⟩ | ⟨q, hq, hyq, hp'⟩
    · rw [hp'] at hp
      exact absurd hp (by simp)
    · rw [hp'] at hp
      obtain rfl := Option.some.inj hp
      exact ⟨hq, hyq⟩
  have hold : ∀ y p, y ∈ g₄.nodes → m.parent y = some p → y ∈ g.kids p := by
    intro y p hy hp
    rcases hs.root_or_kid (hmem y hy) with ⟨-, hp'⟩ | ⟨q, -, hyq, hp'⟩
    · rw [hp'] at hp
      exact absurd hp (by simp)
    · rw [hp'] at hp
      exact Option.some.inj hp ▸ hyq
  have hnew : ∀ y p, p ∈ g₄.nodes → m.parent y ≠ some p → y ∉ g.kids p := by
    intro y p hp hne hyk
    exact hne (hs.kids_sub p (hmem p hp) y hyk).2.1
  have hin : ∀ p, p ∈ g₄.nodes → p ∈ g.nodes.erase a := fun p hp => hnodes ▸ hp
  have hrk0 : ∀ y ∈ g₄.nodes, 0 ≤ m'.rank y := by
    intro y hy
    have := hshape.rank y hy
    rw [this]
    exact Int.natCast_nonneg _
  let d' : Nat → Nat := fun y =>
    if m'.parent y ≠ none ∧ m'.parent y ≠ m.parent y then (m'.rank y).toNat else d y
  have hd_old : ∀ y p, m'.parent y = some p → m.parent y = some p → d' y = d y := by
    intro y p h1 h2
    show (if m'.parent y ≠ none ∧ m'.parent y ≠ m.parent y then _ else _) = _
    rw [h1, h2]
    simp
  have hd_new : ∀ y p, m'.parent y = some p → m.parent y ≠ some p →
      d' y = (m'.rank y).toNat := by
    intro y p h1 h2
    show (if m'.parent y ≠ none ∧ m'.parent y ≠ m.parent y then _ else _) = _
    rw [h1]
    have : (some p : Ptr) ≠ m.parent y := fun e => h2 e.symm
    simp [this]
  have hsame : ∀ y, y ∉ g.nodes.erase a → Same m m' y := by
    intro y hy
    obtain ⟨e1, e2, e3, e4, e5, e6, e7⟩ := hext.same y (Or.inl hy)
    have hy₄ : y ∉ tnodes t₄ := by
      intro hy'
      have := (hc₄.forest.roots_sub y (List.mem_append_left _ hy')).1
      rw [hnodes] at this
      exact hy this
    obtain ⟨f1, f2⟩ := hnp y hy₄
    exact ⟨by rw [hval]; exact e1, by rw [hpar]; exact e2, by rw [hch]; exact e3,
      by rw [f2]; exact e4, by rw [f1]; exact e5, by rw [hrk]; exact e6,
      by rw [hmk]; exact e7⟩
  have hfib : FibInv m' ({ g₄ with roots := R' } : Ghost) d' := by
    refine ⟨?_, ?_⟩
    · intro p hp j
      have hp₄ : p ∈ g₄.nodes := hp
      have hpg : p ∈ g.nodes := hmem p hp₄
      show (g₄.nodes.filter fun y =>
        decide (m'.parent y = some p) && decide (d' y < j)).length ≤ j
      have hnd₄ : g₄.nodes.Nodup := hshape.nodup
      have hsplit := List.length_eq_length_filter_add
        (l := g₄.nodes.filter fun y => decide (m'.parent y = some p) && decide (d' y < j))
        (fun y => decide (m.parent y = some p))
      rw [hsplit]
      -- the children kept from before the call
      have hA₁ : ((g₄.nodes.filter fun y =>
          decide (m'.parent y = some p) && decide (d' y < j)).filter
            fun y => decide (m.parent y = some p)).length ≤ j := by
        rw [List.filter_filter]
        refine le_trans (filter_length_le hnd₄ ?_) (hf.count p hpg j)
        intro y hy hc
        simp only [Bool.and_eq_true, decide_eq_true_eq] at hc ⊢
        obtain ⟨h1, h2, h3⟩ := hc
        rw [hd_old y p h2 h1] at h3
        exact ⟨hmem y hy, h1, h3⟩
      have hA₂ : ((g₄.nodes.filter fun y =>
          decide (m'.parent y = some p) && decide (d' y < j)).filter
            fun y => decide (m.parent y = some p)).length ≤ (g.kids p).length := by
        rw [List.filter_filter, (hs.kids_perm hpg).length_eq]
        refine filter_length_le hnd₄ ?_
        intro y hy hc
        simp only [Bool.and_eq_true, decide_eq_true_eq] at hc ⊢
        exact ⟨hmem y hy, hc.1⟩
      -- the children linked in the call
      have hB : ((g₄.nodes.filter fun y =>
          decide (m'.parent y = some p) && decide (d' y < j)).filter
            fun y => !decide (m.parent y = some p)).length ≤ j - (g.kids p).length := by
        refine length_le_of_inj_bounded (f := fun y => (m'.rank y).toNat)
          ((hnd₄.filter _).filter _) ?_ ?_
        · intro x hx y hy hxy
          simp only [List.mem_filter, Bool.and_eq_true, decide_eq_true_eq, Bool.not_eq_true',
            decide_eq_false_iff_not] at hx hy
          obtain ⟨⟨hxn, hxp, -⟩, hxo⟩ := hx
          obtain ⟨⟨hyn, hyp, -⟩, hyo⟩ := hy
          have e : m₄.rank x = m₄.rank y := by
            have h1 := hrk0 x hxn
            have h2 := hrk0 y hyn
            rw [hrk] at h1 h2
            have h3 : ((m₄.rank x).toNat : Int) = ((m₄.rank y).toNat : Int) := by
              rw [hrk] at hxy
              exact congrArg _ hxy
            rwa [Int.toNat_of_nonneg h1, Int.toNat_of_nonneg h2] at h3
          exact hext.lnk.inj p (hin p hp₄) x (hkid x p hxn hxp).2 y (hkid y p hyn hyp).2
            (hnew x p hp₄ hxo) (hnew y p hp₄ hyo) e
        · intro y hy
          simp only [List.mem_filter, Bool.and_eq_true, decide_eq_true_eq, Bool.not_eq_true',
            decide_eq_false_iff_not] at hy
          obtain ⟨⟨hyn, hyp, hyd⟩, hyo⟩ := hy
          rw [hd_new y p hyp hyo] at hyd
          obtain ⟨-, -, h3, -⟩ := hext.lnk.gained p (hin p hp₄) y (hkid y p hyn hyp).2
            (hnew y p hp₄ hyo)
          refine ⟨?_, hyd⟩
          show (g.kids p).length ≤ (m'.rank y).toNat
          have h4 := hs.rank p hpg
          rw [h4, ← hrk] at h3
          have h5 := hrk0 y hyn
          omega
      omega
    · intro y hy hp
      have hy₄ : y ∈ g₄.nodes := hy
      obtain ⟨p, hp'⟩ := Option.ne_none_iff_exists'.1 hp
      by_cases ho : m.parent y = some p
      · rw [hd_old y p hp' ho]
        have hyk := hold y p hy₄ ho
        obtain ⟨hp₄, -⟩ := hkid y p hy₄ hp'
        obtain ⟨e1, e2⟩ := hext.lnk.old p (hin p hp₄) y hyk
        rw [hrk, hmk, e1, e2]
        exact hf.low y (hmem y hy₄) (by rw [ho]; simp)
      · rw [hd_new y p hp' ho, Int.toNat_of_nonneg (hrk0 y hy₄)]
        split <;> omega
  refine ⟨m', h', { g₄ with roots := R' }, d', c, hres, hT, hshape, hfib, hnodes, hcost, ?_, ?_,
    ?_, htop.trans hext.top⟩
  · intro x hx y hy hxy
    rw [hrk] at hxy
    exact hc₄.table.rank_inj x (hR.mem_iff.1 hx) y (hR.mem_iff.1 hy) hxy
  · intro y hy
    have hy₄ : y ∈ g₄.nodes := hy
    by_cases hp : m'.parent y = none
    · simp [hp]
    · obtain ⟨p, hp'⟩ := Option.ne_none_iff_exists'.1 hp
      obtain ⟨hp₄, hyk⟩ := hkid y p hy₄ hp'
      by_cases ho : m.parent y = some p
      · obtain ⟨-, e2⟩ := hext.lnk.old p (hin p hp₄) y (hold y p hy₄ ho)
        simp [weight, hp', ho, hmk, e2]
      · obtain ⟨h1, -⟩ := hext.lnk.gained p (hin p hp₄) y hyk (hnew y p hp₄ ho)
        simp [weight, hp', hmk, h1]
  · intro y hy
    have h1 := hsame y hy
    refine ⟨h1, ?_⟩
    show (if m'.parent y ≠ none ∧ m'.parent y ≠ m.parent y then _ else _) = _
    simp [h1.2.1]

end Amortized3


/-- With the invariant, the rank of a node is at most twice the binary
logarithm of the number of nodes, plus one. -/
theorem Shape.rank_le_log {m : Mem α} {h : Ptr} {g : Ghost} {d : Nat → Nat}
    (hs : Shape m h g) (hf : FibInv m g d) {x : Nat} (hx : x ∈ g.nodes) :
    (m.rank x).toNat ≤ 2 * Nat.log 2 g.nodes.length + 1 :=
  le_log_of_fib_le (hs.fib_rank_le hf hx)

section Amortized4

variable [LinearOrder α]

/-- `DeleteMin` keeps the invariant, and its cost and the growth of the
potential are bounded by a multiple of the logarithm of the number of nodes. -/
theorem deleteMin_good (fuel : Nat) (enum : RootMap → RootMap) (m : Mem α) (a : Nat)
    (g : Ghost) (d : Nat → Nat) (hs : Shape m (some a) g) (hf : FibInv m g d)
    (henum : ∀ t, (enum t).Perm t) (hfuel : g.nodes.length ≤ fuel) :
    ∃ m' h' g' d' c, DeleteMin fuel enum m (some a) = some (m', h', some (m.value a)) ∧
      DeleteMinT fuel m (some a) = some c ∧ Shape m' h' g' ∧ FibInv m' g' d' ∧
      g'.nodes = g.nodes.erase a ∧
      c + potential m' g' ≤ potential m g + 12 * Nat.log 2 g.nodes.length + 7 ∧
      (∀ y, y ∉ g.nodes.erase a → Same m m' y ∧ d' y = d y) ∧ m'.top = m.top := by
  obtain ⟨m', h', g', d', c, hres, hT, hs', hf', hnodes, hcost, hinj, hw, hframe, htop⟩ :=
    deleteMin_fib fuel enum m a g d hs hf henum hfuel
  refine ⟨m', h', g', d', c, hres, hT, hs', hf', hnodes, ?_, hframe, htop⟩
  have han : a ∈ g.nodes :=
    (hs.roots_sub a (List.mem_append_left _ (hs.head : a ∈ g.roots))).1
  have hlen : g'.nodes.length ≤ g.nodes.length := by
    rw [hnodes]
    exact (List.erase_sublist a g.nodes).length_le
  have hlog : Nat.log 2 g'.nodes.length ≤ Nat.log 2 g.nodes.length := Nat.log_mono_right hlen
  -- the number of children of the minimum
  have hK : (g.kids a).length ≤ 2 * Nat.log 2 g.nodes.length + 1 := by
    have h1 := hs.rank_le_log hf han
    have h2 := hs.rank a han
    rw [h2] at h1
    simpa using h1
  -- the number of roots afterwards
  have hrk0 : ∀ y ∈ g'.nodes, 0 ≤ m'.rank y := by
    intro y hy
    rw [hs'.rank y hy]
    exact Int.natCast_nonneg _
  have hrn : ∀ r ∈ g'.roots, r ∈ g'.nodes := fun r hr =>
    (hs'.roots_sub r (List.mem_append_left _ hr)).1
  have hR : g'.roots.length ≤ 2 * Nat.log 2 g.nodes.length + 2 := by
    have hnd : g'.roots.Nodup := by simpa using hs'.roots_nodup
    have := @length_le_of_inj_bounded (fun y => (m'.rank y).toNat) 0
      (2 * Nat.log 2 g.nodes.length + 2) _ hnd ?_ ?_
    · simpa using this
    · intro x hx y hy hxy
      refine hinj x hx y hy ?_
      have h1 := hrk0 x (hrn x hx)
      have h2 := hrk0 y (hrn y hy)
      have h3 : ((m'.rank x).toNat : Int) = ((m'.rank y).toNat : Int) := congrArg _ hxy
      rwa [Int.toNat_of_nonneg h1, Int.toNat_of_nonneg h2] at h3
    · intro y hy
      have := hs'.rank_le_log hf' (hrn y hy)
      refine ⟨Nat.zero_le _, ?_⟩
      show (m'.rank y).toNat < 2 * Nat.log 2 g.nodes.length + 2
      omega
  -- the marked nodes with a parent
  have hsum : (g'.nodes.map fun y => if m'.parent y = none then 0 else weight m' y).sum ≤
      (g.nodes.map fun y => if m.parent y = none then 0 else weight m y).sum := by
    refine le_trans (List.sum_le_sum hw) ?_
    rw [hnodes, ((List.perm_cons_erase han).map _).sum_eq, List.map_cons, List.sum_cons]
    omega
  rw [hs.potential_eq, hs'.potential_eq]
  omega

end Amortized4

/-- The potential of a heap that loses one node. -/
theorem potential_erase (m : Mem α) {g g' : Ghost} {n : Nat} (hn : n ∈ g.nodes)
    (he : g'.nodes = g.nodes.erase n) : potential m g' + weight m n = potential m g := by
  unfold potential
  rw [he]
  have := ((List.perm_cons_erase hn).map (weight m)).sum_eq
  simp only [List.map_cons, List.sum_cons] at this
  omega

/-- The last part of `Delete` turns the children of the removed node into
roots: the potential grows by at most three for each. -/
theorem promoteKids_good (fuel : Nat) {m : Mem α} {a n : Nat} {g : Ghost}
    (hs : ShapeF m (some a) g [n]) (hfuel : g.nodes.length ≤ fuel) :
    ∃ m' g', promoteKids fuel m (some a) (some n) = some (m', some a) ∧
      Shape m' (some a) g' ∧ g'.nodes = g.nodes.erase n ∧
      promoteKidsT fuel m (some n) = some (g.kids n).length ∧
      potential m' g' + weight m n ≤ potential m g + 3 * (g.kids n).length ∧
      m'.rank = m.rank ∧ m'.mark = m.mark ∧
      m'.parent = (fun y => if y ∈ g.kids n then none else m.parent y) ∧
      m'.top = m.top ∧ (∀ y, y ∉ g.nodes → Same m m' y) := by
  obtain ⟨m', g', hres, hs', hnodes, -, -, -, htop, -, hsame, hrk, hmk, hpar, hT⟩ :=
    promoteKids_spec fuel hs hfuel
  obtain ⟨hnn, -⟩ := hs.roots_sub n (by simp)
  refine ⟨m', g', hres, hs', hnodes, hT, ?_, hrk, hmk, hpar, htop, hsame⟩
  have hnk : n ∉ g.kids n := fun h => lt_irrefl _ (hs.kids_sub n hnn n h).2.2
  have hch := potential_change m m' (g.kids n) (rfl : g.nodes = g.nodes) hs.nodup
    (hs.kids_nodup n hnn) (fun y hy => (hs.kids_sub n hnn y hy).1)
    (by
      intro y hy
      rw [hpar, hmk]
      simp [hy])
  have w1 : ((g.kids n).map (weight m')).sum = 3 * (g.kids n).length :=
    sum_map_eq_const (g.kids n) fun y hy => by simp [weight, hpar, hy]
  have w2 : weight m' n = weight m n := by simp [weight, hpar, hmk, hnk]
  have he := potential_erase m' hnn hnodes
  rw [w1] at hch
  rw [w2] at he
  omega

section Amortized5

variable [LinearOrder α]

theorem deleteT_root_eq (fuel : Nat) {m : Mem α} {a n t b : Nat}
    (hp : m.parent n = none) (hna : n ≠ a) (hprev : m.prev n = some t)
    (hnext : m.next n = some b) (htn : t ≠ n) :
    DeleteT fuel m (some a) (some n) =
      (promoteKidsT fuel ({ m with
        next := Function.update m.next t (some b)
        prev := Function.update m.prev b (some t) } : Mem α) (some n)).bind
          fun c => some (c + 1) := by
  simp only [DeleteT, ld, Option.map, hp, bind, Option.bind, if_true, hprev, hnext, stNext,
    stPrev, pure]
  rw [if_neg (by simpa using hna)]
  simp [Function.update_apply, Ne.symm htn, hnext]

/-- `Delete` keeps the invariant, and its cost and the growth of the potential
are bounded by a multiple of the logarithm of the number of nodes. -/
theorem delete_good (fuel : Nat) (enum : RootMap → RootMap) (m : Mem α) (a : Nat)
    (g : Ghost) (d : Nat → Nat) (n : Nat) (hs : Shape m (some a) g) (hf : FibInv m g d)
    (hn : n ∈ g.nodes) (henum : ∀ t, (enum t).Perm t) (hfuel : 2 * g.bound + 1 ≤ fuel)
    (hfuel' : g.nodes.length ≤ fuel) :
    ∃ m' h' g' d' c, Delete fuel enum m (some a) (some n) = some (m', h') ∧
      DeleteT fuel m (some a) (some n) = some c ∧ Shape m' h' g' ∧ FibInv m' g' d' ∧
      g'.nodes = g.nodes.erase n ∧
      c + potential m' g' ≤ potential m g + 12 * Nat.log 2 g.nodes.length + 11 ∧
      (∀ y, y ∉ g.nodes → Same m m' y ∧ d' y = d y) ∧ m'.top = m.top := by
  have ha : a ∈ g.roots := hs.head
  have hK : (g.kids n).length ≤ 2 * Nat.log 2 g.nodes.length + 1 := by
    have h1 := hs.rank_le_log hf hn
    have h2 := hs.rank n hn
    rw [h2] at h1
    simpa using h1
  by_cases hna : n = a
  · -- the minimum: `DeleteMin`
    subst hna
    have hp := hs.root_parent n ha
    obtain ⟨m', h', g', d', c, hres, hT, hs', hf', hnodes, hcost, hframe, htop⟩ :=
      deleteMin_good fuel enum m n g d hs hf henum hfuel'
    refine ⟨m', h', g', d', c + 1, ?_, ?_, hs', hf', hnodes, by omega, ?_, htop⟩
    · rw [delete_min_eq fuel enum hp, hres]
      rfl
    · simp [DeleteT, ld, hp, hT, bind, Option.bind]
    · intro y hy
      exact hframe y (fun h => hy (List.mem_of_mem_erase h))
  rcases hs.root_or_kid hn with ⟨hroot, hpar⟩ | ⟨p, hp, hnp, hpar⟩
  · -- a root other than the minimum: spliced out of the root ring
    obtain ⟨l, hperm, hring⟩ := ring_front hs.ring hroot
    have hnd : (n :: l).Nodup := hperm.nodup_iff.2 (List.nodup_append.1 hs.roots_nodup).1
    have hal : a ∈ l := by
      rcases List.mem_cons.1 (hperm.mem_iff.2 ha) with h | h
      · exact absurd h.symm hna
      · exact h
    obtain ⟨b, l', rfl⟩ : ∃ b l', l = b :: l' := by
      cases l with
      | nil => simp at hal
      | cons b l' => exact ⟨b, l', rfl⟩
    obtain ⟨hl, -⟩ := seg_cons.1 (show Seg m n (b :: l') n from hring)
    obtain ⟨-, hprev⟩ := ring_head hring
    have hlast : lastOf n (b :: l') = lastOf b l' := rfl
    rw [hlast] at hprev
    have htl : lastOf b l' ∈ b :: l' := lastOf_mem b l'
    have htn : lastOf b l' ≠ n := fun e => (List.nodup_cons.1 hnd).1 (e ▸ htl)
    have hsub : ∀ y ∈ b :: l', y ∈ g.roots := fun y hy =>
      hperm.mem_iff.1 (List.mem_cons_of_mem _ hy)
    have hrk : ∀ r ∈ g.roots, ∀ q ∈ g.nodes, r ∉ g.kids q := fun r hr =>
      (hs.roots_sub r (List.mem_append_left _ hr)).2
    rw [delete_root_eq fuel enum hpar hna hprev hl.1 htn,
      deleteT_root_eq fuel hpar hna hprev hl.1 htn]
    have hs₁ : ShapeF ({ m with
        next := Function.update m.next (lastOf b l') (some b)
        prev := Function.update m.prev b (some (lastOf b l')) } : Mem α) (some a)
        { g with roots := b :: l' } [n] := by
      refine ⟨?_, ring_unlink hring hnd, hal, fun r hr => hs.root_parent r (hsub r hr)⟩
      have hp' : ((b :: l') ++ [n]).Perm (g.roots ++ []) := by
        have h1 : ((b :: l') ++ [n]).Perm (n :: b :: l') := List.perm_append_comm
        simpa using h1.trans hperm
      refine ((hs.toForest.perm hp').roots_irrel_forest (b :: l')).frame_forest le_rfl
        (fun _ _ => rfl) (fun _ _ => rfl) ?_
      intro q hq c hc
      have h1 : c ≠ b := fun e => hrk b (hsub b (List.mem_cons_self _ _)) q hq (e ▸ hc)
      have h2 : c ≠ lastOf b l' := fun e => hrk _ (hsub _ htl) q hq (e ▸ hc)
      simp [Function.update_apply, h1, h2]
    obtain ⟨m', g', hres, hs', hnodes, hT, hpot, hrk', hmk', hpar', htop, hsame⟩ :=
      promoteKids_good fuel hs₁ hfuel'
    have hpar'' : m'.parent = fun y => if y ∈ g.kids n then none else m.parent y := hpar'
    have hrk'' : m'.rank = m.rank := hrk'
    have hmk'' : m'.mark = m.mark := hmk'
    refine ⟨m', some a, g', d, (g.kids n).length + 1, hres, ?_, hs', ?_, hnodes, ?_, ?_, htop⟩
    · rw [hT]
      rfl
    · refine hf.shrink hs'.nodup ?_ ?_
      · intro y hy x hx
        rw [hnodes] at hy
        have hy' : y ∈ g.nodes := List.mem_of_mem_erase hy
        rw [hpar''] at hx
        simp only at hx
        split at hx
        · simp at hx
        · exact ⟨hy', hs.parent_mem hy' hx, hx⟩
      · intro y _ _
        rw [hrk'', hmk'']
    · have w : weight ({ m with
          next := Function.update m.next (lastOf b l') (some b)
          prev := Function.update m.prev b (some (lastOf b l')) } : Mem α) n = 3 := by
        simp [weight, hpar]
      have e : potential ({ m with
          next := Function.update m.next (lastOf b l') (some b)
          prev := Function.update m.prev b (some (lastOf b l')) } : Mem α)
          { g with roots := b :: l' } = potential m g := rfl
      rw [w, e] at hpot
      have hpot' : potential m' g' + 3 ≤ potential m g + 3 * (g.kids n).length := hpot
      omega
    · intro y hy
      have hyr : y ∉ g.roots := fun h => hy (hs.roots_sub y (List.mem_append_left _ h)).1
      have h1 : y ≠ b := fun e => hyr (e ▸ hsub b (List.mem_cons_self _ _))
      have h2 : y ≠ lastOf b l' := fun e => hyr (e ▸ hsub _ htl)
      have h0 : Same m ({ m with
          next := Function.update m.next (lastOf b l') (some b)
          prev := Function.update m.prev b (some (lastOf b l')) } : Mem α) y := by
        refine ⟨rfl, rfl, rfl, ?_, ?_, rfl, rfl⟩
        · simp [Function.update_apply, h1]
        · simp [Function.update_apply, h2]
      exact ⟨h0.trans (hsame y hy), rfl⟩
  · -- a child: cut from its parent, with the cascade
    obtain ⟨m₁, g₁, hres₁, hs₁, -, hrel⟩ := cutAux_spec fuel false m g [] n p a hs hp hnp
      (by simp) (by simp only [Bool.false_eq_true, if_false]; omega)
    simp only [Bool.false_eq_true, if_false] at hs₁
    obtain ⟨m₂, C, s, hcut, hcas, -, e1, e2, e3, hTc⟩ := cutAux_cascade fuel false m g [] n p a
      hs hp hnp (by simp) (by simp only [Bool.false_eq_true, if_false]; omega)
    obtain rfl : m₂ = m₁ := by
      rw [hcut] at hres₁
      exact Option.some.inj hres₁
    simp only [Bool.false_eq_true, if_false] at hTc
    have e1' : m₂.parent = fun y => if y ∈ C then none else m.parent y := by
      rw [e1]
      funext y
      simp
    have e2' : m₂.rank = fun y => if y ∈ s :: C then m.rank y - 1 else m.rank y := e2
    have e3' : m₂.mark = fun y => if y = s ∧ m.parent s ≠ none then true else m.mark y := e3
    have hC := hcas.chain_marked
    have hnd := hcas.nodup_chain hs hn
    have hmem := hcas.mem_nodes hs hn
    have hnd' : (C ++ [s]).Nodup := (List.nodup_cons.1 hnd).2
    have hsn : s ≠ n := by
      intro e
      have := (List.nodup_cons.1 hnd).1
      exact this (e ▸ List.mem_append_right _ (List.mem_singleton_self _))
    have hsC : s ∉ C := by
      have := hnd'
      rw [List.nodup_append] at this
      exact fun h => this.2.2 h (List.mem_singleton_self _)
    obtain ⟨m', g', hres, hs', hnodes, hT, hpot, hrk', hmk', hpar', htop, hsame⟩ :=
      promoteKids_good fuel hs₁ (by rw [hrel.nodes]; exact hfuel')
    have hkn : g₁.kids n = g.kids n := hrel.kids_low n le_rfl
    rw [hkn] at hT hpot hpar'
    rw [hrel.nodes] at hnodes
    refine ⟨m', some a, g', d, 2 * C.length + 1 + (g.kids n).length + 1, ?_, ?_, hs', ?_,
      hnodes, ?_, ?_, htop.trans hrel.top⟩
    · rw [delete_cut_eq fuel enum hpar, hcut]
      exact hres
    · simp [DeleteT, ld, hpar, cut, hTc, hcut, hT, bind, Option.bind]
    · refine hf.shrink hs'.nodup ?_ ?_
      · intro y hy x hx
        rw [hnodes] at hy
        have hy' : y ∈ g.nodes := List.mem_of_mem_erase hy
        rw [hpar', e1'] at hx
        simp only at hx
        split at hx
        · simp at hx
        · split at hx
          · simp at hx
          · exact ⟨hy', hs.parent_mem hy' hx, hx⟩
      · intro y _ hpy
        rw [hpar', e1'] at hpy
        simp only at hpy
        split at hpy
        · simp at hpy
        · split at hpy
          · simp at hpy
          · rename_i _ hyC
            rw [hrk', hmk', e2', e3']
            by_cases hys : y = s
            · subst hys
              rcases hcas.stop_cond with h1 | h1
              · exact absurd h1 hpy
              · simp [hpy, h1]
            · have : y ∉ s :: C := by
                simp only [List.mem_cons, not_or]
                exact ⟨hys, hyC⟩
              simp [this, hys]
    · have hch := potential_change m m₂ (C ++ [s]) (rfl : g.nodes = g.nodes) hs.nodup hnd'
        (by
          intro y hy
          rcases List.mem_append.1 hy with h1 | h1
          · exact hmem y (List.mem_cons_of_mem _ h1)
          · simp only [List.mem_singleton] at h1
            subst h1
            exact hmem y (List.mem_cons_self _ _))
        (by
          intro y hy
          simp only [List.mem_append, List.mem_singleton, not_or] at hy
          rw [e1', e3']
          simp [hy.1, hy.2])
      have w1 : (C.map (weight m)).sum = 5 * C.length :=
        sum_map_eq_const C fun y hy => by
          obtain ⟨h1, h2⟩ := hC y hy
          simp [weight, h1, h2]
      have w2 : (C.map (weight m₂)).sum = 3 * C.length :=
        sum_map_eq_const C fun y hy => by
          simp [weight, e1', hy]
      have w4 : weight m₂ s ≤ weight m s + 5 := by
        by_cases hps : m.parent s = none
        · simp [weight, e1', hsC, hps]
        · rcases hcas.stop_cond with h1 | h1
          · exact absurd h1 hps
          · simp [weight, e1', e3', hsC, hps, h1]
      simp only [List.map_append, List.sum_append, List.map_cons, List.sum_cons, List.map_nil,
        List.sum_nil, add_zero, w1, w2] at hch
      have e : potential m₂ g₁ = potential m₂ g := by
        unfold potential
        rw [hrel.nodes]
      rw [e] at hpot
      omega
    · intro y hy
      exact ⟨(hrel.same y hy).trans (hsame y (by rw [hrel.nodes]; exact hy)), rfl⟩

end Amortized5

/-! ### The invariant in the reachable states -/

/-- The invariant reads the parent, the rank and the mark of the nodes of
the heap only. -/
theorem FibInv.frame_fib {m m' : Mem α} {g : Ghost} {d d' : Nat → Nat} (hf : FibInv m g d)
    (hsame : ∀ y ∈ g.nodes, Same m m' y ∧ d' y = d y) : FibInv m' g d' := by
  refine ⟨?_, ?_⟩
  · intro x hx j
    have : (g.nodes.filter fun y => decide (m'.parent y = some x) && decide (d' y < j)) =
        g.nodes.filter fun y => decide (m.parent y = some x) && decide (d y < j) := by
      refine List.filter_congr ?_
      intro y hy
      obtain ⟨hs, hd⟩ := hsame y hy
      rw [hs.2.1, hd]
    rw [this]
    exact hf.count x hx j
  · intro y hy hp
    obtain ⟨hs, hd⟩ := hsame y hy
    rw [hs.2.1] at hp
    rw [hd, hs.2.2.2.2.2.1, hs.2.2.2.2.2.2]
    exact hf.low y hy hp

theorem FibInv.empty (m : Mem α) (d : Nat → Nat) : FibInv m Ghost.empty d :=
  ⟨fun x hx => by simp [Ghost.empty] at hx, fun y hy => by simp [Ghost.empty] at hy⟩

/-- One heap changes, within its own nodes and fresh ones, and the others are
left alone: the invariant is kept. -/
theorem fibWorld_step {m m' : Mem α} {hs : Nat → Ptr} {gs : Nat → Ghost} {d d' : Nat → Nat}
    (hw : FibWorld m hs gs d) (i : Nat) {h' : Ptr} {g' : Ghost}
    (hnew : Shape m' h' g' ∧ FibInv m' g' d') (htop : m.top ≤ m'.top)
    (hsub : ∀ j, j ≠ i → ∀ x ∈ g'.nodes, x ∉ (gs j).nodes)
    (hsame : ∀ j, j ≠ i → ∀ y ∈ (gs j).nodes, Same m m' y ∧ d' y = d y) :
    FibWorld m' (Function.update hs i h') (Function.update gs i g') d' := by
  obtain ⟨hinv, hdis⟩ := hw
  refine ⟨?_, ?_⟩
  · intro k
    by_cases hk : k = i
    · subst hk
      simpa using hnew
    · simp only [Function.update_apply, hk, if_false]
      exact ⟨(hinv k).1.of_same htop (fun y hy => (hsame k hk y hy).1),
        (hinv k).2.frame_fib (hsame k hk)⟩
  · intro k j hkj x hx
    by_cases hk : k = i
    · subst hk
      have hj : j ≠ k := fun e => hkj e.symm
      simp only [Function.update_apply, hj, if_false, if_true] at hx ⊢
      exact hsub j hj x hx
    · simp only [Function.update_apply, hk, if_false] at hx
      by_cases hj : j = i
      · subst hj
        simp only [Function.update_apply, if_true]
        exact fun hx' => hsub k hk x hx' hx
      · simp only [Function.update_apply, hj, if_false]
        exact hdis k j hkj x hx

section FibWorldOps

variable [LinearOrder α]

/-- A step of `Insert` in a state with the invariant. -/
theorem fibWorld_insert {m : Mem α} {hs : Nat → Ptr} {gs : Nat → Ghost} {d : Nat → Nat}
    (hw : FibWorld m hs gs d) (i : Nat) (v : α) {m' : Mem α} {h' x : Ptr}
    (hr : Insert m (hs i) v = some (m', h', x)) :
    ∃ g', FibWorld m' (Function.update hs i h') (Function.update gs i g') d ∧
      g'.nodes = m.top :: (gs i).nodes ∧ m'.top = m.top + 1 ∧
      (∀ y, y ∉ (gs i).nodes → y ≠ m.top → Same m m' y) ∧
      potential m' g' = potential m (gs i) + 3 := by
  obtain ⟨hinv, hdis⟩ := id hw
  obtain ⟨m₁, h₁, g₁, hres, hs₁, hf₁, hnodes, hpot⟩ :=
    insert_good m (hs i) (gs i) d v (hinv i).1 (hinv i).2
  obtain ⟨m₂, h₂, g₂, hres₂, -, -, htop, -, hsame⟩ := insert_frame m (hs i) (gs i) v (hinv i).1
  rw [hr] at hres hres₂
  obtain ⟨rfl, rfl, rfl⟩ : m' = m₁ ∧ h' = h₁ ∧ x = some m.top := by
    simpa [Prod.ext_iff] using hres
  obtain ⟨rfl, -⟩ : m' = m₂ ∧ h' = h₂ := by
    simpa [Prod.ext_iff] using hres₂
  refine ⟨g₁, fibWorld_step hw i ⟨hs₁, hf₁⟩ (by omega) ?_ ?_, hnodes, htop, hsame, hpot⟩
  · intro j hj y hy
    rw [hnodes] at hy
    rcases List.mem_cons.1 hy with rfl | hy'
    · exact (hinv j).1.fresh
    · exact hdis i j (Ne.symm hj) y hy'
  · intro j hj y hy
    exact ⟨hsame y (fun hy' => hdis i j (Ne.symm hj) y hy' hy)
      (fun e => (hinv j).1.fresh (e ▸ hy)), rfl⟩

/-- A step of `DecreaseKey` in a state with the invariant. -/
theorem fibWorld_decreaseKey {m : Mem α} {hs : Nat → Ptr} {gs : Nat → Ghost} {d : Nat → Nat}
    (hw : FibWorld m hs gs d) (fuel i n : Nat) (v : α) {m' : Mem α} {h' : Ptr}
    {e : Option Err} (hn : Member m (hs i) n)
    (hr : DecreaseKey fuel m (hs i) (some n) v = some (m', h', e)) :
    ∃ g', FibWorld m' (Function.update hs i h') (Function.update gs i g') d ∧
      g'.nodes = (gs i).nodes ∧ m'.top = m.top ∧
      (∀ y, y ∉ (gs i).nodes → Same m m' y) ∧
      ∀ k, DecreaseKeyT fuel m (hs i) (some n) v = some k →
        k + potential m' g' ≤ potential m (gs i) + 11 := by
  obtain ⟨hinv, hdis⟩ := id hw
  have hng : n ∈ (gs i).nodes := ((hinv i).1.member_iff n).1 hn
  obtain ⟨a, ha⟩ := (hinv i).1.head_some (List.ne_nil_of_mem hng)
  have hsa := (hinv i).1
  rw [ha] at hsa hr ⊢
  obtain ⟨m₁, h₁, g₁, e₁, c, hres, hT, hs₁, hf₁, hnodes, hpot, hsame, htop⟩ :=
    decreaseKey_good (max fuel (2 * (gs i).bound + 2)) m a (gs i) d n v hsa (hinv i).2 hng
      (le_max_right _ _)
  rw [decreaseKey_mono hr (le_max_left _ _)] at hres
  obtain ⟨rfl, rfl, -⟩ : m' = m₁ ∧ h' = h₁ ∧ e = e₁ := by
    simpa [Prod.ext_iff] using hres
  refine ⟨g₁, fibWorld_step hw i ⟨hs₁, hf₁⟩ (le_of_eq htop.symm) ?_ ?_, hnodes, htop, hsame,
    ?_⟩
  · intro j hj y hy
    rw [hnodes] at hy
    exact hdis i j (Ne.symm hj) y hy
  · intro j hj y hy
    exact ⟨hsame y (fun hy' => hdis i j (Ne.symm hj) y hy' hy), rfl⟩
  · intro k hk
    rw [decreaseKeyT_mono hk (le_max_left _ _)] at hT
    obtain rfl := Option.some.inj hT
    exact hpot

/-- A step of `DeleteMin` in a state with the invariant. -/
theorem fibWorld_deleteMin {m : Mem α} {hs : Nat → Ptr} {gs : Nat → Ghost} {d : Nat → Nat}
    (hw : FibWorld m hs gs d) (fuel i : Nat) (enum : RootMap → RootMap) {m' : Mem α}
    {h' : Ptr} {r : Option α} (henum : ∀ t, (enum t).Perm t)
    (hr : DeleteMin fuel enum m (hs i) = some (m', h', r)) :
    ∃ g' d', FibWorld m' (Function.update hs i h') (Function.update gs i g') d' ∧
      (∀ y ∈ g'.nodes, y ∈ (gs i).nodes) ∧ m'.top = m.top ∧
      (∀ y, y ∉ (gs i).nodes → Same m m' y) ∧
      ∀ k, DeleteMinT fuel m (hs i) = some k →
        k + potential m' g' ≤ potential m (gs i) + 12 * Nat.log 2 (gs i).nodes.length + 7 := by
  obtain ⟨hinv, hdis⟩ := id hw
  rcases ha : hs i with _ | a
  · rw [ha] at hr
    obtain ⟨rfl, rfl, -⟩ : m = m' ∧ none = h' ∧ none = r := by
      simpa [DeleteMin, Prod.ext_iff] using hr
    refine ⟨gs i, d, ?_, fun _ h => h, rfl, fun _ _ => ⟨rfl, rfl, rfl, rfl, rfl, rfl, rfl⟩, ?_⟩
    · rw [← ha, Function.update_eq_self, Function.update_eq_self]
      exact hw
    · intro k hk
      have : k = 1 := by
        simp [DeleteMinT] at hk
        exact hk.symm
      omega
  · have hsa := (hinv i).1
    rw [ha] at hsa hr
    obtain ⟨m₁, h₁, g₁, d₁, c, hres, hT, hs₁, hf₁, hnodes, hpot, hframe, htop⟩ :=
      deleteMin_good (max fuel (gs i).nodes.length) enum m a (gs i) d hsa (hinv i).2 henum
        (le_max_right _ _)
    rw [deleteMin_mono hr (le_max_left _ _)] at hres
    obtain ⟨rfl, rfl, -⟩ : m' = m₁ ∧ h' = h₁ ∧ r = some (m.value a) := by
      simpa [Prod.ext_iff] using hres
    have hsub : ∀ y ∈ g₁.nodes, y ∈ (gs i).nodes := by
      intro y hy
      rw [hnodes] at hy
      exact List.mem_of_mem_erase hy
    have hout : ∀ y, y ∉ (gs i).nodes → Same m m' y ∧ d₁ y = d y := fun y hy =>
      hframe y (fun h => hy (List.mem_of_mem_erase h))
    refine ⟨g₁, d₁, fibWorld_step hw i ⟨hs₁, hf₁⟩ (le_of_eq htop.symm) ?_ ?_, hsub, htop,
      fun y hy => (hout y hy).1, ?_⟩
    · intro j hj y hy
      exact hdis i j (Ne.symm hj) y (hsub y hy)
    · intro j hj y hy
      exact hout y (fun hy' => hdis i j (Ne.symm hj) y hy' hy)
    · intro k hk
      rw [deleteMinT_mono hk (le_max_left _ _)] at hT
      obtain rfl := Option.some.inj hT
      exact hpot

/-- A step of `Delete` in a state with the invariant. -/
theorem fibWorld_delete {m : Mem α} {hs : Nat → Ptr} {gs : Nat → Ghost} {d : Nat → Nat}
    (hw : FibWorld m hs gs d) (fuel i n : Nat) (enum : RootMap → RootMap) {m' : Mem α}
    {h' : Ptr} (hn : Member m (hs i) n) (henum : ∀ t, (enum t).Perm t)
    (hr : Delete fuel enum m (hs i) (some n) = some (m', h')) :
    ∃ g' d', FibWorld m' (Function.update hs i h') (Function.update gs i g') d' ∧
      (∀ y ∈ g'.nodes, y ∈ (gs i).nodes) ∧ m'.top = m.top ∧
      (∀ y, y ∉ (gs i).nodes → Same m m' y) ∧
      ∀ k, DeleteT fuel m (hs i) (some n) = some k →
        k + potential m' g' ≤ potential m (gs i) + 12 * Nat.log 2 (gs i).nodes.length + 11 := by
  obtain ⟨hinv, hdis⟩ := id hw
  have hng : n ∈ (gs i).nodes := ((hinv i).1.member_iff n).1 hn
  obtain ⟨a, ha⟩ := (hinv i).1.head_some (List.ne_nil_of_mem hng)
  have hsa := (hinv i).1
  rw [ha] at hsa hr ⊢
  obtain ⟨m₁, h₁, g₁, d₁, c, hres, hT, hs₁, hf₁, hnodes, hpot, hframe, htop⟩ :=
    delete_good (max fuel (max (2 * (gs i).bound + 1) (gs i).nodes.length)) enum m a (gs i) d n
      hsa (hinv i).2 hng henum (le_trans (le_max_left _ _) (le_max_right _ _))
      (le_trans (le_max_right _ _) (le_max_right _ _))
  rw [delete_mono hr (le_max_left _ _)] at hres
  obtain ⟨rfl, rfl⟩ : m' = m₁ ∧ h' = h₁ := by simpa [Prod.ext_iff] using hres
  have hsub : ∀ y ∈ g₁.nodes, y ∈ (gs i).nodes := by
    intro y hy
    rw [hnodes] at hy
    exact List.mem_of_mem_erase hy
  refine ⟨g₁, d₁, fibWorld_step hw i ⟨hs₁, hf₁⟩ (le_of_eq htop.symm) ?_ ?_, hsub, htop,
    fun y hy => (hframe y hy).1, ?_⟩
  · intro j hj y hy
    exact hdis i j (Ne.symm hj) y (hsub y hy)
  · intro j hj y hy
    exact hframe y (fun hy' => hdis i j (Ne.symm hj) y hy' hy)
  · intro k hk
    rw [deleteT_mono hk (le_max_left _ _)] at hT
    obtain rfl := Option.some.inj hT
    exact hpot

/-- A step of `Meld` in a state with the invariant. -/
theorem fibWorld_meld {m : Mem α} {hs : Nat → Ptr} {gs : Nat → Ghost} {d : Nat → Nat}
    (hw : FibWorld m hs gs d) (i j : Nat) {m' : Mem α} {h' h₂' : Ptr} (hij : i ≠ j)
    (hr : Meld m (hs i) (hs j) = some (m', h', h₂')) :
    ∃ g', FibWorld m' (Function.update (Function.update hs i h') j h₂')
        (Function.update (Function.update gs i g') j Ghost.empty) d ∧
      g'.nodes = (gs i).nodes ++ (gs j).nodes ∧ m'.top = m.top ∧
      (∀ y, y ∉ (gs i).nodes → y ∉ (gs j).nodes → Same m m' y) ∧
      potential m' g' = potential m (gs i) + potential m (gs j) := by
  obtain ⟨hinv, hdis⟩ := id hw
  obtain ⟨m₁, h₁, g₁, hres, hs₁, hf₁, hnodes, hpot⟩ :=
    meld_good m (hs i) (hs j) (gs i) (gs j) d (hinv i).1 (hinv j).1 (hdis i j hij) (hinv i).2
      (hinv j).2
  obtain ⟨m₂, h₂, g₂, hres₂, -, -, -, htop, -, -, -, hsame, -⟩ :=
    meld_spec m (hs i) (hs j) (gs i) (gs j) (hinv i).1 (hinv j).1 (hdis i j hij)
  rw [hr] at hres hres₂
  obtain ⟨rfl, rfl, rfl⟩ : m' = m₁ ∧ h' = h₁ ∧ h₂' = none := by
    simpa [Prod.ext_iff] using hres
  obtain ⟨rfl, -⟩ : m' = m₂ ∧ h' = h₂ := by
    simpa [Prod.ext_iff] using hres₂
  have hji : j ≠ i := Ne.symm hij
  refine ⟨g₁, ⟨?_, ?_⟩, hnodes, htop, hsame, hpot⟩
  · intro k
    by_cases hkj : k = j
    · subst hkj
      simp only [Function.update_same]
      exact ⟨Shape.empty_shape m', FibInv.empty m' d⟩
    · by_cases hki : k = i
      · subst hki
        simp only [Function.update_apply, hkj, if_false, if_true]
        exact ⟨hs₁, hf₁⟩
      · simp only [Function.update_apply, hkj, hki, if_false]
        have hsm : ∀ y ∈ (gs k).nodes, Same m m' y := fun y hy =>
          hsame y (fun hy' => hdis i k (Ne.symm hki) y hy' hy)
            (fun hy' => hdis j k (Ne.symm hkj) y hy' hy)
        exact ⟨(hinv k).1.of_same (le_of_eq htop.symm) hsm,
          (hinv k).2.frame_fib (fun y hy => ⟨hsm y hy, rfl⟩)⟩
  · have hg₁ : ∀ k, k ≠ i → k ≠ j → ∀ x ∈ g₁.nodes, x ∉ (gs k).nodes := by
      intro k hki hkj x hx
      rw [hnodes] at hx
      rcases List.mem_append.1 hx with hx' | hx'
      · exact hdis i k (Ne.symm hki) x hx'
      · exact hdis j k (Ne.symm hkj) x hx'
    intro k l hkl x hx
    by_cases hkj : k = j
    · subst hkj
      simp [Ghost.empty] at hx
    · by_cases hlj : l = j
      · subst hlj
        simp [Ghost.empty]
      · simp only [Function.update_apply, hkj, hlj, if_false] at hx ⊢
        by_cases hki : k = i
        · subst hki
          have hlk : l ≠ k := Ne.symm hkl
          simp only [hlk, if_false, if_true] at hx ⊢
          exact hg₁ l hlk hlj x hx
        · simp only [hki, if_false] at hx
          by_cases hli : l = i
          · subst hli
            simp only [if_true]
            exact fun hx' => hg₁ k hki hkj x hx' hx
          · simp only [hli, if_false]
            exact hdis k l hkl x hx

/-- Every reachable state has the invariant behind the Fibonacci bound. -/
theorem reach_fib {m : Mem α} {hs : Nat → Ptr} (hr : Reach m hs) :
    ∃ gs d, FibWorld m hs gs d := by
  induction hr with
  | init m =>
    exact ⟨fun _ => Ghost.empty, fun _ => 0,
      fun _ => ⟨Shape.empty_shape m, FibInv.empty m _⟩,
      fun _ _ _ x hx => by simp [Ghost.empty] at hx⟩
  | insert i v _ hr ih =>
    obtain ⟨gs, d, hw⟩ := ih
    obtain ⟨g', hw', -⟩ := fibWorld_insert hw i v hr
    exact ⟨_, _, hw'⟩
  | meld i j _ hij hr ih =>
    obtain ⟨gs, d, hw⟩ := ih
    obtain ⟨g', hw', -⟩ := fibWorld_meld hw i j hij hr
    exact ⟨_, _, hw'⟩
  | decreaseKey fuel i n v _ hn hr ih =>
    obtain ⟨gs, d, hw⟩ := ih
    obtain ⟨g', hw', -⟩ := fibWorld_decreaseKey hw fuel i n v hn hr
    exact ⟨_, _, hw'⟩
  | deleteMin fuel i enum _ henum hr ih =>
    obtain ⟨gs, d, hw⟩ := ih
    obtain ⟨g', d', hw', -⟩ := fibWorld_deleteMin hw fuel i enum henum hr
    exact ⟨_, _, hw'⟩
  | delete fuel i n enum _ hn henum hr ih =>
    obtain ⟨gs, d, hw⟩ := ih
    obtain ⟨g', d', hw', -⟩ := fibWorld_delete hw fuel i n enum hn henum hr
    exact ⟨_, _, hw'⟩

end FibWorldOps
/-! ## The Fibonacci size bound -/

/-- The powers of the golden ratio are below the Fibonacci numbers two places
further. -/
theorem gold_pow_le_fib : ∀ k : Nat, goldenRatio ^ k ≤ (Nat.fib (k + 2) : ℝ)
  | 0 => by simp
  | 1 => by
    have : (Nat.fib 3 : ℝ) = 2 := by norm_num [Nat.fib_add_two]
    rw [pow_one, this]
    exact le_of_lt gold_lt_two
  | k + 2 => by
    have h1 := gold_pow_le_fib k
    have h2 := gold_pow_le_fib (k + 1)
    have e : goldenRatio ^ (k + 2) = goldenRatio ^ (k + 1) + goldenRatio ^ k := by
      rw [pow_add, gold_sq]
      ring
    have f : (Nat.fib (k + 2 + 2) : ℝ) = Nat.fib (k + 2) + Nat.fib (k + 1 + 2) := by
      rw [Nat.fib_add_two (n := k + 2)]
      push_cast
      ring_nf
    rw [e, f]
    linarith

/-- A node reached from the child pointer of a member is a member. -/
theorem Member.descend {m : Mem α} {h' : Ptr} {z : Nat} (hz : Member m h' z) :
    ∀ (h : Ptr) (c : Nat), Member m h c → m.child c = h' → Member m h z := by
  induction hz with
  | head a =>
    intro h c hc he
    exact Member.child hc he
  | next _ hn ih =>
    intro h c hc he
    exact Member.next (ih h c hc he) hn
  | child _ hn ih =>
    intro h c hc he
    exact Member.child (ih h c hc he) hn

/-- The children of a member are members. -/
theorem Shape.member_kid {m : Mem α} {h₀ : Ptr} {g : Ghost} (hs : Shape m h₀ g) {h : Ptr}
    {q c : Nat} (hq : q ∈ g.nodes) (hc : c ∈ g.kids q) (hm : Member m h q) : Member m h c := by
  have hh := hs.child q hq
  rcases hch : m.child q with _ | c₀
  · rw [hch] at hh
    have : g.kids q = [] := hh
    rw [this] at hc
    simp at hc
  · rw [hch] at hh
    exact ring_member (hs.kids_ring q hq) hh (Member.child hm hch) c hc

/-- The first child of a node is reached from its child pointer. -/
theorem Shape.kid_below {m : Mem α} {h₀ : Ptr} {g : Ghost} (hs : Shape m h₀ g)
    {q c : Nat} (hq : q ∈ g.nodes) (hc : c ∈ g.kids q) : Member m (m.child q) c := by
  have hh := hs.child q hq
  rcases hch : m.child q with _ | c₀
  · rw [hch] at hh
    have : g.kids q = [] := hh
    rw [this] at hc
    simp at hc
  · rw [hch] at hh
    exact ring_member (hs.kids_ring q hq) hh (Member.head c₀) c hc

/-- The nodes of the tree below `x` are `x` and nodes reached from its child
pointer. -/
theorem Shape.sub_below {m : Mem α} {h₀ : Ptr} {g : Ghost} (hs : Shape m h₀ g) :
    ∀ (f x z : Nat), x ∈ g.nodes → z ∈ sub g f x → z = x ∨ Member m (m.child x) z := by
  intro f
  induction f with
  | zero =>
    intro x z _ hz
    simp only [sub, List.mem_singleton] at hz
    exact Or.inl hz
  | succ f ih =>
    intro x z hx hz
    simp only [sub, List.mem_cons, List.mem_flatMap] at hz
    rcases hz with rfl | ⟨c, hc, hzc⟩
    · exact Or.inl rfl
    · right
      have hcm := hs.kid_below hx hc
      rcases ih c z (hs.kids_sub x hx c hc).1 hzc with rfl | hb
      · exact hcm
      · exact hb.descend _ c hcm rfl

section Claims7

variable [LinearOrder α]

/-- C21: Fibonacci size bound.  In a state reached from empty heaps by
`Insert`, `Meld`, `DecreaseKey`, `DeleteMin` and `Delete` calls with their
preconditions met, every node `x` of a heap has a rank `k` that is a natural
number, there are at least `fib (k + 2)` distinct nodes in the tree below `x`
(`x` itself and nodes reached from `x.child` by `next` and `child` pointers),
and `k` is at most the logarithm to the base of the golden ratio of the
number of nodes stored in the heap. -/
theorem C21_fib_bound {m : Mem α} {hs : Nat → Ptr} (hr : Reach m hs) (i x : Nat)
    (hx : Member m (hs i) x) :
    ∃ k : Nat, m.rank x = (k : Int) ∧
      (∃ S : List Nat, S.Nodup ∧ (∀ y ∈ S, y = x ∨ Member m (m.child x) y) ∧
        Nat.fib (k + 2) ≤ S.length) ∧
      ∀ L : List Nat, L.Nodup → (∀ y, y ∈ L ↔ Member m (hs i) y) →
        (k : ℝ) ≤ Real.logb goldenRatio L.length := by
  obtain ⟨gs, d, hinv, -⟩ := reach_fib hr
  obtain ⟨hsi, hfi⟩ := hinv i
  have hxg : x ∈ (gs i).nodes := (hsi.member_iff x).1 hx
  refine ⟨((gs i).kids x).length, hsi.rank x hxg, ⟨sub (gs i) ((gs i).height x) x,
    hsi.toTrees.sub_nodup _ x hxg, fun y hy => hsi.sub_below _ x y hxg hy,
    hsi.fib_le_sub hfi _ x hxg le_rfl⟩, ?_⟩
  intro L hnd hL
  have hperm : L.Perm (gs i).nodes :=
    (List.perm_ext_iff_of_nodup hnd hsi.nodup).2 fun y => (hL y).trans (hsi.member_iff y)
  have h1 : Nat.fib (((gs i).kids x).length + 2) ≤ L.length := by
    rw [hperm.length_eq]
    exact le_trans (hsi.fib_le_sub hfi _ x hxg le_rfl) (hsi.toTrees.sub_length_le _ x hxg)
  have h2 : goldenRatio ^ ((gs i).kids x).length ≤ (L.length : ℝ) :=
    le_trans (gold_pow_le_fib _) (by exact_mod_cast h1)
  have hpos : (0 : ℝ) < L.length := lt_of_lt_of_le (pow_pos gold_pos _) h2
  rw [Real.le_logb_iff_rpow_le one_lt_gold hpos, Real.rpow_natCast]
  exact h2

end Claims7

theorem C21_fib_bound_witness :
    ∃ k : Nat, (stateOf afterDeleteMin5).1.rank 1 = (k : Int) ∧
      (∃ S : List Nat, S.Nodup ∧
        (∀ y ∈ S, y = 1 ∨ Member (stateOf afterDeleteMin5).1
          ((stateOf afterDeleteMin5).1.child 1) y) ∧
        Nat.fib (k + 2) ≤ S.length) ∧
      ∀ L : List Nat, L.Nodup →
        (∀ y, y ∈ L ↔ Member (stateOf afterDeleteMin5).1 (oneHeap (some 1) 0) y) →
        (k : ℝ) ≤ Real.logb goldenRatio L.length :=
  C21_fib_bound reach_afterDeleteMin5 0 1 (Member.head 1)

/-! ## The amortized cost of the operations -/

theorem potential_eq_weights (m : Mem α) (g : Ghost) : potential m g = weights m g.nodes := rfl

/-- The nodes of one heap are replaced within a list of nodes without
repetition: the weights change by the change of the potential of the heap. -/
theorem live_step (m m' : Mem α) {live : List Nat} {g g' : Ghost} (hl : live.Nodup)
    (hg : g.nodes.Nodup) (hg' : g'.nodes.Nodup) (hsub : ∀ y ∈ g.nodes, y ∈ live)
    (hnew : ∀ y ∈ g'.nodes, y ∈ g.nodes ∨ y ∉ live)
    (hsame : ∀ y ∈ live, y ∉ g.nodes → weight m' y = weight m y) :
    (g'.nodes ++ live.filter fun y => decide (y ∉ g.nodes)).Nodup ∧
      weights m' (g'.nodes ++ live.filter fun y => decide (y ∉ g.nodes)) + potential m g =
        weights m live + potential m' g' := by
  refine ⟨?_, ?_⟩
  · refine List.Nodup.append hg' (hl.filter _) ?_
    intro y hy hy'
    simp only [List.mem_filter, decide_eq_true_eq] at hy'
    rcases hnew y hy with h | h
    · exact hy'.2 h
    · exact h hy'.1
  · have h1 := sum_map_split (weight m) live g.nodes hl hg hsub
    have h2 : ((live.filter fun y => decide (y ∉ g.nodes)).map (weight m')) =
        (live.filter fun y => decide (y ∉ g.nodes)).map (weight m) := by
      refine List.map_congr_left ?_
      intro y hy
      simp only [List.mem_filter, decide_eq_true_eq] at hy
      exact hsame y hy.1 hy.2
    unfold weights potential
    rw [List.map_append, List.sum_append, h2, h1]
    omega

theorem Same.weight_eq {m m' : Mem α} {y : Nat} (h : Same m m' y) : weight m' y = weight m y := by
  unfold weight
  rw [h.2.1, h.2.2.2.2.2.2]

/-- One heap changes, within its own nodes and fresh ones, and the nodes
outside keep their fields: the list of the nodes in use is updated, and its
weights change by the change of the potential of the heap. -/
theorem live_world_step {m m' : Mem α} {hs hs' : Nat → Ptr} {gs : Nat → Ghost}
    {d d' : Nat → Nat} {live : List Nat} (i : Nat) {g' : Ghost}
    (hw : FibWorld m hs gs d) (hw' : FibWorld m' hs' (Function.update gs i g') d')
    (hl : live.Nodup) (hcov : ∀ k, ∀ x ∈ (gs k).nodes, x ∈ live)
    (hb : ∀ y ∈ live, y < m.top) (htop : m.top ≤ m'.top)
    (hnew : ∀ y ∈ g'.nodes, y ∈ (gs i).nodes ∨ m.top ≤ y)
    (hsame : ∀ y, y ∉ (gs i).nodes → y < m.top → Same m m' y) :
    ∃ live' : List Nat, live'.Nodup ∧
      (∀ k, ∀ x ∈ (Function.update gs i g' k).nodes, x ∈ live') ∧
      (∀ y ∈ live', y < m'.top) ∧
      weights m' live' + potential m (gs i) = weights m live + potential m' g' := by
  have hs' : Shape m' (hs' i) g' := by
    have := (hw'.1 i).1
    simpa using this
  obtain ⟨hnd, hsum⟩ := live_step m m' hl (hw.1 i).1.nodup hs'.nodup (hcov i)
    (fun y hy => (hnew y hy).imp id fun h hy' => absurd (hb y hy') (by omega))
    (fun y hy hyg => (hsame y hyg (hb y hy)).weight_eq)
  refine ⟨_, hnd, ?_, ?_, hsum⟩
  · intro k x hx
    by_cases hk : k = i
    · subst hk
      simp only [Function.update_same] at hx
      exact List.mem_append_left _ hx
    · simp only [Function.update_apply, hk, if_false] at hx
      refine List.mem_append_right _ (List.mem_filter.2 ⟨hcov k x hx, ?_⟩)
      simp only [decide_eq_true_eq]
      exact hw.2 k i hk x hx
  · intro y hy
    rcases List.mem_append.1 hy with h | h
    · exact hs'.alloc y h
    · exact lt_of_lt_of_le (hb y (List.mem_filter.1 h).1) htop

section RunInv

variable [LinearOrder α]

omit [LinearOrder α] in
/-- The nodes of a heap in shape are the nodes of any list of its members
without repetition. -/
theorem Shape.length_members {m : Mem α} {h : Ptr} {g : Ghost} (hs : Shape m h g)
    {L : List Nat} (hnd : L.Nodup) (hL : ∀ y, y ∈ L ↔ Member m h y) :
    g.nodes.length = L.length :=
  ((List.perm_ext_iff_of_nodup hnd hs.nodup).2 fun y =>
    (hL y).trans (hs.member_iff y)).length_eq.symm

/-- The invariant of the runs: the states have the invariant behind the
Fibonacci bound, and the cost so far and the weights of the nodes in use are
within the bound so far. -/
theorem run_inv {m : Mem α} {hs : Nat → Ptr} {c b : Nat} (hr : Run m hs c b) :
    ∃ gs d live, FibWorld m hs gs d ∧ live.Nodup ∧ (∀ k, ∀ x ∈ (gs k).nodes, x ∈ live) ∧
      (∀ y ∈ live, y < m.top) ∧ c + weights m live ≤ b := by
  induction hr with
  | init m =>
    exact ⟨fun _ => Ghost.empty, fun _ => 0, [],
      ⟨fun _ => ⟨Shape.empty_shape m, FibInv.empty m _⟩,
        fun _ _ _ x hx => by simp [Ghost.empty] at hx⟩,
      List.nodup_nil, fun _ x hx => by simp [Ghost.empty] at hx,
      fun y hy => by simp at hy, by simp [weights]⟩
  | insert i v _ hr ih =>
    obtain ⟨gs, d, live, hw, hl, hcov, hb, hc⟩ := ih
    obtain ⟨g', hw', hnodes, htop, hsame, hpot⟩ := fibWorld_insert hw i v hr
    obtain ⟨live', hl', hcov', hb', hsum⟩ := live_world_step i hw hw' hl hcov hb (by omega)
      (fun y hy => by
        rw [hnodes] at hy
        rcases List.mem_cons.1 hy with rfl | h
        · exact Or.inr le_rfl
        · exact Or.inl h)
      (fun y hy hlt => hsame y hy (by omega))
    exact ⟨_, d, live', hw', hl', hcov', hb', by omega⟩
  | min _ ih =>
    obtain ⟨gs, d, live, hw, hl, hcov, hb, hc⟩ := ih
    exact ⟨gs, d, live, hw, hl, hcov, hb, by omega⟩
  | @meld m hs c b i j m' h' h₂' _ hij hr ih =>
    obtain ⟨gs, d, live, hw, hl, hcov, hb, hc⟩ := ih
    obtain ⟨g', hw', hnodes, htop, -, -⟩ := fibWorld_meld hw i j hij hr
    obtain ⟨hpar, -, hmk⟩ := meld_fields hr
    refine ⟨_, d, live, hw', hl, ?_, ?_, ?_⟩
    · intro k x hx
      by_cases hkj : k = j
      · subst hkj
        simp [Ghost.empty] at hx
      · by_cases hki : k = i
        · subst hki
          simp only [Function.update_apply, hkj, if_false, if_true] at hx
          rw [hnodes] at hx
          rcases List.mem_append.1 hx with h | h
          · exact hcov _ x h
          · exact hcov _ x h
        · simp only [Function.update_apply, hkj, hki, if_false] at hx
          exact hcov k x hx
    · intro y hy
      rw [htop]
      exact hb y hy
    · have : weights m' live = weights m live := congrArg (fun w => (live.map w).sum)
        (show weight m' = weight m from funext fun y => by
          unfold weight
          rw [hpar, hmk])
      rw [this]
      omega
  | decreaseKey fuel i n v _ hn hr hT ih =>
    obtain ⟨gs, d, live, hw, hl, hcov, hb, hc⟩ := ih
    obtain ⟨g', hw', hnodes, htop, hsame, hcost⟩ := fibWorld_decreaseKey hw fuel i n v hn hr
    obtain ⟨live', hl', hcov', hb', hsum⟩ := live_world_step i hw hw' hl hcov hb
      (le_of_eq htop.symm) (fun y hy => Or.inl (hnodes ▸ hy)) (fun y hy _ => hsame y hy)
    have := hcost _ hT
    exact ⟨_, d, live', hw', hl', hcov', hb', by omega⟩
  | deleteMin fuel i enum L _ henum hr hT hnd hL ih =>
    obtain ⟨gs, d, live, hw, hl, hcov, hb, hc⟩ := ih
    obtain ⟨g', d', hw', hsub, htop, hsame, hcost⟩ := fibWorld_deleteMin hw fuel i enum henum hr
    obtain ⟨live', hl', hcov', hb', hsum⟩ := live_world_step i hw hw' hl hcov hb
      (le_of_eq htop.symm) (fun y hy => Or.inl (hsub y hy)) (fun y hy _ => hsame y hy)
    have := hcost _ hT
    rw [(hw.1 i).1.length_members hnd hL] at this
    exact ⟨_, d', live', hw', hl', hcov', hb', by omega⟩
  | delete fuel i n enum L _ hn henum hr hT hnd hL ih =>
    obtain ⟨gs, d, live, hw, hl, hcov, hb, hc⟩ := ih
    obtain ⟨g', d', hw', hsub, htop, hsame, hcost⟩ :=
      fibWorld_delete hw fuel i n enum hn henum hr
    obtain ⟨live', hl', hcov', hb', hsum⟩ := live_world_step i hw hw' hl hcov hb
      (le_of_eq htop.symm) (fun y hy => Or.inl (hsub y hy)) (fun y hy _ => hsame y hy)
    have := hcost _ hT
    rw [(hw.1 i).1.length_members hnd hL] at this
    exact ⟨_, d', live', hw', hl', hcov', hb', by omega⟩

end RunInv

section ReachRun

variable [LinearOrder α]

/-- Every reachable state is reached by a run with its cost: the cost of
every call that returns is defined, and the nodes of a heap form a list. -/
theorem reach_run {m : Mem α} {hs : Nat → Ptr} (hr : Reach m hs) : ∃ c b, Run m hs c b := by
  induction hr with
  | init m => exact ⟨0, 0, Run.init m⟩
  | insert i v _ hr ih =>
    obtain ⟨c, b, hrun⟩ := ih
    exact ⟨_, _, Run.insert i v hrun hr⟩
  | meld i j _ hij hr ih =>
    obtain ⟨c, b, hrun⟩ := ih
    exact ⟨_, _, Run.meld i j hrun hij hr⟩
  | decreaseKey fuel i n v _ hn hr ih =>
    obtain ⟨c, b, hrun⟩ := ih
    obtain ⟨k, hk⟩ := decreaseKeyT_defined hr
    exact ⟨_, _, Run.decreaseKey fuel i n v hrun hn hr hk⟩
  | deleteMin fuel i enum _ henum hr ih =>
    obtain ⟨c, b, hrun⟩ := ih
    obtain ⟨k, hk⟩ := deleteMinT_defined hr
    obtain ⟨gs, d, -, hw, -⟩ := run_inv hrun
    exact ⟨_, _, Run.deleteMin fuel i enum (gs i).nodes hrun henum hr hk (hw.1 i).1.nodup
      (fun y => ((hw.1 i).1.member_iff y).symm)⟩
  | delete fuel i n enum _ hn henum hr ih =>
    obtain ⟨c, b, hrun⟩ := ih
    obtain ⟨k, hk⟩ := deleteT_defined hr
    obtain ⟨gs, d, -, hw, -⟩ := run_inv hrun
    exact ⟨_, _, Run.delete fuel i n enum (gs i).nodes hrun hn henum hr hk (hw.1 i).1.nodup
      (fun y => ((hw.1 i).1.member_iff y).symm)⟩

end ReachRun

section Claims8

variable [LinearOrder α]

/-- C17: amortized complexity.  The cost of a call is the number of
iterations of its loops and of the calls of `cut` and `cutAndMeld` it makes,
plus one.  Over any run of `Insert`, `Min`, `Meld`, `DecreaseKey`, `DeleteMin`
and `Delete` calls from empty heaps, the sum `c` of the costs is at most the
sum `b` of these bounds: 4 for each `Insert`, 1 for each `Min` and `Meld`, 11
for each `DecreaseKey`, and `12 * log₂ n + 7` for each `DeleteMin` and
`12 * log₂ n + 11` for each `Delete`, where `n` is the number of nodes stored
in the heap at the call. -/
theorem C17_amortized {m : Mem α} {hs : Nat → Ptr} {c b : Nat} (hr : Run m hs c b) :
    c ≤ b := by
  obtain ⟨gs, d, live, -, -, -, -, hc⟩ := run_inv hr
  omega

theorem run_init (m : Mem α) : Run m (oneHeap none) 0 0 := by
  have : oneHeap none = fun _ => none := by
    funext i
    simp [oneHeap]
  rw [this]
  exact Run.init m

theorem run_insert {m : Mem α} {h : Ptr} {c b : Nat} (v : α) {m' : Mem α} {h' x : Ptr}
    (hr : Run m (oneHeap h) c b) (he : Insert m h v = some (m', h', x)) :
    Run m' (oneHeap h') (c + 1) (b + 4) :=
  oneHeap_update h h' ▸ Run.insert 0 v hr (by simpa [oneHeap] using he)

theorem run_deleteMin {m : Mem α} {h : Ptr} {c b : Nat} (fuel : Nat) (L : List Nat)
    {m' : Mem α} {h' : Ptr} {r : Option α} {k : Nat} (hr : Run m (oneHeap h) c b)
    (he : DeleteMin fuel id m h = some (m', h', r)) (hT : DeleteMinT fuel m h = some k)
    (hnd : L.Nodup) (hL : ∀ y, y ∈ L ↔ Member m h y) :
    Run m' (oneHeap h') (c + k) (b + (12 * Nat.log 2 L.length + 7)) :=
  oneHeap_update h h' ▸ Run.deleteMin fuel 0 id L hr (fun _ => List.Perm.refl _)
    (by simpa [oneHeap] using he) (by simpa [oneHeap] using hT) hnd
    (by simpa [oneHeap] using hL)

theorem run_decreaseKey {m : Mem α} {h : Ptr} {c b : Nat} (fuel n : Nat) (v : α)
    {m' : Mem α} {h' : Ptr} {e : Option Err} {k : Nat} (hr : Run m (oneHeap h) c b)
    (hn : Member m h n) (he : DecreaseKey fuel m h (some n) v = some (m', h', e))
    (hT : DecreaseKeyT fuel m h (some n) v = some k) :
    Run m' (oneHeap h') (c + k) (b + 11) :=
  oneHeap_update h h' ▸ Run.decreaseKey fuel 0 n v hr (by simpa [oneHeap] using hn)
    (by simpa [oneHeap] using he) (by simpa [oneHeap] using hT)

end Claims8

/-- The run `Insert(1)`, ..., `Insert(5)`, `DeleteMin()`, `DecreaseKey(x, 2)`,
`DecreaseKey(y, 2)` of `afterCut2` with its costs and bounds. -/
theorem run_afterCut2 : Run (stateOf afterCut2).1 (oneHeap (some 1))
    (0 + 1 + 1 + 1 + 1 + 1 + 13 + 3 + 3)
    (0 + 4 + 4 + 4 + 4 + 4 + (12 * Nat.log 2 exGhost5.nodes.length + 7) + 11 + 11) :=
  run_decreaseKey 5 3 2 (e := none)
    (run_decreaseKey 5 4 2 (e := none)
      (run_deleteMin 5 exGhost5.nodes (r := some 1)
        (run_insert 5 (x := some 4)
          (run_insert 4 (x := some 3)
            (run_insert 3 (x := some 2)
              (run_insert 2 (x := some 1)
                (run_insert 1 (x := some 0) (run_init emptyMem) rfl) rfl) rfl) rfl) rfl)
        rfl rfl (by decide) (fun y => (exShape5.member_iff y).symm))
      (Member.child (Member.next (Member.child (Member.head 1) (c := 2) rfl) (y := 3) rfl) rfl)
      rfl rfl)
    (Member.next (Member.child (Member.head 1) (c := 2) rfl) rfl) rfl rfl

theorem C17_amortized_witness :
    Run (stateOf afterCut2).1 (oneHeap (some 1)) (0 + 1 + 1 + 1 + 1 + 1 + 13 + 3 + 3)
        (0 + 4 + 4 + 4 + 4 + 4 + (12 * Nat.log 2 exGhost5.nodes.length + 7) + 11 + 11) ∧
      0 + 1 + 1 + 1 + 1 + 1 + 13 + 3 + 3 ≤
        0 + 4 + 4 + 4 + 4 + 4 + (12 * Nat.log 2 exGhost5.nodes.length + 7) + 11 + 11 :=
  ⟨run_afterCut2, C17_amortized run_afterCut2⟩


end Fib
